import Mathlib

/-!
# Threaded AVL tree of `dtromb/collections` (avl.go)

A shallow embedding of the pointer program.  A pointer is an `Option Nat`
(`none` is nil, `some a` addresses the node kept at index `a` of the node
store), every field read and write of the Go text is a read or write of the
store, and a loop is a recursive function with a fuel argument.  A function
returns `Except.error` when the Go code would dereference nil
(`Fault.nilDeref`) or when the fuel is used up (`Fault.timeout`).
-/

namespace AvlTree

/-- The ordering interface of avl.go: `CompareTo a b` is negative when `a` is
ordered before `b`, positive when after and zero when they compare equal. -/
class Comparable (α : Type) where
  CompareTo : α → α → Int

export Comparable (CompareTo)

/-- The integers under test in avl_test.go (`ComparableInt`). -/
instance instComparableInt : Comparable Int where
  CompareTo ci co := if ci < co then -1 else if ci > co then 1 else 0

/-- The caller's obligation on `CompareTo`: the sign of the result is a strict
total order, with "compares equal" as its equivalence. -/
class StrictTotal (α : Type) [Comparable α] : Prop where
  swap : ∀ a b : α, CompareTo a b < 0 ↔ 0 < CompareTo b a
  le_trans : ∀ a b c : α, CompareTo a b ≤ 0 → CompareTo b c ≤ 0 → CompareTo a c ≤ 0

/-- The ways in which a run yields no result. -/
inductive Fault where
  | nilDeref
  | timeout
  deriving DecidableEq, Repr

/-- Node record `avlNode`. -/
structure avlNode (α : Type) where
  data : α
  balance : Int
  l : Option Nat
  r : Option Nat
  p : Option Nat
  nxt : Option Nat
  prv : Option Nat

/-- Record `Tree` together with the store `mem` of all nodes ever allocated.
`size` is a `uint` in Go; it counts nodes that occupy distinct memory, so it
stays far below the word range and is kept as a natural number. -/
structure Tree (α : Type) where
  size : Nat
  root : Option Nat
  head : Option Nat
  tail : Option Nat
  mem : List (avlNode α)

/-- Lookup direction `GTE` (smallest value >= argument). -/
def GTE : Int := 0

/-- Lookup direction `LTE` (largest value <= argument). -/
def LTE : Int := 1

/-- Wrap-around of `int8` arithmetic (the type of `balance`). -/
def int8 (x : Int) : Int := (x + 128) % 256 - 128

variable {α : Type}

/-- The empty tree `&Tree{}`. -/
def Tree.empty : Tree α := ⟨0, none, none, none, []⟩

/-- The node a pointer refers to; a nil pointer faults. -/
def deref (q : Option Nat) : Except Fault Nat :=
  match q with
  | some a => .ok a
  | none => .error .nilDeref

/-- The node stored at address `a`. -/
def Tree.node (t : Tree α) (a : Nat) : Except Fault (avlNode α) :=
  match t.mem[a]? with
  | some n => .ok n
  | none => .error .nilDeref

/-- In-place change of the node at address `a`. -/
def Tree.upd (t : Tree α) (a : Nat) (f : avlNode α → avlNode α) : Tree α :=
  { t with mem := t.mem.modify f a }

/-- Assignment `a.data = v`. -/
def Tree.setData (t : Tree α) (a : Nat) (v : α) : Tree α := t.upd a (fun n => { n with data := v })

/-- Assignment `a.balance = v`. -/
def Tree.setBalance (t : Tree α) (a : Nat) (v : Int) : Tree α :=
  t.upd a (fun n => { n with balance := v })

/-- Assignment `a.l = v`. -/
def Tree.setL (t : Tree α) (a : Nat) (v : Option Nat) : Tree α := t.upd a (fun n => { n with l := v })

/-- Assignment `a.r = v`. -/
def Tree.setR (t : Tree α) (a : Nat) (v : Option Nat) : Tree α := t.upd a (fun n => { n with r := v })

/-- Assignment `a.p = v`. -/
def Tree.setP (t : Tree α) (a : Nat) (v : Option Nat) : Tree α := t.upd a (fun n => { n with p := v })

/-- Assignment `a.nxt = v`. -/
def Tree.setNxt (t : Tree α) (a : Nat) (v : Option Nat) : Tree α :=
  t.upd a (fun n => { n with nxt := v })

/-- Assignment `a.prv = v`. -/
def Tree.setPrv (t : Tree α) (a : Nat) (v : Option Nat) : Tree α :=
  t.upd a (fun n => { n with prv := v })

/-- Guarded parent fix-up `if q != nil { q.p = a }`. -/
def Tree.setPOpt (t : Tree α) (q : Option Nat) (a : Nat) : Tree α :=
  match q with
  | some c => t.setP c (some a)
  | none => t

/-- Allocation `&avlNode{data: data, p: p}`: the new node gets the next free
address, which is returned with the new store. -/
def Tree.alloc (t : Tree α) (data : α) (p : Option Nat) : Tree α × Nat :=
  ({ t with mem := t.mem ++ [⟨data, 0, none, none, p, none, none⟩] }, t.mem.length)

/-- The block that every rotation and every splice of Delete repeats,
`if x.p != nil { if x.p.l == old { x.p.l = new } else { x.p.r = new } } else { t.root = new }`. -/
def relink (t : Tree α) (x old new : Nat) : Except Fault (Tree α) := do
  match (← t.node x).p with
  | some pa =>
    if (← t.node pa).l = some old then pure (t.setL pa (some new))
    else pure (t.setR pa (some new))
  | none => pure { t with root := some new }

/-- Loop of `Tree.lookupNode`, started at node `cn`. -/
def lookupLoop [Comparable α] (t : Tree α) (lt : Int) (data : α) :
    Nat → Nat → Except Fault (Option Nat × Bool)
  | 0, _ => .error .timeout
  | fuel + 1, cn => do
    let r := CompareTo data (← t.node cn).data
    if r = 0 then pure (some cn, true)
    else if r < 0 then
      match (← t.node cn).l with
      | none =>
        if lt = GTE then pure (some cn, false)
        else pure ((← t.node cn).prv, false)
      | some c => lookupLoop t lt data fuel c
    else
      match (← t.node cn).r with
      | none =>
        if lt = LTE then pure (some cn, false)
        else pure ((← t.node cn).nxt, false)
      | some c => lookupLoop t lt data fuel c

/-- Function `Tree.lookupNode`. -/
def lookupNode [Comparable α] (fuel : Nat) (t : Tree α) (lt : Int) (data : α) :
    Except Fault (Option Nat × Bool) :=
  match t.root with
  | none => pure (none, false)
  | some cn => lookupLoop t lt data fuel cn

/-- Function `Tree.Lookup`. -/
def Lookup [Comparable α] (fuel : Nat) (t : Tree α) (lt : Int) (data : α) :
    Except Fault (Option α × Bool) := do
  let (n, exact) ← lookupNode fuel t lt data
  match n with
  | none => pure (none, exact)
  | some a => pure (some (← t.node a).data, exact)

/-- Function `Tree.Size`. -/
def Size (t : Tree α) : Nat := t.size

/-- Function `Tree.rebalanceAtNode`: the new store, the returned `newParent`
and `heightChange`. -/
def rebalanceAtNode (t : Tree α) (cn : Nat) : Except Fault (Tree α × Option Nat × Bool) := do
  let b := (← t.node cn).balance
  if b = -2 then
    let ln ← deref (← t.node cn).l
    let lb := (← t.node ln).balance
    if lb = -1 then
      let t := t.setP ln (← t.node cn).p
      let t ← relink t cn cn ln
      let t := t.setBalance ln 0
      let lrn := (← t.node ln).r
      let t := t.setP cn (some ln)
      let t := t.setR ln (some cn)
      let t := t.setL cn lrn
      let t := t.setPOpt lrn cn
      let t := t.setBalance cn 0
      pure (t, some ln, true)
    else if lb = 0 then
      let t := t.setP ln (← t.node cn).p
      let t ← relink t cn cn ln
      let t := t.setBalance ln 1
      let t := t.setL cn (← t.node ln).r
      let t := t.setPOpt (← t.node cn).l cn
      let t := t.setBalance cn (-1)
      let t := t.setR ln (some cn)
      let t := t.setP cn (some ln)
      pure (t, some ln, false)
    else if lb = 1 then
      let lrn ← deref (← t.node ln).r
      let t := t.setP lrn (← t.node cn).p
      let t ← relink t cn cn lrn
      let t := t.setR ln (← t.node lrn).l
      let t := t.setPOpt (← t.node ln).r ln
      let t := if (← t.node lrn).balance = 1 then t.setBalance ln (-1) else t.setBalance ln 0
      let t := t.setL cn (← t.node lrn).r
      let t := t.setPOpt (← t.node cn).l cn
      let t := if (← t.node lrn).balance = -1 then t.setBalance cn 1 else t.setBalance cn 0
      let t := t.setL lrn (some ln)
      let t := t.setP ln (some lrn)
      let t := t.setR lrn (some cn)
      let t := t.setP cn (some lrn)
      let t := t.setBalance lrn 0
      pure (t, some lrn, true)
    else pure (t, none, false)
  else if b = 2 then
    let rn ← deref (← t.node cn).r
    let rb := (← t.node rn).balance
    if rb = -1 then
      let rln ← deref (← t.node rn).l
      let t := t.setP rln (← t.node cn).p
      let t ← relink t cn cn rln
      let t := t.setR cn (← t.node rln).l
      let t := t.setPOpt (← t.node cn).r cn
      let t := if (← t.node rln).balance = 1 then t.setBalance cn (-1) else t.setBalance cn 0
      let t := t.setL rn (← t.node rln).r
      let t := t.setPOpt (← t.node rn).l rn
      let t := if (← t.node rln).balance = -1 then t.setBalance rn 1 else t.setBalance rn 0
      let t := t.setP cn (some rln)
      let t := t.setL rln (some cn)
      let t := t.setP rn (some rln)
      let t := t.setR rln (some rn)
      let t := t.setBalance rln 0
      pure (t, some rln, true)
    else if rb = 0 then
      let t := t.setP rn (← t.node cn).p
      let t ← relink t cn cn rn
      let t := t.setBalance rn (-1)
      let t := t.setR cn (← t.node rn).l
      let t := t.setPOpt (← t.node cn).r cn
      let t := t.setP cn (some rn)
      let t := t.setL rn (some cn)
      let t := t.setBalance cn 1
      pure (t, some rn, false)
    else if rb = 1 then
      let t := t.setP rn (← t.node cn).p
      let t ← relink t cn cn rn
      let t := t.setBalance rn 0
      let t := t.setR cn (← t.node rn).l
      let t := t.setPOpt (← t.node cn).r cn
      let t := t.setBalance cn 0
      let t := t.setP cn (some rn)
      let t := t.setL rn (some cn)
      pure (t, some rn, true)
    else pure (t, none, false)
  else pure (t, none, false)

/-- First loop of `Tree.Insert`: the descent to the node that equals `data` or
under which it is to be hung; returns that node and the last comparison. -/
def insertDescend [Comparable α] (t : Tree α) (data : α) : Nat → Nat → Except Fault (Nat × Int)
  | 0, _ => .error .timeout
  | fuel + 1, cn => do
    let r := CompareTo data (← t.node cn).data
    if r = 0 then pure (cn, r)
    else if r < 0 then
      match (← t.node cn).l with
      | none => pure (cn, r)
      | some c => insertDescend t data fuel c
    else
      match (← t.node cn).r with
      | none => pure (cn, r)
      | some c => insertDescend t data fuel c

/-- Second loop of `Tree.Insert`: the upward walk that corrects balance
factors. -/
def insertRebalance (t : Tree α) : Nat → Nat → Except Fault (Tree α)
  | 0, _ => .error .timeout
  | fuel + 1, cn => do
    let b := (← t.node cn).balance
    if b = 0 then pure t
    else if b = -1 ∨ b = 1 then
      match (← t.node cn).p with
      | some pa =>
        if (← t.node pa).l = some cn then
          let t := t.setBalance pa (int8 ((← t.node pa).balance - 1))
          insertRebalance t fuel pa
        else
          let t := t.setBalance pa (int8 ((← t.node pa).balance + 1))
          insertRebalance t fuel pa
      | none => pure t
    else if b = -2 ∨ b = 2 then
      let (t, np, changed) ← rebalanceAtNode t cn
      if changed then pure t
      else insertRebalance t fuel (← deref np)
    else insertRebalance t fuel cn

/-- The splice of `Tree.Insert`: the new node `nn` is hung under `cn` on the
side given by the comparison `r` and is linked into the thread next to `cn`. -/
def insertAttach (t : Tree α) (cn nn : Nat) (r : Int) : Except Fault (Tree α) := do
  if r < 0 then
    let t := t.setPrv nn (← t.node cn).prv
    let t := t.setNxt nn (some cn)
    let t :=
      match (← t.node cn).prv with
      | some q => t.setNxt q (some nn)
      | none => { t with head := some nn }
    let t := t.setPrv cn (some nn)
    let t := t.setL cn (some nn)
    let t := t.setBalance cn (int8 ((← t.node cn).balance - 1))
    pure t
  else
    let t := t.setNxt nn (← t.node cn).nxt
    let t := t.setPrv nn (some cn)
    let t :=
      match (← t.node cn).nxt with
      | some q => t.setPrv q (some nn)
      | none => { t with tail := some nn }
    let t := t.setNxt cn (some nn)
    let t := t.setR cn (some nn)
    let t := t.setBalance cn (int8 ((← t.node cn).balance + 1))
    pure t

/-- Function `Tree.Insert`: the new state and the returned old value. -/
def Insert [Comparable α] (fuel : Nat) (t : Tree α) (data : α) :
    Except Fault (Tree α × Option α) :=
  match t.root with
  | none =>
    let (t, nn) := t.alloc data none
    let t := { t with root := some nn }
    let t := { t with size := t.size + 1 }
    let t := { t with head := t.root }
    let t := { t with tail := t.root }
    pure (t, none)
  | some root => do
    let (cn, r) ← insertDescend t data fuel root
    if r = 0 then
      let oldData := (← t.node cn).data
      let t := t.setData cn data
      pure (t, some oldData)
    else
      let (t, nn) := t.alloc data (some cn)
      let t ← insertAttach t cn nn r
      let t := { t with size := t.size + 1 }
      let t ← insertRebalance t fuel cn
      pure (t, none)

/-- First loop of `Tree.Delete`: the descent to the node that equals `data`;
the inner `none` is the early `return nil, false`. -/
def deleteDescend [Comparable α] (t : Tree α) (data : α) : Nat → Nat → Except Fault (Option Nat)
  | 0, _ => .error .timeout
  | fuel + 1, cn => do
    let r := CompareTo (← t.node cn).data data
    if r = 0 then pure (some cn)
    else if r > 0 then
      match (← t.node cn).l with
      | none => pure none
      | some c => deleteDescend t data fuel c
    else
      match (← t.node cn).r with
      | none => pure none
      | some c => deleteDescend t data fuel c

/-- Last loop of `Tree.Delete`: the upward walk that corrects balance factors
from `bn`. -/
def deleteRebalance (t : Tree α) : Nat → Nat → Except Fault (Tree α)
  | 0, _ => .error .timeout
  | fuel + 1, bn => do
    let b := (← t.node bn).balance
    if b = 0 then
      match (← t.node bn).p with
      | none => pure t
      | some pa =>
        if (← t.node pa).l = some bn then
          let t := t.setBalance pa (int8 ((← t.node pa).balance + 1))
          deleteRebalance t fuel pa
        else
          let t := t.setBalance pa (int8 ((← t.node pa).balance - 1))
          deleteRebalance t fuel pa
    else if b = -1 ∨ b = 1 then pure t
    else if b = 2 ∨ b = -2 then
      let (t, np, changed) ← rebalanceAtNode t bn
      if !changed then pure t
      else deleteRebalance t fuel (← deref np)
    else deleteRebalance t fuel bn

/-- The middle of `Tree.Delete`: node `cn` is taken out of the tree structure
and the start `bn` of the balance walk is chosen; the inner `none` is the early
return of the case in which `cn` was the only node (there `t.size--` is part of
the branch). -/
def deleteUnlink (t : Tree α) (cn : Nat) : Except Fault (Tree α × Option Nat) := do
  if (← t.node cn).l ≠ none then
    let dn ← deref (← t.node cn).prv
    if (← t.node dn).p = some cn then
      let t := t.setP dn (← t.node cn).p
      let t ← relink t dn cn dn
      let t := t.setR dn (← t.node cn).r
      let t := t.setPOpt (← t.node dn).r dn
      let bn := dn
      let t := t.setBalance bn (int8 ((← t.node cn).balance + 1))
      pure (t, some bn)
    else
      let bn ← deref (← t.node dn).p
      let t := t.setP dn (← t.node cn).p
      let t := t.setBalance dn (← t.node cn).balance
      let t ← relink t dn cn dn
      let t := t.setR dn (← t.node cn).r
      let t := t.setPOpt (← t.node dn).r dn
      let t := t.setR bn (← t.node dn).l
      let t := t.setPOpt (← t.node bn).r bn
      let t := t.setL dn (← t.node cn).l
      let t := t.setP (← deref (← t.node dn).l) (some dn)
      let t := t.setBalance bn (int8 ((← t.node bn).balance - 1))
      pure (t, some bn)
  else if (← t.node cn).r ≠ none then
    let dn ← deref (← t.node cn).nxt
    if (← t.node dn).p = some cn then
      let t := t.setP dn (← t.node cn).p
      let t ← relink t dn cn dn
      let t := t.setL dn (← t.node cn).l
      let t := t.setPOpt (← t.node dn).l dn
      let bn := dn
      let t := t.setBalance bn (int8 ((← t.node cn).balance - 1))
      pure (t, some bn)
    else
      let bn ← deref (← t.node dn).p
      let t := t.setP dn (← t.node cn).p
      let t := t.setBalance dn (← t.node cn).balance
      let t ← relink t dn cn dn
      let t := t.setL dn (← t.node cn).l
      let t := t.setPOpt (← t.node dn).l dn
      let t := t.setL bn (← t.node dn).r
      let t := t.setPOpt (← t.node bn).l bn
      let t := t.setR dn (← t.node cn).r
      let t := t.setP (← deref (← t.node dn).r) (some dn)
      let t := t.setBalance bn (int8 ((← t.node bn).balance + 1))
      pure (t, some bn)
  else
    match (← t.node cn).p with
    | none =>
      let t := { t with root := none }
      let t := { t with size := t.size - 1 }
      pure (t, none)
    | some bn =>
      if (← t.node bn).l = some cn then
        let t := t.setL bn none
        let t := t.setBalance bn (int8 ((← t.node bn).balance + 1))
        pure (t, some bn)
      else
        let t := t.setR bn none
        let t := t.setBalance bn (int8 ((← t.node bn).balance - 1))
        pure (t, some bn)

/-- The thread splice of `Tree.Delete`: `cn` leaves the list of `prv`/`nxt`
links. -/
def deleteUnthread (t : Tree α) (cn : Nat) : Except Fault (Tree α) := do
  let nx := (← t.node cn).nxt
  let t :=
    match (← t.node cn).prv with
    | some q => t.setNxt q nx
    | none => { t with head := nx }
  let pv := (← t.node cn).prv
  let t :=
    match (← t.node cn).nxt with
    | some q => t.setPrv q pv
    | none => { t with tail := pv }
  let t := t.setNxt cn none
  let t := t.setPrv cn none
  pure t

/-- Function `Tree.Delete`: the new state, the returned value and the returned
flag. -/
def Delete [Comparable α] (fuel : Nat) (t : Tree α) (data : α) :
    Except Fault (Tree α × Option α × Bool) :=
  match t.root with
  | none => pure (t, none, false)
  | some root => do
    match ← deleteDescend t data fuel root with
    | none => pure (t, none, false)
    | some cn =>
      let returnVal := (← t.node cn).data
      match ← deleteUnlink t cn with
      | (t, none) => pure (t, some returnVal, true)
      | (t, some bn) =>
        let t ← deleteUnthread t cn
        let t := { t with size := t.size - 1 }
        let t ← deleteRebalance t fuel bn
        pure (t, some returnVal, true)

/-! ## Abstract trees

The shape that a store represents: a binary tree whose nodes carry the
address, the element and the stored balance factor of an `avlNode`. -/

/-- A binary tree of (address, element, stored balance factor). -/
inductive ATree (α : Type) where
  | nil
  | node (l : ATree α) (a : Nat) (d : α) (b : Int) (r : ATree α)

/-- Addresses of the nodes in in-order. -/
def ATree.addrs : ATree α → List Nat
  | .nil => []
  | .node l a _ _ r => l.addrs ++ a :: r.addrs

/-- Elements of the nodes in in-order. -/
def ATree.elems : ATree α → List α
  | .nil => []
  | .node l _ d _ r => l.elems ++ d :: r.elems

/-- Height: the number of nodes on the longest path down from the root. -/
def ATree.height : ATree α → Nat
  | .nil => 0
  | .node l _ _ _ r => max l.height r.height + 1

/-- The pointer to the root node (nil for the empty tree). -/
def ATree.rootPtr : ATree α → Option Nat
  | .nil => none
  | .node _ a _ _ _ => some a

/-- The stored balance factor of the root (0 for the empty tree). -/
def ATree.rootBal : ATree α → Int
  | .nil => 0
  | .node _ _ _ b _ => b

/-- Every stored balance factor is the height of the right subtree minus the
height of the left subtree and lies in {-1, 0, 1} (invariant 2). -/
def ATree.Bal : ATree α → Prop
  | .nil => True
  | .node l _ _ b r => l.Bal ∧ r.Bal ∧ b = (r.height : Int) - (l.height : Int) ∧ -1 ≤ b ∧ b ≤ 1

/-- The node at address `a` has the given element, balance factor, children
and parent. -/
def NodeIs (t : Tree α) (a : Nat) (d : α) (b : Int) (l r p : Option Nat) : Prop :=
  ∃ n, t.node a = .ok n ∧ n.data = d ∧ n.balance = b ∧ n.l = l ∧ n.r = r ∧ n.p = p

/-- The store holds the tree `s` below a parent pointer `par`: each node of `s`
is stored at its address with its element and balance factor, its `l` and `r`
point to the roots of its subtrees and its `p` to its parent. -/
def Rep (t : Tree α) : Option Nat → ATree α → Prop
  | _, .nil => True
  | par, .node l a d b r =>
    NodeIs t a d b l.rootPtr r.rootPtr par ∧ Rep t (some a) l ∧ Rep t (some a) r

/-- One step of a path from a node up to the root: the node is the left child
(`L`) or the right child (`R`) of a parent with the given content and other
subtree. -/
inductive Frame (α : Type) where
  | L (a : Nat) (d : α) (b : Int) (r : ATree α)
  | R (l : ATree α) (a : Nat) (d : α) (b : Int)

/-- The tree obtained by putting `s` into the hole of a path (innermost frame
first). -/
def plug : List (Frame α) → ATree α → ATree α
  | [], s => s
  | .L a d b r :: c, s => plug c (.node s a d b r)
  | .R l a d b :: c, s => plug c (.node l a d b s)

/-- Address of the node that owns the hole of a path; `par` when the path is
empty. -/
def ctxPar (par : Option Nat) : List (Frame α) → Option Nat
  | [] => par
  | .L a _ _ _ :: _ => some a
  | .R _ a _ _ :: _ => some a

/-- Pointer to the root of the tree that a path forms around a hole with
pointer `q`. -/
def segTop : List (Frame α) → Option Nat → Option Nat
  | [], q => q
  | .L a _ _ _ :: c, _ => segTop c (some a)
  | .R _ a _ _ :: c, _ => segTop c (some a)

/-- Addresses that come before the hole in in-order. -/
def ctxBefore : List (Frame α) → List Nat
  | [] => []
  | .L _ _ _ _ :: c => ctxBefore c
  | .R l a _ _ :: c => ctxBefore c ++ l.addrs ++ [a]

/-- Addresses that come after the hole in in-order. -/
def ctxAfter : List (Frame α) → List Nat
  | [] => []
  | .L a _ _ r :: c => a :: r.addrs ++ ctxAfter c
  | .R _ _ _ _ :: c => ctxAfter c

/-- Elements that come before the hole in in-order. -/
def ctxElemsBefore : List (Frame α) → List α
  | [] => []
  | .L _ _ _ _ :: c => ctxElemsBefore c
  | .R l _ d _ :: c => ctxElemsBefore c ++ l.elems ++ [d]

/-- Elements that come after the hole in in-order. -/
def ctxElemsAfter : List (Frame α) → List α
  | [] => []
  | .L _ d _ r :: c => d :: r.elems ++ ctxElemsAfter c
  | .R _ _ _ _ :: c => ctxElemsAfter c

/-- The store holds the path `c` below a parent pointer `par`, around a hole:
the child field of the innermost frame that leads to the hole contains `q`. -/
def RepSeg (t : Tree α) (par : Option Nat) : List (Frame α) → Option Nat → Prop
  | [], _ => True
  | .L a d b r :: c, q =>
    NodeIs t a d b q r.rootPtr (ctxPar par c) ∧ Rep t (some a) r ∧ RepSeg t par c (some a)
  | .R l a d b :: c, q =>
    NodeIs t a d b l.rootPtr q (ctxPar par c) ∧ Rep t (some a) l ∧ RepSeg t par c (some a)

/-- First member of a list of addresses, or `nx` when the list is empty. -/
def headOr : List Nat → Option Nat → Option Nat
  | [], nx => nx
  | a :: _, _ => some a

/-- Last member of a list of addresses, or `pv` when the list is empty. -/
def lastOr : Option Nat → List Nat → Option Nat
  | pv, [] => pv
  | _, a :: rest => lastOr (some a) rest

/-- The nodes at the listed addresses are chained by `prv`/`nxt` in the listed
order, with `pv` before the first and `nx` after the last. -/
def Thr (t : Tree α) : Option Nat → List Nat → Option Nat → Prop
  | _, [], _ => True
  | pv, a :: rest, nx =>
    (∃ n, t.node a = .ok n ∧ n.prv = pv ∧ n.nxt = headOr rest nx) ∧ Thr t (some a) rest nx

/-- Strictly increasing under `CompareTo` (invariant 1 on the in-order
sequence). -/
def Sorted [Comparable α] (xs : List α) : Prop := xs.Pairwise (fun x y => CompareTo x y < 0)

/-- The invariants that every Insert and Delete keeps, stated against the tree
`s` that the store holds: representation with parent links (4), order (1),
balance (2), threads (3), size (5), and `head`/`tail` at the two ends whenever
there is a node. -/
structure Inv [Comparable α] (t : Tree α) (s : ATree α) : Prop where
  root : t.root = s.rootPtr
  rep : Rep t none s
  sorted : Sorted s.elems
  bal : s.Bal
  thr : Thr t none s.addrs none
  size : t.size = s.addrs.length
  ends : s.addrs ≠ [] → t.head = s.addrs.head? ∧ t.tail = s.addrs.getLast?

/-- Well-formedness (spec §3, invariants 1-5) of the state `t`, holding the
tree `s`: the invariants above with `head` and `tail` at the minimum and the
maximum, absent when there is no element. -/
structure WF [Comparable α] (t : Tree α) (s : ATree α) : Prop where
  inv : Inv t s
  head : t.head = s.addrs.head?
  tail : t.tail = s.addrs.getLast?

/-- The structural view of a node: element, balance factor, children and
parent. -/
def Tree.sv (t : Tree α) (a : Nat) : Option (α × Int × Option Nat × Option Nat × Option Nat) :=
  match t.node a with
  | .ok n => some (n.data, n.balance, n.l, n.r, n.p)
  | .error _ => none

/-- The thread view of a node: the links `prv` and `nxt`. -/
def Tree.tv (t : Tree α) (a : Nat) : Option (Option Nat × Option Nat) :=
  match t.node a with
  | .ok n => some (n.prv, n.nxt)
  | .error _ => none

/-- The element stored at an address. -/
def Tree.dv (t : Tree α) (a : Nat) : Option α :=
  match t.node a with
  | .ok n => some n.data
  | .error _ => none

/-- All addresses of a path: those of its frames and of their other subtrees. -/
def ctxAddrs (c : List (Frame α)) : List Nat := ctxBefore c ++ ctxAfter c

/-- The effect of `rebalanceAtNode` on the tree below the node it is called
on, case by case as in the source: the rotated tree and `heightChange`.
`none` stands for the runs in which the source dereferences nil or returns
`nil, false`. -/
def rotA : ATree α → Option (ATree α × Bool)
  | .nil => none
  | .node l a d b r =>
    if b = -2 then
      match l with
      | .nil => none
      | .node ll la ld lb lr =>
        if lb = -1 then some (.node ll la ld 0 (.node lr a d 0 r), true)
        else if lb = 0 then some (.node ll la ld 1 (.node lr a d (-1) r), false)
        else if lb = 1 then
          match lr with
          | .nil => none
          | .node lrl lra lrd lrb lrr =>
            some (.node (.node ll la ld (if lrb = 1 then -1 else 0) lrl) lra lrd 0
              (.node lrr a d (if lrb = -1 then 1 else 0) r), true)
        else none
    else if b = 2 then
      match r with
      | .nil => none
      | .node rl ra rd rb rr =>
        if rb = -1 then
          match rl with
          | .nil => none
          | .node rll rla rld rlb rlr =>
            some (.node (.node l a d (if rlb = 1 then -1 else 0) rll) rla rld 0
              (.node rlr ra rd (if rlb = -1 then 1 else 0) rr), true)
        else if rb = 0 then some (.node (.node l a d 1 rl) ra rd (-1) rr, false)
        else if rb = 1 then some (.node (.node l a d 0 rl) ra rd 0 rr, true)
        else none
    else none

/-- A path is balanced around a hole of height `h`: every frame stores the
height difference that results when a tree of height `h` fills the hole, and
the other subtrees are balanced. -/
def CtxBal : List (Frame α) → Nat → Prop
  | [], _ => True
  | .L _ _ b r :: c, h =>
    r.Bal ∧ b = (r.height : Int) - (h : Int) ∧ -1 ≤ b ∧ b ≤ 1 ∧ CtxBal c (max h r.height + 1)
  | .R l _ _ b :: c, h =>
    l.Bal ∧ b = (h : Int) - (l.height : Int) ∧ -1 ≤ b ∧ b ≤ 1 ∧ CtxBal c (max l.height h + 1)

/-- The part of the state that rotations and balance updates leave alone:
`head`, `tail`, `size`, the extent of the store, every thread link and every
element. -/
structure SameThr (t t' : Tree α) : Prop where
  head : t'.head = t.head
  tail : t'.tail = t.tail
  size : t'.size = t.size
  len : t'.mem.length = t.mem.length
  tv : ∀ a, t'.tv a = t.tv a
  dv : ∀ a, t'.dv a = t.dv a

/-- The pointer `q` is nil or leads to an address outside `xs`. -/
def optNotMem (q : Option Nat) (xs : List Nat) : Prop := ∀ x, q = some x → x ∉ xs

/-- The state of a node in the middle of a balance walk: its subtrees are
balanced and its stored factor is its true height difference, between -2
and 2. -/
def ATree.Bal2 : ATree α → Prop
  | .nil => True
  | .node l _ _ b r => l.Bal ∧ r.Bal ∧ b = (r.height : Int) - (l.height : Int) ∧ -2 ≤ b ∧ b ≤ 2

/-- Address of the node of a frame. -/
def Frame.addr : Frame α → Nat
  | .L a _ _ _ => a
  | .R _ a _ _ => a

/-- Element of the node of a frame. -/
def Frame.data : Frame α → α
  | .L _ d _ _ => d
  | .R _ _ d _ => d

/-- Whether the hole of a frame is the left child. -/
def Frame.isL : Frame α → Prop
  | .L _ _ _ _ => True
  | .R _ _ _ _ => False

/-- The search path that the descents of Insert, Delete and Lookup follow for
`x`: it ends at a node that compares equal to `x`, or at the empty place below
the last node visited. -/
def findA [Comparable α] (x : α) : List (Frame α) → ATree α → List (Frame α) × ATree α
  | c, .nil => (c, .nil)
  | c, .node l a d b r =>
    if CompareTo x d = 0 then (c, .node l a d b r)
    else if CompareTo x d < 0 then findA x (.L a d b r :: c) l
    else findA x (.R l a d b :: c) r

/-- The state `t1` after the middle of Delete, seen from the node `bn` at which
the balance walk starts: `bn` roots a subtree whose factor already tells the
loss of height, inside a path that is still balanced for the old height; the
tree holds the addresses `pre ++ post` and the elements `epre ++ epost`, and
no thread link, element, `head`, `tail` or `size` has been written. -/
def Unlinked (t t1 : Tree α) (bn : Nat) (pre post : List Nat) (epre epost : List α) : Prop :=
  ∃ (c : List (Frame α)) (s : ATree α) (h0 : Nat),
    s.rootPtr = some bn ∧ s.Bal2 ∧ CtxBal c h0 ∧
    (s.rootBal = 0 → s.height + 1 = h0) ∧ (s.rootBal ≠ 0 → s.height = h0) ∧
    RepSeg t1 none c (some bn) ∧ t1.root = segTop c (some bn) ∧ Rep t1 (ctxPar none c) s ∧
    (plug c s).addrs = pre ++ post ∧ (plug c s).elems = epre ++ epost ∧ SameThr t t1

/-- A call of one of the two mutating operations. -/
inductive Op (α : Type) where
  | insert (x : α)
  | delete (x : α)

/-- A sequence of `Insert` and `Delete` calls, in order, on the state that the
previous call left; the returned values are dropped. -/
def runOps [Comparable α] (fuel : Nat) : Tree α → List (Op α) → Except Fault (Tree α)
  | t, [] => .ok t
  | t, .insert x :: ops => do
    let (t', _) ← Insert fuel t x
    runOps fuel t' ops
  | t, .delete x :: ops => do
    let (t', _) ← Delete fuel t x
    runOps fuel t' ops

/-- The state after the calls `ops` on `NewTree()`, for use in examples (the
empty tree when the run yields no result). -/
def stateAfter [Comparable α] (fuel : Nat) (ops : List (Op α)) : Tree α :=
  match runOps fuel Tree.empty ops with
  | .ok t => t
  | .error _ => Tree.empty

/-- The tree of the scenarios in spec §8: the keys 5, 3, 8, 1, 4, 7, 9 inserted
in that order. -/
def tree7 : Tree Int :=
  stateAfter 16 [.insert 5, .insert 3, .insert 8, .insert 1, .insert 4, .insert 7, .insert 9]

/-- The shape of `tree7`: node addresses are allocation order. -/
def atree7 : ATree Int :=
  .node (.node (.node .nil 3 1 0 .nil) 1 3 0 (.node .nil 4 4 0 .nil)) 0 5 0
    (.node (.node .nil 5 7 0 .nil) 2 8 0 (.node .nil 6 9 0 .nil))

/-- The tree that holds the single key 5. -/
def tree1 : Tree Int := stateAfter 16 [.insert 5]

/-- Parent-child consistency (invariant 4) on the nodes at the addresses `xs`,
read off the store: a node with a parent is the left or the right child of that
parent and not both, a node without a parent is the root, and the children of
a node point back to it. -/
def ParentChild (t : Tree α) (xs : List Nat) : Prop :=
  ∀ a ∈ xs, ∃ n, t.node a = .ok n ∧
    (∀ p, n.p = some p → p ∈ xs ∧ ∃ m, t.node p = .ok m ∧
      ((m.l = some a ∧ m.r ≠ some a) ∨ (m.r = some a ∧ m.l ≠ some a))) ∧
    (n.p = none → t.root = some a) ∧
    (∀ c, n.l = some c → c ∈ xs ∧ ∃ k, t.node c = .ok k ∧ k.p = some a) ∧
    (∀ c, n.r = some c → c ∈ xs ∧ ∃ k, t.node c = .ok k ∧ k.p = some a)

/-- Thread consistency on the nodes at the addresses `xs`, read off the store:
wherever a link is present, the neighbour links back. -/
def ThreadLinks (t : Tree α) (xs : List Nat) : Prop :=
  ∀ a ∈ xs, ∃ n, t.node a = .ok n ∧
    (∀ q, n.prv = some q → ∃ m, t.node q = .ok m ∧ m.nxt = some a) ∧
    (∀ q, n.nxt = some q → ∃ m, t.node q = .ok m ∧ m.prv = some a)

/-! ## Cursor

`Cursor` in Go holds a pointer to its tree; here every cursor operation takes
the state of that tree as an argument, so a cursor sees the tree as it is at
the time of the call. -/

/-- Record `Cursor` without the `tree` pointer; `end_` is the field `end`. -/
structure Cursor where
  nextNode : Option Nat
  end_ : Bool
  deriving DecidableEq, Repr

/-- Function `Tree.GetCursor`: the cursor and the returned flag. -/
def GetCursor [Comparable α] (fuel : Nat) (t : Tree α) (lt : Int) (data : α) :
    Except Fault (Cursor × Bool) := do
  let (n, exact) ← lookupNode fuel t lt data
  let c : Cursor := { nextNode := n, end_ := false }
  let c : Cursor :=
    if c.nextNode = none then
      if lt = GTE then { c with end_ := true } else c
    else c
  pure (c, exact)

/-- Function `Cursor.HasNext`. -/
def HasNext (t : Tree α) (c : Cursor) : Bool :=
  c.nextNode ≠ none || (c.nextNode = none && c.end_ && decide (t.size > 0))

/-- Function `Cursor.HasPrev`; the read of `c.nextNode.prv` is behind the test
`c.nextNode != nil`. -/
def HasPrev (t : Tree α) (c : Cursor) : Except Fault Bool := do
  let b1 ←
    match c.nextNode with
    | some a => pure (decide ((← t.node a).prv ≠ none))
    | none => pure false
  pure (b1 || (c.nextNode = none && !c.end_ && decide (t.size > 0)))

/-- Function `Cursor.Next`: the returned value (`none` for nil) and the cursor
after the call. -/
def Next (t : Tree α) (c : Cursor) : Except Fault (Option α × Cursor) :=
  match c.nextNode with
  | none =>
    if c.end_ then pure (none, c)
    else
      let c := { c with nextNode := t.head }
      match c.nextNode with
      | none => pure (none, c)
      | some a => do
        let val := (← t.node a).data
        let c := { c with nextNode := (← t.node a).nxt }
        let c := if c.nextNode = none then { c with end_ := true } else c
        pure (some val, c)
  | some a => do
    let val := (← t.node a).data
    let c := { c with nextNode := (← t.node a).nxt }
    let c := if c.nextNode = none then { c with end_ := true } else c
    pure (some val, c)

/-- Function `Cursor.Prev`: the returned value (`none` for nil) and the cursor
after the call. -/
def Prev (t : Tree α) (c : Cursor) : Except Fault (Option α × Cursor) :=
  match c.nextNode with
  | none =>
    if c.end_ = true then do
      let c := { c with nextNode := t.tail }
      let val := (← t.node (← deref c.nextNode)).data
      let c := { c with nextNode := (← t.node (← deref c.nextNode)).prv }
      let c := { c with end_ := false }
      pure (some val, c)
    else pure (none, c)
  | some a => do
    let c := { c with nextNode := (← t.node a).prv }
    match c.nextNode with
    | none => pure (none, c)
    | some b => pure (some (← t.node b).data, c)

/-- Repeated calls: the values of `n` calls of `Next()` in order, and the cursor
after them. -/
def nextN (t : Tree α) : Nat → Cursor → Except Fault (List (Option α) × Cursor)
  | 0, c => pure ([], c)
  | n + 1, c => do
    let (v, c1) ← Next t c
    let (vs, c2) ← nextN t n c1
    pure (v :: vs, c2)

/-- The cursor states that calls of `GetCursor`, `Next` and `Prev` on the tree
`t` can produce. -/
inductive CursorReach [Comparable α] (t : Tree α) : Cursor → Prop where
  | getCursor (fuel : Nat) (lt : Int) (data : α) (c : Cursor) (exact : Bool) :
    GetCursor fuel t lt data = .ok (c, exact) → CursorReach t c
  | next (c c' : Cursor) (v : Option α) : CursorReach t c → Next t c = .ok (v, c') →
    CursorReach t c'
  | prev (c c' : Cursor) (v : Option α) : CursorReach t c → Prev t c = .ok (v, c') →
    CursorReach t c'

/-- The tree that was emptied again: `Insert(5)` then `Delete(5)` on
`NewTree()`. -/
def treeEmptied : Tree Int := stateAfter 16 [.insert 5, .delete 5]

/-- The part of `Tree.Delete` before its last loop: the state in which the
balance walk starts and the node `bn` at which it starts; `none` when Delete
returns before the walk (nothing found, or the only node removed). -/
def deleteStart [Comparable α] (fuel : Nat) (t : Tree α) (data : α) :
    Except Fault (Option (Tree α × Nat)) :=
  match t.root with
  | none => pure none
  | some root => do
    match ← deleteDescend t data fuel root with
    | none => pure none
    | some cn =>
      match ← deleteUnlink t cn with
      | (_, none) => pure none
      | (t, some bn) =>
        let t ← deleteUnthread t cn
        let t := { t with size := t.size - 1 }
        pure (some (t, bn))

/-- The state in which the balance walk of `Delete(x)` starts on `t`, for use
in examples (the empty tree when there is no walk). -/
def walkState [Comparable α] (fuel : Nat) (t : Tree α) (x : α) : Tree α :=
  match deleteStart fuel t x with
  | .ok (some (t1, _)) => t1
  | _ => Tree.empty

/-- The keys 4, 2, 6, 1, 3, 5, 7, 8 inserted in that order: the node of 6 has
the leaf 5 on the left and the node of 7, with right child 8, on the right. -/
def tree8 : Tree Int :=
  stateAfter 16 [.insert 4, .insert 2, .insert 6, .insert 1, .insert 3, .insert 5, .insert 7,
    .insert 8]

/-- The keys 4, 2, 6, 1, 3, 5, 8, 7, 9 inserted in that order: the node of 6
has the leaf 5 on the left and the node of 8, with children 7 and 9, on the
right. -/
def tree9 : Tree Int :=
  stateAfter 16 [.insert 4, .insert 2, .insert 6, .insert 1, .insert 3, .insert 5, .insert 8,
    .insert 7, .insert 9]

/-- The state of `tree8` in which the balance walk of `Delete(5)` starts: the
node of 6 (address 2) has lost its left child and stores the factor 2. -/
def walk8 : Tree Int := walkState 16 tree8 5

/-- The state of `tree9` in which the balance walk of `Delete(5)` starts. -/
def walk9 : Tree Int := walkState 16 tree9 5

/-- The path from the node of 6 in `walk8` up to the root: the node of 6 is the
right child of the root 4 (address 0, factor 1), whose left subtree holds 1, 2
and 3. -/
def ctx8 : List (Frame Int) :=
  [.R (.node (.node .nil 3 1 0 .nil) 1 2 0 (.node .nil 4 3 0 .nil)) 0 4 1]

/-- The right subtree of the node of 6 in `walk8`: the node of 7 with the right
child 8. -/
def right8 : ATree Int := .node .nil 6 7 1 (.node .nil 7 8 0 .nil)

/-- The shape of `tree8`: node addresses are allocation order. -/
def atree8 : ATree Int :=
  .node (.node (.node .nil 3 1 0 .nil) 1 2 0 (.node .nil 4 3 0 .nil)) 0 4 1
    (.node (.node .nil 5 5 0 .nil) 2 6 1 (.node .nil 6 7 1 (.node .nil 7 8 0 .nil)))

/-- Repeated calls: the values of `n` calls of `Prev()` in order, and the cursor
after them. -/
def prevN (t : Tree α) : Nat → Cursor → Except Fault (List (Option α) × Cursor)
  | 0, c => pure ([], c)
  | n + 1, c => do
    let (v, c1) ← Prev t c
    let (vs, c2) ← prevN t n c1
    pure (v :: vs, c2)

/-- The tree that holds the keys 1 and 2. -/
def tree2 : Tree Int := stateAfter 16 [.insert 1, .insert 2]

/-! ## Permutations (combinatorics/permutation.go)

A slice is a list, a nil slice is `none`.  The values are Go `int`s; every
value stays within the order of the permutation, so they are kept as
unbounded integers. -/

/-- The run-time panics of permutation.go: an index or a slice bound out of
range, and `make` with a negative length. -/
inductive Panic where
  | index
  | makeLen
  deriving DecidableEq, Repr

/-- Record `Permutation`: the order `n` (a slice length, kept as a natural
number), the Lehmer code `lcode` and the index list `perm`. -/
structure Permutation where
  n : Nat
  lcode : Option (List Int)
  perm : Option (List Int)
  deriving DecidableEq, Repr

/-- Expression `make([]int, n-1)`. -/
def makeCode (n : Nat) : Except Panic (List Int) :=
  if n = 0 then .error .makeLen else .ok (List.replicate (n - 1) 0)

/-- Built-in `copy(dst, src)`: the first `min(len(dst), len(src))` members of
`dst` are overwritten. -/
def copySlice (dst src : List Int) : List Int := src.take dst.length ++ dst.drop src.length

/-- Read `xs[i]`. -/
def idx (xs : List Int) (i : Nat) : Except Panic Int :=
  match xs[i]? with
  | some v => .ok v
  | none => .error .index

/-- Inner loop of `mklcode` over `j` up to `p.n-2`, which lowers `p.lcode[j]` by one
where `p.lcode[i] <= p.lcode[j]`; `k` is the number of rounds left. -/
def mklcodeInner (lcode : List Int) (i : Nat) : Nat → Nat → Except Panic (List Int)
  | _, 0 => pure lcode
  | j, k + 1 => do
    let a ← idx lcode i
    let b ← idx lcode j
    let lcode := if a ≤ b then lcode.set j (b - 1) else lcode
    mklcodeInner lcode i (j + 1) k

/-- Outer loop `for i := i; i < p.n-2; i++` of `mklcode`, with the number `k` of
rounds left. -/
def mklcodeOuter (n : Nat) (lcode : List Int) : Nat → Nat → Except Panic (List Int)
  | _, 0 => pure lcode
  | i, k + 1 => do
    let lcode ← mklcodeInner lcode i (i + 1) (n - 1 - (i + 1))
    mklcodeOuter n lcode (i + 1) k

/-- Method `mklcode`: the Lehmer code computed from `perm`. -/
def Permutation.mklcode (p : Permutation) : Except Panic Permutation := do
  let buf ← makeCode p.n
  let perm := p.perm.getD []
  if perm.length < p.n - 1 then .error .index
  else
    let lcode := copySlice buf (perm.take (p.n - 1))
    let lcode ← mklcodeOuter p.n lcode 0 (p.n - 2)
    pure { p with lcode := some lcode }

/-- The code of `p` after `if p.lcode == nil { p.mklcode() }`. -/
def Permutation.code (p : Permutation) : Except Panic (List Int) :=
  match p.lcode with
  | some lc => pure lc
  | none => do
    match (← p.mklcode).lcode with
    | some lc => pure lc
    | none => pure []

/-- Loop `for i, k := range p.lcode { if k < p.n-i-1 { return true } }` of
`HasNext`, from index `i`. -/
def hasNextLoop (n : Nat) : List Int → Nat → Bool
  | [], _ => false
  | k :: rest, i => if k < (n : Int) - (i : Int) - 1 then true else hasNextLoop n rest (i + 1)

/-- Method `Permutation.HasNext`. -/
def Permutation.HasNext (p : Permutation) : Except Panic Bool := do
  pure (hasNextLoop p.n (← p.code) 0)

/-- Loop `for i < np.n-1 { np.lcode[i] = 0; i++ }` of `Next`, with the number `k`
of rounds left. -/
def zeroFrom (lcode : List Int) : Nat → Nat → List Int
  | _, 0 => lcode
  | i, k + 1 => zeroFrom (lcode.set i 0) (i + 1) k

/-- The loop of `Next` over `i` from `np.n-2` down to 0; the argument is `i + 1`,
and `none` is the `return nil` after the loop. -/
def nextLoop (n : Nat) (lcode : List Int) : Nat → Except Panic (Option (List Int))
  | 0 => pure none
  | i + 1 => do
    let v ← idx lcode i
    if v < (n : Int) - (i : Int) - 1 then
      let lcode := lcode.set i (v + 1)
      pure (some (zeroFrom lcode (i + 1) (n - 1 - (i + 1))))
    else nextLoop n lcode i

/-- Method `Permutation.Next`. -/
def Permutation.Next (p : Permutation) : Except Panic (Option Permutation) := do
  let buf ← makeCode p.n
  let lcode := copySlice buf (p.lcode.getD [])
  match ← nextLoop p.n lcode (p.n - 1) with
  | some lc => pure (some { n := p.n, lcode := some lc, perm := none })
  | none => pure none

/-- Loop `for i < np.n-1 { np.lcode[i] = np.n-i-1; i++ }` of `Prev`, with the
number `k` of rounds left. -/
def maxFrom (n : Nat) (lcode : List Int) : Nat → Nat → List Int
  | _, 0 => lcode
  | i, k + 1 => maxFrom n (lcode.set i ((n : Int) - (i : Int) - 1)) (i + 1) k

/-- The loop of `Prev` over `i` from `np.n-2` down to 0; the argument is `i + 1`,
and `none` is the `return nil` after the loop.  The body ends with `return np`
in every case, so only the round `i = n-2` is ever run. -/
def prevLoop (n : Nat) (lcode : List Int) : Nat → Except Panic (Option (List Int))
  | 0 => pure none
  | i + 1 => do
    let v ← idx lcode i
    let (lcode, j) := if v > 0 then (lcode.set i (v - 1), i + 1) else (lcode, i)
    pure (some (maxFrom n lcode j (n - 1 - j)))

/-- Method `Permutation.Prev`. -/
def Permutation.Prev (p : Permutation) : Except Panic (Option Permutation) := do
  let buf ← makeCode p.n
  let lcode := copySlice buf (p.lcode.getD [])
  match ← prevLoop p.n lcode (p.n - 1) with
  | some lc => pure (some { n := p.n, lcode := some lc, perm := none })
  | none => pure none

/-- Function `FirstPermutation`. -/
def FirstPermutation (n : Nat) : Except Panic Permutation := do
  pure { n := n, lcode := some (← makeCode n), perm := none }

/-- Loop `for i := 0; i < pa.n-1; i++` of `CompareTo`, with the number `k` of
rounds left. -/
def compareLoop (la lb : List Int) : Nat → Nat → Except Panic Int
  | _, 0 => pure 0
  | i, k + 1 => do
    let a ← idx la i
    let b ← idx lb i
    if a > b then pure 1
    else if a < b then pure (-1)
    else compareLoop la lb (i + 1) k

/-- Method `Permutation.CompareTo`. -/
def Permutation.CompareTo (pa pb : Permutation) : Except Panic Int := do
  if pa.n < pb.n then pure (-1)
  else if pa.n > pb.n then pure 1
  else
    let la ← pa.code
    let lb ← pb.code
    compareLoop la lb 0 (pa.n - 1)

/-- Method chain `p.Next().Prev().CompareTo(p)`; a call on the nil that `Next`
or `Prev` returns is a panic. -/
def nextPrevCompare (p : Permutation) : Except Panic Int := do
  match ← p.Next with
  | none => .error .index
  | some q =>
    match ← q.Prev with
    | none => .error .index
    | some r => r.CompareTo p

/-! ## Singleton sets (set.go, set/set.go) -/

/-- Record `singletonSet`. -/
structure singletonSet (α : Type) where
  x : α

/-- Record `ssCursor`; `set_` is the field `set`. -/
structure ssCursor (α : Type) where
  set_ : singletonSet α
  read : Bool

/-- Function `Singleton`. -/
def Singleton (c : α) : singletonSet α := { x := c }

/-- Method `singletonSet.OpenCursor`: `&ssCursor{set: ss}`. -/
def singletonSet.OpenCursor (ss : singletonSet α) : ssCursor α := { set_ := ss, read := false }

/-- Method `ssCursor.HasNext`. -/
def ssCursor.HasNext (c : ssCursor α) : Bool := !c.read

/-- Method `ssCursor.HasPrev`. -/
def ssCursor.HasPrev (c : ssCursor α) : Bool := c.read

/-- Method `ssCursor.Next`: the returned value (`none` for nil) and the cursor
after the call; the body assigns no field. -/
def ssCursor.Next (c : ssCursor α) : Option α × ssCursor α :=
  if c.read then (none, c) else (some c.set_.x, c)

/-- Method `ssCursor.Prev`: the returned value and the cursor after the call. -/
def ssCursor.Prev (c : ssCursor α) : Option α × ssCursor α :=
  if !c.read then (none, c) else (some c.set_.x, c)

/-- The loop `for c.HasNext() { c.Next() }` on a singleton's cursor: the values
returned, with the number of rounds bounded by the fuel. -/
def ssCursor.drain : Nat → ssCursor α → Except Fault (List (Option α))
  | 0, _ => .error .timeout
  | k + 1, c =>
    if c.HasNext then
      match c.Next with
      | (v, c') => (ssCursor.drain k c').map (fun vs => v :: vs)
    else pure []

/-- The loop `for c.HasNext() { tree.Insert(c.Next()) }` of `pairSet.Union` and
`treeSet.Union` on a singleton's cursor, with the number of rounds bounded by
`k`; `Insert` of the nil that `Next` returns after the last element compares
through a nil interface. -/
def ssCursor.insertAll [Comparable α] (fuel : Nat) : Nat → Tree α → ssCursor α →
    Except Fault (Tree α)
  | 0, _, _ => .error .timeout
  | k + 1, t, c =>
    if c.HasNext then
      match c.Next with
      | (some v, c') => do
        let (t', _) ← Insert fuel t v
        ssCursor.insertAll fuel k t' c'
      | (none, _) => .error .nilDeref
    else pure t

/-! # Properties -/

/-! ## Store lemmas -/

@[simp] theorem bind_ok {ε β γ : Type} (a : β) (f : β → Except ε γ) :
    (Except.ok a >>= f) = f a := rfl

@[simp] theorem bind_error {ε β γ : Type} (e : ε) (f : β → Except ε γ) :
    ((Except.error e : Except ε β) >>= f) = Except.error e := rfl

@[simp] theorem pure_eq_ok {ε β : Type} (a : β) : (pure a : Except ε β) = Except.ok a := rfl

@[simp] theorem map_ok {ε β γ : Type} (a : β) (f : β → γ) :
    (f <$> (Except.ok a : Except ε β)) = Except.ok (f a) := rfl

@[simp] theorem map_error {ε β γ : Type} (e : ε) (f : β → γ) :
    (f <$> (Except.error e : Except ε β)) = Except.error e := rfl

@[simp] theorem deref_some (a : Nat) : deref (some a) = .ok a := rfl

@[simp] theorem deref_none : deref none = .error .nilDeref := rfl

theorem int8_id {x : Int} (h1 : -128 ≤ x) (h2 : x ≤ 127) : int8 x = x := by
  unfold int8; omega

theorem node_upd_same (t : Tree α) (a : Nat) (f : avlNode α → avlNode α) :
    (t.upd a f).node a = f <$> t.node a := by
  simp only [Tree.node, Tree.upd, List.getElem?_modify_eq]
  cases t.mem[a]? <;> rfl

theorem node_upd_ne (t : Tree α) {a b : Nat} (f : avlNode α → avlNode α) (h : a ≠ b) :
    (t.upd a f).node b = t.node b := by
  simp only [Tree.node, Tree.upd, List.getElem?_modify_ne _ _ h]

theorem node_upd (t : Tree α) (a b : Nat) (f : avlNode α → avlNode α) :
    (t.upd a f).node b = if a = b then f <$> t.node b else t.node b := by
  by_cases h : a = b
  · subst h; simp [node_upd_same]
  · simp [h, node_upd_ne]

@[simp] theorem upd_root (t : Tree α) (a : Nat) (f : avlNode α → avlNode α) :
    (t.upd a f).root = t.root := rfl

@[simp] theorem upd_head (t : Tree α) (a : Nat) (f : avlNode α → avlNode α) :
    (t.upd a f).head = t.head := rfl

@[simp] theorem upd_tail (t : Tree α) (a : Nat) (f : avlNode α → avlNode α) :
    (t.upd a f).tail = t.tail := rfl

@[simp] theorem upd_size (t : Tree α) (a : Nat) (f : avlNode α → avlNode α) :
    (t.upd a f).size = t.size := rfl

@[simp] theorem upd_length (t : Tree α) (a : Nat) (f : avlNode α → avlNode α) :
    (t.upd a f).mem.length = t.mem.length := by
  simp [Tree.upd]

theorem node_lt_length {t : Tree α} {a : Nat} {n : avlNode α} (h : t.node a = .ok n) :
    a < t.mem.length := by
  unfold Tree.node at h
  by_contra hlt
  rw [List.getElem?_eq_none (by omega)] at h
  cases h

theorem node_alloc_old (t : Tree α) (d : α) (p : Option Nat) {a : Nat} (h : a < t.mem.length) :
    (t.alloc d p).1.node a = t.node a := by
  simp [Tree.node, Tree.alloc, List.getElem?_append_left h]

theorem node_alloc_new (t : Tree α) (d : α) (p : Option Nat) :
    (t.alloc d p).1.node t.mem.length = .ok ⟨d, 0, none, none, p, none, none⟩ := by
  simp [Tree.node, Tree.alloc]

theorem nodeIs_iff_sv {t : Tree α} {a : Nat} {d : α} {b : Int} {l r p : Option Nat} :
    NodeIs t a d b l r p ↔ t.sv a = some (d, b, l, r, p) := by
  unfold NodeIs Tree.sv
  cases h : t.node a with
  | error e => simp
  | ok n => simp

theorem sv_upd_ne (t : Tree α) {a b : Nat} (f : avlNode α → avlNode α) (h : a ≠ b) :
    (t.upd a f).sv b = t.sv b := by
  simp [Tree.sv, node_upd_ne _ _ h]

theorem tv_upd_ne (t : Tree α) {a b : Nat} (f : avlNode α → avlNode α) (h : a ≠ b) :
    (t.upd a f).tv b = t.tv b := by
  simp [Tree.tv, node_upd_ne _ _ h]

theorem sv_upd_of_fields (t : Tree α) (a b : Nat) (f : avlNode α → avlNode α)
    (hf : ∀ n, ((f n).data, (f n).balance, (f n).l, (f n).r, (f n).p) =
      (n.data, n.balance, n.l, n.r, n.p)) :
    (t.upd a f).sv b = t.sv b := by
  by_cases h : a = b
  · subst h
    simp only [Tree.sv, node_upd_same]
    cases t.node a with
    | error e => rfl
    | ok n => simp only [map_ok]; exact congrArg some (hf n)
  · exact sv_upd_ne t f h

theorem tv_upd_of_fields (t : Tree α) (a b : Nat) (f : avlNode α → avlNode α)
    (hf : ∀ n, ((f n).prv, (f n).nxt) = (n.prv, n.nxt)) :
    (t.upd a f).tv b = t.tv b := by
  by_cases h : a = b
  · subst h
    simp only [Tree.tv, node_upd_same]
    cases t.node a with
    | error e => rfl
    | ok n => simp only [map_ok]; exact congrArg some (hf n)
  · exact tv_upd_ne t f h

@[simp] theorem sv_setNxt (t : Tree α) (a b : Nat) (v : Option Nat) :
    (t.setNxt a v).sv b = t.sv b := sv_upd_of_fields t a b _ (fun _ => rfl)

@[simp] theorem sv_setPrv (t : Tree α) (a b : Nat) (v : Option Nat) :
    (t.setPrv a v).sv b = t.sv b := sv_upd_of_fields t a b _ (fun _ => rfl)

@[simp] theorem tv_setL (t : Tree α) (a b : Nat) (v : Option Nat) :
    (t.setL a v).tv b = t.tv b := tv_upd_of_fields t a b _ (fun _ => rfl)

@[simp] theorem tv_setR (t : Tree α) (a b : Nat) (v : Option Nat) :
    (t.setR a v).tv b = t.tv b := tv_upd_of_fields t a b _ (fun _ => rfl)

@[simp] theorem tv_setP (t : Tree α) (a b : Nat) (v : Option Nat) :
    (t.setP a v).tv b = t.tv b := tv_upd_of_fields t a b _ (fun _ => rfl)

@[simp] theorem tv_setBalance (t : Tree α) (a b : Nat) (v : Int) :
    (t.setBalance a v).tv b = t.tv b := tv_upd_of_fields t a b _ (fun _ => rfl)

@[simp] theorem tv_setData (t : Tree α) (a b : Nat) (v : α) :
    (t.setData a v).tv b = t.tv b := tv_upd_of_fields t a b _ (fun _ => rfl)

@[simp] theorem tv_setPOpt (t : Tree α) (q : Option Nat) (a b : Nat) :
    (t.setPOpt q a).tv b = t.tv b := by
  cases q <;> simp [Tree.setPOpt]

@[simp] theorem setPOpt_root (t : Tree α) (q : Option Nat) (a : Nat) :
    (t.setPOpt q a).root = t.root := by
  cases q <;> rfl

@[simp] theorem setPOpt_head (t : Tree α) (q : Option Nat) (a : Nat) :
    (t.setPOpt q a).head = t.head := by
  cases q <;> rfl

@[simp] theorem setPOpt_tail (t : Tree α) (q : Option Nat) (a : Nat) :
    (t.setPOpt q a).tail = t.tail := by
  cases q <;> rfl

@[simp] theorem setPOpt_size (t : Tree α) (q : Option Nat) (a : Nat) :
    (t.setPOpt q a).size = t.size := by
  cases q <;> rfl

@[simp] theorem setPOpt_length (t : Tree α) (q : Option Nat) (a : Nat) :
    (t.setPOpt q a).mem.length = t.mem.length := by
  cases q <;> simp [Tree.setPOpt, Tree.setP]

/-! ## Trees, paths and their representation -/

theorem addrs_plug (c : List (Frame α)) (s : ATree α) :
    (plug c s).addrs = ctxBefore c ++ s.addrs ++ ctxAfter c := by
  induction c generalizing s with
  | nil => simp [plug, ctxBefore, ctxAfter]
  | cons F c ih => cases F <;> simp [plug, ctxBefore, ctxAfter, ih, ATree.addrs]

theorem elems_plug (c : List (Frame α)) (s : ATree α) :
    (plug c s).elems = ctxElemsBefore c ++ s.elems ++ ctxElemsAfter c := by
  induction c generalizing s with
  | nil => simp [plug, ctxElemsBefore, ctxElemsAfter]
  | cons F c ih => cases F <;> simp [plug, ctxElemsBefore, ctxElemsAfter, ih, ATree.elems]

theorem rootPtr_plug (c : List (Frame α)) (s : ATree α) :
    (plug c s).rootPtr = segTop c s.rootPtr := by
  induction c generalizing s with
  | nil => rfl
  | cons F c ih => cases F <;> simp only [plug, segTop, ih] <;> rfl

theorem plug_append (c1 c2 : List (Frame α)) (s : ATree α) :
    plug (c1 ++ c2) s = plug c2 (plug c1 s) := by
  induction c1 generalizing s with
  | nil => rfl
  | cons F c ih => cases F <;> simp [plug, ih]

theorem rootPtr_mem {s : ATree α} {a : Nat} (h : s.rootPtr = some a) : a ∈ s.addrs := by
  cases s with
  | nil => cases h
  | node l x d b r =>
    simp only [ATree.rootPtr, Option.some.injEq] at h
    subst h
    simp [ATree.addrs]

theorem length_elems (s : ATree α) : s.elems.length = s.addrs.length := by
  induction s with
  | nil => rfl
  | node l a d b r ihl ihr => simp [ATree.elems, ATree.addrs, ihl, ihr]

theorem height_le_length (s : ATree α) : s.height ≤ s.addrs.length := by
  induction s with
  | nil => simp [ATree.height]
  | node l a d b r ihl ihr => simp [ATree.height, ATree.addrs]; omega

theorem mem_ctxAddrs {c : List (Frame α)} {a : Nat} :
    a ∈ ctxAddrs c ↔ a ∈ ctxBefore c ∨ a ∈ ctxAfter c := by
  simp [ctxAddrs]

theorem nodeIs_congr {t t' : Tree α} {a : Nat} (h : t'.sv a = t.sv a) {d : α} {b : Int}
    {l r p : Option Nat} (hn : NodeIs t a d b l r p) : NodeIs t' a d b l r p := by
  rw [nodeIs_iff_sv] at hn ⊢
  rw [h, hn]

theorem Rep_congr {t t' : Tree α} {s : ATree α} (h : ∀ a ∈ s.addrs, t'.sv a = t.sv a)
    {par : Option Nat} (hr : Rep t par s) : Rep t' par s := by
  induction s generalizing par with
  | nil => trivial
  | node l a d b r ihl ihr =>
    obtain ⟨hn, hl, hrr⟩ := hr
    refine ⟨nodeIs_congr (h a (by simp [ATree.addrs])) hn, ihl (fun x hx => h x ?_) hl,
      ihr (fun x hx => h x ?_) hrr⟩
    · simp [ATree.addrs, hx]
    · simp [ATree.addrs, hx]

theorem RepSeg_congr {t t' : Tree α} {c : List (Frame α)}
    (h : ∀ a ∈ ctxAddrs c, t'.sv a = t.sv a) {par q : Option Nat} (hr : RepSeg t par c q) :
    RepSeg t' par c q := by
  induction c generalizing q with
  | nil => trivial
  | cons F c ih =>
    cases F with
    | L a d b r =>
      obtain ⟨hn, hrr, hc⟩ := hr
      refine ⟨nodeIs_congr (h a ?_) hn, Rep_congr (fun x hx => h x ?_) hrr,
        ih (fun x hx => h x ?_) hc⟩
      · simp [ctxAddrs, ctxAfter]
      · simp [ctxAddrs, ctxAfter, hx]
      · simp only [ctxAddrs, ctxBefore, ctxAfter, List.mem_append, List.mem_cons] at hx ⊢
        tauto
    | R l a d b =>
      obtain ⟨hn, hl, hc⟩ := hr
      refine ⟨nodeIs_congr (h a ?_) hn, Rep_congr (fun x hx => h x ?_) hl,
        ih (fun x hx => h x ?_) hc⟩
      · simp [ctxAddrs, ctxBefore]
      · simp [ctxAddrs, ctxBefore, hx]
      · simp only [ctxAddrs, ctxBefore, ctxAfter, List.mem_append, List.mem_cons] at hx ⊢
        tauto

theorem Thr_congr {t t' : Tree α} {xs : List Nat} (h : ∀ a ∈ xs, t'.tv a = t.tv a)
    {pv nx : Option Nat} (hr : Thr t pv xs nx) : Thr t' pv xs nx := by
  induction xs generalizing pv with
  | nil => trivial
  | cons a rest ih =>
    obtain ⟨⟨n, hn, h1, h2⟩, hrest⟩ := hr
    refine ⟨?_, ih (fun x hx => h x (List.mem_cons_of_mem _ hx)) hrest⟩
    have := h a (List.mem_cons_self _ _)
    simp only [Tree.tv, hn] at this
    cases hn' : t'.node a with
    | error e => simp [hn'] at this
    | ok n' =>
      simp only [hn', Option.some.injEq, Prod.mk.injEq] at this
      exact ⟨n', rfl, this.1.trans h1, this.2.trans h2⟩

theorem Rep_plug {t : Tree α} {par : Option Nat} {c : List (Frame α)} {s : ATree α} :
    Rep t par (plug c s) ↔ RepSeg t par c s.rootPtr ∧ Rep t (ctxPar par c) s := by
  induction c generalizing s with
  | nil => simp [plug, RepSeg, ctxPar]
  | cons F c ih =>
    cases F with
    | L a d b r =>
      simp only [plug, ih, RepSeg, ctxPar, Rep, ATree.rootPtr]
      tauto
    | R l a d b =>
      simp only [plug, ih, RepSeg, ctxPar, Rep, ATree.rootPtr]
      tauto

theorem RepSeg_append {t : Tree α} {par : Option Nat} {c1 c2 : List (Frame α)} {q : Option Nat} :
    RepSeg t par (c1 ++ c2) q ↔
      RepSeg t (ctxPar par c2) c1 q ∧ RepSeg t par c2 (segTop c1 q) := by
  induction c1 generalizing q with
  | nil => simp [RepSeg, segTop]
  | cons F c ih =>
    have hp : ∀ c : List (Frame α), ctxPar par (c ++ c2) = ctxPar (ctxPar par c2) c := by
      intro c; cases c with
      | nil => rfl
      | cons G c => cases G <;> rfl
    cases F with
    | L a d b r =>
      rw [List.cons_append]
      simp only [RepSeg, segTop]
      rw [ih, hp]
      tauto
    | R l a d b =>
      rw [List.cons_append]
      simp only [RepSeg, segTop]
      rw [ih, hp]
      tauto

theorem Rep_node_ok {t : Tree α} {par : Option Nat} {s : ATree α} (hr : Rep t par s) {a : Nat}
    (ha : a ∈ s.addrs) : ∃ n, t.node a = .ok n := by
  induction s generalizing par with
  | nil => simp [ATree.addrs] at ha
  | node l x d b r ihl ihr =>
    obtain ⟨⟨n, hn, _⟩, hl, hrr⟩ := hr
    simp only [ATree.addrs, List.mem_append, List.mem_cons] at ha
    rcases ha with ha | rfl | ha
    · exact ihl hl ha
    · exact ⟨n, hn⟩
    · exact ihr hrr ha

theorem Rep_lt_length {t : Tree α} {par : Option Nat} {s : ATree α} (hr : Rep t par s) {a : Nat}
    (ha : a ∈ s.addrs) : a < t.mem.length := by
  obtain ⟨n, hn⟩ := Rep_node_ok hr ha
  exact node_lt_length hn

theorem Rep_upd {t : Tree α} {par : Option Nat} {s : ATree α} {x : Nat}
    (f : avlNode α → avlNode α) (hx : x ∉ s.addrs) (hr : Rep t par s) :
    Rep (t.upd x f) par s :=
  Rep_congr (fun a ha => sv_upd_ne t f (fun h : x = a => hx (by rw [h]; exact ha))) hr

theorem RepSeg_upd {t : Tree α} {par q : Option Nat} {c : List (Frame α)} {x : Nat}
    (f : avlNode α → avlNode α) (hx : x ∉ ctxAddrs c) (hr : RepSeg t par c q) :
    RepSeg (t.upd x f) par c q :=
  RepSeg_congr (fun a ha => sv_upd_ne t f (fun h : x = a => hx (by rw [h]; exact ha))) hr

/-- Re-parenting: after `if q != nil { q.p = a }` on the root pointer of a
subtree the subtree is held below `a`. -/
theorem Rep_setPOpt {t : Tree α} {par : Option Nat} {s : ATree α} (a : Nat)
    (hnd : s.addrs.Nodup) (hr : Rep t par s) : Rep (t.setPOpt s.rootPtr a) (some a) s := by
  cases s with
  | nil => trivial
  | node l x d b r =>
    obtain ⟨⟨n, hn, h1, h2, h3, h4, h5⟩, hl, hrr⟩ := hr
    simp only [ATree.addrs, List.nodup_append, List.nodup_cons, List.mem_cons] at hnd
    obtain ⟨hndl, ⟨hxr, hndr⟩, hdis⟩ := hnd
    have hxl : x ∉ l.addrs := fun h => hdis h (by simp)
    refine ⟨⟨{ n with p := some a }, ?_, h1, h2, h3, h4, rfl⟩, ?_, ?_⟩
    · simp [ATree.rootPtr, Tree.setPOpt, Tree.setP, node_upd_same, hn]
    · exact Rep_upd _ hxl hl
    · exact Rep_upd _ hxr hrr

/-! ## Rotations on trees -/

theorem Bal_plug {c : List (Frame α)} {s : ATree α} :
    (plug c s).Bal ↔ s.Bal ∧ CtxBal c s.height := by
  induction c generalizing s with
  | nil => simp [plug, CtxBal]
  | cons F c ih =>
    cases F <;> simp only [plug, ih, CtxBal, ATree.Bal, ATree.height] <;> tauto

/-- What a rotation achieves on a node whose stored factor is its true height
difference, -2 or 2, over balanced subtrees. -/
theorem rotA_spec {l r : ATree α} {a : Nat} {d : α} {b : Int} (hl : l.Bal) (hr : r.Bal)
    (hb : b = (r.height : Int) - (l.height : Int)) (h2 : b = -2 ∨ b = 2) :
    ∃ s' ch, rotA (.node l a d b r) = some (s', ch) ∧ s'.Bal ∧
      s'.addrs = (ATree.node l a d b r).addrs ∧ s'.elems = (ATree.node l a d b r).elems ∧
      s'.rootPtr ≠ none ∧
      s'.height + (if ch then 1 else 0) = (ATree.node l a d b r).height ∧
      (ch = true → s'.rootBal = 0) ∧ (ch = false → s'.rootBal = 1 ∨ s'.rootBal = -1) ∧
      (ch = false ↔ (if b = -2 then l.rootBal else r.rootBal) = 0) := by
  rcases h2 with rfl | rfl
  · cases l with
    | nil => simp only [ATree.height] at hb; omega
    | node ll la ld lb lr =>
      obtain ⟨hll, hlr, hlb, hlb1, hlb2⟩ := hl
      have hcases : lb = -1 ∨ lb = 0 ∨ lb = 1 := by omega
      rcases hcases with rfl | rfl | rfl
      · refine ⟨_, _, rfl, ?_⟩
        simp only [ATree.Bal, ATree.height, ATree.addrs, ATree.elems, ATree.rootPtr,
          ATree.rootBal] at *
        refine ⟨⟨hll, ⟨hlr, hr, ?_, ?_, ?_⟩, ?_, ?_, ?_⟩, ?_, ?_, ?_, ?_, ?_, ?_, ?_⟩ <;>
          first | omega | (split_ifs <;> omega) | (simp; done) | (simp; omega)
      · refine ⟨_, _, rfl, ?_⟩
        simp only [ATree.Bal, ATree.height, ATree.addrs, ATree.elems, ATree.rootPtr,
          ATree.rootBal] at *
        refine ⟨⟨hll, ⟨hlr, hr, ?_, ?_, ?_⟩, ?_, ?_, ?_⟩, ?_, ?_, ?_, ?_, ?_, ?_, ?_⟩ <;>
          first | omega | (split_ifs <;> omega) | (simp; done) | (simp; omega)
      · cases lr with
        | nil => simp only [ATree.height] at hlb; omega
        | node lrl lra lrd lrb lrr =>
          obtain ⟨hlrl, hlrr, hlrb, hlrb1, hlrb2⟩ := hlr
          refine ⟨_, _, rfl, ?_⟩
          simp only [ATree.Bal, ATree.height, ATree.addrs, ATree.elems, ATree.rootPtr,
            ATree.rootBal] at *
          refine ⟨⟨⟨hll, hlrl, ?_, ?_, ?_⟩, ⟨hlrr, hr, ?_, ?_, ?_⟩, ?_, ?_, ?_⟩,
            ?_, ?_, ?_, ?_, ?_, ?_, ?_⟩ <;>
            first | omega | (split_ifs <;> omega) | (simp; done) | (simp; omega)
  · cases r with
    | nil => simp only [ATree.height] at hb; omega
    | node rl ra rd rb rr =>
      obtain ⟨hrl, hrr, hrb, hrb1, hrb2⟩ := hr
      have hcases : rb = -1 ∨ rb = 0 ∨ rb = 1 := by omega
      rcases hcases with rfl | rfl | rfl
      · cases rl with
        | nil => simp only [ATree.height] at hrb; omega
        | node rll rla rld rlb rlr =>
          obtain ⟨hrll, hrlr, hrlb, hrlb1, hrlb2⟩ := hrl
          refine ⟨_, _, rfl, ?_⟩
          simp only [ATree.Bal, ATree.height, ATree.addrs, ATree.elems, ATree.rootPtr,
            ATree.rootBal] at *
          refine ⟨⟨⟨hl, hrll, ?_, ?_, ?_⟩, ⟨hrlr, hrr, ?_, ?_, ?_⟩, ?_, ?_, ?_⟩,
            ?_, ?_, ?_, ?_, ?_, ?_, ?_⟩ <;>
            first | omega | (split_ifs <;> omega) | (simp; done) | (simp; omega)
      · refine ⟨_, _, rfl, ?_⟩
        simp only [ATree.Bal, ATree.height, ATree.addrs, ATree.elems, ATree.rootPtr,
          ATree.rootBal] at *
        refine ⟨⟨⟨hl, hrl, ?_, ?_, ?_⟩, hrr, ?_, ?_, ?_⟩, ?_, ?_, ?_, ?_, ?_, ?_, ?_⟩ <;>
          first | omega | (split_ifs <;> omega) | (simp; done) | (simp; omega)
      · refine ⟨_, _, rfl, ?_⟩
        simp only [ATree.Bal, ATree.height, ATree.addrs, ATree.elems, ATree.rootPtr,
          ATree.rootBal] at *
        refine ⟨⟨⟨hl, hrl, ?_, ?_, ?_⟩, hrr, ?_, ?_, ?_⟩, ?_, ?_, ?_, ?_, ?_, ?_, ?_⟩ <;>
          first | omega | (split_ifs <;> omega) | (simp; done) | (simp; omega)

/-! ## The store under `relink` and `rebalanceAtNode` -/

theorem dv_upd_ne (t : Tree α) {a b : Nat} (f : avlNode α → avlNode α) (h : a ≠ b) :
    (t.upd a f).dv b = t.dv b := by
  simp [Tree.dv, node_upd_ne _ _ h]

theorem dv_upd_of_fields (t : Tree α) (a b : Nat) (f : avlNode α → avlNode α)
    (hf : ∀ n, (f n).data = n.data) : (t.upd a f).dv b = t.dv b := by
  by_cases h : a = b
  · subst h
    simp only [Tree.dv, node_upd_same]
    cases t.node a with
    | error e => rfl
    | ok n => simp only [map_ok]; exact congrArg some (hf n)
  · exact dv_upd_ne t f h

@[simp] theorem dv_setL (t : Tree α) (a b : Nat) (v : Option Nat) :
    (t.setL a v).dv b = t.dv b := dv_upd_of_fields t a b _ (fun _ => rfl)

@[simp] theorem dv_setR (t : Tree α) (a b : Nat) (v : Option Nat) :
    (t.setR a v).dv b = t.dv b := dv_upd_of_fields t a b _ (fun _ => rfl)

@[simp] theorem dv_setP (t : Tree α) (a b : Nat) (v : Option Nat) :
    (t.setP a v).dv b = t.dv b := dv_upd_of_fields t a b _ (fun _ => rfl)

@[simp] theorem dv_setNxt (t : Tree α) (a b : Nat) (v : Option Nat) :
    (t.setNxt a v).dv b = t.dv b := dv_upd_of_fields t a b _ (fun _ => rfl)

@[simp] theorem dv_setPrv (t : Tree α) (a b : Nat) (v : Option Nat) :
    (t.setPrv a v).dv b = t.dv b := dv_upd_of_fields t a b _ (fun _ => rfl)

@[simp] theorem dv_setBalance (t : Tree α) (a b : Nat) (v : Int) :
    (t.setBalance a v).dv b = t.dv b := dv_upd_of_fields t a b _ (fun _ => rfl)

@[simp] theorem dv_setPOpt (t : Tree α) (q : Option Nat) (a b : Nat) :
    (t.setPOpt q a).dv b = t.dv b := by
  cases q <;> simp [Tree.setPOpt]

theorem SameThr.refl (t : Tree α) : SameThr t t :=
  ⟨rfl, rfl, rfl, rfl, fun _ => rfl, fun _ => rfl⟩

theorem SameThr.trans {t1 t2 t3 : Tree α} (h1 : SameThr t1 t2) (h2 : SameThr t2 t3) :
    SameThr t1 t3 :=
  ⟨h2.head.trans h1.head, h2.tail.trans h1.tail, h2.size.trans h1.size, h2.len.trans h1.len,
    fun a => (h2.tv a).trans (h1.tv a), fun a => (h2.dv a).trans (h1.dv a)⟩

theorem SameThr.setL (t : Tree α) (a : Nat) (v : Option Nat) : SameThr t (t.setL a v) :=
  ⟨rfl, rfl, rfl, upd_length _ _ _, fun _ => tv_setL _ _ _ _, fun _ => dv_setL _ _ _ _⟩

theorem SameThr.setR (t : Tree α) (a : Nat) (v : Option Nat) : SameThr t (t.setR a v) :=
  ⟨rfl, rfl, rfl, upd_length _ _ _, fun _ => tv_setR _ _ _ _, fun _ => dv_setR _ _ _ _⟩

theorem SameThr.setP (t : Tree α) (a : Nat) (v : Option Nat) : SameThr t (t.setP a v) :=
  ⟨rfl, rfl, rfl, upd_length _ _ _, fun _ => tv_setP _ _ _ _, fun _ => dv_setP _ _ _ _⟩

theorem SameThr.setBalance (t : Tree α) (a : Nat) (v : Int) : SameThr t (t.setBalance a v) :=
  ⟨rfl, rfl, rfl, upd_length _ _ _, fun _ => tv_setBalance _ _ _ _, fun _ => dv_setBalance _ _ _ _⟩

theorem SameThr.setPOpt (t : Tree α) (q : Option Nat) (a : Nat) : SameThr t (t.setPOpt q a) :=
  ⟨setPOpt_head _ _ _, setPOpt_tail _ _ _, setPOpt_size _ _ _, setPOpt_length _ _ _,
    fun _ => tv_setPOpt _ _ _ _, fun _ => dv_setPOpt _ _ _ _⟩

theorem SameThr.setRoot (t : Tree α) (q : Option Nat) : SameThr t { t with root := q } :=
  ⟨rfl, rfl, rfl, rfl, fun _ => rfl, fun _ => rfl⟩

theorem nodup_plug {c : List (Frame α)} {s : ATree α} :
    (plug c s).addrs.Nodup ↔
      (ctxAddrs c).Nodup ∧ s.addrs.Nodup ∧ ∀ a ∈ s.addrs, a ∉ ctxAddrs c := by
  rw [addrs_plug, ctxAddrs]
  simp only [List.nodup_append, List.Disjoint, List.mem_append]
  constructor
  · rintro ⟨⟨h1, h2, h3⟩, h4, h5⟩
    refine ⟨⟨h1, h4, fun a ha hb => h5 (Or.inl ha) hb⟩, h2, fun a ha hx => ?_⟩
    rcases hx with hx | hx
    · exact h3 hx ha
    · exact h5 (Or.inr ha) hx
  · rintro ⟨⟨h1, h4, h5⟩, h2, h3⟩
    refine ⟨⟨h1, h2, fun a ha hb => h3 a hb (Or.inl ha)⟩, h4, fun a ha hb => ?_⟩
    rcases ha with ha | ha
    · exact h5 ha hb
    · exact h3 a ha (Or.inr hb)

theorem mem_addrs_node {l r : ATree α} {a x : Nat} {d : α} {b : Int} :
    x ∈ (ATree.node l a d b r).addrs ↔ x = a ∨ x ∈ l.addrs ∨ x ∈ r.addrs := by
  simp only [ATree.addrs, List.mem_append, List.mem_cons]; tauto

theorem nodup_node {l r : ATree α} {a : Nat} {d : α} {b : Int} :
    (ATree.node l a d b r).addrs.Nodup ↔
      l.addrs.Nodup ∧ r.addrs.Nodup ∧ a ∉ l.addrs ∧ a ∉ r.addrs ∧ ∀ x ∈ l.addrs, x ∉ r.addrs := by
  simp only [ATree.addrs, List.nodup_append, List.nodup_cons, List.Disjoint, List.mem_cons]
  constructor
  · rintro ⟨h1, ⟨h2, h3⟩, h4⟩
    exact ⟨h1, h3, fun h => h4 h (Or.inl rfl), h2, fun x hx hr => h4 hx (Or.inr hr)⟩
  · rintro ⟨h1, h2, h3, h4, h5⟩
    refine ⟨h1, ⟨h4, h2⟩, fun x hx hr => ?_⟩
    rcases hr with rfl | hr
    · exact h3 hx
    · exact h5 x hx hr

theorem mem_ctxAddrs_L {c : List (Frame α)} {r : ATree α} {a x : Nat} {d : α} {b : Int} :
    x ∈ ctxAddrs (.L a d b r :: c) ↔ x = a ∨ x ∈ r.addrs ∨ x ∈ ctxAddrs c := by
  simp only [ctxAddrs, ctxBefore, ctxAfter, List.mem_append, List.mem_cons]; tauto

theorem mem_ctxAddrs_R {c : List (Frame α)} {l : ATree α} {a x : Nat} {d : α} {b : Int} :
    x ∈ ctxAddrs (.R l a d b :: c) ↔ x = a ∨ x ∈ l.addrs ∨ x ∈ ctxAddrs c := by
  simp only [ctxAddrs, ctxBefore, ctxAfter, List.mem_append, List.mem_cons, List.mem_singleton]
  tauto

theorem nodup_cons_append_iff {a : Nat} {xs ys : List Nat} :
    (a :: (xs ++ ys)).Nodup ↔
      ys.Nodup ∧ xs.Nodup ∧ a ∉ xs ∧ a ∉ ys ∧ ∀ x ∈ xs, x ∉ ys := by
  simp only [List.nodup_cons, List.nodup_append, List.mem_append, List.Disjoint, not_or]
  constructor
  · rintro ⟨⟨h1, h2⟩, h3, h4, h5⟩
    exact ⟨h4, h3, h1, h2, fun x hx hc => h5 hx hc⟩
  · rintro ⟨h1, h2, h3, h4, h5⟩
    exact ⟨⟨h3, h4⟩, h2, h1, fun x hx hc => h5 x hx hc⟩

theorem nodup_ctxAddrs_L {c : List (Frame α)} {r : ATree α} {a : Nat} {d : α} {b : Int} :
    (ctxAddrs (.L a d b r :: c)).Nodup ↔
      (ctxAddrs c).Nodup ∧ r.addrs.Nodup ∧ a ∉ r.addrs ∧ a ∉ ctxAddrs c ∧
        ∀ x ∈ r.addrs, x ∉ ctxAddrs c := by
  have h : (ctxAddrs (.L a d b r :: c)).Perm (a :: (r.addrs ++ ctxAddrs c)) := by
    rw [List.perm_iff_count]
    intro x
    simp only [ctxAddrs, ctxBefore, ctxAfter, List.count_append, List.count_cons]
    omega
  rw [h.nodup_iff, nodup_cons_append_iff]

theorem nodup_ctxAddrs_R {c : List (Frame α)} {l : ATree α} {a : Nat} {d : α} {b : Int} :
    (ctxAddrs (.R l a d b :: c)).Nodup ↔
      (ctxAddrs c).Nodup ∧ l.addrs.Nodup ∧ a ∉ l.addrs ∧ a ∉ ctxAddrs c ∧
        ∀ x ∈ l.addrs, x ∉ ctxAddrs c := by
  have h : (ctxAddrs (.R l a d b :: c)).Perm (a :: (l.addrs ++ ctxAddrs c)) := by
    rw [List.perm_iff_count]
    intro x
    simp only [ctxAddrs, ctxBefore, ctxAfter, List.count_append, List.count_cons,
      List.count_nil]
    omega
  rw [h.nodup_iff, nodup_cons_append_iff]

theorem optNotMem_rootPtr {s : ATree α} {xs : List Nat} (h : ∀ a ∈ s.addrs, a ∉ xs) :
    optNotMem s.rootPtr xs :=
  fun _ hx => h _ (rootPtr_mem hx)

theorem optNotMem_some {x : Nat} {xs : List Nat} (h : x ∉ xs) : optNotMem (some x) xs := by
  intro y hy
  cases hy
  exact h

theorem optNotMem_none (xs : List Nat) : optNotMem none xs := by
  intro y hy
  cases hy

theorem rootPtr_ne {s : ATree α} {x : Nat} (h : x ∉ s.addrs) : s.rootPtr ≠ some x :=
  fun hx => h (rootPtr_mem hx)

/-! Frame rules in rewriting form. -/

theorem Rep_upd_iff {t : Tree α} {par : Option Nat} {s : ATree α} {x : Nat}
    {f : avlNode α → avlNode α} (hx : x ∉ s.addrs) : Rep (t.upd x f) par s ↔ Rep t par s :=
  ⟨fun h => Rep_congr (fun a ha => (sv_upd_ne t f (fun e : x = a => hx (by rw [e]; exact ha))).symm) h,
    Rep_upd f hx⟩

theorem RepSeg_upd_iff {t : Tree α} {par q : Option Nat} {c : List (Frame α)} {x : Nat}
    {f : avlNode α → avlNode α} (hx : x ∉ ctxAddrs c) :
    RepSeg (t.upd x f) par c q ↔ RepSeg t par c q :=
  ⟨fun h => RepSeg_congr
      (fun a ha => (sv_upd_ne t f (fun e : x = a => hx (by rw [e]; exact ha))).symm) h,
    RepSeg_upd f hx⟩

theorem Rep_setPOpt_iff {t : Tree α} {par q : Option Nat} {s : ATree α} {a : Nat}
    (hq : optNotMem q s.addrs) : Rep (t.setPOpt q a) par s ↔ Rep t par s := by
  cases q with
  | none => rfl
  | some x => exact Rep_upd_iff (hq x rfl)

theorem RepSeg_setPOpt_iff {t : Tree α} {par q q' : Option Nat} {c : List (Frame α)} {a : Nat}
    (hq : optNotMem q (ctxAddrs c)) : RepSeg (t.setPOpt q a) par c q' ↔ RepSeg t par c q' := by
  cases q with
  | none => rfl
  | some x => exact RepSeg_upd_iff (hq x rfl)

theorem node_setPOpt_ne {t : Tree α} {q : Option Nat} {a x : Nat} (hq : q ≠ some x) :
    (t.setPOpt q a).node x = t.node x := by
  cases q with
  | none => rfl
  | some y => exact node_upd_ne _ _ (fun e => hq (by rw [e]))

theorem Rep_of_node_eq {t t' : Tree α} {s : ATree α} (h : ∀ a ∈ s.addrs, t'.node a = t.node a)
    {par : Option Nat} (hr : Rep t par s) : Rep t' par s :=
  Rep_congr (fun a ha => by simp only [Tree.sv, h a ha]) hr

theorem RepSeg_of_node_eq {t t' : Tree α} {c : List (Frame α)}
    (h : ∀ a ∈ ctxAddrs c, t'.node a = t.node a) {par q : Option Nat}
    (hr : RepSeg t par c q) : RepSeg t' par c q :=
  RepSeg_congr (fun a ha => by simp only [Tree.sv, h a ha]) hr

/-- Re-parenting in rewriting form. -/
theorem Rep_setPOpt_self {t : Tree α} {s : ATree α} {a : Nat} (hnd : s.addrs.Nodup) :
    Rep (t.setPOpt s.rootPtr a) (some a) s ↔ ∃ par, Rep t par s := by
  constructor
  · intro h
    cases s with
    | nil => exact ⟨none, trivial⟩
    | node l x d b r =>
      rw [nodup_node] at hnd
      obtain ⟨⟨n, hn, h1, h2, h3, h4, h5⟩, hl, hr⟩ := h
      simp only [ATree.rootPtr, Tree.setPOpt, Tree.setP] at hn hl hr
      rw [node_upd_same] at hn
      cases hm : t.node x with
      | error e => rw [hm] at hn; cases hn
      | ok m =>
        rw [hm] at hn
        simp only [map_ok, Except.ok.injEq] at hn
        subst hn
        exact ⟨m.p, ⟨m, hm, h1, h2, h3, h4, rfl⟩, (Rep_upd_iff hnd.2.2.1).mp hl,
          (Rep_upd_iff hnd.2.2.2.1).mp hr⟩
  · rintro ⟨par, h⟩
    exact Rep_setPOpt a hnd h

/-- The `relink` block on a held path: the slot that led to `old` now leads to
`new`; nothing else changes. -/
theorem relink_spec {t : Tree α} {c : List (Frame α)} {x old new : Nat}
    (hseg : RepSeg t none c (some old)) (hroot : t.root = segTop c (some old))
    (hx : ∃ n, t.node x = .ok n ∧ n.p = ctxPar none c) (hnd : (ctxAddrs c).Nodup)
    (hold : old ∉ ctxAddrs c) :
    ∃ t1, relink t x old new = .ok t1 ∧ RepSeg t1 none c (some new) ∧
      t1.root = segTop c (some new) ∧ (∀ a, a ∉ ctxAddrs c → t1.node a = t.node a) ∧
      SameThr t t1 := by
  obtain ⟨n, hn, hp⟩ := hx
  cases c with
  | nil =>
    refine ⟨{ t with root := some new }, ?_, trivial, rfl, fun a _ => rfl, SameThr.setRoot _ _⟩
    simp [relink, hn, hp, ctxPar]
  | cons F c =>
    cases F with
    | L a d b r =>
      obtain ⟨⟨m, hm, h1, h2, h3, h4, h5⟩, hr, hc⟩ := hseg
      rw [nodup_ctxAddrs_L] at hnd
      obtain ⟨-, -, har, hac, -⟩ := hnd
      refine ⟨t.setL a (some new), ?_, ⟨⟨{ m with l := some new }, ?_, h1, h2, rfl, h4, h5⟩, Rep_upd _ har hr,
        RepSeg_upd _ hac hc⟩, hroot, fun y hy => ?_, SameThr.setL _ _ _⟩
      · simp [relink, hn, hp, ctxPar, hm, h3]
      · simp [Tree.setL, node_upd_same, hm]
      · apply node_upd_ne
        rintro rfl
        exact hy (mem_ctxAddrs_L.mpr (Or.inl rfl))
    | R l a d b =>
      obtain ⟨⟨m, hm, h1, h2, h3, h4, h5⟩, hl, hc⟩ := hseg
      rw [nodup_ctxAddrs_R] at hnd
      obtain ⟨-, -, hal, hac, -⟩ := hnd
      have hne : m.l ≠ some old := by
        rw [h3]
        intro h
        exact hold (mem_ctxAddrs_R.mpr (Or.inr (Or.inl (rootPtr_mem h))))
      refine ⟨t.setR a (some new), ?_, ⟨⟨{ m with r := some new }, ?_, h1, h2, h3, rfl, h5⟩, Rep_upd _ hal hl,
        RepSeg_upd _ hac hc⟩, hroot, fun y hy => ?_, SameThr.setR _ _ _⟩
      · simp [relink, hn, hp, ctxPar, hm, hne]
      · simp [Tree.setR, node_upd_same, hm]
      · apply node_upd_ne
        rintro rfl
        exact hy (mem_ctxAddrs_R.mpr (Or.inl rfl))

/-! ## `rebalanceAtNode` case by case -/

@[simp] theorem rootPtr_node (l r : ATree α) (a : Nat) (d : α) (b : Int) :
    (ATree.node l a d b r).rootPtr = some a := rfl

@[simp] theorem rootPtr_nil : (ATree.nil : ATree α).rootPtr = none := rfl

theorem node_setL (t : Tree α) (a b : Nat) (v : Option Nat) :
    (t.setL a v).node b = if a = b then (fun n => { n with l := v }) <$> t.node b else t.node b :=
  node_upd t a b _

theorem node_setR (t : Tree α) (a b : Nat) (v : Option Nat) :
    (t.setR a v).node b = if a = b then (fun n => { n with r := v }) <$> t.node b else t.node b :=
  node_upd t a b _

theorem node_setP (t : Tree α) (a b : Nat) (v : Option Nat) :
    (t.setP a v).node b = if a = b then (fun n => { n with p := v }) <$> t.node b else t.node b :=
  node_upd t a b _

theorem node_setNxt (t : Tree α) (a b : Nat) (v : Option Nat) :
    (t.setNxt a v).node b =
      if a = b then (fun n => { n with nxt := v }) <$> t.node b else t.node b :=
  node_upd t a b _

theorem node_setPrv (t : Tree α) (a b : Nat) (v : Option Nat) :
    (t.setPrv a v).node b =
      if a = b then (fun n => { n with prv := v }) <$> t.node b else t.node b :=
  node_upd t a b _

theorem node_setBalance (t : Tree α) (a b : Nat) (v : Int) :
    (t.setBalance a v).node b =
      if a = b then (fun n => { n with balance := v }) <$> t.node b else t.node b :=
  node_upd t a b _

theorem node_setData (t : Tree α) (a b : Nat) (v : α) :
    (t.setData a v).node b =
      if a = b then (fun n => { n with data := v }) <$> t.node b else t.node b :=
  node_upd t a b _

theorem ite_setBalance (c : Prop) [Decidable c] (t : Tree α) (a : Nat) (x y : Int) :
    (if c then t.setBalance a x else t.setBalance a y) = t.setBalance a (if c then x else y) := by
  split_ifs <;> rfl

set_option maxHeartbeats 1000000 in
theorem reb_LL {t : Tree α} {c : List (Frame α)} {ll lr r : ATree α} {cn la : Nat}
    {cd ld : α}
    (hseg : RepSeg t none c (some cn)) (hroot : t.root = segTop c (some cn))
    (hrep : Rep t (ctxPar none c)
      (.node (.node ll la ld (-1) lr) cn cd (-2) r))
    (hnd : (plug c
      (.node (.node ll la ld (-1) lr) cn cd (-2) r)).addrs.Nodup) :
    ∃ t', rebalanceAtNode t cn = .ok (t', some la, true) ∧ RepSeg t' none c (some la) ∧
      t'.root = segTop c (some la) ∧
      Rep t' (ctxPar none c)
      (.node ll la ld 0 (.node lr cn cd 0 r)) ∧
      SameThr t t' := by
  simp only [nodup_plug, nodup_node, mem_addrs_node, forall_eq_or_imp, or_imp, forall_and,
    not_or, ne_eq, forall_eq] at hnd
  have e_cn_la : cn ≠ la := by
    intro h; subst h; tauto
  have e_la_cn : la ≠ cn := by
    intro h; subst h; tauto
  have x_cn : cn ∉ ctxAddrs c := by tauto
  have x_la : la ∉ ctxAddrs c := by tauto
  have m_cn_ll : cn ∉ ll.addrs := by tauto
  have m_cn_lr : cn ∉ lr.addrs := by tauto
  have m_cn_r : cn ∉ r.addrs := by tauto
  have m_la_ll : la ∉ ll.addrs := by tauto
  have m_la_lr : la ∉ lr.addrs := by tauto
  have m_la_r : la ∉ r.addrs := by tauto
  have b_ll : ∀ x ∈ ll.addrs, x ∉ ctxAddrs c := by tauto
  have b_lr : ∀ x ∈ lr.addrs, x ∉ ctxAddrs c := by tauto
  have b_r : ∀ x ∈ r.addrs, x ∉ ctxAddrs c := by tauto
  have oc_lr : optNotMem lr.rootPtr (ctxAddrs c) := optNotMem_rootPtr b_lr
  have oo_lr_ll : optNotMem lr.rootPtr ll.addrs := optNotMem_rootPtr (by aesop)
  have oo_lr_r : optNotMem lr.rootPtr r.addrs := optNotMem_rootPtr (by aesop)
  have on_lr_cn : lr.rootPtr ≠ some cn := rootPtr_ne m_cn_lr
  have on_lr_la : lr.rootPtr ≠ some la := rootPtr_ne m_la_lr
  have nd_lr : lr.addrs.Nodup := by tauto
  have ndc : (ctxAddrs c).Nodup := hnd.1
  clear hnd
  obtain ⟨⟨nc, hnc, hc1, hc2, hc3, hc4, hc5⟩, ⟨⟨nl, hnl, hl1, hl2, hl3, hl4, hl5⟩, hll, hlr⟩, hr⟩ :=
    hrep
  simp only [rootPtr_node] at hc3 hc4 hl3 hl4
  obtain ⟨t1, hrel, hseg1, hroot1, hfr, hsame1⟩ :=
    @relink_spec _ (t.setP la nc.p) _ cn cn la
      (RepSeg_upd _ x_la hseg) hroot
      ⟨nc, by rw [Tree.setP, node_upd_ne _ _ e_la_cn]; exact hnc, hc5⟩ ndc x_cn
  have h1_cn : t1.node cn = .ok nc := by
    rw [hfr cn x_cn, Tree.setP, node_upd_ne _ _ e_la_cn]; exact hnc
  have h1_la : t1.node la = .ok { nl with p := nc.p } := by
    rw [hfr la x_la, Tree.setP, node_upd_same, hnl]; rfl
  have r_ll : Rep t1 (some la) ll :=
    Rep_of_node_eq (fun a ha => hfr a (b_ll a ha)) (Rep_upd _ m_la_ll hll)
  have r_lr : Rep t1 (some la) lr :=
    Rep_of_node_eq (fun a ha => hfr a (b_lr a ha)) (Rep_upd _ m_la_lr hlr)
  have r_r : Rep t1 (some cn) r :=
    Rep_of_node_eq (fun a ha => hfr a (b_r a ha)) (Rep_upd _ m_la_r hr)
  refine ⟨((((((t1).setBalance la 0).setP cn (some la)).setR la (some cn)).setL cn lr.rootPtr).setPOpt lr.rootPtr cn).setBalance cn 0,
    ?_, ?_, ?_, ?_, ?_⟩
  · simp only [rebalanceAtNode, hnc, hnl, bind_ok, deref_some, if_true, if_false, hrel, map_ok,
      pure_eq_ok, ite_setBalance, hc2, hc3, hc4, hl2, hl3, hl4, node_setL, node_setR,
      node_setP, node_setBalance, node_setPOpt_ne, h1_cn, h1_la, e_cn_la, e_la_cn, on_lr_cn,
      on_lr_la, ne_eq, not_false_eq_true, reduceCtorEq, Int.reduceNeg, Int.reduceEq]
  · simp only [Tree.setBalance, Tree.setP, Tree.setL, Tree.setR, RepSeg_upd_iff, RepSeg_setPOpt_iff,
      not_false_eq_true, x_cn, x_la, oc_lr]
    exact hseg1
  · simp only [Tree.setBalance, Tree.setP, Tree.setL, Tree.setR, upd_root, setPOpt_root]
    exact hroot1
  · simp only [Rep]
    refine ⟨?_, ?_, ?_, ?_, ?_⟩
    · simp only [NodeIs, node_setL, node_setR, node_setP, node_setBalance, node_setPOpt_ne, h1_cn,
        h1_la, e_cn_la, e_la_cn, on_lr_cn, on_lr_la, hc1, hc3, hc4, hc5, hl1, hl3, hl4, hl5,
        map_ok, Except.ok.injEq, exists_eq_left', and_self, and_true, true_and, if_true,
        if_false, ne_eq, not_false_eq_true, rootPtr_node]
    · simp only [Tree.setBalance, Tree.setP, Tree.setL, Tree.setR, Rep_upd_iff, Rep_setPOpt_iff,
        not_false_eq_true, m_cn_ll, m_la_ll, oo_lr_ll]
      exact r_ll
    · simp only [NodeIs, node_setL, node_setR, node_setP, node_setBalance, node_setPOpt_ne, h1_cn,
        h1_la, e_cn_la, e_la_cn, on_lr_cn, on_lr_la, hc1, hc3, hc4, hc5, hl1, hl3, hl4, hl5,
        map_ok, Except.ok.injEq, exists_eq_left', and_self, and_true, true_and, if_true,
        if_false, ne_eq, not_false_eq_true, rootPtr_node]
    · simp only [Tree.setBalance, Tree.setP, Tree.setL, Tree.setR, Rep_upd_iff, Rep_setPOpt_iff,
        not_false_eq_true, m_cn_lr, m_la_lr, Rep_setPOpt_self nd_lr]
      exact ⟨_, r_lr⟩
    · simp only [Tree.setBalance, Tree.setP, Tree.setL, Tree.setR, Rep_upd_iff, Rep_setPOpt_iff,
        not_false_eq_true, m_cn_r, m_la_r, oo_lr_r]
      exact r_r
  · refine ⟨?_, ?_, ?_, ?_, fun a => ?_, fun a => ?_⟩
    · simp [Tree.setBalance, Tree.setP, Tree.setL, Tree.setR, hsame1.head]
    · simp [Tree.setBalance, Tree.setP, Tree.setL, Tree.setR, hsame1.tail]
    · simp [Tree.setBalance, Tree.setP, Tree.setL, Tree.setR, hsame1.size]
    · simp [hsame1.len, Tree.setBalance, Tree.setP, Tree.setL, Tree.setR]
    · simp [hsame1.tv]
    · simp [hsame1.dv]

set_option maxHeartbeats 1000000 in
theorem reb_L0 {t : Tree α} {c : List (Frame α)} {ll lr r : ATree α} {cn la : Nat}
    {cd ld : α}
    (hseg : RepSeg t none c (some cn)) (hroot : t.root = segTop c (some cn))
    (hrep : Rep t (ctxPar none c)
      (.node (.node ll la ld 0 lr) cn cd (-2) r))
    (hnd : (plug c
      (.node (.node ll la ld 0 lr) cn cd (-2) r)).addrs.Nodup) :
    ∃ t', rebalanceAtNode t cn = .ok (t', some la, false) ∧ RepSeg t' none c (some la) ∧
      t'.root = segTop c (some la) ∧
      Rep t' (ctxPar none c)
      (.node ll la ld 1 (.node lr cn cd (-1) r)) ∧
      SameThr t t' := by
  simp only [nodup_plug, nodup_node, mem_addrs_node, forall_eq_or_imp, or_imp, forall_and,
    not_or, ne_eq, forall_eq] at hnd
  have e_cn_la : cn ≠ la := by
    intro h; subst h; tauto
  have e_la_cn : la ≠ cn := by
    intro h; subst h; tauto
  have x_cn : cn ∉ ctxAddrs c := by tauto
  have x_la : la ∉ ctxAddrs c := by tauto
  have m_cn_ll : cn ∉ ll.addrs := by tauto
  have m_cn_lr : cn ∉ lr.addrs := by tauto
  have m_cn_r : cn ∉ r.addrs := by tauto
  have m_la_ll : la ∉ ll.addrs := by tauto
  have m_la_lr : la ∉ lr.addrs := by tauto
  have m_la_r : la ∉ r.addrs := by tauto
  have b_ll : ∀ x ∈ ll.addrs, x ∉ ctxAddrs c := by tauto
  have b_lr : ∀ x ∈ lr.addrs, x ∉ ctxAddrs c := by tauto
  have b_r : ∀ x ∈ r.addrs, x ∉ ctxAddrs c := by tauto
  have oc_lr : optNotMem lr.rootPtr (ctxAddrs c) := optNotMem_rootPtr b_lr
  have oo_lr_ll : optNotMem lr.rootPtr ll.addrs := optNotMem_rootPtr (by aesop)
  have oo_lr_r : optNotMem lr.rootPtr r.addrs := optNotMem_rootPtr (by aesop)
  have on_lr_cn : lr.rootPtr ≠ some cn := rootPtr_ne m_cn_lr
  have on_lr_la : lr.rootPtr ≠ some la := rootPtr_ne m_la_lr
  have nd_lr : lr.addrs.Nodup := by tauto
  have ndc : (ctxAddrs c).Nodup := hnd.1
  clear hnd
  obtain ⟨⟨nc, hnc, hc1, hc2, hc3, hc4, hc5⟩, ⟨⟨nl, hnl, hl1, hl2, hl3, hl4, hl5⟩, hll, hlr⟩, hr⟩ :=
    hrep
  simp only [rootPtr_node] at hc3 hc4 hl3 hl4
  obtain ⟨t1, hrel, hseg1, hroot1, hfr, hsame1⟩ :=
    @relink_spec _ (t.setP la nc.p) _ cn cn la
      (RepSeg_upd _ x_la hseg) hroot
      ⟨nc, by rw [Tree.setP, node_upd_ne _ _ e_la_cn]; exact hnc, hc5⟩ ndc x_cn
  have h1_cn : t1.node cn = .ok nc := by
    rw [hfr cn x_cn, Tree.setP, node_upd_ne _ _ e_la_cn]; exact hnc
  have h1_la : t1.node la = .ok { nl with p := nc.p } := by
    rw [hfr la x_la, Tree.setP, node_upd_same, hnl]; rfl
  have r_ll : Rep t1 (some la) ll :=
    Rep_of_node_eq (fun a ha => hfr a (b_ll a ha)) (Rep_upd _ m_la_ll hll)
  have r_lr : Rep t1 (some la) lr :=
    Rep_of_node_eq (fun a ha => hfr a (b_lr a ha)) (Rep_upd _ m_la_lr hlr)
  have r_r : Rep t1 (some cn) r :=
    Rep_of_node_eq (fun a ha => hfr a (b_r a ha)) (Rep_upd _ m_la_r hr)
  refine ⟨((((((t1).setBalance la 1).setL cn lr.rootPtr).setPOpt lr.rootPtr cn).setBalance cn (-1)).setR la (some cn)).setP cn (some la),
    ?_, ?_, ?_, ?_, ?_⟩
  · simp only [rebalanceAtNode, hnc, hnl, bind_ok, deref_some, if_true, if_false, hrel, map_ok,
      pure_eq_ok, ite_setBalance, hc2, hc3, hc4, hl2, hl3, hl4, node_setL, node_setR,
      node_setP, node_setBalance, node_setPOpt_ne, h1_cn, h1_la, e_cn_la, e_la_cn, on_lr_cn,
      on_lr_la, ne_eq, not_false_eq_true, reduceCtorEq, Int.reduceNeg, Int.reduceEq]
  · simp only [Tree.setBalance, Tree.setP, Tree.setL, Tree.setR, RepSeg_upd_iff, RepSeg_setPOpt_iff,
      not_false_eq_true, x_cn, x_la, oc_lr]
    exact hseg1
  · simp only [Tree.setBalance, Tree.setP, Tree.setL, Tree.setR, upd_root, setPOpt_root]
    exact hroot1
  · simp only [Rep]
    refine ⟨?_, ?_, ?_, ?_, ?_⟩
    · simp only [NodeIs, node_setL, node_setR, node_setP, node_setBalance, node_setPOpt_ne, h1_cn,
        h1_la, e_cn_la, e_la_cn, on_lr_cn, on_lr_la, hc1, hc3, hc4, hc5, hl1, hl3, hl4, hl5,
        map_ok, Except.ok.injEq, exists_eq_left', and_self, and_true, true_and, if_true,
        if_false, ne_eq, not_false_eq_true, rootPtr_node]
    · simp only [Tree.setBalance, Tree.setP, Tree.setL, Tree.setR, Rep_upd_iff, Rep_setPOpt_iff,
        not_false_eq_true, m_cn_ll, m_la_ll, oo_lr_ll]
      exact r_ll
    · simp only [NodeIs, node_setL, node_setR, node_setP, node_setBalance, node_setPOpt_ne, h1_cn,
        h1_la, e_cn_la, e_la_cn, on_lr_cn, on_lr_la, hc1, hc3, hc4, hc5, hl1, hl3, hl4, hl5,
        map_ok, Except.ok.injEq, exists_eq_left', and_self, and_true, true_and, if_true,
        if_false, ne_eq, not_false_eq_true, rootPtr_node]
    · simp only [Tree.setBalance, Tree.setP, Tree.setL, Tree.setR, Rep_upd_iff, Rep_setPOpt_iff,
        not_false_eq_true, m_cn_lr, m_la_lr, Rep_setPOpt_self nd_lr]
      exact ⟨_, r_lr⟩
    · simp only [Tree.setBalance, Tree.setP, Tree.setL, Tree.setR, Rep_upd_iff, Rep_setPOpt_iff,
        not_false_eq_true, m_cn_r, m_la_r, oo_lr_r]
      exact r_r
  · refine ⟨?_, ?_, ?_, ?_, fun a => ?_, fun a => ?_⟩
    · simp [Tree.setBalance, Tree.setP, Tree.setL, Tree.setR, hsame1.head]
    · simp [Tree.setBalance, Tree.setP, Tree.setL, Tree.setR, hsame1.tail]
    · simp [Tree.setBalance, Tree.setP, Tree.setL, Tree.setR, hsame1.size]
    · simp [hsame1.len, Tree.setBalance, Tree.setP, Tree.setL, Tree.setR]
    · simp [hsame1.tv]
    · simp [hsame1.dv]

set_option maxHeartbeats 1000000 in
theorem reb_LR {t : Tree α} {c : List (Frame α)} {ll lrl lrr r : ATree α} {cn la lra : Nat}
    {cd ld lrd : α} {lrb : Int}
    (hseg : RepSeg t none c (some cn)) (hroot : t.root = segTop c (some cn))
    (hrep : Rep t (ctxPar none c)
      (.node (.node ll la ld 1 (.node lrl lra lrd lrb lrr)) cn cd (-2) r))
    (hnd : (plug c
      (.node (.node ll la ld 1 (.node lrl lra lrd lrb lrr)) cn cd (-2) r)).addrs.Nodup) :
    ∃ t', rebalanceAtNode t cn = .ok (t', some lra, true) ∧ RepSeg t' none c (some lra) ∧
      t'.root = segTop c (some lra) ∧
      Rep t' (ctxPar none c)
      (.node (.node ll la ld (if lrb = 1 then -1 else 0) lrl) lra lrd 0
        (.node lrr cn cd (if lrb = -1 then 1 else 0) r)) ∧
      SameThr t t' := by
  simp only [nodup_plug, nodup_node, mem_addrs_node, forall_eq_or_imp, or_imp, forall_and,
    not_or, ne_eq, forall_eq] at hnd
  have e_cn_la : cn ≠ la := by
    intro h; subst h; tauto
  have e_cn_lra : cn ≠ lra := by
    intro h; subst h; tauto
  have e_la_cn : la ≠ cn := by
    intro h; subst h; tauto
  have e_la_lra : la ≠ lra := by
    intro h; subst h; tauto
  have e_lra_cn : lra ≠ cn := by
    intro h; subst h; tauto
  have e_lra_la : lra ≠ la := by
    intro h; subst h; tauto
  have x_cn : cn ∉ ctxAddrs c := by tauto
  have x_la : la ∉ ctxAddrs c := by tauto
  have x_lra : lra ∉ ctxAddrs c := by tauto
  have m_cn_ll : cn ∉ ll.addrs := by tauto
  have m_cn_lrl : cn ∉ lrl.addrs := by tauto
  have m_cn_lrr : cn ∉ lrr.addrs := by tauto
  have m_cn_r : cn ∉ r.addrs := by tauto
  have m_la_ll : la ∉ ll.addrs := by tauto
  have m_la_lrl : la ∉ lrl.addrs := by tauto
  have m_la_lrr : la ∉ lrr.addrs := by tauto
  have m_la_r : la ∉ r.addrs := by tauto
  have m_lra_ll : lra ∉ ll.addrs := by tauto
  have m_lra_lrl : lra ∉ lrl.addrs := by tauto
  have m_lra_lrr : lra ∉ lrr.addrs := by tauto
  have m_lra_r : lra ∉ r.addrs := by tauto
  have b_ll : ∀ x ∈ ll.addrs, x ∉ ctxAddrs c := by tauto
  have b_lrl : ∀ x ∈ lrl.addrs, x ∉ ctxAddrs c := by tauto
  have b_lrr : ∀ x ∈ lrr.addrs, x ∉ ctxAddrs c := by tauto
  have b_r : ∀ x ∈ r.addrs, x ∉ ctxAddrs c := by tauto
  have oc_lrl : optNotMem lrl.rootPtr (ctxAddrs c) := optNotMem_rootPtr b_lrl
  have oo_lrl_ll : optNotMem lrl.rootPtr ll.addrs := optNotMem_rootPtr (by aesop)
  have oo_lrl_lrr : optNotMem lrl.rootPtr lrr.addrs := optNotMem_rootPtr (by aesop)
  have oo_lrl_r : optNotMem lrl.rootPtr r.addrs := optNotMem_rootPtr (by aesop)
  have on_lrl_cn : lrl.rootPtr ≠ some cn := rootPtr_ne m_cn_lrl
  have on_lrl_la : lrl.rootPtr ≠ some la := rootPtr_ne m_la_lrl
  have on_lrl_lra : lrl.rootPtr ≠ some lra := rootPtr_ne m_lra_lrl
  have nd_lrl : lrl.addrs.Nodup := by tauto
  have oc_lrr : optNotMem lrr.rootPtr (ctxAddrs c) := optNotMem_rootPtr b_lrr
  have oo_lrr_ll : optNotMem lrr.rootPtr ll.addrs := optNotMem_rootPtr (by aesop)
  have oo_lrr_lrl : optNotMem lrr.rootPtr lrl.addrs := optNotMem_rootPtr (by aesop)
  have oo_lrr_r : optNotMem lrr.rootPtr r.addrs := optNotMem_rootPtr (by aesop)
  have on_lrr_cn : lrr.rootPtr ≠ some cn := rootPtr_ne m_cn_lrr
  have on_lrr_la : lrr.rootPtr ≠ some la := rootPtr_ne m_la_lrr
  have on_lrr_lra : lrr.rootPtr ≠ some lra := rootPtr_ne m_lra_lrr
  have nd_lrr : lrr.addrs.Nodup := by tauto
  have ndc : (ctxAddrs c).Nodup := hnd.1
  clear hnd
  obtain ⟨⟨nc, hnc, hc1, hc2, hc3, hc4, hc5⟩, ⟨⟨nl, hnl, hl1, hl2, hl3, hl4, hl5⟩, hll,
    ⟨nm, hnm, hm1, hm2, hm3, hm4, hm5⟩, hlrl, hlrr⟩, hr⟩ :=
    hrep
  simp only [rootPtr_node] at hc3 hc4 hl3 hl4 hm3 hm4
  obtain ⟨t1, hrel, hseg1, hroot1, hfr, hsame1⟩ :=
    @relink_spec _ (t.setP lra nc.p) _ cn cn lra
      (RepSeg_upd _ x_lra hseg) hroot
      ⟨nc, by rw [Tree.setP, node_upd_ne _ _ e_lra_cn]; exact hnc, hc5⟩ ndc x_cn
  have h1_cn : t1.node cn = .ok nc := by
    rw [hfr cn x_cn, Tree.setP, node_upd_ne _ _ e_lra_cn]; exact hnc
  have h1_la : t1.node la = .ok nl := by
    rw [hfr la x_la, Tree.setP, node_upd_ne _ _ e_lra_la]; exact hnl
  have h1_lra : t1.node lra = .ok { nm with p := nc.p } := by
    rw [hfr lra x_lra, Tree.setP, node_upd_same, hnm]; rfl
  have r_ll : Rep t1 (some la) ll :=
    Rep_of_node_eq (fun a ha => hfr a (b_ll a ha)) (Rep_upd _ m_lra_ll hll)
  have r_lrl : Rep t1 (some lra) lrl :=
    Rep_of_node_eq (fun a ha => hfr a (b_lrl a ha)) (Rep_upd _ m_lra_lrl hlrl)
  have r_lrr : Rep t1 (some lra) lrr :=
    Rep_of_node_eq (fun a ha => hfr a (b_lrr a ha)) (Rep_upd _ m_lra_lrr hlrr)
  have r_r : Rep t1 (some cn) r :=
    Rep_of_node_eq (fun a ha => hfr a (b_r a ha)) (Rep_upd _ m_lra_r hr)
  refine ⟨(((((((((((t1).setR la lrl.rootPtr).setPOpt lrl.rootPtr la).setBalance la (if lrb = 1 then -1 else 0)).setL cn lrr.rootPtr).setPOpt lrr.rootPtr cn).setBalance cn (if lrb = -1 then 1 else 0)).setL lra (some la)).setP la (some lra)).setR lra (some cn)).setP cn (some lra)).setBalance lra 0,
    ?_, ?_, ?_, ?_, ?_⟩
  · simp only [rebalanceAtNode, hnc, hnl, hnm, bind_ok, deref_some, if_true, if_false, hrel, map_ok,
      pure_eq_ok, ite_setBalance, hc2, hc3, hc4, hl2, hl3, hl4, hm2, hm3, hm4, node_setL,
      node_setR, node_setP, node_setBalance, node_setPOpt_ne, h1_cn, h1_la, h1_lra, e_cn_la,
      e_cn_lra, e_la_cn, e_la_lra, e_lra_cn, e_lra_la, on_lrl_cn, on_lrl_la, on_lrl_lra,
      on_lrr_cn, on_lrr_la, on_lrr_lra, ne_eq, not_false_eq_true, reduceCtorEq, Int.reduceNeg,
      Int.reduceEq]
  · simp only [Tree.setBalance, Tree.setP, Tree.setL, Tree.setR, RepSeg_upd_iff, RepSeg_setPOpt_iff,
      not_false_eq_true, x_cn, x_la, x_lra, oc_lrl, oc_lrr]
    exact hseg1
  · simp only [Tree.setBalance, Tree.setP, Tree.setL, Tree.setR, upd_root, setPOpt_root]
    exact hroot1
  · simp only [Rep]
    refine ⟨?_, ⟨?_, ?_, ?_⟩, ?_, ?_, ?_⟩
    · simp only [NodeIs, node_setL, node_setR, node_setP, node_setBalance, node_setPOpt_ne, h1_cn,
        h1_la, h1_lra, e_cn_la, e_cn_lra, e_la_cn, e_la_lra, e_lra_cn, e_lra_la, on_lrl_cn,
        on_lrl_la, on_lrl_lra, on_lrr_cn, on_lrr_la, on_lrr_lra, hc1, hc3, hc4, hc5, hl1, hl3,
        hl4, hl5, hm1, hm3, hm4, hm5, map_ok, Except.ok.injEq, exists_eq_left', and_self,
        and_true, true_and, if_true, if_false, ne_eq, not_false_eq_true, rootPtr_node]
    · simp only [NodeIs, node_setL, node_setR, node_setP, node_setBalance, node_setPOpt_ne, h1_cn,
        h1_la, h1_lra, e_cn_la, e_cn_lra, e_la_cn, e_la_lra, e_lra_cn, e_lra_la, on_lrl_cn,
        on_lrl_la, on_lrl_lra, on_lrr_cn, on_lrr_la, on_lrr_lra, hc1, hc3, hc4, hc5, hl1, hl3,
        hl4, hl5, hm1, hm3, hm4, hm5, map_ok, Except.ok.injEq, exists_eq_left', and_self,
        and_true, true_and, if_true, if_false, ne_eq, not_false_eq_true, rootPtr_node]
    · simp only [Tree.setBalance, Tree.setP, Tree.setL, Tree.setR, Rep_upd_iff, Rep_setPOpt_iff,
        not_false_eq_true, m_cn_ll, m_la_ll, m_lra_ll, oo_lrl_ll, oo_lrr_ll]
      exact r_ll
    · simp only [Tree.setBalance, Tree.setP, Tree.setL, Tree.setR, Rep_upd_iff, Rep_setPOpt_iff,
        not_false_eq_true, m_cn_lrl, m_la_lrl, m_lra_lrl, oo_lrr_lrl, Rep_setPOpt_self nd_lrl]
      exact ⟨_, r_lrl⟩
    · simp only [NodeIs, node_setL, node_setR, node_setP, node_setBalance, node_setPOpt_ne, h1_cn,
        h1_la, h1_lra, e_cn_la, e_cn_lra, e_la_cn, e_la_lra, e_lra_cn, e_lra_la, on_lrl_cn,
        on_lrl_la, on_lrl_lra, on_lrr_cn, on_lrr_la, on_lrr_lra, hc1, hc3, hc4, hc5, hl1, hl3,
        hl4, hl5, hm1, hm3, hm4, hm5, map_ok, Except.ok.injEq, exists_eq_left', and_self,
        and_true, true_and, if_true, if_false, ne_eq, not_false_eq_true, rootPtr_node]
    · simp only [Tree.setBalance, Tree.setP, Tree.setL, Tree.setR, Rep_upd_iff, Rep_setPOpt_iff,
        not_false_eq_true, m_cn_lrr, m_la_lrr, m_lra_lrr, oo_lrl_lrr, Rep_setPOpt_self nd_lrr]
      exact ⟨_, r_lrr⟩
    · simp only [Tree.setBalance, Tree.setP, Tree.setL, Tree.setR, Rep_upd_iff, Rep_setPOpt_iff,
        not_false_eq_true, m_cn_r, m_la_r, m_lra_r, oo_lrl_r, oo_lrr_r]
      exact r_r
  · refine ⟨?_, ?_, ?_, ?_, fun a => ?_, fun a => ?_⟩
    · simp [Tree.setBalance, Tree.setP, Tree.setL, Tree.setR, hsame1.head]
    · simp [Tree.setBalance, Tree.setP, Tree.setL, Tree.setR, hsame1.tail]
    · simp [Tree.setBalance, Tree.setP, Tree.setL, Tree.setR, hsame1.size]
    · simp [hsame1.len, Tree.setBalance, Tree.setP, Tree.setL, Tree.setR]
    · simp [hsame1.tv]
    · simp [hsame1.dv]

set_option maxHeartbeats 1000000 in
theorem reb_RL {t : Tree α} {c : List (Frame α)} {l rll rlr rr : ATree α} {cn ra rla : Nat}
    {cd rd rld : α} {rlb : Int}
    (hseg : RepSeg t none c (some cn)) (hroot : t.root = segTop c (some cn))
    (hrep : Rep t (ctxPar none c)
      (.node l cn cd 2 (.node (.node rll rla rld rlb rlr) ra rd (-1) rr)))
    (hnd : (plug c
      (.node l cn cd 2 (.node (.node rll rla rld rlb rlr) ra rd (-1) rr))).addrs.Nodup) :
    ∃ t', rebalanceAtNode t cn = .ok (t', some rla, true) ∧ RepSeg t' none c (some rla) ∧
      t'.root = segTop c (some rla) ∧
      Rep t' (ctxPar none c)
      (.node (.node l cn cd (if rlb = 1 then -1 else 0) rll) rla rld 0
        (.node rlr ra rd (if rlb = -1 then 1 else 0) rr)) ∧
      SameThr t t' := by
  simp only [nodup_plug, nodup_node, mem_addrs_node, forall_eq_or_imp, or_imp, forall_and,
    not_or, ne_eq, forall_eq] at hnd
  have e_cn_ra : cn ≠ ra := by
    intro h; subst h; tauto
  have e_cn_rla : cn ≠ rla := by
    intro h; subst h; tauto
  have e_ra_cn : ra ≠ cn := by
    intro h; subst h; tauto
  have e_ra_rla : ra ≠ rla := by
    intro h; subst h; tauto
  have e_rla_cn : rla ≠ cn := by
    intro h; subst h; tauto
  have e_rla_ra : rla ≠ ra := by
    intro h; subst h; tauto
  have x_cn : cn ∉ ctxAddrs c := by tauto
  have x_ra : ra ∉ ctxAddrs c := by tauto
  have x_rla : rla ∉ ctxAddrs c := by tauto
  have m_cn_l : cn ∉ l.addrs := by tauto
  have m_cn_rll : cn ∉ rll.addrs := by tauto
  have m_cn_rlr : cn ∉ rlr.addrs := by tauto
  have m_cn_rr : cn ∉ rr.addrs := by tauto
  have m_ra_l : ra ∉ l.addrs := by tauto
  have m_ra_rll : ra ∉ rll.addrs := by tauto
  have m_ra_rlr : ra ∉ rlr.addrs := by tauto
  have m_ra_rr : ra ∉ rr.addrs := by tauto
  have m_rla_l : rla ∉ l.addrs := by tauto
  have m_rla_rll : rla ∉ rll.addrs := by tauto
  have m_rla_rlr : rla ∉ rlr.addrs := by tauto
  have m_rla_rr : rla ∉ rr.addrs := by tauto
  have b_l : ∀ x ∈ l.addrs, x ∉ ctxAddrs c := by tauto
  have b_rll : ∀ x ∈ rll.addrs, x ∉ ctxAddrs c := by tauto
  have b_rlr : ∀ x ∈ rlr.addrs, x ∉ ctxAddrs c := by tauto
  have b_rr : ∀ x ∈ rr.addrs, x ∉ ctxAddrs c := by tauto
  have oc_rll : optNotMem rll.rootPtr (ctxAddrs c) := optNotMem_rootPtr b_rll
  have oo_rll_l : optNotMem rll.rootPtr l.addrs := optNotMem_rootPtr (by aesop)
  have oo_rll_rlr : optNotMem rll.rootPtr rlr.addrs := optNotMem_rootPtr (by aesop)
  have oo_rll_rr : optNotMem rll.rootPtr rr.addrs := optNotMem_rootPtr (by aesop)
  have on_rll_cn : rll.rootPtr ≠ some cn := rootPtr_ne m_cn_rll
  have on_rll_ra : rll.rootPtr ≠ some ra := rootPtr_ne m_ra_rll
  have on_rll_rla : rll.rootPtr ≠ some rla := rootPtr_ne m_rla_rll
  have nd_rll : rll.addrs.Nodup := by tauto
  have oc_rlr : optNotMem rlr.rootPtr (ctxAddrs c) := optNotMem_rootPtr b_rlr
  have oo_rlr_l : optNotMem rlr.rootPtr l.addrs := optNotMem_rootPtr (by aesop)
  have oo_rlr_rll : optNotMem rlr.rootPtr rll.addrs := optNotMem_rootPtr (by aesop)
  have oo_rlr_rr : optNotMem rlr.rootPtr rr.addrs := optNotMem_rootPtr (by aesop)
  have on_rlr_cn : rlr.rootPtr ≠ some cn := rootPtr_ne m_cn_rlr
  have on_rlr_ra : rlr.rootPtr ≠ some ra := rootPtr_ne m_ra_rlr
  have on_rlr_rla : rlr.rootPtr ≠ some rla := rootPtr_ne m_rla_rlr
  have nd_rlr : rlr.addrs.Nodup := by tauto
  have ndc : (ctxAddrs c).Nodup := hnd.1
  clear hnd
  obtain ⟨⟨nc, hnc, hc1, hc2, hc3, hc4, hc5⟩, hl, ⟨nl, hnl, hl1, hl2, hl3, hl4, hl5⟩,
    ⟨⟨nm, hnm, hm1, hm2, hm3, hm4, hm5⟩, hrll, hrlr⟩, hrr⟩ :=
    hrep
  simp only [rootPtr_node] at hc3 hc4 hl3 hl4 hm3 hm4
  obtain ⟨t1, hrel, hseg1, hroot1, hfr, hsame1⟩ :=
    @relink_spec _ (t.setP rla nc.p) _ cn cn rla
      (RepSeg_upd _ x_rla hseg) hroot
      ⟨nc, by rw [Tree.setP, node_upd_ne _ _ e_rla_cn]; exact hnc, hc5⟩ ndc x_cn
  have h1_cn : t1.node cn = .ok nc := by
    rw [hfr cn x_cn, Tree.setP, node_upd_ne _ _ e_rla_cn]; exact hnc
  have h1_ra : t1.node ra = .ok nl := by
    rw [hfr ra x_ra, Tree.setP, node_upd_ne _ _ e_rla_ra]; exact hnl
  have h1_rla : t1.node rla = .ok { nm with p := nc.p } := by
    rw [hfr rla x_rla, Tree.setP, node_upd_same, hnm]; rfl
  have r_l : Rep t1 (some cn) l :=
    Rep_of_node_eq (fun a ha => hfr a (b_l a ha)) (Rep_upd _ m_rla_l hl)
  have r_rll : Rep t1 (some rla) rll :=
    Rep_of_node_eq (fun a ha => hfr a (b_rll a ha)) (Rep_upd _ m_rla_rll hrll)
  have r_rlr : Rep t1 (some rla) rlr :=
    Rep_of_node_eq (fun a ha => hfr a (b_rlr a ha)) (Rep_upd _ m_rla_rlr hrlr)
  have r_rr : Rep t1 (some ra) rr :=
    Rep_of_node_eq (fun a ha => hfr a (b_rr a ha)) (Rep_upd _ m_rla_rr hrr)
  refine ⟨(((((((((((t1).setR cn rll.rootPtr).setPOpt rll.rootPtr cn).setBalance cn (if rlb = 1 then -1 else 0)).setL ra rlr.rootPtr).setPOpt rlr.rootPtr ra).setBalance ra (if rlb = -1 then 1 else 0)).setP cn (some rla)).setL rla (some cn)).setP ra (some rla)).setR rla (some ra)).setBalance rla 0,
    ?_, ?_, ?_, ?_, ?_⟩
  · simp only [rebalanceAtNode, hnc, hnl, hnm, bind_ok, deref_some, if_true, if_false, hrel, map_ok,
      pure_eq_ok, ite_setBalance, hc2, hc3, hc4, hl2, hl3, hl4, hm2, hm3, hm4, node_setL,
      node_setR, node_setP, node_setBalance, node_setPOpt_ne, h1_cn, h1_ra, h1_rla, e_cn_ra,
      e_cn_rla, e_ra_cn, e_ra_rla, e_rla_cn, e_rla_ra, on_rll_cn, on_rll_ra, on_rll_rla,
      on_rlr_cn, on_rlr_ra, on_rlr_rla, ne_eq, not_false_eq_true, reduceCtorEq, Int.reduceNeg,
      Int.reduceEq]
  · simp only [Tree.setBalance, Tree.setP, Tree.setL, Tree.setR, RepSeg_upd_iff, RepSeg_setPOpt_iff,
      not_false_eq_true, x_cn, x_ra, x_rla, oc_rll, oc_rlr]
    exact hseg1
  · simp only [Tree.setBalance, Tree.setP, Tree.setL, Tree.setR, upd_root, setPOpt_root]
    exact hroot1
  · simp only [Rep]
    refine ⟨?_, ⟨?_, ?_, ?_⟩, ?_, ?_, ?_⟩
    · simp only [NodeIs, node_setL, node_setR, node_setP, node_setBalance, node_setPOpt_ne, h1_cn,
        h1_ra, h1_rla, e_cn_ra, e_cn_rla, e_ra_cn, e_ra_rla, e_rla_cn, e_rla_ra, on_rll_cn,
        on_rll_ra, on_rll_rla, on_rlr_cn, on_rlr_ra, on_rlr_rla, hc1, hc3, hc4, hc5, hl1, hl3,
        hl4, hl5, hm1, hm3, hm4, hm5, map_ok, Except.ok.injEq, exists_eq_left', and_self,
        and_true, true_and, if_true, if_false, ne_eq, not_false_eq_true, rootPtr_node]
    · simp only [NodeIs, node_setL, node_setR, node_setP, node_setBalance, node_setPOpt_ne, h1_cn,
        h1_ra, h1_rla, e_cn_ra, e_cn_rla, e_ra_cn, e_ra_rla, e_rla_cn, e_rla_ra, on_rll_cn,
        on_rll_ra, on_rll_rla, on_rlr_cn, on_rlr_ra, on_rlr_rla, hc1, hc3, hc4, hc5, hl1, hl3,
        hl4, hl5, hm1, hm3, hm4, hm5, map_ok, Except.ok.injEq, exists_eq_left', and_self,
        and_true, true_and, if_true, if_false, ne_eq, not_false_eq_true, rootPtr_node]
    · simp only [Tree.setBalance, Tree.setP, Tree.setL, Tree.setR, Rep_upd_iff, Rep_setPOpt_iff,
        not_false_eq_true, m_cn_l, m_ra_l, m_rla_l, oo_rll_l, oo_rlr_l]
      exact r_l
    · simp only [Tree.setBalance, Tree.setP, Tree.setL, Tree.setR, Rep_upd_iff, Rep_setPOpt_iff,
        not_false_eq_true, m_cn_rll, m_ra_rll, m_rla_rll, oo_rlr_rll, Rep_setPOpt_self nd_rll]
      exact ⟨_, r_rll⟩
    · simp only [NodeIs, node_setL, node_setR, node_setP, node_setBalance, node_setPOpt_ne, h1_cn,
        h1_ra, h1_rla, e_cn_ra, e_cn_rla, e_ra_cn, e_ra_rla, e_rla_cn, e_rla_ra, on_rll_cn,
        on_rll_ra, on_rll_rla, on_rlr_cn, on_rlr_ra, on_rlr_rla, hc1, hc3, hc4, hc5, hl1, hl3,
        hl4, hl5, hm1, hm3, hm4, hm5, map_ok, Except.ok.injEq, exists_eq_left', and_self,
        and_true, true_and, if_true, if_false, ne_eq, not_false_eq_true, rootPtr_node]
    · simp only [Tree.setBalance, Tree.setP, Tree.setL, Tree.setR, Rep_upd_iff, Rep_setPOpt_iff,
        not_false_eq_true, m_cn_rlr, m_ra_rlr, m_rla_rlr, oo_rll_rlr, Rep_setPOpt_self nd_rlr]
      exact ⟨_, r_rlr⟩
    · simp only [Tree.setBalance, Tree.setP, Tree.setL, Tree.setR, Rep_upd_iff, Rep_setPOpt_iff,
        not_false_eq_true, m_cn_rr, m_ra_rr, m_rla_rr, oo_rll_rr, oo_rlr_rr]
      exact r_rr
  · refine ⟨?_, ?_, ?_, ?_, fun a => ?_, fun a => ?_⟩
    · simp [Tree.setBalance, Tree.setP, Tree.setL, Tree.setR, hsame1.head]
    · simp [Tree.setBalance, Tree.setP, Tree.setL, Tree.setR, hsame1.tail]
    · simp [Tree.setBalance, Tree.setP, Tree.setL, Tree.setR, hsame1.size]
    · simp [hsame1.len, Tree.setBalance, Tree.setP, Tree.setL, Tree.setR]
    · simp [hsame1.tv]
    · simp [hsame1.dv]

set_option maxHeartbeats 1000000 in
theorem reb_R0 {t : Tree α} {c : List (Frame α)} {l rl rr : ATree α} {cn ra : Nat}
    {cd rd : α}
    (hseg : RepSeg t none c (some cn)) (hroot : t.root = segTop c (some cn))
    (hrep : Rep t (ctxPar none c)
      (.node l cn cd 2 (.node rl ra rd 0 rr)))
    (hnd : (plug c
      (.node l cn cd 2 (.node rl ra rd 0 rr))).addrs.Nodup) :
    ∃ t', rebalanceAtNode t cn = .ok (t', some ra, false) ∧ RepSeg t' none c (some ra) ∧
      t'.root = segTop c (some ra) ∧
      Rep t' (ctxPar none c)
      (.node (.node l cn cd 1 rl) ra rd (-1) rr) ∧
      SameThr t t' := by
  simp only [nodup_plug, nodup_node, mem_addrs_node, forall_eq_or_imp, or_imp, forall_and,
    not_or, ne_eq, forall_eq] at hnd
  have e_cn_ra : cn ≠ ra := by
    intro h; subst h; tauto
  have e_ra_cn : ra ≠ cn := by
    intro h; subst h; tauto
  have x_cn : cn ∉ ctxAddrs c := by tauto
  have x_ra : ra ∉ ctxAddrs c := by tauto
  have m_cn_l : cn ∉ l.addrs := by tauto
  have m_cn_rl : cn ∉ rl.addrs := by tauto
  have m_cn_rr : cn ∉ rr.addrs := by tauto
  have m_ra_l : ra ∉ l.addrs := by tauto
  have m_ra_rl : ra ∉ rl.addrs := by tauto
  have m_ra_rr : ra ∉ rr.addrs := by tauto
  have b_l : ∀ x ∈ l.addrs, x ∉ ctxAddrs c := by tauto
  have b_rl : ∀ x ∈ rl.addrs, x ∉ ctxAddrs c := by tauto
  have b_rr : ∀ x ∈ rr.addrs, x ∉ ctxAddrs c := by tauto
  have oc_rl : optNotMem rl.rootPtr (ctxAddrs c) := optNotMem_rootPtr b_rl
  have oo_rl_l : optNotMem rl.rootPtr l.addrs := optNotMem_rootPtr (by aesop)
  have oo_rl_rr : optNotMem rl.rootPtr rr.addrs := optNotMem_rootPtr (by aesop)
  have on_rl_cn : rl.rootPtr ≠ some cn := rootPtr_ne m_cn_rl
  have on_rl_ra : rl.rootPtr ≠ some ra := rootPtr_ne m_ra_rl
  have nd_rl : rl.addrs.Nodup := by tauto
  have ndc : (ctxAddrs c).Nodup := hnd.1
  clear hnd
  obtain ⟨⟨nc, hnc, hc1, hc2, hc3, hc4, hc5⟩, hl, ⟨nl, hnl, hl1, hl2, hl3, hl4, hl5⟩, hrl, hrr⟩ :=
    hrep
  simp only [rootPtr_node] at hc3 hc4 hl3 hl4
  obtain ⟨t1, hrel, hseg1, hroot1, hfr, hsame1⟩ :=
    @relink_spec _ (t.setP ra nc.p) _ cn cn ra
      (RepSeg_upd _ x_ra hseg) hroot
      ⟨nc, by rw [Tree.setP, node_upd_ne _ _ e_ra_cn]; exact hnc, hc5⟩ ndc x_cn
  have h1_cn : t1.node cn = .ok nc := by
    rw [hfr cn x_cn, Tree.setP, node_upd_ne _ _ e_ra_cn]; exact hnc
  have h1_ra : t1.node ra = .ok { nl with p := nc.p } := by
    rw [hfr ra x_ra, Tree.setP, node_upd_same, hnl]; rfl
  have r_l : Rep t1 (some cn) l :=
    Rep_of_node_eq (fun a ha => hfr a (b_l a ha)) (Rep_upd _ m_ra_l hl)
  have r_rl : Rep t1 (some ra) rl :=
    Rep_of_node_eq (fun a ha => hfr a (b_rl a ha)) (Rep_upd _ m_ra_rl hrl)
  have r_rr : Rep t1 (some ra) rr :=
    Rep_of_node_eq (fun a ha => hfr a (b_rr a ha)) (Rep_upd _ m_ra_rr hrr)
  refine ⟨((((((t1).setBalance ra (-1)).setR cn rl.rootPtr).setPOpt rl.rootPtr cn).setP cn (some ra)).setL ra (some cn)).setBalance cn 1,
    ?_, ?_, ?_, ?_, ?_⟩
  · simp only [rebalanceAtNode, hnc, hnl, bind_ok, deref_some, if_true, if_false, hrel, map_ok,
      pure_eq_ok, ite_setBalance, hc2, hc3, hc4, hl2, hl3, hl4, node_setL, node_setR,
      node_setP, node_setBalance, node_setPOpt_ne, h1_cn, h1_ra, e_cn_ra, e_ra_cn, on_rl_cn,
      on_rl_ra, ne_eq, not_false_eq_true, reduceCtorEq, Int.reduceNeg, Int.reduceEq]
  · simp only [Tree.setBalance, Tree.setP, Tree.setL, Tree.setR, RepSeg_upd_iff, RepSeg_setPOpt_iff,
      not_false_eq_true, x_cn, x_ra, oc_rl]
    exact hseg1
  · simp only [Tree.setBalance, Tree.setP, Tree.setL, Tree.setR, upd_root, setPOpt_root]
    exact hroot1
  · simp only [Rep]
    refine ⟨?_, ⟨?_, ?_, ?_⟩, ?_⟩
    · simp only [NodeIs, node_setL, node_setR, node_setP, node_setBalance, node_setPOpt_ne, h1_cn,
        h1_ra, e_cn_ra, e_ra_cn, on_rl_cn, on_rl_ra, hc1, hc3, hc4, hc5, hl1, hl3, hl4, hl5,
        map_ok, Except.ok.injEq, exists_eq_left', and_self, and_true, true_and, if_true,
        if_false, ne_eq, not_false_eq_true, rootPtr_node]
    · simp only [NodeIs, node_setL, node_setR, node_setP, node_setBalance, node_setPOpt_ne, h1_cn,
        h1_ra, e_cn_ra, e_ra_cn, on_rl_cn, on_rl_ra, hc1, hc3, hc4, hc5, hl1, hl3, hl4, hl5,
        map_ok, Except.ok.injEq, exists_eq_left', and_self, and_true, true_and, if_true,
        if_false, ne_eq, not_false_eq_true, rootPtr_node]
    · simp only [Tree.setBalance, Tree.setP, Tree.setL, Tree.setR, Rep_upd_iff, Rep_setPOpt_iff,
        not_false_eq_true, m_cn_l, m_ra_l, oo_rl_l]
      exact r_l
    · simp only [Tree.setBalance, Tree.setP, Tree.setL, Tree.setR, Rep_upd_iff, Rep_setPOpt_iff,
        not_false_eq_true, m_cn_rl, m_ra_rl, Rep_setPOpt_self nd_rl]
      exact ⟨_, r_rl⟩
    · simp only [Tree.setBalance, Tree.setP, Tree.setL, Tree.setR, Rep_upd_iff, Rep_setPOpt_iff,
        not_false_eq_true, m_cn_rr, m_ra_rr, oo_rl_rr]
      exact r_rr
  · refine ⟨?_, ?_, ?_, ?_, fun a => ?_, fun a => ?_⟩
    · simp [Tree.setBalance, Tree.setP, Tree.setL, Tree.setR, hsame1.head]
    · simp [Tree.setBalance, Tree.setP, Tree.setL, Tree.setR, hsame1.tail]
    · simp [Tree.setBalance, Tree.setP, Tree.setL, Tree.setR, hsame1.size]
    · simp [hsame1.len, Tree.setBalance, Tree.setP, Tree.setL, Tree.setR]
    · simp [hsame1.tv]
    · simp [hsame1.dv]

set_option maxHeartbeats 1000000 in
theorem reb_RR {t : Tree α} {c : List (Frame α)} {l rl rr : ATree α} {cn ra : Nat}
    {cd rd : α}
    (hseg : RepSeg t none c (some cn)) (hroot : t.root = segTop c (some cn))
    (hrep : Rep t (ctxPar none c)
      (.node l cn cd 2 (.node rl ra rd 1 rr)))
    (hnd : (plug c
      (.node l cn cd 2 (.node rl ra rd 1 rr))).addrs.Nodup) :
    ∃ t', rebalanceAtNode t cn = .ok (t', some ra, true) ∧ RepSeg t' none c (some ra) ∧
      t'.root = segTop c (some ra) ∧
      Rep t' (ctxPar none c)
      (.node (.node l cn cd 0 rl) ra rd 0 rr) ∧
      SameThr t t' := by
  simp only [nodup_plug, nodup_node, mem_addrs_node, forall_eq_or_imp, or_imp, forall_and,
    not_or, ne_eq, forall_eq] at hnd
  have e_cn_ra : cn ≠ ra := by
    intro h; subst h; tauto
  have e_ra_cn : ra ≠ cn := by
    intro h; subst h; tauto
  have x_cn : cn ∉ ctxAddrs c := by tauto
  have x_ra : ra ∉ ctxAddrs c := by tauto
  have m_cn_l : cn ∉ l.addrs := by tauto
  have m_cn_rl : cn ∉ rl.addrs := by tauto
  have m_cn_rr : cn ∉ rr.addrs := by tauto
  have m_ra_l : ra ∉ l.addrs := by tauto
  have m_ra_rl : ra ∉ rl.addrs := by tauto
  have m_ra_rr : ra ∉ rr.addrs := by tauto
  have b_l : ∀ x ∈ l.addrs, x ∉ ctxAddrs c := by tauto
  have b_rl : ∀ x ∈ rl.addrs, x ∉ ctxAddrs c := by tauto
  have b_rr : ∀ x ∈ rr.addrs, x ∉ ctxAddrs c := by tauto
  have oc_rl : optNotMem rl.rootPtr (ctxAddrs c) := optNotMem_rootPtr b_rl
  have oo_rl_l : optNotMem rl.rootPtr l.addrs := optNotMem_rootPtr (by aesop)
  have oo_rl_rr : optNotMem rl.rootPtr rr.addrs := optNotMem_rootPtr (by aesop)
  have on_rl_cn : rl.rootPtr ≠ some cn := rootPtr_ne m_cn_rl
  have on_rl_ra : rl.rootPtr ≠ some ra := rootPtr_ne m_ra_rl
  have nd_rl : rl.addrs.Nodup := by tauto
  have ndc : (ctxAddrs c).Nodup := hnd.1
  clear hnd
  obtain ⟨⟨nc, hnc, hc1, hc2, hc3, hc4, hc5⟩, hl, ⟨nl, hnl, hl1, hl2, hl3, hl4, hl5⟩, hrl, hrr⟩ :=
    hrep
  simp only [rootPtr_node] at hc3 hc4 hl3 hl4
  obtain ⟨t1, hrel, hseg1, hroot1, hfr, hsame1⟩ :=
    @relink_spec _ (t.setP ra nc.p) _ cn cn ra
      (RepSeg_upd _ x_ra hseg) hroot
      ⟨nc, by rw [Tree.setP, node_upd_ne _ _ e_ra_cn]; exact hnc, hc5⟩ ndc x_cn
  have h1_cn : t1.node cn = .ok nc := by
    rw [hfr cn x_cn, Tree.setP, node_upd_ne _ _ e_ra_cn]; exact hnc
  have h1_ra : t1.node ra = .ok { nl with p := nc.p } := by
    rw [hfr ra x_ra, Tree.setP, node_upd_same, hnl]; rfl
  have r_l : Rep t1 (some cn) l :=
    Rep_of_node_eq (fun a ha => hfr a (b_l a ha)) (Rep_upd _ m_ra_l hl)
  have r_rl : Rep t1 (some ra) rl :=
    Rep_of_node_eq (fun a ha => hfr a (b_rl a ha)) (Rep_upd _ m_ra_rl hrl)
  have r_rr : Rep t1 (some ra) rr :=
    Rep_of_node_eq (fun a ha => hfr a (b_rr a ha)) (Rep_upd _ m_ra_rr hrr)
  refine ⟨((((((t1).setBalance ra 0).setR cn rl.rootPtr).setPOpt rl.rootPtr cn).setBalance cn 0).setP cn (some ra)).setL ra (some cn),
    ?_, ?_, ?_, ?_, ?_⟩
  · simp only [rebalanceAtNode, hnc, hnl, bind_ok, deref_some, if_true, if_false, hrel, map_ok,
      pure_eq_ok, ite_setBalance, hc2, hc3, hc4, hl2, hl3, hl4, node_setL, node_setR,
      node_setP, node_setBalance, node_setPOpt_ne, h1_cn, h1_ra, e_cn_ra, e_ra_cn, on_rl_cn,
      on_rl_ra, ne_eq, not_false_eq_true, reduceCtorEq, Int.reduceNeg, Int.reduceEq]
  · simp only [Tree.setBalance, Tree.setP, Tree.setL, Tree.setR, RepSeg_upd_iff, RepSeg_setPOpt_iff,
      not_false_eq_true, x_cn, x_ra, oc_rl]
    exact hseg1
  · simp only [Tree.setBalance, Tree.setP, Tree.setL, Tree.setR, upd_root, setPOpt_root]
    exact hroot1
  · simp only [Rep]
    refine ⟨?_, ⟨?_, ?_, ?_⟩, ?_⟩
    · simp only [NodeIs, node_setL, node_setR, node_setP, node_setBalance, node_setPOpt_ne, h1_cn,
        h1_ra, e_cn_ra, e_ra_cn, on_rl_cn, on_rl_ra, hc1, hc3, hc4, hc5, hl1, hl3, hl4, hl5,
        map_ok, Except.ok.injEq, exists_eq_left', and_self, and_true, true_and, if_true,
        if_false, ne_eq, not_false_eq_true, rootPtr_node]
    · simp only [NodeIs, node_setL, node_setR, node_setP, node_setBalance, node_setPOpt_ne, h1_cn,
        h1_ra, e_cn_ra, e_ra_cn, on_rl_cn, on_rl_ra, hc1, hc3, hc4, hc5, hl1, hl3, hl4, hl5,
        map_ok, Except.ok.injEq, exists_eq_left', and_self, and_true, true_and, if_true,
        if_false, ne_eq, not_false_eq_true, rootPtr_node]
    · simp only [Tree.setBalance, Tree.setP, Tree.setL, Tree.setR, Rep_upd_iff, Rep_setPOpt_iff,
        not_false_eq_true, m_cn_l, m_ra_l, oo_rl_l]
      exact r_l
    · simp only [Tree.setBalance, Tree.setP, Tree.setL, Tree.setR, Rep_upd_iff, Rep_setPOpt_iff,
        not_false_eq_true, m_cn_rl, m_ra_rl, Rep_setPOpt_self nd_rl]
      exact ⟨_, r_rl⟩
    · simp only [Tree.setBalance, Tree.setP, Tree.setL, Tree.setR, Rep_upd_iff, Rep_setPOpt_iff,
        not_false_eq_true, m_cn_rr, m_ra_rr, oo_rl_rr]
      exact r_rr
  · refine ⟨?_, ?_, ?_, ?_, fun a => ?_, fun a => ?_⟩
    · simp [Tree.setBalance, Tree.setP, Tree.setL, Tree.setR, hsame1.head]
    · simp [Tree.setBalance, Tree.setP, Tree.setL, Tree.setR, hsame1.tail]
    · simp [Tree.setBalance, Tree.setP, Tree.setL, Tree.setR, hsame1.size]
    · simp [hsame1.len, Tree.setBalance, Tree.setP, Tree.setL, Tree.setR]
    · simp [hsame1.tv]
    · simp [hsame1.dv]

/-- The store after `rebalanceAtNode` holds the rotated tree `rotA s` in the
place of `s`; thread links, elements, `head`, `tail` and `size` are as before. -/
theorem rebalance_spec {t : Tree α} {c : List (Frame α)} {s : ATree α} {cn : Nat}
    (hseg : RepSeg t none c (some cn)) (hroot : t.root = segTop c (some cn))
    (hrep : Rep t (ctxPar none c) s) (hnd : (plug c s).addrs.Nodup)
    (hcn : s.rootPtr = some cn) {s' : ATree α} {ch : Bool} (hrot : rotA s = some (s', ch)) :
    ∃ t', rebalanceAtNode t cn = .ok (t', s'.rootPtr, ch) ∧ RepSeg t' none c s'.rootPtr ∧
      t'.root = segTop c s'.rootPtr ∧ Rep t' (ctxPar none c) s' ∧ SameThr t t' := by
  cases s with
  | nil => simp [rotA] at hrot
  | node l a d b r =>
    simp only [rootPtr_node, Option.some.injEq] at hcn
    subst hcn
    simp only [rotA] at hrot
    split_ifs at hrot with h1 h2
    · subst h1
      cases l with
      | nil => simp at hrot
      | node ll la ld lb lr =>
        simp only at hrot
        split_ifs at hrot with h3 h4 h5
        · subst h3
          simp only [Option.some.injEq, Prod.mk.injEq] at hrot
          obtain ⟨rfl, rfl⟩ := hrot
          exact reb_LL hseg hroot hrep hnd
        · subst h4
          simp only [Option.some.injEq, Prod.mk.injEq] at hrot
          obtain ⟨rfl, rfl⟩ := hrot
          exact reb_L0 hseg hroot hrep hnd
        · subst h5
          cases lr with
          | nil => simp at hrot
          | node lrl lra lrd lrb lrr =>
            simp only [Option.some.injEq, Prod.mk.injEq] at hrot
            obtain ⟨rfl, rfl⟩ := hrot
            exact reb_LR hseg hroot hrep hnd
    · subst h2
      cases r with
      | nil => simp at hrot
      | node rl ra rd rb rr =>
        simp only at hrot
        split_ifs at hrot with h3 h4 h5
        · subst h3
          cases rl with
          | nil => simp at hrot
          | node rll rla rld rlb rlr =>
            simp only [Option.some.injEq, Prod.mk.injEq] at hrot
            obtain ⟨rfl, rfl⟩ := hrot
            exact reb_RL hseg hroot hrep hnd
        · subst h4
          simp only [Option.some.injEq, Prod.mk.injEq] at hrot
          obtain ⟨rfl, rfl⟩ := hrot
          exact reb_R0 hseg hroot hrep hnd
        · subst h5
          simp only [Option.some.injEq, Prod.mk.injEq] at hrot
          obtain ⟨rfl, rfl⟩ := hrot
          exact reb_RR hseg hroot hrep hnd

/-! ## The upward balance walks -/

theorem addrs_plug_bal (c : List (Frame α)) (l r : ATree α) (a : Nat) (d : α) (b b' : Int) :
    (plug c (.node l a d b r)).addrs = (plug c (.node l a d b' r)).addrs := by
  simp [addrs_plug, ATree.addrs]

theorem elems_plug_bal (c : List (Frame α)) (l r : ATree α) (a : Nat) (d : α) (b b' : Int) :
    (plug c (.node l a d b r)).elems = (plug c (.node l a d b' r)).elems := by
  simp [elems_plug, ATree.elems]

theorem Rep_root_node {t : Tree α} {par : Option Nat} {l r : ATree α} {a : Nat} {d : α} {b : Int}
    (h : Rep t par (.node l a d b r)) :
    ∃ n, t.node a = .ok n ∧ n.balance = b ∧ n.p = par ∧ n.data = d ∧ n.l = l.rootPtr ∧
      n.r = r.rootPtr := by
  obtain ⟨⟨n, hn, h1, h2, h3, h4, h5⟩, -, -⟩ := h
  exact ⟨n, hn, h2, h5, h1, h3, h4⟩

/-- The whole tree is held once a path and the subtree in its hole are. -/
theorem Rep_whole {t : Tree α} {c : List (Frame α)} {s : ATree α}
    (hseg : RepSeg t none c s.rootPtr) (hroot : t.root = segTop c s.rootPtr)
    (hrep : Rep t (ctxPar none c) s) :
    t.root = (plug c s).rootPtr ∧ Rep t none (plug c s) :=
  ⟨by rw [rootPtr_plug]; exact hroot, Rep_plug.mpr ⟨hseg, hrep⟩⟩

/-- One step up from a left child: the parent's record before the step, and
the store after the parent's balance factor is set. -/
theorem up_L {t : Tree α} {c : List (Frame α)} {s r : ATree α} {pa : Nat} {pd : α} {pb : Int}
    (b' : Int) (hseg : RepSeg t none (.L pa pd pb r :: c) s.rootPtr)
    (hrep : Rep t (some pa) s) (hnd : (plug (.L pa pd pb r :: c) s).addrs.Nodup) :
    (∃ n, t.node pa = .ok n ∧ n.l = s.rootPtr ∧ n.balance = pb) ∧
      RepSeg (t.setBalance pa b') none c (some pa) ∧
      Rep (t.setBalance pa b') (ctxPar none c) (.node s pa pd b' r) ∧
      (plug c (.node s pa pd b' r)).addrs.Nodup ∧ SameThr t (t.setBalance pa b') := by
  obtain ⟨⟨n, hn, h1, h2, h3, h4, h5⟩, hr, hc⟩ := hseg
  have hnd2 : (plug c (.node s pa pd b' r)).addrs.Nodup := by
    rw [addrs_plug_bal c s r pa pd b' pb]; exact hnd
  have hnd3 := hnd2
  simp only [nodup_plug, nodup_node, mem_addrs_node, forall_eq_or_imp, or_imp, forall_and, not_or,
    ne_eq, forall_eq] at hnd3
  have a1 : pa ∉ ctxAddrs c := by tauto
  have a2 : pa ∉ s.addrs := by tauto
  have a3 : pa ∉ r.addrs := by tauto
  refine ⟨⟨n, hn, h3, h2⟩, ?_, ⟨?_, ?_, ?_⟩, hnd2, SameThr.setBalance _ _ _⟩
  · exact RepSeg_upd _ a1 hc
  · exact ⟨{ n with balance := b' }, by simp [node_setBalance, hn], h1, rfl, h3, h4, h5⟩
  · exact Rep_upd _ a2 hrep
  · exact Rep_upd _ a3 hr

/-- One step up from a right child. -/
theorem up_R {t : Tree α} {c : List (Frame α)} {s l : ATree α} {pa cn : Nat} {pd : α} {pb : Int}
    (b' : Int) (hcn : s.rootPtr = some cn) (hseg : RepSeg t none (.R l pa pd pb :: c) s.rootPtr)
    (hrep : Rep t (some pa) s) (hnd : (plug (.R l pa pd pb :: c) s).addrs.Nodup) :
    (∃ n, t.node pa = .ok n ∧ n.l ≠ some cn ∧ n.balance = pb) ∧
      RepSeg (t.setBalance pa b') none c (some pa) ∧
      Rep (t.setBalance pa b') (ctxPar none c) (.node l pa pd b' s) ∧
      (plug c (.node l pa pd b' s)).addrs.Nodup ∧ SameThr t (t.setBalance pa b') := by
  obtain ⟨⟨n, hn, h1, h2, h3, h4, h5⟩, hl, hc⟩ := hseg
  have hnd2 : (plug c (.node l pa pd b' s)).addrs.Nodup := by
    rw [addrs_plug_bal c l s pa pd b' pb]; exact hnd
  have hnd3 := hnd2
  simp only [nodup_plug, nodup_node, mem_addrs_node, forall_eq_or_imp, or_imp, forall_and, not_or,
    ne_eq, forall_eq] at hnd3
  have a1 : pa ∉ ctxAddrs c := by tauto
  have a2 : pa ∉ s.addrs := by tauto
  have a3 : pa ∉ l.addrs := by tauto
  have a4 : cn ∉ l.addrs := by
    have := rootPtr_mem hcn
    intro h
    exact hnd3.2.1.2.2.2.2 cn h this
  refine ⟨⟨n, hn, ?_, h2⟩, ?_, ⟨?_, ?_, ?_⟩, hnd2, SameThr.setBalance _ _ _⟩
  · rw [h3]; exact rootPtr_ne a4
  · exact RepSeg_upd _ a1 hc
  · exact ⟨{ n with balance := b' }, by simp [node_setBalance, hn], h1, rfl, h3, h4, h5⟩
  · exact Rep_upd _ a3 hl
  · exact Rep_upd _ a2 hrep

/-- A rotation at a node with true factor -2 or 2 over balanced subtrees: the
run of `rebalanceAtNode` together with what `rotA_spec` says of the result. -/
theorem reb_full {t : Tree α} {c : List (Frame α)} {l r : ATree α} {a : Nat} {d : α} {b : Int}
    (hseg : RepSeg t none c (some a)) (hroot : t.root = segTop c (some a))
    (hrep : Rep t (ctxPar none c) (.node l a d b r))
    (hnd : (plug c (.node l a d b r)).addrs.Nodup) (hl : l.Bal) (hr : r.Bal)
    (hb : b = (r.height : Int) - (l.height : Int)) (h2 : b = -2 ∨ b = 2) :
    ∃ t' s' ch, rebalanceAtNode t a = .ok (t', s'.rootPtr, ch) ∧
      RepSeg t' none c s'.rootPtr ∧ t'.root = segTop c s'.rootPtr ∧
      Rep t' (ctxPar none c) s' ∧ SameThr t t' ∧ s'.Bal ∧
      s'.addrs = (ATree.node l a d b r).addrs ∧ s'.elems = (ATree.node l a d b r).elems ∧
      s'.rootPtr ≠ none ∧
      s'.height + (if ch then 1 else 0) = (ATree.node l a d b r).height ∧
      (ch = true → s'.rootBal = 0) ∧ (ch = false → s'.rootBal = 1 ∨ s'.rootBal = -1) ∧
      (ch = false ↔ (if b = -2 then l.rootBal else r.rootBal) = 0) := by
  obtain ⟨s', ch, hrot, h3, h4, h5, h6, h7, h8, h9, h10⟩ := rotA_spec (a := a) (d := d) hl hr hb h2
  obtain ⟨t', hx, hs, hro, hre, hsa⟩ := rebalance_spec hseg hroot hrep hnd rfl hrot
  exact ⟨t', s', ch, hx, hs, hro, hre, hsa, h3, h4, h5, h6, h7, h8, h9, h10⟩

@[simp] theorem rootBal_node (l r : ATree α) (a : Nat) (d : α) (b : Int) :
    (ATree.node l a d b r).rootBal = b := rfl

@[simp] theorem segTop_L (c : List (Frame α)) (a : Nat) (d : α) (b : Int) (r : ATree α)
    (q : Option Nat) : segTop (.L a d b r :: c) q = segTop c (some a) := rfl

@[simp] theorem segTop_R (c : List (Frame α)) (a : Nat) (d : α) (b : Int) (l : ATree α)
    (q : Option Nat) : segTop (.R l a d b :: c) q = segTop c (some a) := rfl

@[simp] theorem ctxPar_L (c : List (Frame α)) (a : Nat) (d : α) (b : Int) (r : ATree α)
    (par : Option Nat) : ctxPar par (.L a d b r :: c) = some a := rfl

@[simp] theorem ctxPar_R (c : List (Frame α)) (a : Nat) (d : α) (b : Int) (l : ATree α)
    (par : Option Nat) : ctxPar par (.R l a d b :: c) = some a := rfl

@[simp] theorem ctxPar_nil (par : Option Nat) : ctxPar par ([] : List (Frame α)) = par := rfl

/-- The walk of Insert from a node whose subtree is balanced and whose factor
tells whether the subtree has grown: it ends with a balanced tree that has the
same nodes in the same order. -/
theorem insertRebalance_spec (c : List (Frame α)) :
    ∀ (s : ATree α) (t : Tree α) (cn : Nat) (h0 fuel : Nat),
      s.rootPtr = some cn → s.Bal → CtxBal c h0 →
      (s.rootBal = 0 → s.height = h0) → (s.rootBal ≠ 0 → s.height = h0 + 1) →
      RepSeg t none c (some cn) → t.root = segTop c (some cn) → Rep t (ctxPar none c) s →
      (plug c s).addrs.Nodup → c.length + 2 ≤ fuel →
      ∃ t' s', insertRebalance t fuel cn = .ok t' ∧ t'.root = s'.rootPtr ∧ Rep t' none s' ∧
        s'.Bal ∧ s'.addrs = (plug c s).addrs ∧ s'.elems = (plug c s).elems ∧ SameThr t t' := by
  induction c with
  | nil =>
    intro s t cn h0 fuel hcn hbal _ _ _ hseg hroot hrep _ hf
    obtain ⟨f, rfl⟩ : ∃ f, fuel = f + 1 := ⟨fuel - 1, by omega⟩
    cases s with
    | nil => cases hcn
    | node l a d b r =>
      simp only [rootPtr_node, Option.some.injEq] at hcn
      subst hcn
      obtain ⟨n, hn, hnb, hnp, -⟩ := Rep_root_node hrep
      have hbal' := hbal
      obtain ⟨-, -, -, hb1, hb2⟩ := hbal'
      have hw := Rep_whole (c := []) (s := .node l a d b r) hseg hroot hrep
      refine ⟨t, .node l a d b r, ?_, hw.1, hw.2, hbal, rfl, rfl, SameThr.refl t⟩
      have hcases : b = -1 ∨ b = 0 ∨ b = 1 := by omega
      rcases hcases with rfl | rfl | rfl <;>
        simp [insertRebalance, hn, hnb, hnp]
  | cons F c ih =>
    intro s t cn h0 fuel hcn hbal hctx hz hnz hseg hroot hrep hnd hf
    obtain ⟨f, rfl⟩ : ∃ f, fuel = f + 1 := ⟨fuel - 1, by omega⟩
    cases s with
    | nil => cases hcn
    | node l a d b r =>
      simp only [rootPtr_node, Option.some.injEq] at hcn
      subst hcn
      obtain ⟨n, hn, hnb, hnp, -⟩ := Rep_root_node hrep
      have hbal' := hbal
      obtain ⟨hlb, hrb, hbeq, hb1, hb2⟩ := hbal'
      by_cases hb0 : b = 0
      · subst hb0
        have hw := Rep_whole (c := F :: c) (s := .node l a d 0 r) hseg hroot hrep
        refine ⟨t, plug (F :: c) (.node l a d 0 r), ?_, hw.1, hw.2, ?_, rfl, rfl, SameThr.refl t⟩
        · simp [insertRebalance, hn, hnb]
        · exact Bal_plug.mpr ⟨hbal, by rw [hz rfl]; exact hctx⟩
      · have hpm : b = -1 ∨ b = 1 := by omega
        have hh : (ATree.node l a d b r).height = h0 + 1 := hnz hb0
        cases F with
        | L pa pd pb r' =>
          obtain ⟨hrb', hpb, hpb1, hpb2, hctx'⟩ := hctx
          have hi8 : int8 (pb - 1) = pb - 1 := int8_id (by omega) (by omega)
          obtain ⟨⟨m, hm, hml, hmb⟩, -⟩ :=
            up_L (s := .node l a d b r) 0 hseg hrep hnd
          have hstep : insertRebalance t (f + 1) a =
              insertRebalance (t.setBalance pa (pb - 1)) f pa := by
            rcases hpm with rfl | rfl <;>
              simp [insertRebalance, hn, hnb, hnp, hm, hml, hmb, hi8]
          rw [hstep]
          by_cases hpb' : pb = -1
          · subst hpb'
            have e2 : (-1 : Int) - 1 = -2 := by norm_num
            rw [e2]
            obtain ⟨-, hseg1, hrep1, hnd1, hsame1⟩ :=
              up_L (s := .node l a d b r) (-2) hseg hrep hnd
            obtain ⟨f', rfl⟩ : ∃ f', f = f' + 1 := ⟨f - 1, by simp at hf; omega⟩
            obtain ⟨t2, s2, ch, hx, hs2, hro2, hre2, hsa2, hb2', had, hel, hne, hht, hch1, -, hch3⟩ :=
              reb_full hseg1 (by simpa using hroot) hrep1 hnd1 hbal hrb'
                (by rw [hh]; push_cast; omega) (Or.inl rfl)
            have hch : ch = true := by
              cases ch with
              | true => rfl
              | false =>
                have := hch3.mp rfl
                simp at this
                omega
            subst hch
            have hw := Rep_whole hs2 hro2 hre2
            refine ⟨t2, plug c s2, ?_, hw.1, hw.2, ?_, ?_, ?_, hsame1.trans hsa2⟩
            · obtain ⟨m', hm', hmb', -⟩ := Rep_root_node hrep1
              simp [insertRebalance, hm', hmb', hx]
            · refine Bal_plug.mpr ⟨hb2', ?_⟩
              have : s2.height = max h0 r'.height + 1 := by
                simp [ATree.height] at hht hh ⊢; omega
              rw [this]; exact hctx'
            · simp only [addrs_plug, had, plug, ATree.addrs]
            · simp only [elems_plug, hel, plug, ATree.elems]
          · obtain ⟨-, hseg1, hrep1, hnd1, hsame1⟩ :=
              up_L (s := .node l a d b r) (pb - 1) hseg hrep hnd
            obtain ⟨t', s', hx, hro, hre, hb', had, hel, hsa⟩ :=
              ih (.node (.node l a d b r) pa pd (pb - 1) r') (t.setBalance pa (pb - 1)) pa
                (max h0 r'.height + 1) f rfl
                ⟨hbal, hrb', by rw [hh]; push_cast; omega, by omega, by omega⟩ hctx'
                (by intro h; simp [ATree.height] at h hh ⊢; omega)
                (by intro h; simp [ATree.height] at h hh ⊢; omega)
                hseg1 (by simpa using hroot) hrep1 hnd1 (by simp at hf; omega)
            refine ⟨t', s', hx, hro, hre, hb', ?_, ?_, hsame1.trans hsa⟩
            · rw [had]; exact addrs_plug_bal _ _ _ _ _ _ _
            · rw [hel]; exact elems_plug_bal _ _ _ _ _ _ _
        | R l' pa pd pb =>
          obtain ⟨hlb', hpb, hpb1, hpb2, hctx'⟩ := hctx
          have hi8 : int8 (pb + 1) = pb + 1 := int8_id (by omega) (by omega)
          obtain ⟨⟨m, hm, hml, hmb⟩, -⟩ :=
            @up_R _ _ _ (.node l a d b r) _ _ a _ _ 0 rfl hseg hrep hnd
          have hstep : insertRebalance t (f + 1) a =
              insertRebalance (t.setBalance pa (pb + 1)) f pa := by
            rcases hpm with rfl | rfl <;>
              simp [insertRebalance, hn, hnb, hnp, hm, hml, hmb, hi8]
          rw [hstep]
          by_cases hpb' : pb = 1
          · subst hpb'
            have e2 : (1 : Int) + 1 = 2 := by norm_num
            rw [e2]
            obtain ⟨-, hseg1, hrep1, hnd1, hsame1⟩ :=
              @up_R _ _ _ (.node l a d b r) _ _ a _ _ (2) rfl hseg hrep hnd
            obtain ⟨f', rfl⟩ : ∃ f', f = f' + 1 := ⟨f - 1, by simp at hf; omega⟩
            obtain ⟨t2, s2, ch, hx, hs2, hro2, hre2, hsa2, hb2', had, hel, hne, hht, hch1, -, hch3⟩ :=
              reb_full hseg1 (by simpa using hroot) hrep1 hnd1 hlb' hbal
                (by rw [hh]; push_cast; omega) (Or.inr rfl)
            have hch : ch = true := by
              cases ch with
              | true => rfl
              | false =>
                have := hch3.mp rfl
                simp at this
                omega
            subst hch
            have hw := Rep_whole hs2 hro2 hre2
            refine ⟨t2, plug c s2, ?_, hw.1, hw.2, ?_, ?_, ?_, hsame1.trans hsa2⟩
            · obtain ⟨m', hm', hmb', -⟩ := Rep_root_node hrep1
              simp [insertRebalance, hm', hmb', hx]
            · refine Bal_plug.mpr ⟨hb2', ?_⟩
              have : s2.height = max l'.height h0 + 1 := by
                simp [ATree.height] at hht hh ⊢; omega
              rw [this]; exact hctx'
            · simp only [addrs_plug, had, plug, ATree.addrs]
            · simp only [elems_plug, hel, plug, ATree.elems]
          · obtain ⟨-, hseg1, hrep1, hnd1, hsame1⟩ :=
              @up_R _ _ _ (.node l a d b r) _ _ a _ _ (pb + 1) rfl hseg hrep hnd
            obtain ⟨t', s', hx, hro, hre, hb', had, hel, hsa⟩ :=
              ih (.node l' pa pd (pb + 1) (.node l a d b r)) (t.setBalance pa (pb + 1)) pa
                (max l'.height h0 + 1) f rfl
                ⟨hlb', hbal, by rw [hh]; push_cast; omega, by omega, by omega⟩ hctx'
                (by intro h; simp [ATree.height] at h hh ⊢; omega)
                (by intro h; simp [ATree.height] at h hh ⊢; omega)
                hseg1 (by simpa using hroot) hrep1 hnd1 (by simp at hf; omega)
            refine ⟨t', s', hx, hro, hre, hb', ?_, ?_, hsame1.trans hsa⟩
            · rw [had]; exact addrs_plug_bal _ _ _ _ _ _ _
            · rw [hel]; exact elems_plug_bal _ _ _ _ _ _ _

/-- The walk of Delete from a node whose subtrees are balanced and whose factor
tells whether the subtree has shrunk: it ends with a balanced tree that has the
same nodes in the same order. -/
theorem deleteRebalance_spec (c : List (Frame α)) :
    ∀ (s : ATree α) (t : Tree α) (bn : Nat) (h0 fuel : Nat),
      s.rootPtr = some bn → s.Bal2 → CtxBal c h0 →
      (s.rootBal = 0 → s.height + 1 = h0) → (s.rootBal ≠ 0 → s.height = h0) →
      RepSeg t none c (some bn) → t.root = segTop c (some bn) → Rep t (ctxPar none c) s →
      (plug c s).addrs.Nodup → 2 * c.length + 2 ≤ fuel →
      ∃ t' s', deleteRebalance t fuel bn = .ok t' ∧ t'.root = s'.rootPtr ∧ Rep t' none s' ∧
        s'.Bal ∧ s'.addrs = (plug c s).addrs ∧ s'.elems = (plug c s).elems ∧ SameThr t t' := by
  induction c with
  | nil =>
    intro s t bn h0 fuel hcn hbal _ hz hnz hseg hroot hrep hnd hf
    obtain ⟨f, rfl⟩ : ∃ f, fuel = f + 1 := ⟨fuel - 1, by omega⟩
    cases s with
    | nil => cases hcn
    | node l a d b r =>
      simp only [rootPtr_node, Option.some.injEq] at hcn
      subst hcn
      obtain ⟨n, hn, hnb, hnp, -⟩ := Rep_root_node hrep
      obtain ⟨hlb, hrb, hbeq, hb1, hb2⟩ := hbal
      by_cases hsmall : -1 ≤ b ∧ b ≤ 1
      · have hw := Rep_whole (c := []) (s := .node l a d b r) hseg hroot hrep
        refine ⟨t, .node l a d b r, ?_, hw.1, hw.2, ⟨hlb, hrb, hbeq, hsmall.1, hsmall.2⟩, rfl, rfl,
          SameThr.refl t⟩
        have hcases : b = -1 ∨ b = 0 ∨ b = 1 := by omega
        rcases hcases with rfl | rfl | rfl <;>
          simp [deleteRebalance, hn, hnb, hnp]
      · have h2 : b = -2 ∨ b = 2 := by omega
        obtain ⟨t2, s2, ch, hx, hs2, hro2, hre2, hsa2, hb2', had, hel, hne, hht, hch1, -, -⟩ :=
          reb_full hseg hroot hrep hnd hlb hrb hbeq h2
        have hw := Rep_whole hs2 hro2 hre2
        refine ⟨t2, s2, ?_, hw.1, hw.2, hb2', had, hel, hsa2⟩
        cases ch with
        | false => rcases h2 with rfl | rfl <;> simp [deleteRebalance, hn, hnb, hx]
        | true =>
          obtain ⟨x, hxp⟩ := Option.ne_none_iff_exists'.mp hne
          obtain ⟨f', rfl⟩ : ∃ f', f = f' + 1 := ⟨f - 1, by simp at hf; omega⟩
          cases s2 with
          | nil => simp at hxp
          | node l2 a2 d2 b2 r2 =>
            simp only [rootPtr_node, Option.some.injEq] at hxp
            subst hxp
            obtain ⟨n2, hn2, hnb2, hnp2, -⟩ := Rep_root_node hre2
            have hb20 : b2 = 0 := hch1 rfl
            rcases h2 with rfl | rfl <;>
              simp [deleteRebalance, hn, hnb, hx, hn2, hnb2, hnp2, hb20]
  | cons F c ih =>
    have hzero : ∀ (s : ATree α) (t : Tree α) (bn : Nat) (h0 fuel : Nat),
        s.rootPtr = some bn → s.Bal → s.rootBal = 0 → CtxBal (F :: c) h0 → s.height + 1 = h0 →
        RepSeg t none (F :: c) (some bn) → t.root = segTop (F :: c) (some bn) →
        Rep t (ctxPar none (F :: c)) s → (plug (F :: c) s).addrs.Nodup →
        2 * (F :: c).length + 1 ≤ fuel →
        ∃ t' s', deleteRebalance t fuel bn = .ok t' ∧ t'.root = s'.rootPtr ∧ Rep t' none s' ∧
          s'.Bal ∧ s'.addrs = (plug (F :: c) s).addrs ∧ s'.elems = (plug (F :: c) s).elems ∧
          SameThr t t' := by
      intro s t bn h0 fuel hcn hbal hb0 hctx hh hseg hroot hrep hnd hf
      obtain ⟨f, rfl⟩ : ∃ f, fuel = f + 1 := ⟨fuel - 1, by omega⟩
      cases s with
      | nil => cases hcn
      | node l a d b r =>
        simp only [rootPtr_node, Option.some.injEq] at hcn
        subst hcn
        simp only [rootBal_node] at hb0
        subst hb0
        obtain ⟨n, hn, hnb, hnp, -⟩ := Rep_root_node hrep
        cases F with
        | L pa pd pb r' =>
          obtain ⟨hrb', hpb, hpb1, hpb2, hctx'⟩ := hctx
          have hi8 : int8 (pb + 1) = pb + 1 := int8_id (by omega) (by omega)
          obtain ⟨⟨m, hm, hml, hmb⟩, hseg1, hrep1, hnd1, hsame1⟩ :=
            up_L (s := .node l a d 0 r) (pb + 1) hseg hrep hnd
          have hstep : deleteRebalance t (f + 1) a =
              deleteRebalance (t.setBalance pa (pb + 1)) f pa := by
            simp [deleteRebalance, hn, hnb, hnp, hm, hml, hmb, hi8]
          rw [hstep]
          obtain ⟨t', s', hx, hro, hre, hb', had, hel, hsa⟩ :=
            ih (.node (.node l a d 0 r) pa pd (pb + 1) r') (t.setBalance pa (pb + 1)) pa
              (max h0 r'.height + 1) f rfl
              ⟨hbal, hrb', by push_cast; omega, by omega, by omega⟩ hctx'
              (by intro h; simp [ATree.height] at h hh ⊢; omega)
              (by intro h; simp [ATree.height] at h hh ⊢; omega)
              hseg1 (by simpa using hroot) hrep1 hnd1 (by simp at hf; omega)
          refine ⟨t', s', hx, hro, hre, hb', ?_, ?_, hsame1.trans hsa⟩
          · rw [had]; exact addrs_plug_bal _ _ _ _ _ _ _
          · rw [hel]; exact elems_plug_bal _ _ _ _ _ _ _
        | R l' pa pd pb =>
          obtain ⟨hlb', hpb, hpb1, hpb2, hctx'⟩ := hctx
          have hi8 : int8 (pb - 1) = pb - 1 := int8_id (by omega) (by omega)
          obtain ⟨⟨m, hm, hml, hmb⟩, hseg1, hrep1, hnd1, hsame1⟩ :=
            @up_R _ _ _ (.node l a d 0 r) _ _ a _ _ (pb - 1) rfl hseg hrep hnd
          have hstep : deleteRebalance t (f + 1) a =
              deleteRebalance (t.setBalance pa (pb - 1)) f pa := by
            simp [deleteRebalance, hn, hnb, hnp, hm, hml, hmb, hi8]
          rw [hstep]
          obtain ⟨t', s', hx, hro, hre, hb', had, hel, hsa⟩ :=
            ih (.node l' pa pd (pb - 1) (.node l a d 0 r)) (t.setBalance pa (pb - 1)) pa
              (max l'.height h0 + 1) f rfl
              ⟨hlb', hbal, by push_cast; omega, by omega, by omega⟩ hctx'
              (by intro h; simp [ATree.height] at h hh ⊢; omega)
              (by intro h; simp [ATree.height] at h hh ⊢; omega)
              hseg1 (by simpa using hroot) hrep1 hnd1 (by simp at hf; omega)
          refine ⟨t', s', hx, hro, hre, hb', ?_, ?_, hsame1.trans hsa⟩
          · rw [had]; exact addrs_plug_bal _ _ _ _ _ _ _
          · rw [hel]; exact elems_plug_bal _ _ _ _ _ _ _
    intro s t bn h0 fuel hcn hbal hctx hz hnz hseg hroot hrep hnd hf
    obtain ⟨f, rfl⟩ : ∃ f, fuel = f + 1 := ⟨fuel - 1, by omega⟩
    cases s with
    | nil => cases hcn
    | node l a d b r =>
      simp only [rootPtr_node, Option.some.injEq] at hcn
      subst hcn
      obtain ⟨n, hn, hnb, hnp, -⟩ := Rep_root_node hrep
      obtain ⟨hlb, hrb, hbeq, hb1, hb2⟩ := hbal
      by_cases hb0 : b = 0
      · subst hb0
        exact hzero (.node l a d 0 r) t a h0 (f + 1) rfl ⟨hlb, hrb, hbeq, by omega, by omega⟩ rfl
          hctx (hz rfl) hseg hroot hrep hnd (by omega)
      · by_cases hsmall : -1 ≤ b ∧ b ≤ 1
        · have hw := Rep_whole (c := F :: c) (s := .node l a d b r) hseg hroot hrep
          refine ⟨t, plug (F :: c) (.node l a d b r), ?_, hw.1, hw.2, ?_, rfl, rfl, SameThr.refl t⟩
          · have hcases : b = -1 ∨ b = 1 := by omega
            rcases hcases with rfl | rfl <;> simp [deleteRebalance, hn, hnb]
          · refine Bal_plug.mpr ⟨⟨hlb, hrb, hbeq, hsmall.1, hsmall.2⟩, ?_⟩
            rw [hnz hb0]; exact hctx
        · have h2 : b = -2 ∨ b = 2 := by omega
          obtain ⟨t2, s2, ch, hx, hs2, hro2, hre2, hsa2, hb2', had, hel, hne, hht, hch1, -, -⟩ :=
            reb_full hseg hroot hrep hnd hlb hrb hbeq h2
          cases ch with
          | false =>
            have hw := Rep_whole hs2 hro2 hre2
            refine ⟨t2, plug (F :: c) s2, ?_, hw.1, hw.2, ?_, ?_, ?_, hsa2⟩
            · rcases h2 with rfl | rfl <;> simp [deleteRebalance, hn, hnb, hx]
            · refine Bal_plug.mpr ⟨hb2', ?_⟩
              have : s2.height = h0 := by
                rw [← hnz hb0]; simpa using hht
              rw [this]; exact hctx
            · simp only [addrs_plug, had]
            · simp only [elems_plug, hel]
          | true =>
            obtain ⟨x, hxp⟩ := Option.ne_none_iff_exists'.mp hne
            have hstep : deleteRebalance t (f + 1) a = deleteRebalance t2 f x := by
              rcases h2 with rfl | rfl <;> simp [deleteRebalance, hn, hnb, hx, hxp]
            rw [hstep]
            rw [hxp] at hs2 hro2
            obtain ⟨t', s', hx', hro, hre, hb', had', hel', hsa⟩ :=
              hzero s2 t2 x h0 f hxp hb2' (hch1 rfl) hctx
                (by rw [← hnz hb0]; simpa using hht) hs2 hro2 hre2
                (by rw [addrs_plug, had, ← addrs_plug]; exact hnd) (by simp at hf ⊢; omega)
            refine ⟨t', s', hx', hro, hre, hb', ?_, ?_, hsa2.trans hsa⟩
            · rw [had']; simp only [addrs_plug, had]
            · rw [hel']; simp only [elems_plug, hel]

/-! ## Threads -/

@[simp] theorem headOr_cons (a : Nat) (xs : List Nat) (nx : Option Nat) :
    headOr (a :: xs) nx = some a := rfl

@[simp] theorem headOr_nil (nx : Option Nat) : headOr [] nx = nx := rfl

@[simp] theorem lastOr_nil (pv : Option Nat) : lastOr pv [] = pv := rfl

@[simp] theorem lastOr_cons (pv : Option Nat) (a : Nat) (xs : List Nat) :
    lastOr pv (a :: xs) = lastOr (some a) xs := rfl

theorem headOr_append (xs ys : List Nat) (nx : Option Nat) :
    headOr (xs ++ ys) nx = headOr xs (headOr ys nx) := by
  cases xs <;> rfl

theorem lastOr_append (pv : Option Nat) (xs ys : List Nat) :
    lastOr pv (xs ++ ys) = lastOr (lastOr pv xs) ys := by
  induction xs generalizing pv with
  | nil => rfl
  | cons a xs ih => simp [ih]

theorem lastOr_of_ne_nil {xs : List Nat} (h : xs ≠ []) (pv pv' : Option Nat) :
    lastOr pv xs = lastOr pv' xs := by
  cases xs with
  | nil => exact absurd rfl h
  | cons a xs => rfl

theorem lastOr_mem {xs : List Nat} {pv : Option Nat} {q : Nat} (h : lastOr pv xs = some q) :
    q ∈ xs ∨ pv = some q := by
  induction xs generalizing pv with
  | nil => exact Or.inr h
  | cons a xs ih =>
    rcases @ih (some a) h with h1 | h1
    · exact Or.inl (List.mem_cons_of_mem _ h1)
    · cases h1; exact Or.inl (List.mem_cons_self _ _)

theorem headOr_mem {xs : List Nat} {nx : Option Nat} {q : Nat} (h : headOr xs nx = some q) :
    q ∈ xs ∨ nx = some q := by
  cases xs with
  | nil => exact Or.inr h
  | cons a xs => cases h; exact Or.inl (List.mem_cons_self _ _)

theorem lastOr_some (a : Nat) (xs : List Nat) : lastOr (some a) xs = (a :: xs).getLast? := by
  induction xs generalizing a with
  | nil => rfl
  | cons b xs ih => rw [lastOr_cons, ih, List.getLast?_cons_cons]

theorem lastOr_none_eq_getLast? (xs : List Nat) : lastOr none xs = xs.getLast? := by
  cases xs with
  | nil => rfl
  | cons a xs => rw [lastOr_cons, lastOr_some]

theorem headOr_none_eq_head? (xs : List Nat) : headOr xs none = xs.head? := by
  cases xs <;> rfl

theorem thr_node_iff {t : Tree α} {a : Nat} {pv nx : Option Nat} :
    (∃ n, t.node a = .ok n ∧ n.prv = pv ∧ n.nxt = nx) ↔ t.tv a = some (pv, nx) := by
  unfold Tree.tv
  cases t.node a with
  | error e => simp
  | ok n => simp

theorem Thr_cons {t : Tree α} {pv nx : Option Nat} {a : Nat} {xs : List Nat} :
    Thr t pv (a :: xs) nx ↔ t.tv a = some (pv, headOr xs nx) ∧ Thr t (some a) xs nx := by
  simp only [Thr, thr_node_iff]

theorem Thr_append {t : Tree α} {pv nx : Option Nat} {xs ys : List Nat} :
    Thr t pv (xs ++ ys) nx ↔ Thr t pv xs (headOr ys nx) ∧ Thr t (lastOr pv xs) ys nx := by
  induction xs generalizing pv with
  | nil => simp [Thr]
  | cons a xs ih =>
    rw [List.cons_append, Thr_cons, Thr_cons, ih, headOr_append, lastOr_cons]
    tauto

theorem Thr_mid {t : Tree α} {pv nx : Option Nat} {pre post : List Nat} {cn : Nat}
    (h : Thr t pv (pre ++ cn :: post) nx) : t.tv cn = some (lastOr pv pre, headOr post nx) := by
  rw [Thr_append, Thr_cons] at h
  exact h.2.1

theorem Thr_tv_ok {t : Tree α} {pv nx : Option Nat} {xs : List Nat} (h : Thr t pv xs nx)
    {a : Nat} (ha : a ∈ xs) : ∃ p n, t.tv a = some (p, n) := by
  induction xs generalizing pv with
  | nil => cases ha
  | cons b xs ih =>
    rw [Thr_cons] at h
    rcases List.mem_cons.mp ha with rfl | ha
    · exact ⟨_, _, h.1⟩
    · exact ih h.2 ha

theorem Thr_set_last {t t' : Tree α} {pv nx nx' : Option Nat} {xs : List Nat}
    (h : Thr t pv xs nx) (hnd : xs.Nodup)
    (hrest : ∀ a ∈ xs, lastOr none xs ≠ some a → t'.tv a = t.tv a)
    (hlast : ∀ q, lastOr none xs = some q → ∀ p n, t.tv q = some (p, n) →
      t'.tv q = some (p, nx')) :
    Thr t' pv xs nx' := by
  induction xs generalizing pv with
  | nil => trivial
  | cons a xs ih =>
    rw [Thr_cons] at h ⊢
    rw [List.nodup_cons] at hnd
    cases xs with
    | nil => exact ⟨hlast a rfl _ _ h.1, trivial⟩
    | cons b xs =>
      have hne : lastOr none (a :: b :: xs) ≠ some a := by
        intro e
        rcases @lastOr_mem xs (some b) a e with h1 | h1
        · exact hnd.1 (List.mem_cons_of_mem _ h1)
        · cases h1; exact hnd.1 (List.mem_cons_self _ _)
      refine ⟨by rw [hrest a (List.mem_cons_self _ _) hne]; exact h.1, ?_⟩
      exact ih h.2 hnd.2 (fun x hx => hrest x (List.mem_cons_of_mem _ hx)) hlast

theorem Thr_set_first {t t' : Tree α} {pv pv' nx : Option Nat} {xs : List Nat}
    (h : Thr t pv xs nx) (hnd : xs.Nodup)
    (hrest : ∀ a ∈ xs, headOr xs none ≠ some a → t'.tv a = t.tv a)
    (hfirst : ∀ q, headOr xs none = some q → ∀ p n, t.tv q = some (p, n) →
      t'.tv q = some (pv', n)) :
    Thr t' pv' xs nx := by
  cases xs with
  | nil => trivial
  | cons a xs =>
    rw [Thr_cons] at h ⊢
    rw [List.nodup_cons] at hnd
    refine ⟨hfirst a rfl _ _ h.1, Thr_congr (fun x hx => ?_) h.2⟩
    apply hrest x (List.mem_cons_of_mem _ hx)
    intro e
    simp only [headOr_cons, Option.some.injEq] at e
    subst e
    exact hnd.1 hx

/-- A new node enters the thread between `pre` and `post`. -/
theorem Thr_splice_in {t t' : Tree α} {pre post : List Nat} {nn : Nat}
    (h : Thr t none (pre ++ post) none) (hnd : (pre ++ post).Nodup)
    (hnew : t'.tv nn = some (lastOr none pre, headOr post none))
    (hlast : ∀ q, lastOr none pre = some q → ∀ p n, t.tv q = some (p, n) →
      t'.tv q = some (p, some nn))
    (hfirst : ∀ q, headOr post none = some q → ∀ p n, t.tv q = some (p, n) →
      t'.tv q = some (some nn, n))
    (hrest : ∀ a ∈ pre ++ post, lastOr none pre ≠ some a → headOr post none ≠ some a →
      t'.tv a = t.tv a) :
    Thr t' none (pre ++ nn :: post) none := by
  rw [Thr_append] at h
  rw [List.nodup_append] at hnd
  obtain ⟨hnd1, hnd2, hdis⟩ := hnd
  rw [Thr_append, Thr_cons]
  refine ⟨Thr_set_last h.1 hnd1 (fun a ha hne => ?_) hlast, hnew,
    Thr_set_first h.2 hnd2 (fun a ha hne => ?_) hfirst⟩
  · apply hrest a (List.mem_append_left _ ha) hne
    intro e
    rcases headOr_mem e with h1 | h1
    · exact hdis ha h1
    · cases h1
  · apply hrest a (List.mem_append_right _ ha) _ hne
    intro e
    rcases lastOr_mem e with h1 | h1
    · exact hdis h1 ha
    · cases h1

/-- A node leaves the thread. -/
theorem Thr_splice_out {t t' : Tree α} {pre post : List Nat} {cn : Nat}
    (h : Thr t none (pre ++ cn :: post) none) (hnd : (pre ++ cn :: post).Nodup)
    (hlast : ∀ q, lastOr none pre = some q → ∀ p n, t.tv q = some (p, n) →
      t'.tv q = some (p, headOr post none))
    (hfirst : ∀ q, headOr post none = some q → ∀ p n, t.tv q = some (p, n) →
      t'.tv q = some (lastOr none pre, n))
    (hrest : ∀ a ∈ pre ++ post, lastOr none pre ≠ some a → headOr post none ≠ some a →
      t'.tv a = t.tv a) :
    Thr t' none (pre ++ post) none := by
  rw [Thr_append, Thr_cons] at h
  rw [List.nodup_append, List.nodup_cons] at hnd
  obtain ⟨hnd1, ⟨hcn, hnd2⟩, hdis⟩ := hnd
  rw [Thr_append]
  refine ⟨Thr_set_last h.1 hnd1 (fun a ha hne => ?_) hlast,
    Thr_set_first h.2.2 hnd2 (fun a ha hne => ?_) hfirst⟩
  · apply hrest a (List.mem_append_left _ ha) hne
    intro e
    rcases headOr_mem e with h1 | h1
    · exact hdis ha (List.mem_cons_of_mem _ h1)
    · cases h1
  · apply hrest a (List.mem_append_right _ ha) _ hne
    intro e
    rcases lastOr_mem e with h1 | h1
    · exact hdis h1 (List.mem_cons_of_mem _ ha)
    · cases h1

/-! ## Order and the search path -/

section Order

variable [Comparable α] [StrictTotal α]

theorem cmp_self (a : α) : CompareTo a a = 0 := by
  have h := StrictTotal.swap a a
  omega

theorem cmp_eq_zero_swap {a b : α} (h : CompareTo a b = 0) : CompareTo b a = 0 := by
  have h1 := StrictTotal.swap a b
  have h2 := StrictTotal.swap b a
  omega

theorem cmp_pos_iff {a b : α} : 0 < CompareTo a b ↔ CompareTo b a < 0 :=
  (StrictTotal.swap b a).symm

theorem cmp_lt_trans {a b c : α} (h1 : CompareTo a b < 0) (h2 : CompareTo b c < 0) :
    CompareTo a c < 0 := by
  have h3 := StrictTotal.le_trans a b c (by omega) (by omega)
  by_contra hne
  have h4 : CompareTo a c = 0 := by omega
  have h5 := cmp_eq_zero_swap h4
  have h6 := StrictTotal.le_trans c a b (by omega) (by omega)
  have h7 := (StrictTotal.swap b c).mp h2
  omega

theorem cmp_lt_of_lt_of_eq {a b c : α} (h1 : CompareTo a b < 0) (h2 : CompareTo b c = 0) :
    CompareTo a c < 0 := by
  have h3 := StrictTotal.le_trans a b c (by omega) (by omega)
  by_contra hne
  have h4 : CompareTo a c = 0 := by omega
  have h5 := cmp_eq_zero_swap h4
  have h6 := StrictTotal.le_trans b c a (by omega) (by omega)
  have h7 := (StrictTotal.swap a b).mp h1
  omega

theorem cmp_lt_of_eq_of_lt {a b c : α} (h1 : CompareTo a b = 0) (h2 : CompareTo b c < 0) :
    CompareTo a c < 0 := by
  have h3 := StrictTotal.le_trans a b c (by omega) (by omega)
  by_contra hne
  have h4 : CompareTo a c = 0 := by omega
  have h5 := cmp_eq_zero_swap h4
  have h6 := StrictTotal.le_trans c a b (by omega) (by omega)
  have h7 := (StrictTotal.swap b c).mp h2
  omega

theorem cmp_eq_trans {a b c : α} (h1 : CompareTo a b = 0) (h2 : CompareTo b c = 0) :
    CompareTo a c = 0 := by
  have h3 := StrictTotal.le_trans a b c (by omega) (by omega)
  have h4 := StrictTotal.le_trans c b a (by rw [cmp_eq_zero_swap h2]) (by rw [cmp_eq_zero_swap h1])
  have h5 := StrictTotal.swap a c
  have h6 := StrictTotal.swap c a
  omega

end Order

theorem findA_plug [Comparable α] (x : α) (s : ATree α) :
    ∀ c : List (Frame α), plug (findA x c s).1 (findA x c s).2 = plug c s := by
  induction s with
  | nil => intro c; rfl
  | node l a d b r ihl ihr =>
    intro c
    unfold findA
    split_ifs
    · rfl
    · rw [ihl]; rfl
    · rw [ihr]; rfl

theorem findA_found [Comparable α] (x : α) (s : ATree α) :
    ∀ (c : List (Frame α)) {l r : ATree α} {a : Nat} {d : α} {b : Int},
      (findA x c s).2 = .node l a d b r → CompareTo x d = 0 := by
  induction s with
  | nil => intro c l r a d b h; cases h
  | node l0 a0 d0 b0 r0 ihl ihr =>
    intro c l r a d b h
    unfold findA at h
    split_ifs at h with h1 h2
    · cases h; exact h1
    · exact ihl _ h
    · exact ihr _ h

theorem sorted_mid [Comparable α] {pre post l r : List α} {d : α}
    (h : Sorted (pre ++ (l ++ d :: r) ++ post)) :
    (∀ e ∈ l, CompareTo e d < 0) ∧ (∀ e ∈ r, CompareTo d e < 0) := by
  simp only [Sorted, List.pairwise_append, List.pairwise_cons, List.mem_append,
    List.mem_cons] at h
  exact ⟨fun e he => h.1.2.1.2.2 e he d (Or.inl rfl), h.1.2.1.2.1.1⟩

theorem findA_bounds [Comparable α] [StrictTotal α] (x : α) (s : ATree α) :
    ∀ (c : List (Frame α)), Sorted (plug c s).elems →
      (∀ e ∈ ctxElemsBefore c, CompareTo e x < 0) → (∀ e ∈ ctxElemsAfter c, CompareTo x e < 0) →
      (∀ e ∈ ctxElemsBefore (findA x c s).1, CompareTo e x < 0) ∧
        (∀ e ∈ ctxElemsAfter (findA x c s).1, CompareTo x e < 0) := by
  induction s with
  | nil => intro c _ h1 h2; exact ⟨h1, h2⟩
  | node l a d b r ihl ihr =>
    intro c hs h1 h2
    have hs' := hs
    rw [elems_plug] at hs'
    obtain ⟨hld, hdr⟩ := sorted_mid hs'
    unfold findA
    split_ifs with h3 h4
    · exact ⟨h1, h2⟩
    · apply ihl (.L a d b r :: c) hs h1
      intro e he
      simp only [ctxElemsAfter, List.mem_append, List.mem_cons] at he
      rcases he with (rfl | he) | he
      · exact h4
      · exact cmp_lt_trans h4 (hdr e he)
      · exact h2 e he
    · have h5 : CompareTo d x < 0 := by
        have := StrictTotal.swap d x
        omega
      apply ihr (.R l a d b :: c) hs _ h2
      intro e he
      simp only [ctxElemsBefore, List.mem_append, List.mem_cons, List.mem_singleton,
        List.not_mem_nil, or_false] at he
      rcases he with (he | he) | rfl
      · exact h1 e he
      · exact cmp_lt_trans (hld e he) h5
      · exact h5

/-- The descent of Insert ends where the search path ends. -/
theorem insertDescend_spec [Comparable α] (x : α) (s : ATree α) :
    ∀ (c : List (Frame α)) (t : Tree α) (a : Nat) (par : Option Nat) (fuel : Nat),
      s.rootPtr = some a → Rep t par s → s.height ≤ fuel →
      ∃ cn r, insertDescend t x fuel a = .ok (cn, r) ∧
        ((r = 0 ∧ ∃ l' d' b' r', (findA x c s).2 = .node l' cn d' b' r') ∨
          (r ≠ 0 ∧ (findA x c s).2 = .nil ∧ ∃ F c', (findA x c s).1 = F :: c' ∧ cn = F.addr ∧
            r = CompareTo x F.data ∧ (r < 0 ↔ F.isL))) := by
  induction s with
  | nil => intro c t a par fuel h; cases h
  | node l a0 d b r ihl ihr =>
    intro c t a par fuel ha hrep hf
    simp only [rootPtr_node, Option.some.injEq] at ha
    subst ha
    obtain ⟨f, rfl⟩ : ∃ f, fuel = f + 1 := ⟨fuel - 1, by simp [ATree.height] at hf; omega⟩
    obtain ⟨⟨n, hn, h1, h2, h3, h4, h5⟩, hl, hr⟩ := hrep
    unfold findA
    by_cases hk0 : CompareTo x d = 0
    · refine ⟨a0, CompareTo x d, ?_, Or.inl ⟨hk0, ?_⟩⟩
      · simp [insertDescend, hn, h1, hk0]
      · simp [hk0]
    · by_cases hk : CompareTo x d < 0
      · simp only [hk0, hk, if_false, if_true]
        cases l with
        | nil =>
          refine ⟨a0, CompareTo x d, ?_, Or.inr ⟨hk0, rfl, _, _, rfl, rfl, rfl, ?_⟩⟩
          · simp [insertDescend, hn, h1, hk0, hk, h3]
          · simp [findA, Frame.isL, hk]
        | node ll la ld lb lr =>
          obtain ⟨cn, k, hx, hres⟩ := ihl (.L a0 d b r :: c) t la (some a0) f rfl hl
            (by simp [ATree.height] at hf ⊢; omega)
          refine ⟨cn, k, ?_, hres⟩
          simp [insertDescend, hn, h1, hk0, hk, h3, hx]
      · simp only [hk0, hk, if_false]
        cases r with
        | nil =>
          refine ⟨a0, CompareTo x d, ?_, Or.inr ⟨hk0, rfl, _, _, rfl, rfl, rfl, ?_⟩⟩
          · simp [insertDescend, hn, h1, hk0, hk, h4]
          · simp [findA, Frame.isL, hk]
        | node rl ra rd rb rr =>
          obtain ⟨cn, k, hx, hres⟩ := ihr (.R l a0 d b :: c) t ra (some a0) f rfl hr
            (by simp [ATree.height] at hf ⊢; omega)
          refine ⟨cn, k, ?_, hres⟩
          simp [insertDescend, hn, h1, hk0, hk, h4, hx]

/-! ## The splice of Insert -/

@[simp] theorem node_mk_mem (t : Tree α) (s : Nat) (r h tl : Option Nat) (a : Nat) :
    (Tree.mk s r h tl t.mem).node a = t.node a := rfl

@[simp] theorem tv_mk_mem (t : Tree α) (s : Nat) (r h tl : Option Nat) (a : Nat) :
    (Tree.mk s r h tl t.mem).tv a = t.tv a := rfl

@[simp] theorem sv_mk_mem (t : Tree α) (s : Nat) (r h tl : Option Nat) (a : Nat) :
    (Tree.mk s r h tl t.mem).sv a = t.sv a := rfl

@[simp] theorem dv_mk_mem (t : Tree α) (s : Nat) (r h tl : Option Nat) (a : Nat) :
    (Tree.mk s r h tl t.mem).dv a = t.dv a := rfl

theorem tv_of_node {t : Tree α} {a : Nat} {n : avlNode α} (h : t.node a = .ok n) :
    t.tv a = some (n.prv, n.nxt) := by
  simp [Tree.tv, h]

theorem sv_of_node {t : Tree α} {a : Nat} {n : avlNode α} (h : t.node a = .ok n) :
    t.sv a = some (n.data, n.balance, n.l, n.r, n.p) := by
  simp [Tree.sv, h]

theorem dv_of_node {t : Tree α} {a : Nat} {n : avlNode α} (h : t.node a = .ok n) :
    t.dv a = some n.data := by
  simp [Tree.dv, h]

theorem tv_setNxt (t : Tree α) (a b : Nat) (v : Option Nat) :
    (t.setNxt a v).tv b = if a = b then (t.tv b).map (fun q => (q.1, v)) else t.tv b := by
  by_cases h : a = b
  · subst h
    simp only [Tree.tv, node_setNxt, if_true]
    cases t.node a <;> rfl
  · simp only [h, if_false]; exact tv_upd_ne t _ h

theorem tv_setPrv (t : Tree α) (a b : Nat) (v : Option Nat) :
    (t.setPrv a v).tv b = if a = b then (t.tv b).map (fun q => (v, q.2)) else t.tv b := by
  by_cases h : a = b
  · subst h
    simp only [Tree.tv, node_setPrv, if_true]
    cases t.node a <;> rfl
  · simp only [h, if_false]; exact tv_upd_ne t _ h

theorem sv_setL (t : Tree α) (a b : Nat) (v : Option Nat) :
    (t.setL a v).sv b =
      if a = b then (t.sv b).map (fun q => (q.1, q.2.1, v, q.2.2.2.1, q.2.2.2.2)) else t.sv b := by
  by_cases h : a = b
  · subst h
    simp only [Tree.sv, node_setL, if_true]
    cases t.node a <;> rfl
  · simp only [h, if_false]; exact sv_upd_ne t _ h

theorem sv_setR (t : Tree α) (a b : Nat) (v : Option Nat) :
    (t.setR a v).sv b =
      if a = b then (t.sv b).map (fun q => (q.1, q.2.1, q.2.2.1, v, q.2.2.2.2)) else t.sv b := by
  by_cases h : a = b
  · subst h
    simp only [Tree.sv, node_setR, if_true]
    cases t.node a <;> rfl
  · simp only [h, if_false]; exact sv_upd_ne t _ h

theorem sv_setBalance (t : Tree α) (a b : Nat) (v : Int) :
    (t.setBalance a v).sv b =
      if a = b then (t.sv b).map (fun q => (q.1, v, q.2.2.1, q.2.2.2.1, q.2.2.2.2))
      else t.sv b := by
  by_cases h : a = b
  · subst h
    simp only [Tree.sv, node_setBalance, if_true]
    cases t.node a <;> rfl
  · simp only [h, if_false]; exact sv_upd_ne t _ h

/-- The splice of Insert on the left of `cn`: the new node enters the thread
just before `cn` and becomes its left child. -/
theorem insertAttach_L {t : Tree α} {pre post : List Nat} {cn nn : Nat} {r : Int}
    (hthr : Thr t none (pre ++ cn :: post) none) (hnd : (pre ++ cn :: post).Nodup)
    (hnn : nn ∉ pre ++ cn :: post) (hnode : ∃ n, t.node nn = .ok n) (hr : r < 0) :
    ∃ t', insertAttach t cn nn r = .ok t' ∧ Thr t' none (pre ++ nn :: cn :: post) none ∧
      (∀ a, a ≠ cn → t'.sv a = t.sv a) ∧
      t'.sv cn = (t.sv cn).map (fun q => (q.1, int8 (q.2.1 - 1), some nn, q.2.2.2.1, q.2.2.2.2)) ∧
      t'.head = (if pre = [] then some nn else t.head) ∧ t'.tail = t.tail ∧
      t'.root = t.root ∧ t'.size = t.size ∧ t'.mem.length = t.mem.length ∧
      (∀ a, t'.dv a = t.dv a) := by
  obtain ⟨n0, hn0⟩ := hnode
  have hmid := Thr_mid hthr
  obtain ⟨pn, hpn, hpv, hnx⟩ := thr_node_iff.mpr hmid
  have e1 : nn ≠ cn := fun h => hnn (by simp [h])
  have e2 : cn ≠ nn := fun h => e1 h.symm
  have hnn' : nn ∉ pre ∧ nn ∉ post := by
    simp only [List.mem_append, List.mem_cons, not_or] at hnn
    exact ⟨hnn.1, hnn.2.2⟩
  have hcn' : cn ∉ pre ∧ cn ∉ post := by
    simp only [List.nodup_append, List.nodup_cons, List.Disjoint, List.mem_cons] at hnd
    exact ⟨fun h => hnd.2.2 h (Or.inl rfl), hnd.2.1.1⟩
  have hsplice := fun t' => @Thr_splice_in _ t t' pre (cn :: post) nn hthr hnd
  cases hq : lastOr none pre with
  | none =>
    have hemp : pre = [] := by
      cases pre with
      | nil => rfl
      | cons a pre => rw [lastOr_cons, lastOr_some] at hq; simp at hq
    subst hemp
    rw [hq] at hpv
    have hex : insertAttach t cn nn r = .ok
        (((({ (t.setPrv nn none).setNxt nn (some cn) with head := some nn } : Tree α).setPrv cn
          (some nn)).setL cn (some nn)).setBalance cn (int8 (pn.balance - 1))) := by
      simp only [insertAttach, hr, if_true, if_false, bind_ok, node_setPrv, node_setNxt, node_setL,
        node_setR, e1, e2, hpn, hpv, hnx, pure_eq_ok, node_mk_mem, map_ok]
    refine ⟨_, hex, ?_, ?_, ?_, ?_, ?_, ?_, ?_, ?_, ?_⟩
    · apply hsplice
      · simp [tv_setPrv, tv_setNxt, e1, e2, tv_of_node hn0]
      · intro q' hq'; simp at hq'
      · intro q' hq' p n htq
        simp only [headOr_cons, Option.some.injEq] at hq'
        subst hq'
        simp [tv_setPrv, tv_setNxt, tv_setL, tv_setBalance, e1, e2, htq]
      · intro a ha h1 h2
        have ha1 : a ≠ nn := fun h => hnn (by rw [← h]; simpa using ha)
        have ha2 : a ≠ cn := fun h => h2 (by rw [h]; rfl)
        simp [tv_setPrv, tv_setNxt, tv_setL, tv_setR, tv_setBalance, ha1.symm, ha2.symm]
    · intro a ha
      simp [sv_setBalance, sv_setL, sv_setR, Ne.symm ha]
    · simp [sv_setBalance, sv_setL, sv_setR, sv_of_node hpn]
    · simp [Tree.setPrv, Tree.setNxt, Tree.setL, Tree.setR, Tree.setBalance]
    · simp [Tree.setPrv, Tree.setNxt, Tree.setL, Tree.setR, Tree.setBalance]
    · simp [Tree.setPrv, Tree.setNxt, Tree.setL, Tree.setR, Tree.setBalance]
    · simp [Tree.setPrv, Tree.setNxt, Tree.setL, Tree.setR, Tree.setBalance]
    · simp [Tree.setPrv, Tree.setNxt, Tree.setL, Tree.setR, Tree.setBalance]
    · intro a; simp
  | some q =>
    rw [hq] at hpv
    have hqm : q ∈ pre := by
      rcases lastOr_mem hq with h | h
      · exact h
      · cases h
    have hne : pre ≠ [] := by rintro rfl; cases hqm
    have e3 : q ≠ cn := fun h => by rw [h] at hqm; exact hcn'.1 hqm
    have e4 : cn ≠ q := fun h => e3 h.symm
    have e5 : q ≠ nn := fun h => by rw [h] at hqm; exact hnn'.1 hqm
    have e6 : nn ≠ q := fun h => e5 h.symm
    have hex : insertAttach t cn nn r = .ok
        ((((((t.setPrv nn (some q)).setNxt nn (some cn)).setNxt q (some nn)).setPrv cn
          (some nn)).setL cn (some nn)).setBalance cn (int8 (pn.balance - 1))) := by
      simp only [insertAttach, hr, if_true, if_false, bind_ok, node_setPrv, node_setNxt, node_setL,
        node_setR, e1, e2, e3, e4, e5, e6, hpn, hpv, hnx, pure_eq_ok, node_mk_mem, map_ok]
    refine ⟨_, hex, ?_, ?_, ?_, ?_, ?_, ?_, ?_, ?_, ?_⟩
    · apply hsplice
      · simp [tv_setPrv, tv_setNxt, e1, e2, e3, e4, e5, e6, tv_of_node hn0, hq]
      · intro q' hq' p n htq
        rw [hq] at hq'
        simp only [Option.some.injEq] at hq'
        subst hq'
        simp [tv_setPrv, tv_setNxt, tv_setL, tv_setBalance, e3, e4, e5, e6, htq]
      · intro q' hq' p n htq
        simp only [headOr_cons, Option.some.injEq] at hq'
        subst hq'
        simp [tv_setPrv, tv_setNxt, tv_setL, tv_setBalance, e1, e2, e3, e4, htq]
      · intro a ha h1 h2
        have ha1 : a ≠ nn := fun h => hnn (by rw [← h]; simpa using ha)
        have ha2 : a ≠ cn := fun h => h2 (by rw [h]; rfl)
        have ha3 : a ≠ q := fun h => h1 (by rw [h, hq])
        simp [tv_setPrv, tv_setNxt, tv_setL, tv_setR, tv_setBalance, ha1.symm, ha2.symm,
          ha3.symm]
    · intro a ha
      simp [sv_setBalance, sv_setL, sv_setR, Ne.symm ha]
    · simp [sv_setBalance, sv_setL, sv_setR, sv_of_node hpn]
    · simp [Tree.setPrv, Tree.setNxt, Tree.setL, Tree.setR, Tree.setBalance, hne]
    · simp [Tree.setPrv, Tree.setNxt, Tree.setL, Tree.setR, Tree.setBalance, hne]
    · simp [Tree.setPrv, Tree.setNxt, Tree.setL, Tree.setR, Tree.setBalance]
    · simp [Tree.setPrv, Tree.setNxt, Tree.setL, Tree.setR, Tree.setBalance]
    · simp [Tree.setPrv, Tree.setNxt, Tree.setL, Tree.setR, Tree.setBalance]
    · intro a; simp

/-- The splice of Insert on the right of `cn`: the new node enters the thread
just after `cn` and becomes its right child. -/
theorem insertAttach_R {t : Tree α} {pre post : List Nat} {cn nn : Nat} {r : Int}
    (hthr : Thr t none (pre ++ cn :: post) none) (hnd : (pre ++ cn :: post).Nodup)
    (hnn : nn ∉ pre ++ cn :: post) (hnode : ∃ n, t.node nn = .ok n) (hr : ¬ r < 0) :
    ∃ t', insertAttach t cn nn r = .ok t' ∧ Thr t' none (pre ++ cn :: nn :: post) none ∧
      (∀ a, a ≠ cn → t'.sv a = t.sv a) ∧
      t'.sv cn = (t.sv cn).map (fun q => (q.1, int8 (q.2.1 + 1), q.2.2.1, some nn, q.2.2.2.2)) ∧
      t'.head = t.head ∧ t'.tail = (if post = [] then some nn else t.tail) ∧
      t'.root = t.root ∧ t'.size = t.size ∧ t'.mem.length = t.mem.length ∧
      (∀ a, t'.dv a = t.dv a) := by
  obtain ⟨n0, hn0⟩ := hnode
  have hmid := Thr_mid hthr
  obtain ⟨pn, hpn, hpv, hnx⟩ := thr_node_iff.mpr hmid
  have e1 : nn ≠ cn := fun h => hnn (by simp [h])
  have e2 : cn ≠ nn := fun h => e1 h.symm
  have hnn' : nn ∉ pre ∧ nn ∉ post := by
    simp only [List.mem_append, List.mem_cons, not_or] at hnn
    exact ⟨hnn.1, hnn.2.2⟩
  have hcn' : cn ∉ pre ∧ cn ∉ post := by
    simp only [List.nodup_append, List.nodup_cons, List.Disjoint, List.mem_cons] at hnd
    exact ⟨fun h => hnd.2.2 h (Or.inl rfl), hnd.2.1.1⟩
  have hthr2 : Thr t none ((pre ++ [cn]) ++ post) none := by simpa using hthr
  have hnd2 : ((pre ++ [cn]) ++ post).Nodup := by simpa using hnd
  have hl : lastOr none (pre ++ [cn]) = some cn := by rw [lastOr_append]; rfl
  have hsplice : ∀ t' : Tree α, _ → _ → _ → _ → Thr t' none (pre ++ cn :: nn :: post) none :=
    fun t' h1 h2 h3 h4 => by
      have := @Thr_splice_in _ t t' (pre ++ [cn]) post nn hthr2 hnd2 h1 h2 h3 h4
      simpa using this
  cases hq : headOr post none with
  | none =>
    have hemp : post = [] := by
      cases post with
      | nil => rfl
      | cons a post => simp at hq
    subst hemp
    rw [hq] at hnx
    have hex : insertAttach t cn nn r = .ok
        (((({ (t.setNxt nn none).setPrv nn (some cn) with tail := some nn } : Tree α).setNxt cn
          (some nn)).setR cn (some nn)).setBalance cn (int8 (pn.balance + 1))) := by
      simp only [insertAttach, hr, if_true, if_false, bind_ok, node_setPrv, node_setNxt, node_setL,
        node_setR, e1, e2, hpn, hpv, hnx, pure_eq_ok, node_mk_mem, map_ok]
    refine ⟨_, hex, ?_, ?_, ?_, ?_, ?_, ?_, ?_, ?_, ?_⟩
    · apply hsplice
      · simp [tv_setPrv, tv_setNxt, e1, e2, tv_of_node hn0, hl, hq]
      · intro q' hq' p n htq
        rw [hl] at hq'
        simp only [Option.some.injEq] at hq'
        subst hq'
        simp [tv_setPrv, tv_setNxt, tv_setR, tv_setBalance, e1, e2, htq]
      · intro q' hq'; simp at hq'
      · intro a ha h1 h2
        have ha1 : a ≠ nn := fun h => hnn (by rw [← h]; simpa using ha)
        have ha2 : a ≠ cn := fun h => h1 (by rw [h, hl])
        simp [tv_setPrv, tv_setNxt, tv_setL, tv_setR, tv_setBalance, ha1.symm, ha2.symm]
    · intro a ha
      simp [sv_setBalance, sv_setL, sv_setR, Ne.symm ha]
    · simp [sv_setBalance, sv_setL, sv_setR, sv_of_node hpn]
    · simp [Tree.setPrv, Tree.setNxt, Tree.setL, Tree.setR, Tree.setBalance]
    · simp [Tree.setPrv, Tree.setNxt, Tree.setL, Tree.setR, Tree.setBalance]
    · simp [Tree.setPrv, Tree.setNxt, Tree.setL, Tree.setR, Tree.setBalance]
    · simp [Tree.setPrv, Tree.setNxt, Tree.setL, Tree.setR, Tree.setBalance]
    · simp [Tree.setPrv, Tree.setNxt, Tree.setL, Tree.setR, Tree.setBalance]
    · intro a; simp
  | some q =>
    rw [hq] at hnx
    have hqm : q ∈ post := by
      rcases headOr_mem hq with h | h
      · exact h
      · cases h
    have hne : post ≠ [] := by rintro rfl; cases hqm
    have e3 : q ≠ cn := fun h => by rw [h] at hqm; exact hcn'.2 hqm
    have e4 : cn ≠ q := fun h => e3 h.symm
    have e5 : q ≠ nn := fun h => by rw [h] at hqm; exact hnn'.2 hqm
    have e6 : nn ≠ q := fun h => e5 h.symm
    have hex : insertAttach t cn nn r = .ok
        ((((((t.setNxt nn (some q)).setPrv nn (some cn)).setPrv q (some nn)).setNxt cn
          (some nn)).setR cn (some nn)).setBalance cn (int8 (pn.balance + 1))) := by
      simp only [insertAttach, hr, if_true, if_false, bind_ok, node_setPrv, node_setNxt, node_setL,
        node_setR, e1, e2, e3, e4, e5, e6, hpn, hpv, hnx, pure_eq_ok, node_mk_mem, map_ok]
    refine ⟨_, hex, ?_, ?_, ?_, ?_, ?_, ?_, ?_, ?_, ?_⟩
    · apply hsplice
      · simp [tv_setPrv, tv_setNxt, e1, e2, e3, e4, e5, e6, tv_of_node hn0, hl, hq]
      · intro q' hq' p n htq
        rw [hl] at hq'
        simp only [Option.some.injEq] at hq'
        subst hq'
        simp [tv_setPrv, tv_setNxt, tv_setR, tv_setBalance, e1, e2, e3, e4, htq]
      · intro q' hq' p n htq
        rw [hq] at hq'
        simp only [Option.some.injEq] at hq'
        subst hq'
        simp [tv_setPrv, tv_setNxt, tv_setR, tv_setBalance, e3, e4, e5, e6, htq]
      · intro a ha h1 h2
        have ha1 : a ≠ nn := fun h => hnn (by rw [← h]; simpa using ha)
        have ha2 : a ≠ cn := fun h => h1 (by rw [h, hl])
        have ha3 : a ≠ q := fun h => h2 (by rw [h, hq])
        simp [tv_setPrv, tv_setNxt, tv_setL, tv_setR, tv_setBalance, ha1.symm, ha2.symm,
          ha3.symm]
    · intro a ha
      simp [sv_setBalance, sv_setL, sv_setR, Ne.symm ha]
    · simp [sv_setBalance, sv_setL, sv_setR, sv_of_node hpn]
    · simp [Tree.setPrv, Tree.setNxt, Tree.setL, Tree.setR, Tree.setBalance, hne]
    · simp [Tree.setPrv, Tree.setNxt, Tree.setL, Tree.setR, Tree.setBalance, hne]
    · simp [Tree.setPrv, Tree.setNxt, Tree.setL, Tree.setR, Tree.setBalance]
    · simp [Tree.setPrv, Tree.setNxt, Tree.setL, Tree.setR, Tree.setBalance]
    · simp [Tree.setPrv, Tree.setNxt, Tree.setL, Tree.setR, Tree.setBalance]
    · intro a; simp

/-! ## Insert -/

theorem Rep_dv {t : Tree α} {par : Option Nat} {s : ATree α} (hr : Rep t par s) {a : Nat}
    (ha : a ∈ s.addrs) : ∃ d ∈ s.elems, t.dv a = some d := by
  induction s generalizing par with
  | nil => simp [ATree.addrs] at ha
  | node l x d b r ihl ihr =>
    obtain ⟨⟨n, hn, h1, -⟩, hl, hrr⟩ := hr
    simp only [ATree.addrs, List.mem_append, List.mem_cons] at ha
    simp only [ATree.elems, List.mem_append, List.mem_cons]
    rcases ha with ha | rfl | ha
    · obtain ⟨e, he, h⟩ := ihl hl ha
      exact ⟨e, Or.inl he, h⟩
    · exact ⟨d, Or.inr (Or.inl rfl), by rw [dv_of_node hn, h1]⟩
    · obtain ⟨e, he, h⟩ := ihr hrr ha
      exact ⟨e, Or.inr (Or.inr he), h⟩

/-- Addresses of a held tree with strictly increasing elements are distinct. -/
theorem Rep_nodup [Comparable α] [StrictTotal α] {t : Tree α} {par : Option Nat} {s : ATree α}
    (hr : Rep t par s) (hs : Sorted s.elems) : s.addrs.Nodup := by
  induction s generalizing par with
  | nil => simp [ATree.addrs]
  | node l x d b r ihl ihr =>
    have hr' := hr
    obtain ⟨⟨n, hn, h1, -⟩, hl, hrr⟩ := hr'
    have hs' := hs
    simp only [ATree.elems, Sorted, List.pairwise_append, List.pairwise_cons, List.mem_cons] at hs'
    obtain ⟨hsl, ⟨hdr, hsr⟩, hlr⟩ := hs'
    rw [nodup_node]
    refine ⟨ihl hl hsl, ihr hrr hsr, ?_, ?_, ?_⟩
    · intro hx
      obtain ⟨e, he, h⟩ := Rep_dv hl hx
      rw [dv_of_node hn, h1] at h
      cases h
      have := hlr d he d (Or.inl rfl)
      rw [cmp_self] at this
      omega
    · intro hx
      obtain ⟨e, he, h⟩ := Rep_dv hrr hx
      rw [dv_of_node hn, h1] at h
      cases h
      have := hdr d he
      rw [cmp_self] at this
      omega
    · intro y hy1 hy2
      obtain ⟨e1, he1, h1'⟩ := Rep_dv hl hy1
      obtain ⟨e2, he2, h2'⟩ := Rep_dv hrr hy2
      rw [h1'] at h2'
      cases h2'
      have := hlr e1 he1 e1 (Or.inr he2)
      rw [cmp_self] at this
      omega

theorem ctx_length_le (c : List (Frame α)) :
    c.length ≤ (ctxBefore c).length + (ctxAfter c).length := by
  induction c with
  | nil => simp
  | cons F c ih => cases F <;> simp [ctxBefore, ctxAfter] <;> omega

theorem plug_length_ge (c : List (Frame α)) (s : ATree α) :
    c.length + s.addrs.length ≤ (plug c s).addrs.length := by
  have := ctx_length_le c
  simp [addrs_plug]
  omega

theorem sorted_insert [Comparable α] {pre post : List α} {x : α} (h : Sorted (pre ++ post))
    (h1 : ∀ e ∈ pre, CompareTo e x < 0) (h2 : ∀ e ∈ post, CompareTo x e < 0) :
    Sorted (pre ++ x :: post) := by
  simp only [Sorted, List.pairwise_append, List.pairwise_cons, List.mem_cons] at h ⊢
  refine ⟨h.1, ⟨h2, h.2.1⟩, ?_⟩
  intro a ha b hb
  rcases hb with rfl | hb
  · exact h1 a ha
  · exact h.2.2 a ha b hb

theorem ctxElems_length (c : List (Frame α)) :
    (ctxElemsBefore c).length = (ctxBefore c).length ∧
      (ctxElemsAfter c).length = (ctxAfter c).length := by
  induction c with
  | nil => simp [ctxElemsBefore, ctxElemsAfter, ctxBefore, ctxAfter]
  | cons F c ih =>
    cases F <;>
      simp [ctxElemsBefore, ctxElemsAfter, ctxBefore, ctxAfter, ih.1, ih.2, length_elems]

theorem SameThr.thr {t t' : Tree α} (h : SameThr t t') {pv nx : Option Nat} {xs : List Nat}
    (ht : Thr t pv xs nx) : Thr t' pv xs nx :=
  Thr_congr (fun a _ => h.tv a) ht

theorem getLast?_append_cons_cons (pre post : List Nat) (a b : Nat) :
    (pre ++ a :: b :: post).getLast? = (pre ++ b :: post).getLast? := by
  rw [← lastOr_none_eq_getLast?, ← lastOr_none_eq_getLast?, lastOr_append, lastOr_append]
  rfl

theorem head?_append_cons (pre post : List Nat) (a : Nat) :
    (pre ++ a :: post).head? = if pre = [] then some a else pre.head? := by
  cases pre <;> simp

theorem getLast?_append_cons (pre post : List Nat) (a : Nat) :
    (pre ++ a :: post).getLast? = if post = [] then some a else post.getLast? := by
  rw [← lastOr_none_eq_getLast?, lastOr_append, lastOr_cons]
  cases post with
  | nil => rfl
  | cons b post => rw [lastOr_cons, lastOr_some]; simp

/-- Insert below the left of the last node of the search path. -/
theorem insert_finish_L [Comparable α] [StrictTotal α] {t : Tree α} {c' : List (Frame α)}
    {r' : ATree α} {pa : Nat} {pd : α} {pb : Int} (h : Inv t (plug (.L pa pd pb r' :: c') .nil))
    (x : α) (hb1 : ∀ e ∈ ctxElemsBefore c', CompareTo e x < 0)
    (hb2 : ∀ e ∈ pd :: (r'.elems ++ ctxElemsAfter c'), CompareTo x e < 0) (fuel : Nat)
    (hf : (plug (.L pa pd pb r' :: c') (.nil : ATree α)).addrs.length + 2 ≤ fuel) (r : Int) (hr : r < 0) :
    ∃ t2, insertAttach (t.alloc x (some pa)).1 pa t.mem.length r = .ok t2 ∧
      ∃ t' s', insertRebalance { t2 with size := t2.size + 1 } fuel pa = .ok t' ∧ WF t' s' ∧
        (plug (.L pa pd pb r' :: c') (.nil : ATree α)).addrs = (ctxBefore c') ++ (pa :: (r'.addrs ++ ctxAfter c')) ∧
        s'.addrs = (ctxBefore c') ++ t.mem.length :: (pa :: (r'.addrs ++ ctxAfter c')) ∧
        (plug (.L pa pd pb r' :: c') (.nil : ATree α)).elems = (ctxElemsBefore c') ++ (pd :: (r'.elems ++ ctxElemsAfter c')) ∧
        s'.elems = (ctxElemsBefore c') ++ x :: (pd :: (r'.elems ++ ctxElemsAfter c')) ∧
        t'.size = t.size + 1 ∧ t'.mem.length = t.mem.length + 1 ∧
        (∀ a, a < t.mem.length → t'.dv a = t.dv a) ∧ t'.dv t.mem.length = some x := by
  obtain ⟨hroot, hrep, hsorted, hbal, hthr, hsize, hends⟩ := h
  have hnd := Rep_nodup hrep hsorted
  have haddr : (plug (.L pa pd pb r' :: c') (.nil : ATree α)).addrs = ctxBefore c' ++ pa :: (r'.addrs ++ ctxAfter c') := by
    simp [addrs_plug, ctxBefore, ctxAfter, ATree.addrs]
  have helem : (plug (.L pa pd pb r' :: c') (.nil : ATree α)).elems = (ctxElemsBefore c') ++ (pd :: (r'.elems ++ ctxElemsAfter c')) := by
    simp [elems_plug, ctxElemsBefore, ctxElemsAfter, ATree.elems]
  -- the store after allocation
  have hlt : ∀ a ∈ (plug (.L pa pd pb r' :: c') (.nil : ATree α)).addrs, a < t.mem.length :=
    fun a ha => Rep_lt_length hrep ha
  have hnn : t.mem.length ∉ (plug (.L pa pd pb r' :: c') (.nil : ATree α)).addrs :=
    fun hm => Nat.lt_irrefl _ (hlt _ hm)
  have hold : ∀ a, a < t.mem.length → (t.alloc x (some pa)).1.node a = t.node a :=
    fun a ha => node_alloc_old t x (some pa) ha
  have hnew := node_alloc_new t x (some pa)
  have hrep1 : Rep (t.alloc x (some pa)).1 none (plug (.L pa pd pb r' :: c') .nil) :=
    Rep_of_node_eq (fun a ha => hold a (hlt a ha)) hrep
  have hthr1 : Thr (t.alloc x (some pa)).1 none
      (plug (.L pa pd pb r' :: c') (.nil : ATree α)).addrs none :=
    Thr_congr (fun a ha => by simp only [Tree.tv, hold a (hlt a ha)]) hthr
  have hnd0 := hnd
  have hnn0 := hnn
  rw [haddr] at hthr1 hnd hnn
  obtain ⟨t2, hat, hthr2, hsv, hsvc, hhead, htail, hroot2, hsize2, hlen2, hdv2⟩ :=
    insertAttach_L (r := r) hthr1 hnd hnn ⟨_, hnew⟩ hr
  refine ⟨t2, hat, ?_⟩
  -- shape facts
  rw [Rep_plug] at hrep1
  obtain ⟨⟨hpa, hr'1, hseg1⟩, -⟩ := hrep1
  rw [Bal_plug] at hbal
  obtain ⟨-, hr'b, hpb, hpb1, hpb2, hctx⟩ := hbal
  simp only [ATree.height, Nat.cast_zero, sub_zero, zero_sub] at hpb
  have hi8 : int8 (pb - 1) = pb - 1 := int8_id (by omega) (by omega)
  have hctxnd := (nodup_plug.mp hnd0).1
  rw [nodup_ctxAddrs_L] at hctxnd
  obtain ⟨n1, n2, x1, x2, n3⟩ := hctxnd
  have hfresh : t.mem.length ∉ ctxAddrs (.L pa pd pb r' :: c') := by
    intro hm; apply hnn0; rw [addrs_plug]; rw [mem_ctxAddrs] at hm
    simp only [ATree.addrs, List.append_nil, List.mem_append]; exact hm
  rw [mem_ctxAddrs_L] at hfresh
  simp only [not_or] at hfresh
  obtain ⟨f1, f2, f3⟩ := hfresh
  have hsv3 : ∀ a, a ≠ pa → ({ t2 with size := t2.size + 1 } : Tree α).sv a =
      (t.alloc x (some pa)).1.sv a := fun a ha => hsv a ha
  have hseg3 : RepSeg ({ t2 with size := t2.size + 1 } : Tree α) none c' (some pa) :=
    RepSeg_congr (fun a ha => hsv3 a (fun e => x2 (e ▸ ha))) hseg1
  have hr'3 : Rep ({ t2 with size := t2.size + 1 } : Tree α) (some pa) r' :=
    Rep_congr (fun a ha => hsv3 a (fun e => x1 (e ▸ ha))) hr'1
  have e1 : t.mem.length ≠ pa := f1
  have hrep3 : Rep ({ t2 with size := t2.size + 1 } : Tree α) (ctxPar none c')
      (.node (.node .nil t.mem.length x 0 .nil) pa pd (pb - 1) r') := by
    refine ⟨?_, ?_, ?_⟩
    · rw [nodeIs_iff_sv]
      show t2.sv pa = _
      rw [hsvc, nodeIs_iff_sv.mp hpa]
      simp [hi8]
    · refine ⟨?_, trivial, trivial⟩
      rw [nodeIs_iff_sv]
      show t2.sv t.mem.length = _
      rw [hsv _ e1, sv_of_node hnew]; rfl
    · exact hr'3
      
      
      
  have hnd3 : (plug c' (.node (.node .nil t.mem.length x 0 .nil) pa pd (pb - 1) r')).addrs.Nodup := by
    rw [nodup_plug, nodup_node, nodup_node]
    have f1' : pa ≠ t.mem.length := fun h => f1 h.symm
    simp only [mem_addrs_node, ATree.addrs, List.nodup_nil, List.not_mem_nil, not_false_eq_true,
      true_and, and_true, or_false, false_or, forall_eq_or_imp, forall_eq, or_imp, forall_and,
      implies_true, IsEmpty.forall_iff, List.nil_append, List.append_nil, List.mem_singleton,
      List.mem_append, List.mem_cons, List.nodup_cons, ne_eq]
    refine ⟨n1, ?_, ?_⟩
    · first
        | exact ⟨n2, f1', x1, f2⟩
        | exact ⟨n2, x1, f1', f2⟩
        | exact ⟨n2, x1, f1', fun y hy h => f2 (h ▸ hy)⟩
    · first
        | exact ⟨f3, x2, n3⟩
        | exact ⟨n3, x2, f3⟩
        | exact ⟨x2, f3, n3⟩
        | exact ⟨x2, n3, f3⟩
  have hlen : c'.length + 2 ≤ fuel := by
    have := plug_length_ge (.L pa pd pb r' :: c') (.nil : ATree α)
    simp at this hf ⊢
    omega
  obtain ⟨t', s', hx', hro', hre', hb', had', hel', hsa'⟩ :=
    insertRebalance_spec c' (.node (.node .nil t.mem.length x 0 .nil) pa pd (pb - 1) r')
      ({ t2 with size := t2.size + 1 } : Tree α) pa (max 0 r'.height + 1) fuel rfl
      ⟨⟨trivial, trivial, by simp [ATree.height], by omega, by omega⟩, hr'b,
        by simp [ATree.height]; omega, by omega, by omega⟩
      hctx (by intro hz; simp [ATree.height] at hz ⊢; omega)
      (by intro hz; simp [ATree.height] at hz ⊢; omega) hseg3
      (by
        show t2.root = _
        rw [hroot2]
        show t.root = _
        rw [hroot, rootPtr_plug]; rfl)
      hrep3 hnd3 hlen
  have hadd : s'.addrs = (ctxBefore c') ++ t.mem.length :: (pa :: (r'.addrs ++ ctxAfter c')) := by
    rw [had']; simp [addrs_plug, ATree.addrs]
  have held : s'.elems = (ctxElemsBefore c') ++ x :: (pd :: (r'.elems ++ ctxElemsAfter c')) := by
    rw [hel']; simp [elems_plug, ATree.elems]
  have haddr' : (plug (.L pa pd pb r' :: c') (.nil : ATree α)).addrs = (ctxBefore c') ++ (pa :: (r'.addrs ++ ctxAfter c')) := by
    rw [haddr]
  have hthr3 : Thr ({ t2 with size := t2.size + 1 } : Tree α) none
      (ctxBefore c' ++ t.mem.length :: pa :: (r'.addrs ++ ctxAfter c')) none :=
    @Thr_congr _ t2 { t2 with size := t2.size + 1 } _ (fun a _ => rfl) _ _ hthr2
  have hht : t'.head = s'.addrs.head? ∧ t'.tail = s'.addrs.getLast? := by
    rw [hsa'.head, hsa'.tail]
    show t2.head = _ ∧ t2.tail = _
    rw [hhead, htail]
    have he := hends (by rw [haddr]; simp)
    rw [haddr] at he
    have hadd2 : s'.addrs = ctxBefore c' ++ t.mem.length :: pa :: (r'.addrs ++ ctxAfter c') := by
      rw [hadd]
    rw [hadd2]
    show _ = _ ∧ t.tail = _
    rw [he.2, getLast?_append_cons_cons]
    refine ⟨?_, rfl⟩
    show (if _ then _ else t.head) = _
    rw [he.1, head?_append_cons, head?_append_cons]
    split_ifs <;> rfl
  refine ⟨t', s', hx', ⟨⟨hro', hre', ?_, hb', ?_, ?_, fun _ => hht⟩, hht.1, hht.2⟩, haddr', hadd,
    helem, held, ?_, ?_, ?_, ?_⟩
  · rw [held]
    exact sorted_insert (by rw [← helem]; exact hsorted) hb1 hb2
  · rw [had']
    have : (plug c' (.node (.node .nil t.mem.length x 0 .nil) pa pd (pb - 1) r')).addrs =
        ctxBefore c' ++ t.mem.length :: pa :: (r'.addrs ++ ctxAfter c') := by
      simp [addrs_plug, ATree.addrs]
    rw [this]
    exact hsa'.thr hthr3
  · rw [hsa'.size, hadd]
    show t2.size + 1 = _
    rw [hsize2]
    show t.size + 1 = _
    rw [hsize, haddr']
    simp only [List.length_append, List.length_cons]
    omega
  · rw [hsa'.size]
    show t2.size + 1 = _
    rw [hsize2]; rfl
  · rw [hsa'.len]
    show t2.mem.length = _
    rw [hlen2]; simp [Tree.alloc]
  · intro a ha
    rw [hsa'.dv]
    show t2.dv a = _
    rw [hdv2]
    simp only [Tree.dv, hold a ha]
  · rw [hsa'.dv]
    show t2.dv _ = _
    rw [hdv2, dv_of_node hnew]

/-- Insert below the right of the last node of the search path. -/
theorem insert_finish_R [Comparable α] [StrictTotal α] {t : Tree α} {c' : List (Frame α)}
    {r' : ATree α} {pa : Nat} {pd : α} {pb : Int} (h : Inv t (plug (.R r' pa pd pb :: c') .nil))
    (x : α) (hb1 : ∀ e ∈ ctxElemsBefore c' ++ r'.elems ++ [pd], CompareTo e x < 0)
    (hb2 : ∀ e ∈ ctxElemsAfter c', CompareTo x e < 0) (fuel : Nat)
    (hf : (plug (.R r' pa pd pb :: c') (.nil : ATree α)).addrs.length + 2 ≤ fuel) (r : Int) (hr : ¬ r < 0) :
    ∃ t2, insertAttach (t.alloc x (some pa)).1 pa t.mem.length r = .ok t2 ∧
      ∃ t' s', insertRebalance { t2 with size := t2.size + 1 } fuel pa = .ok t' ∧ WF t' s' ∧
        (plug (.R r' pa pd pb :: c') (.nil : ATree α)).addrs = (ctxBefore c' ++ r'.addrs ++ [pa]) ++ (ctxAfter c') ∧
        s'.addrs = (ctxBefore c' ++ r'.addrs ++ [pa]) ++ t.mem.length :: (ctxAfter c') ∧
        (plug (.R r' pa pd pb :: c') (.nil : ATree α)).elems = (ctxElemsBefore c' ++ r'.elems ++ [pd]) ++ (ctxElemsAfter c') ∧
        s'.elems = (ctxElemsBefore c' ++ r'.elems ++ [pd]) ++ x :: (ctxElemsAfter c') ∧
        t'.size = t.size + 1 ∧ t'.mem.length = t.mem.length + 1 ∧
        (∀ a, a < t.mem.length → t'.dv a = t.dv a) ∧ t'.dv t.mem.length = some x := by
  obtain ⟨hroot, hrep, hsorted, hbal, hthr, hsize, hends⟩ := h
  have hnd := Rep_nodup hrep hsorted
  have haddr : (plug (.R r' pa pd pb :: c') (.nil : ATree α)).addrs = (ctxBefore c' ++ r'.addrs) ++ pa :: ctxAfter c' := by
    simp [addrs_plug, ctxBefore, ctxAfter, ATree.addrs]
  have helem : (plug (.R r' pa pd pb :: c') (.nil : ATree α)).elems = (ctxElemsBefore c' ++ r'.elems ++ [pd]) ++ (ctxElemsAfter c') := by
    simp [elems_plug, ctxElemsBefore, ctxElemsAfter, ATree.elems]
  -- the store after allocation
  have hlt : ∀ a ∈ (plug (.R r' pa pd pb :: c') (.nil : ATree α)).addrs, a < t.mem.length :=
    fun a ha => Rep_lt_length hrep ha
  have hnn : t.mem.length ∉ (plug (.R r' pa pd pb :: c') (.nil : ATree α)).addrs :=
    fun hm => Nat.lt_irrefl _ (hlt _ hm)
  have hold : ∀ a, a < t.mem.length → (t.alloc x (some pa)).1.node a = t.node a :=
    fun a ha => node_alloc_old t x (some pa) ha
  have hnew := node_alloc_new t x (some pa)
  have hrep1 : Rep (t.alloc x (some pa)).1 none (plug (.R r' pa pd pb :: c') .nil) :=
    Rep_of_node_eq (fun a ha => hold a (hlt a ha)) hrep
  have hthr1 : Thr (t.alloc x (some pa)).1 none
      (plug (.R r' pa pd pb :: c') (.nil : ATree α)).addrs none :=
    Thr_congr (fun a ha => by simp only [Tree.tv, hold a (hlt a ha)]) hthr
  have hnd0 := hnd
  have hnn0 := hnn
  rw [haddr] at hthr1 hnd hnn
  obtain ⟨t2, hat, hthr2, hsv, hsvc, hhead, htail, hroot2, hsize2, hlen2, hdv2⟩ :=
    insertAttach_R (r := r) hthr1 hnd hnn ⟨_, hnew⟩ hr
  refine ⟨t2, hat, ?_⟩
  -- shape facts
  rw [Rep_plug] at hrep1
  obtain ⟨⟨hpa, hr'1, hseg1⟩, -⟩ := hrep1
  rw [Bal_plug] at hbal
  obtain ⟨-, hr'b, hpb, hpb1, hpb2, hctx⟩ := hbal
  simp only [ATree.height, Nat.cast_zero, sub_zero, zero_sub] at hpb
  have hi8 : int8 (pb + 1) = pb + 1 := int8_id (by omega) (by omega)
  have hctxnd := (nodup_plug.mp hnd0).1
  rw [nodup_ctxAddrs_R] at hctxnd
  obtain ⟨n1, n2, x1, x2, n3⟩ := hctxnd
  have hfresh : t.mem.length ∉ ctxAddrs (.R r' pa pd pb :: c') := by
    intro hm; apply hnn0; rw [addrs_plug]; rw [mem_ctxAddrs] at hm
    simp only [ATree.addrs, List.append_nil, List.mem_append]; exact hm
  rw [mem_ctxAddrs_R] at hfresh
  simp only [not_or] at hfresh
  obtain ⟨f1, f2, f3⟩ := hfresh
  have hsv3 : ∀ a, a ≠ pa → ({ t2 with size := t2.size + 1 } : Tree α).sv a =
      (t.alloc x (some pa)).1.sv a := fun a ha => hsv a ha
  have hseg3 : RepSeg ({ t2 with size := t2.size + 1 } : Tree α) none c' (some pa) :=
    RepSeg_congr (fun a ha => hsv3 a (fun e => x2 (e ▸ ha))) hseg1
  have hr'3 : Rep ({ t2 with size := t2.size + 1 } : Tree α) (some pa) r' :=
    Rep_congr (fun a ha => hsv3 a (fun e => x1 (e ▸ ha))) hr'1
  have e1 : t.mem.length ≠ pa := f1
  have hrep3 : Rep ({ t2 with size := t2.size + 1 } : Tree α) (ctxPar none c')
      (.node r' pa pd (pb + 1) (.node .nil t.mem.length x 0 .nil)) := by
    refine ⟨?_, ?_, ?_⟩
    · rw [nodeIs_iff_sv]
      show t2.sv pa = _
      rw [hsvc, nodeIs_iff_sv.mp hpa]
      simp [hi8]
    · exact hr'3
      
      
      
    · refine ⟨?_, trivial, trivial⟩
      rw [nodeIs_iff_sv]
      show t2.sv t.mem.length = _
      rw [hsv _ e1, sv_of_node hnew]; rfl
  have hnd3 : (plug c' (.node r' pa pd (pb + 1) (.node .nil t.mem.length x 0 .nil))).addrs.Nodup := by
    rw [nodup_plug, nodup_node, nodup_node]
    have f1' : pa ≠ t.mem.length := fun h => f1 h.symm
    simp only [mem_addrs_node, ATree.addrs, List.nodup_nil, List.not_mem_nil, not_false_eq_true,
      true_and, and_true, or_false, false_or, forall_eq_or_imp, forall_eq, or_imp, forall_and,
      implies_true, IsEmpty.forall_iff, List.nil_append, List.append_nil, List.mem_singleton,
      List.mem_append, List.mem_cons, List.nodup_cons, ne_eq]
    refine ⟨n1, ?_, ?_⟩
    · first
        | exact ⟨n2, f1', x1, f2⟩
        | exact ⟨n2, x1, f1', f2⟩
        | exact ⟨n2, x1, f1', fun y hy h => f2 (h ▸ hy)⟩
    · first
        | exact ⟨f3, x2, n3⟩
        | exact ⟨n3, x2, f3⟩
        | exact ⟨x2, f3, n3⟩
        | exact ⟨x2, n3, f3⟩
  have hlen : c'.length + 2 ≤ fuel := by
    have := plug_length_ge (.R r' pa pd pb :: c') (.nil : ATree α)
    simp at this hf ⊢
    omega
  obtain ⟨t', s', hx', hro', hre', hb', had', hel', hsa'⟩ :=
    insertRebalance_spec c' (.node r' pa pd (pb + 1) (.node .nil t.mem.length x 0 .nil))
      ({ t2 with size := t2.size + 1 } : Tree α) pa (max r'.height 0 + 1) fuel rfl
      ⟨hr'b, ⟨trivial, trivial, by simp [ATree.height], by omega, by omega⟩,
        by simp [ATree.height]; omega, by omega, by omega⟩
      hctx (by intro hz; simp [ATree.height] at hz ⊢; omega)
      (by intro hz; simp [ATree.height] at hz ⊢; omega) hseg3
      (by
        show t2.root = _
        rw [hroot2]
        show t.root = _
        rw [hroot, rootPtr_plug]; rfl)
      hrep3 hnd3 hlen
  have hadd : s'.addrs = (ctxBefore c' ++ r'.addrs ++ [pa]) ++ t.mem.length :: (ctxAfter c') := by
    rw [had']; simp [addrs_plug, ATree.addrs]
  have held : s'.elems = (ctxElemsBefore c' ++ r'.elems ++ [pd]) ++ x :: (ctxElemsAfter c') := by
    rw [hel']; simp [elems_plug, ATree.elems]
  have haddr' : (plug (.R r' pa pd pb :: c') (.nil : ATree α)).addrs = (ctxBefore c' ++ r'.addrs ++ [pa]) ++ (ctxAfter c') := by
    rw [haddr]; simp
  have hthr3 : Thr ({ t2 with size := t2.size + 1 } : Tree α) none
      ((ctxBefore c' ++ r'.addrs) ++ pa :: t.mem.length :: ctxAfter c') none :=
    @Thr_congr _ t2 { t2 with size := t2.size + 1 } _ (fun a _ => rfl) _ _ hthr2
  have hht : t'.head = s'.addrs.head? ∧ t'.tail = s'.addrs.getLast? := by
    rw [hsa'.head, hsa'.tail]
    show t2.head = _ ∧ t2.tail = _
    rw [hhead, htail]
    have he := hends (by rw [haddr]; simp)
    rw [haddr] at he
    have hadd2 : s'.addrs = (ctxBefore c' ++ r'.addrs) ++ pa :: t.mem.length :: ctxAfter c' := by
      rw [hadd]; simp
    rw [hadd2]
    refine ⟨?_, ?_⟩
    · show t.head = _
      rw [he.1]
      cases (ctxBefore c' ++ r'.addrs) <;> rfl
    · show (if _ then _ else t.tail) = _
      rw [he.2, getLast?_append_cons_cons, getLast?_append_cons, getLast?_append_cons]
      by_cases hc : ctxAfter c' = []
      · rw [if_pos hc, if_pos hc]
      · rw [if_neg hc, if_neg hc, if_neg hc]
  refine ⟨t', s', hx', ⟨⟨hro', hre', ?_, hb', ?_, ?_, fun _ => hht⟩, hht.1, hht.2⟩, haddr', hadd,
    helem, held, ?_, ?_, ?_, ?_⟩
  · rw [held]
    exact sorted_insert (by rw [← helem]; exact hsorted) hb1 hb2
  · rw [had']
    have : (plug c' (.node r' pa pd (pb + 1) (.node .nil t.mem.length x 0 .nil))).addrs =
        (ctxBefore c' ++ r'.addrs) ++ pa :: t.mem.length :: ctxAfter c' := by
      simp [addrs_plug, ATree.addrs]
    rw [this]
    exact hsa'.thr hthr3
  · rw [hsa'.size, hadd]
    show t2.size + 1 = _
    rw [hsize2]
    show t.size + 1 = _
    rw [hsize, haddr']
    simp only [List.length_append, List.length_cons]
    omega
  · rw [hsa'.size]
    show t2.size + 1 = _
    rw [hsize2]; rfl
  · rw [hsa'.len]
    show t2.mem.length = _
    rw [hlen2]; simp [Tree.alloc]
  · intro a ha
    rw [hsa'.dv]
    show t2.dv a = _
    rw [hdv2]
    simp only [Tree.dv, hold a ha]
  · rw [hsa'.dv]
    show t2.dv _ = _
    rw [hdv2, dv_of_node hnew]

/-! ## Insert -/

theorem Insert_empty [Comparable α] [StrictTotal α] {t : Tree α} (h : Inv t .nil) (x : α)
    (fuel : Nat) :
    ∃ t', Insert fuel t x = .ok (t', none) ∧ WF t' (.node .nil t.mem.length x 0 .nil) ∧
      t'.size = t.size + 1 ∧ t'.mem.length = t.mem.length + 1 ∧
      (∀ a, a < t.mem.length → t'.dv a = t.dv a) ∧ t'.dv t.mem.length = some x := by
  obtain ⟨hroot, hrep, hsorted, hbal, hthr, hsize, hends⟩ := h
  have hr : t.root = none := hroot
  have hnode : ∀ (sz : Nat) (ro hd tl : Option Nat),
      (Tree.mk sz ro hd tl (t.mem ++ [⟨x, 0, none, none, none, none, none⟩])).node t.mem.length
        = .ok ⟨x, 0, none, none, none, none, none⟩ := by
    intro sz ro hd tl
    simp [Tree.node]
  refine ⟨⟨t.size + 1, some t.mem.length, some t.mem.length, some t.mem.length,
    t.mem ++ [⟨x, 0, none, none, none, none, none⟩]⟩, ?_,
    ⟨⟨rfl, ?_, ?_, ?_, ?_, ?_, fun _ => ⟨rfl, rfl⟩⟩, rfl, rfl⟩, ?_, ?_, ?_, ?_⟩
  · simp only [Insert, hr, Tree.alloc]
    rfl
  · exact ⟨⟨_, hnode _ _ _ _, rfl, rfl, rfl, rfl, rfl⟩, trivial, trivial⟩
  · simp [Sorted, ATree.elems]
  · simp [ATree.Bal, ATree.height]
  · exact ⟨⟨_, hnode _ _ _ _, rfl, rfl⟩, trivial⟩
  · show t.size + 1 = _
    rw [hsize]; rfl
  · show t.size + 1 = _
    rfl
  · simp
  · intro a ha
    simp only [Tree.dv, Tree.node]
    rw [List.getElem?_append_left ha]
  · simp only [Tree.dv, hnode]

theorem findA_nil_of_new [Comparable α] (x : α) (s : ATree α)
    (hnew : ∀ e ∈ s.elems, CompareTo x e ≠ 0) : (findA x [] s).2 = .nil := by
  cases hs2 : (findA x [] s).2 with
  | nil => rfl
  | node l a d b r =>
    exfalso
    have hp := findA_plug x s []
    rw [hs2] at hp
    apply hnew d _ (findA_found x s [] hs2)
    have : d ∈ (plug (findA x [] s).1 (.node l a d b r)).elems := by
      rw [elems_plug]; simp [ATree.elems]
    rw [hp] at this
    exact this

/-- Insert of an element that compares equal to no element of the tree. -/
theorem Insert_new [Comparable α] [StrictTotal α] {t : Tree α} {s : ATree α} (h : Inv t s) (x : α)
    (hnew : ∀ e ∈ s.elems, CompareTo x e ≠ 0) (fuel : Nat) (hf : s.addrs.length + 2 ≤ fuel) :
    ∃ t' s' apre apost epre epost, Insert fuel t x = .ok (t', none) ∧ WF t' s' ∧
      s.addrs = apre ++ apost ∧ s'.addrs = apre ++ t.mem.length :: apost ∧
      s.elems = epre ++ epost ∧ s'.elems = epre ++ x :: epost ∧
      (∀ e ∈ epre, CompareTo e x < 0) ∧ (∀ e ∈ epost, CompareTo x e < 0) ∧
      t'.size = t.size + 1 ∧ t'.mem.length = t.mem.length + 1 ∧
      (∀ a, a < t.mem.length → t'.dv a = t.dv a) ∧ t'.dv t.mem.length = some x := by
  obtain rfl | ⟨l0, a0, d0, b0, r0, hs⟩ : s = .nil ∨ ∃ l0 a0 d0 b0 r0, s = .node l0 a0 d0 b0 r0 := by
    cases s
    · exact Or.inl rfl
    · exact Or.inr ⟨_, _, _, _, _, rfl⟩
  · obtain ⟨t', h1, h2, h3, h4, h5, h6⟩ := Insert_empty h x fuel
    exact ⟨t', _, [], [], [], [], h1, h2, rfl, by simp [ATree.addrs], rfl, by simp [ATree.elems],
      by simp, by simp, h3, h4, h5, h6⟩
  · have hroot : t.root = some a0 := by rw [h.root, hs]; rfl
    have hnil := findA_nil_of_new x s hnew
    have hplug := findA_plug x s []
    rw [hnil] at hplug
    obtain ⟨cn, r, hdesc, hres⟩ := insertDescend_spec x s [] t a0 none fuel (by rw [hs]; rfl) h.rep
      (by have := height_le_length s; omega)
    rcases hres with ⟨_, l', d', b', r', hfound⟩ | ⟨hr0, _, F, c', hc, hcn, hrF, hside⟩
    · rw [hnil] at hfound; cases hfound
    rw [hc] at hplug
    have hbounds := findA_bounds x s [] (by exact h.sorted) (by simp [ctxElemsBefore])
      (by simp [ctxElemsAfter])
    rw [hc] at hbounds
    have hInsert : ∀ t2 t', insertAttach (t.alloc x (some cn)).1 cn t.mem.length r = .ok t2 →
        insertRebalance { t2 with size := t2.size + 1 } fuel cn = .ok t' →
        Insert fuel t x = .ok (t', none) := by
      intro t2 t' e1 e2
      simp only [Insert, hroot, hdesc, bind_ok, hr0, if_false, Tree.alloc] at e1 e2 ⊢
      simp only [e1, bind_ok, e2]
      rfl
    have hplug' : plug (F :: c') .nil = s := hplug
    clear hplug hnil hc hs
    subst hplug'
    cases F with
    | L pa pd pb pr =>
      have hr : r < 0 := hside.mpr trivial
      subst hcn
      obtain ⟨t2, e1, t', s', e2, hwf, g1, g2, g3, g4, g5, g6, g7, g8⟩ :=
        insert_finish_L h x hbounds.1 (by simpa [ctxElemsAfter] using hbounds.2) fuel hf r hr
      refine ⟨t', s', _, _, _, _, hInsert t2 t' e1 e2, hwf, g1, g2, g3, g4, hbounds.1, ?_,
        g5, g6, g7, g8⟩
      simpa [ctxElemsAfter] using hbounds.2
    | R pl pa pd pb =>
      have hr : ¬ r < 0 := fun hlt => hside.mp hlt
      subst hcn
      obtain ⟨t2, e1, t', s', e2, hwf, g1, g2, g3, g4, g5, g6, g7, g8⟩ :=
        insert_finish_R h x (by simpa [ctxElemsBefore] using hbounds.1) hbounds.2 fuel hf r hr
      refine ⟨t', s', _, _, _, _, hInsert t2 t' e1 e2, hwf, g1, g2, g3, g4, ?_, hbounds.2,
        g5, g6, g7, g8⟩
      simpa [ctxElemsBefore] using hbounds.1

theorem findA_node_of_mem [Comparable α] [StrictTotal α] (x : α) (s : ATree α)
    (hs : Sorted s.elems) (heq : ∃ e ∈ s.elems, CompareTo x e = 0) :
    ∃ c l a d b r, findA x [] s = (c, .node l a d b r) ∧ s = plug c (.node l a d b r) ∧
      CompareTo x d = 0 := by
  have hp := findA_plug x s []
  have hb := findA_bounds x s [] hs (by simp [ctxElemsBefore]) (by simp [ctxElemsAfter])
  cases hs2 : (findA x [] s).2 with
  | nil =>
    exfalso
    obtain ⟨e, he, hxe⟩ := heq
    rw [hs2] at hp
    have hp' : s = plug (findA x [] s).1 .nil := hp.symm
    rw [hp', elems_plug] at he
    simp only [ATree.elems, List.append_nil, List.mem_append] at he
    rcases he with he | he
    · have := hb.1 e he
      have := cmp_eq_zero_swap hxe
      omega
    · have := hb.2 e he
      omega
  | node l a d b r =>
    refine ⟨(findA x [] s).1, l, a, d, b, r, ?_, ?_, findA_found x s [] hs2⟩
    · rw [← hs2]
    · rw [hs2] at hp
      exact hp.symm

theorem sorted_replace [Comparable α] [StrictTotal α] {pre post : List α} {d x : α}
    (h : Sorted (pre ++ d :: post)) (hx : CompareTo x d = 0) : Sorted (pre ++ x :: post) := by
  simp only [Sorted, List.pairwise_append, List.pairwise_cons, List.mem_cons] at h ⊢
  refine ⟨h.1, ⟨fun e he => cmp_lt_of_eq_of_lt hx (h.2.1.1 e he), h.2.1.2⟩, ?_⟩
  intro a ha b hb
  rcases hb with rfl | hb
  · exact cmp_lt_of_lt_of_eq (h.2.2 a ha d (Or.inl rfl)) (cmp_eq_zero_swap hx)
  · exact h.2.2 a ha b (Or.inr hb)

theorem sv_setData (t : Tree α) (a b : Nat) (v : α) :
    (t.setData a v).sv b =
      if a = b then (t.sv b).map (fun q => (v, q.2)) else t.sv b := by
  simp only [Tree.sv, node_setData]
  split_ifs
  · cases t.node b <;> rfl
  · rfl

@[simp] theorem tv_setData_eq (t : Tree α) (a b : Nat) (v : α) :
    (t.setData a v).tv b = t.tv b := by
  simp only [Tree.tv, node_setData]
  split_ifs
  · cases t.node b <;> rfl
  · rfl

theorem dv_setData (t : Tree α) (a b : Nat) (v : α) :
    (t.setData a v).dv b = if a = b then (t.dv b).map (fun _ => v) else t.dv b := by
  simp only [Tree.dv, node_setData]
  split_ifs
  · cases t.node b <;> rfl
  · rfl

/-- Insert of an element that compares equal to an element of the tree: the
element of that node is replaced, and nothing else is written. -/
theorem Insert_equal [Comparable α] [StrictTotal α] {t : Tree α} {s : ATree α} (h : Inv t s)
    (x : α) (heq : ∃ e ∈ s.elems, CompareTo x e = 0) (fuel : Nat) (hf : s.height ≤ fuel) :
    ∃ c l a d b r, s = plug c (.node l a d b r) ∧ CompareTo x d = 0 ∧
      Insert fuel t x = .ok (t.setData a x, some d) ∧
      Inv (t.setData a x) (plug c (.node l a x b r)) := by
  obtain ⟨c, l, a, d, b, r, hfind, hs, hxd⟩ := findA_node_of_mem x s h.sorted heq
  have hrep := h.rep
  rw [hs, Rep_plug] at hrep
  obtain ⟨hseg, hnodeRep⟩ := hrep
  have hnd := Rep_nodup h.rep h.sorted
  rw [hs, nodup_plug, nodup_node] at hnd
  obtain ⟨-, ⟨-, -, hal, har, -⟩, hctx⟩ := hnd
  have hac : a ∉ ctxAddrs c := hctx a (by simp [ATree.addrs])
  refine ⟨c, l, a, d, b, r, hs, hxd, ?_, ?_⟩
  · obtain ⟨l0, a0, d0, b0, r0, hs0⟩ : ∃ l0 a0 d0 b0 r0, s = .node l0 a0 d0 b0 r0 := by
      cases s with
      | nil => obtain ⟨e, he, _⟩ := heq; simp [ATree.elems] at he
      | node => exact ⟨_, _, _, _, _, rfl⟩
    have hroot : t.root = some a0 := by rw [h.root, hs0]; rfl
    obtain ⟨cn, k, hdesc, hres⟩ := insertDescend_spec x s [] t a0 none fuel (by rw [hs0]; rfl)
      h.rep hf
    rw [hfind] at hres
    rcases hres with ⟨hr0, l', d', b', r', hfound⟩ | ⟨_, hnil, _⟩
    swap
    · cases hnil
    cases hfound
    obtain ⟨n, hn, -, -, hdata, -, -⟩ := Rep_root_node hnodeRep
    simp only [Insert, hroot, hdesc, bind_ok, hr0, if_true, hn, hdata]
    rfl
  · have hroot : (plug c (.node l a x b r)).rootPtr = s.rootPtr := by
      rw [hs, rootPtr_plug, rootPtr_plug]; rfl
    have haddrs : (plug c (.node l a x b r)).addrs = s.addrs := by
      rw [hs, addrs_plug, addrs_plug]; rfl
    refine ⟨?_, ?_, ?_, ?_, ?_, ?_, ?_⟩
    · rw [hroot, ← h.root]; rfl
    · rw [Rep_plug]
      unfold Tree.setData
      rw [RepSeg_upd_iff hac]
      refine ⟨hseg, ?_, ?_, ?_⟩
      · obtain ⟨n, hn, h1, h2, h3, h4, h5⟩ := hnodeRep.1
        exact ⟨{ n with data := x }, by rw [node_upd_same, hn]; rfl, rfl, h2, h3, h4, h5⟩
      · rw [Rep_upd_iff hal]; exact hnodeRep.2.1
      · rw [Rep_upd_iff har]; exact hnodeRep.2.2
    · have hso := h.sorted
      rw [hs, elems_plug] at hso
      rw [elems_plug]
      simp only [ATree.elems, List.append_assoc, List.cons_append] at hso ⊢
      rw [← List.append_assoc] at hso ⊢
      exact sorted_replace hso hxd
    · have hb := h.bal
      rw [hs, Bal_plug] at hb
      rw [Bal_plug]
      exact hb
    · rw [haddrs]
      exact Thr_congr (fun a _ => tv_setData_eq t _ a x) h.thr
    · rw [haddrs, ← h.size]; rfl
    · rw [haddrs]
      exact h.ends

@[simp] theorem addrs_nil : (ATree.nil : ATree α).addrs = [] := rfl

/-- Delete's case C0: the predecessor is the left child of the node and takes its place. -/
theorem unlink_child_L {t : Tree α} {c : List (Frame α)} {dl r : ATree α} {cn dn : Nat}
    {cd dd : α} {b db : Int} {nc : avlNode α}
    (hseg : RepSeg t none c (some cn)) (hroot : t.root = segTop c (some cn))
    (hrep : Rep t (ctxPar none c) (.node (.node dl dn dd db .nil) cn cd b r))
    (hnd : (plug c (.node (.node dl dn dd db .nil) cn cd b r)).addrs.Nodup)
    (hnc : t.node cn = .ok nc) (hprv : nc.prv = some dn) (hb : -1 ≤ b ∧ b ≤ 1) :
    ∃ t1, deleteUnlink t cn = .ok (t1, some dn) ∧ RepSeg t1 none c (some dn) ∧
      t1.root = segTop c (some dn) ∧ Rep t1 (ctxPar none c) (.node dl dn dd (b + 1) r) ∧ SameThr t t1 := by
  simp only [nodup_plug, nodup_node, mem_addrs_node, forall_eq_or_imp, or_imp, forall_and,
    not_or, ne_eq, forall_eq, addrs_nil, List.not_mem_nil, not_false_eq_true, List.nodup_nil,
    true_and, and_true, implies_true, or_false, IsEmpty.forall_iff] at hnd
  have e1 : cn ≠ dn := by
    intro h; subst h; tauto
  have e2 : dn ≠ cn := fun h => e1 h.symm
  have x_cn : cn ∉ ctxAddrs c := by tauto
  have x_dn : dn ∉ ctxAddrs c := by tauto
  have ndc : (ctxAddrs c).Nodup := hnd.1
  have m_cn_dl : cn ∉ dl.addrs := by tauto
  have m_dn_dl : dn ∉ dl.addrs := by tauto
  have b_dl : ∀ x ∈ dl.addrs, x ∉ ctxAddrs c := by tauto
  have nd_dl : dl.addrs.Nodup := by tauto
  have m_cn_r : cn ∉ r.addrs := by tauto
  have m_dn_r : dn ∉ r.addrs := by tauto
  have b_r : ∀ x ∈ r.addrs, x ∉ ctxAddrs c := by tauto
  have nd_r : r.addrs.Nodup := by tauto
  have oo_r_dl : optNotMem r.rootPtr dl.addrs := optNotMem_rootPtr (by aesop)
  have oc_r : optNotMem r.rootPtr (ctxAddrs c) := optNotMem_rootPtr b_r
  have on_r_cn : r.rootPtr ≠ some cn := rootPtr_ne m_cn_r
  have on_r_dn : r.rootPtr ≠ some dn := rootPtr_ne m_dn_r
  clear hnd
  obtain ⟨⟨nc', hnc', hc1, hc2, hc3, hc4, hc5⟩, ⟨⟨nd, hnd', hd1, hd2, hd3, hd4, hd5⟩, hkeep, -⟩, hmove⟩ := hrep
  have hcc : nc' = nc := by rw [hnc] at hnc'; cases hnc'; rfl
  subst hcc
  simp only [rootPtr_node, rootPtr_nil] at hc3 hc4 hd3 hd4
  obtain ⟨t1, hrel, hseg1, hroot1, hfr, hsame1⟩ :=
    @relink_spec _ (t.setP dn nc'.p) _ dn cn dn
      (RepSeg_upd _ x_dn hseg) hroot
      ⟨{ nd with p := nc'.p }, by rw [Tree.setP, node_upd_same, hnd']; rfl, hc5⟩ ndc x_cn
  have hsame1' : SameThr t t1 := (SameThr.setP t dn nc'.p).trans hsame1
  have h1_cn : t1.node cn = .ok nc' := by
    rw [hfr cn x_cn, Tree.setP, node_upd_ne _ _ e2]; exact hnc
  have h1_dn : t1.node dn = .ok { nd with p := nc'.p } := by
    rw [hfr dn x_dn, Tree.setP, node_upd_same, hnd']; rfl
  have r_dl : Rep t1 (some dn) dl :=
    Rep_of_node_eq (fun a ha => hfr a (b_dl a ha)) (Rep_upd _ m_dn_dl hkeep)
  have r_r : Rep t1 (some cn) r :=
    Rep_of_node_eq (fun a ha => hfr a (b_r a ha)) (Rep_upd _ m_dn_r hmove)
  refine ⟨(((t1.setR dn r.rootPtr).setPOpt r.rootPtr dn).setBalance dn (int8 (b + 1))),
    ?_, ?_, ?_, ?_, ?_⟩
  · simp only [deleteUnlink, hnc, hnd', bind_ok, deref_some, hprv, hc2, hc3, hc4, hd5, ne_eq,
      reduceCtorEq, not_false_eq_true, if_true, hrel, node_setR, node_setPOpt_ne, h1_cn, h1_dn,
      e1, e2, if_false, map_ok, pure_eq_ok, on_r_cn]
  · simp only [Tree.setBalance, Tree.setR, RepSeg_upd_iff x_dn, RepSeg_setPOpt_iff oc_r]
    exact hseg1
  · simp only [Tree.setBalance, Tree.setR, upd_root, setPOpt_root]
    exact hroot1
  · rw [int8_id (by omega) (by omega)]
    refine ⟨?_, ?_, ?_⟩
    · simp only [NodeIs, node_setBalance, node_setR, node_setPOpt_ne on_r_dn, h1_dn, map_ok,
        if_true, Except.ok.injEq, exists_eq_left', hd1, hd3, hc5, and_self]
    · simp only [Tree.setBalance, Tree.setR, Rep_upd_iff m_dn_dl, Rep_setPOpt_iff oo_r_dl]
      exact r_dl
    · simp only [Tree.setBalance, Tree.setR, Rep_upd_iff m_dn_r, Rep_setPOpt_self nd_r]
      exact ⟨_, r_r⟩
  · refine hsame1'.trans ?_
    exact ((SameThr.setR _ _ _).trans (SameThr.setPOpt _ _ _)).trans (SameThr.setBalance _ _ _)

/-- Delete's case C2: the successor is the right child of the node and takes its place. -/
theorem unlink_child_R {t : Tree α} {c : List (Frame α)} {dr : ATree α} {cn dn : Nat}
    {cd dd : α} {b db : Int} {nc : avlNode α}
    (hseg : RepSeg t none c (some cn)) (hroot : t.root = segTop c (some cn))
    (hrep : Rep t (ctxPar none c) (.node .nil cn cd b (.node .nil dn dd db dr)))
    (hnd : (plug c (.node .nil cn cd b (.node .nil dn dd db dr))).addrs.Nodup)
    (hnc : t.node cn = .ok nc) (hnxt : nc.nxt = some dn) (hb : -1 ≤ b ∧ b ≤ 1) :
    ∃ t1, deleteUnlink t cn = .ok (t1, some dn) ∧ RepSeg t1 none c (some dn) ∧
      t1.root = segTop c (some dn) ∧ Rep t1 (ctxPar none c) (.node .nil dn dd (b - 1) dr) ∧ SameThr t t1 := by
  simp only [nodup_plug, nodup_node, mem_addrs_node, forall_eq_or_imp, or_imp, forall_and,
    not_or, ne_eq, forall_eq, addrs_nil, List.not_mem_nil, not_false_eq_true, List.nodup_nil,
    true_and, and_true, implies_true, or_false, IsEmpty.forall_iff] at hnd
  have e1 : cn ≠ dn := by
    intro h; subst h; tauto
  have e2 : dn ≠ cn := fun h => e1 h.symm
  have x_cn : cn ∉ ctxAddrs c := by tauto
  have x_dn : dn ∉ ctxAddrs c := by tauto
  have ndc : (ctxAddrs c).Nodup := hnd.1
  have m_cn_dr : cn ∉ dr.addrs := by tauto
  have m_dn_dr : dn ∉ dr.addrs := by tauto
  have b_dr : ∀ x ∈ dr.addrs, x ∉ ctxAddrs c := by tauto
  have nd_dr : dr.addrs.Nodup := by tauto
  clear hnd
  obtain ⟨⟨nc', hnc', hc1, hc2, hc3, hc4, hc5⟩, -, ⟨nd, hnd', hd1, hd2, hd3, hd4, hd5⟩, -, hkeep⟩ := hrep
  have hcc : nc' = nc := by rw [hnc] at hnc'; cases hnc'; rfl
  subst hcc
  simp only [rootPtr_node, rootPtr_nil] at hc3 hc4 hd3 hd4
  obtain ⟨t1, hrel, hseg1, hroot1, hfr, hsame1⟩ :=
    @relink_spec _ (t.setP dn nc'.p) _ dn cn dn
      (RepSeg_upd _ x_dn hseg) hroot
      ⟨{ nd with p := nc'.p }, by rw [Tree.setP, node_upd_same, hnd']; rfl, hc5⟩ ndc x_cn
  have hsame1' : SameThr t t1 := (SameThr.setP t dn nc'.p).trans hsame1
  have h1_cn : t1.node cn = .ok nc' := by
    rw [hfr cn x_cn, Tree.setP, node_upd_ne _ _ e2]; exact hnc
  have h1_dn : t1.node dn = .ok { nd with p := nc'.p } := by
    rw [hfr dn x_dn, Tree.setP, node_upd_same, hnd']; rfl
  have r_dr : Rep t1 (some dn) dr :=
    Rep_of_node_eq (fun a ha => hfr a (b_dr a ha)) (Rep_upd _ m_dn_dr hkeep)
  refine ⟨(((t1.setL dn none).setPOpt none dn).setBalance dn (int8 (b - 1))),
    ?_, ?_, ?_, ?_, ?_⟩
  · simp only [deleteUnlink, hnc, hnd', bind_ok, deref_some, hnxt, hc2, hc3, hc4, hd5, ne_eq,
      reduceCtorEq, not_false_eq_true, not_true_eq_false, if_true, hrel, node_setL,
      node_setPOpt_ne, h1_cn, h1_dn, e1, e2, if_false, map_ok, pure_eq_ok]
  · simp only [Tree.setBalance, Tree.setL, Tree.setPOpt, RepSeg_upd_iff x_dn]
    exact hseg1
  · simp only [Tree.setBalance, Tree.setL, upd_root, setPOpt_root]
    exact hroot1
  · rw [int8_id (by omega) (by omega)]
    refine ⟨?_, ?_, ?_⟩
    · simp only [NodeIs, node_setBalance, node_setL, Tree.setPOpt, h1_dn, map_ok,
        if_true, Except.ok.injEq, exists_eq_left', hd1, hd4, hc5, and_self, rootPtr_nil]
    · trivial
    · simp only [Tree.setBalance, Tree.setL, Tree.setPOpt, Rep_upd_iff m_dn_dr]
      exact r_dr
  · refine hsame1'.trans ?_
    exact ((SameThr.setL _ _ _).trans (SameThr.setPOpt _ _ _)).trans (SameThr.setBalance _ _ _)

/-- Delete's case C4 on a left child: a leaf is cut off its parent. -/
theorem unlink_leaf_L {t : Tree α} {c : List (Frame α)} {br : ATree α} {cn bn : Nat}
    {cd bd : α} {b bb : Int}
    (hseg : RepSeg t none (.L bn bd bb br :: c) (some cn))
    (hrep : Rep t (some bn) (.node .nil cn cd b .nil))
    (hnd : (plug (.L bn bd bb br :: c) (.node .nil cn cd b .nil)).addrs.Nodup)
    (hbb : -1 ≤ bb ∧ bb ≤ 1) :
    ∃ t1, deleteUnlink t cn = .ok (t1, some bn) ∧ RepSeg t1 none c (some bn) ∧
      t1.root = t.root ∧ Rep t1 (ctxPar none c) (.node .nil bn bd (bb + 1) br) ∧ SameThr t t1 := by
  simp only [nodup_plug, nodup_ctxAddrs_L, nodup_node, mem_addrs_node, mem_ctxAddrs_L,
    forall_eq_or_imp, or_imp, forall_and, not_or, ne_eq, forall_eq, addrs_nil, List.not_mem_nil,
    not_false_eq_true, List.nodup_nil, true_and, and_true, implies_true, or_false,
    IsEmpty.forall_iff] at hnd
  have e1 : cn ≠ bn := by tauto
  have e2 : bn ≠ cn := fun h => e1 h.symm
  have x_bn : bn ∉ ctxAddrs c := by tauto
  have m_bn : bn ∉ br.addrs := by tauto
  have m_cn : cn ∉ br.addrs := by tauto
  obtain ⟨⟨nb, hnb, hb1, hb2, hb3, hb4, hb5⟩, hbr, hseg'⟩ := hseg
  obtain ⟨⟨nc, hnc, hc1, hc2, hc3, hc4, hc5⟩, -, -⟩ := hrep
  simp only [rootPtr_nil] at hc3 hc4
  have hcb : br.rootPtr ≠ some cn := rootPtr_ne m_cn
  refine ⟨(t.setL bn none).setBalance bn (int8 (bb + 1)), ?_, ?_, ?_, ?_, ?_⟩
  · simp only [deleteUnlink, hnc, hnb, bind_ok, hc3, hc4, hc5, hb2, hb3, hb4, ne_eq,
      not_true_eq_false, if_false, if_true, pure_eq_ok, node_setL, node_setR, map_ok, hcb]
  · simp only [Tree.setBalance, Tree.setL, Tree.setR, RepSeg_upd_iff x_bn]
    exact hseg'
  · rfl
  · rw [int8_id (by omega) (by omega)]
    refine ⟨?_, ?_, ?_⟩
    · simp only [NodeIs, node_setBalance, node_setL, node_setR, hnb, map_ok, if_true,
        Except.ok.injEq, exists_eq_left', rootPtr_nil, hb1, hb3, hb4, hb5, and_self]
    · trivial
    · simp only [Tree.setBalance, Tree.setL, Tree.setR, Rep_upd_iff m_bn]; exact hbr
  · exact (SameThr.setL t bn none).trans (SameThr.setBalance _ bn _)

/-- Delete's case C4 on a right child: a leaf is cut off its parent. -/
theorem unlink_leaf_R {t : Tree α} {c : List (Frame α)} {br : ATree α} {cn bn : Nat}
    {cd bd : α} {b bb : Int}
    (hseg : RepSeg t none (.R br bn bd bb :: c) (some cn))
    (hrep : Rep t (some bn) (.node .nil cn cd b .nil))
    (hnd : (plug (.R br bn bd bb :: c) (.node .nil cn cd b .nil)).addrs.Nodup)
    (hbb : -1 ≤ bb ∧ bb ≤ 1) :
    ∃ t1, deleteUnlink t cn = .ok (t1, some bn) ∧ RepSeg t1 none c (some bn) ∧
      t1.root = t.root ∧ Rep t1 (ctxPar none c) (.node br bn bd (bb - 1) .nil) ∧ SameThr t t1 := by
  simp only [nodup_plug, nodup_ctxAddrs_R, nodup_node, mem_addrs_node, mem_ctxAddrs_R,
    forall_eq_or_imp, or_imp, forall_and, not_or, ne_eq, forall_eq, addrs_nil, List.not_mem_nil,
    not_false_eq_true, List.nodup_nil, true_and, and_true, implies_true, or_false,
    IsEmpty.forall_iff] at hnd
  have e1 : cn ≠ bn := by tauto
  have e2 : bn ≠ cn := fun h => e1 h.symm
  have x_bn : bn ∉ ctxAddrs c := by tauto
  have m_bn : bn ∉ br.addrs := by tauto
  have m_cn : cn ∉ br.addrs := by tauto
  obtain ⟨⟨nb, hnb, hb1, hb2, hb3, hb4, hb5⟩, hbr, hseg'⟩ := hseg
  obtain ⟨⟨nc, hnc, hc1, hc2, hc3, hc4, hc5⟩, -, -⟩ := hrep
  simp only [rootPtr_nil] at hc3 hc4
  have hcb : br.rootPtr ≠ some cn := rootPtr_ne m_cn
  refine ⟨(t.setR bn none).setBalance bn (int8 (bb - 1)), ?_, ?_, ?_, ?_, ?_⟩
  · simp only [deleteUnlink, hnc, hnb, bind_ok, hc3, hc4, hc5, hb2, hb3, hb4, ne_eq,
      not_true_eq_false, if_false, if_true, pure_eq_ok, node_setL, node_setR, map_ok, hcb]
  · simp only [Tree.setBalance, Tree.setL, Tree.setR, RepSeg_upd_iff x_bn]
    exact hseg'
  · rfl
  · rw [int8_id (by omega) (by omega)]
    refine ⟨?_, ?_, ?_⟩
    · simp only [NodeIs, node_setBalance, node_setL, node_setR, hnb, map_ok, if_true,
        Except.ok.injEq, exists_eq_left', rootPtr_nil, hb1, hb3, hb4, hb5, and_self]
    · simp only [Tree.setBalance, Tree.setL, Tree.setR, Rep_upd_iff m_bn]; exact hbr
    · trivial
  · exact (SameThr.setR t bn none).trans (SameThr.setBalance _ bn _)

theorem ctxPar_append (par : Option Nat) (c1 c2 : List (Frame α)) :
    ctxPar par (c1 ++ c2) = ctxPar (ctxPar par c2) c1 := by
  cases c1 with
  | nil => rfl
  | cons F c => cases F <;> rfl

theorem segTop_append (c1 c2 : List (Frame α)) (q : Option Nat) :
    segTop (c1 ++ c2) q = segTop c2 (segTop c1 q) := by
  induction c1 generalizing q with
  | nil => rfl
  | cons F c ih => cases F <;> exact ih _

theorem ctxPar_of_ne_nil {c : List (Frame α)} (h : c ≠ []) (par par' : Option Nat) :
    ctxPar par c = ctxPar par' c := by
  cases c with
  | nil => exact absurd rfl h
  | cons F c => cases F <;> rfl

theorem segTop_of_ne_nil {c : List (Frame α)} (h : c ≠ []) (q : Option Nat) :
    ∃ top, segTop c q = some top ∧ top ∈ ctxAddrs c := by
  induction c generalizing q with
  | nil => exact absurd rfl h
  | cons F c ih =>
    by_cases hc : c = []
    · subst hc
      cases F with
      | L a d b r => exact ⟨a, rfl, by simp [mem_ctxAddrs_L]⟩
      | R l a d b => exact ⟨a, rfl, by simp [mem_ctxAddrs_R]⟩
    · cases F with
      | L a d b r =>
        obtain ⟨top, h1, h2⟩ := ih hc (some a)
        exact ⟨top, h1, by rw [mem_ctxAddrs_L]; tauto⟩
      | R l a d b =>
        obtain ⟨top, h1, h2⟩ := ih hc (some a)
        exact ⟨top, h1, by rw [mem_ctxAddrs_R]; tauto⟩

theorem mem_addrs_plug {c : List (Frame α)} {s : ATree α} {a : Nat} :
    a ∈ (plug c s).addrs ↔ a ∈ s.addrs ∨ a ∈ ctxAddrs c := by
  rw [addrs_plug, mem_ctxAddrs]
  simp only [List.mem_append]
  tauto

/-- Re-parenting of the top of a path: after `top.p = p` the path is held
below `p`. -/
theorem RepSeg_setP_top {t : Tree α} {par : Option Nat} {c : List (Frame α)} {q : Option Nat}
    {top p : Nat} (hnd : (ctxAddrs c).Nodup) (hne : c ≠ []) (htop : segTop c q = some top)
    (h : RepSeg t par c q) : RepSeg (t.setP top (some p)) (some p) c q := by
  induction c generalizing q with
  | nil => exact absurd rfl hne
  | cons F c ih =>
    by_cases hc : c = []
    · subst hc
      cases F with
      | L a d b r =>
        rw [nodup_ctxAddrs_L] at hnd
        simp only [segTop, Option.some.injEq] at htop
        subst htop
        obtain ⟨⟨n, hn, h1, h2, h3, h4, h5⟩, hr, -⟩ := h
        refine ⟨⟨{ n with p := some p }, by rw [node_setP, if_pos rfl, hn]; rfl, h1, h2, h3, h4, rfl⟩,
          ?_, trivial⟩
        rw [Tree.setP, Rep_upd_iff hnd.2.2.1]
        exact hr
      | R l a d b =>
        rw [nodup_ctxAddrs_R] at hnd
        simp only [segTop, Option.some.injEq] at htop
        subst htop
        obtain ⟨⟨n, hn, h1, h2, h3, h4, h5⟩, hr, -⟩ := h
        refine ⟨⟨{ n with p := some p }, by rw [node_setP, if_pos rfl, hn]; rfl, h1, h2, h3, h4, rfl⟩,
          ?_, trivial⟩
        rw [Tree.setP, Rep_upd_iff hnd.2.2.1]
        exact hr
    · obtain ⟨top', ht1, ht2⟩ := segTop_of_ne_nil hc (some F.addr)
      cases F with
      | L a d b r =>
        rw [nodup_ctxAddrs_L] at hnd
        obtain ⟨n1, n2, n3, n4, n5⟩ := hnd
        simp only [segTop_L] at htop
        simp only [Frame.addr] at ht1
        rw [ht1] at htop
        cases htop
        have e : top ≠ a := fun e => n4 (e ▸ ht2)
        obtain ⟨hn, hr, hseg⟩ := h
        refine ⟨?_, ?_, ih n1 hc ht1 hseg⟩
        · rw [ctxPar_of_ne_nil hc (some p) par]
          rw [nodeIs_iff_sv] at hn ⊢
          rw [Tree.setP, sv_upd_ne _ _ e]
          exact hn
        · rw [Tree.setP, Rep_upd_iff (fun hm => n5 _ hm ht2)]
          exact hr
      | R l a d b =>
        rw [nodup_ctxAddrs_R] at hnd
        obtain ⟨n1, n2, n3, n4, n5⟩ := hnd
        simp only [segTop_R] at htop
        simp only [Frame.addr] at ht1
        rw [ht1] at htop
        cases htop
        have e : top ≠ a := fun e => n4 (e ▸ ht2)
        obtain ⟨hn, hr, hseg⟩ := h
        refine ⟨?_, ?_, ih n1 hc ht1 hseg⟩
        · rw [ctxPar_of_ne_nil hc (some p) par]
          rw [nodeIs_iff_sv] at hn ⊢
          rw [Tree.setP, sv_upd_ne _ _ e]
          exact hn
        · rw [Tree.setP, Rep_upd_iff (fun hm => n5 _ hm ht2)]
          exact hr

set_option maxHeartbeats 1000000 in
/-- Delete's case C1: the predecessor lies deeper in the left subtree; it takes
the place of the node, and its own left subtree takes its place under its old
parent. -/
theorem unlink_deep {t : Tree α} {c sp : List (Frame α)} {dl bl r : ATree α} {cn dn bn : Nat}
    {cd dd bd : α} {b db bb : Int} {nc : avlNode α}
    (hseg : RepSeg t none c (some cn)) (hroot : t.root = segTop c (some cn))
    (hrep : Rep t (ctxPar none c)
      (.node (plug (.R bl bn bd bb :: sp) (.node dl dn dd db .nil)) cn cd b r))
    (hnd : (plug c
      (.node (plug (.R bl bn bd bb :: sp) (.node dl dn dd db .nil)) cn cd b r)).addrs.Nodup)
    (hnc : t.node cn = .ok nc) (hprv : nc.prv = some dn) (hbb : -1 ≤ bb ∧ bb ≤ 1) :
    ∃ t1, deleteUnlink t cn = .ok (t1, some bn) ∧
      RepSeg t1 none (sp ++ .L dn dd b r :: c) (some bn) ∧
      t1.root = segTop (sp ++ .L dn dd b r :: c) (some bn) ∧
      Rep t1 (ctxPar none (sp ++ .L dn dd b r :: c)) (.node bl bn bd (bb - 1) dl) ∧
      SameThr t t1 := by
  simp only [nodup_plug, nodup_node, nodup_ctxAddrs_R, mem_addrs_plug, mem_addrs_node,
    mem_ctxAddrs_R, forall_eq_or_imp, or_imp, forall_and, not_or, ne_eq, forall_eq, addrs_nil,
    List.not_mem_nil, not_false_eq_true, List.nodup_nil, true_and, and_true, implies_true,
    or_false, IsEmpty.forall_iff] at hnd
  have e_cn_dn : cn ≠ dn := by
    intro h; subst h; tauto
  have e_dn_cn : dn ≠ cn := fun h => e_cn_dn h.symm
  have e_cn_bn : cn ≠ bn := by
    intro h; subst h; tauto
  have e_bn_cn : bn ≠ cn := fun h => e_cn_bn h.symm
  have e_dn_bn : dn ≠ bn := by
    intro h; subst h; tauto
  have e_bn_dn : bn ≠ dn := fun h => e_dn_bn h.symm
  have x_cn : cn ∉ ctxAddrs c := by tauto
  have x_dn : dn ∉ ctxAddrs c := by tauto
  have x_bn : bn ∉ ctxAddrs c := by tauto
  have y_cn : cn ∉ ctxAddrs sp := by tauto
  have y_dn : dn ∉ ctxAddrs sp := by tauto
  have y_bn : bn ∉ ctxAddrs sp := by tauto
  have m_cn_dl : cn ∉ dl.addrs := by tauto
  have m_dn_dl : dn ∉ dl.addrs := by tauto
  have m_bn_dl : bn ∉ dl.addrs := by tauto
  have m_cn_bl : cn ∉ bl.addrs := by tauto
  have m_dn_bl : dn ∉ bl.addrs := by tauto
  have m_bn_bl : bn ∉ bl.addrs := by tauto
  have m_cn_r : cn ∉ r.addrs := by tauto
  have m_dn_r : dn ∉ r.addrs := by tauto
  have m_bn_r : bn ∉ r.addrs := by tauto
  have b_dl : ∀ x ∈ dl.addrs, x ∉ ctxAddrs c := by tauto
  have b_bl : ∀ x ∈ bl.addrs, x ∉ ctxAddrs c := by tauto
  have b_r : ∀ x ∈ r.addrs, x ∉ ctxAddrs c := by tauto
  have b_sp : ∀ x ∈ ctxAddrs sp, x ∉ ctxAddrs c := by tauto
  have s_dl : ∀ x ∈ dl.addrs, x ∉ ctxAddrs sp := by tauto
  have s_bl : ∀ x ∈ bl.addrs, x ∉ ctxAddrs sp := by tauto
  have s_r : ∀ x ∈ ctxAddrs sp, x ∉ r.addrs := by tauto
  have d_dl_bl : ∀ x ∈ dl.addrs, x ∉ bl.addrs := by tauto
  have d_dl_r : ∀ x ∈ dl.addrs, x ∉ r.addrs := by tauto
  have d_bl_r : ∀ x ∈ bl.addrs, x ∉ r.addrs := by tauto
  have nd_dl : dl.addrs.Nodup := by tauto
  have nd_r : r.addrs.Nodup := by tauto
  have ndc : (ctxAddrs c).Nodup := hnd.1
  have nds : (ctxAddrs sp).Nodup := by tauto
  clear hnd
  obtain ⟨⟨nc', hnc', hc1, hc2, hc3, hc4, hc5⟩, hl, hr⟩ := hrep
  have hcc : nc' = nc := by rw [hnc] at hnc'; cases hnc'; rfl
  subst hcc
  rw [Rep_plug] at hl
  obtain ⟨⟨⟨nb, hnb, hb1, hb2, hb3, hb4, hb5⟩, hbl, hsp⟩, ⟨nd, hnd', hd1, hd2, hd3, hd4, hd5⟩, hdl, -⟩ := hl
  simp only [rootPtr_node, rootPtr_nil, rootPtr_plug, segTop_R, ctxPar_R] at hc3 hc4 hd3 hd4 hd5 hb3 hb4
  -- the top of the left subtree
  obtain ⟨top, htop, htop'⟩ : ∃ top, segTop sp (some bn) = some top ∧
      ((sp = [] ∧ top = bn) ∨ (sp ≠ [] ∧ top ∈ ctxAddrs sp)) := by
    by_cases hsp0 : sp = []
    · subst hsp0; exact ⟨bn, rfl, Or.inl ⟨rfl, rfl⟩⟩
    · obtain ⟨top, h1, h2⟩ := segTop_of_ne_nil hsp0 (some bn)
      exact ⟨top, h1, Or.inr ⟨hsp0, h2⟩⟩
  rw [htop] at hc3
  have e_top_cn : top ≠ cn := by
    rcases htop' with ⟨-, rfl⟩ | ⟨-, hm⟩
    · exact e_bn_cn
    · intro h; subst h; exact y_cn hm
  have e_top_dn : top ≠ dn := by
    rcases htop' with ⟨-, rfl⟩ | ⟨-, hm⟩
    · exact e_bn_dn
    · intro h; subst h; exact y_dn hm
  have x_top : top ∉ ctxAddrs c := by
    rcases htop' with ⟨-, rfl⟩ | ⟨-, hm⟩
    · exact x_bn
    · exact b_sp _ hm
  have m_top_r : top ∉ r.addrs := by
    rcases htop' with ⟨-, rfl⟩ | ⟨-, hm⟩
    · exact m_bn_r
    · exact s_r _ hm
  have m_top_dl : top ∉ dl.addrs := by
    rcases htop' with ⟨-, rfl⟩ | ⟨-, hm⟩
    · exact m_bn_dl
    · exact fun h => s_dl _ h hm
  have m_top_bl : top ∉ bl.addrs := by
    rcases htop' with ⟨-, rfl⟩ | ⟨-, hm⟩
    · exact m_bn_bl
    · exact fun h => s_bl _ h hm
  have oc_r : optNotMem r.rootPtr (ctxAddrs c) := optNotMem_rootPtr b_r
  have oc_dl : optNotMem dl.rootPtr (ctxAddrs c) := optNotMem_rootPtr b_dl
  have os_r : optNotMem r.rootPtr (ctxAddrs sp) := optNotMem_rootPtr (fun a ha hm => s_r a hm ha)
  have os_dl : optNotMem dl.rootPtr (ctxAddrs sp) := optNotMem_rootPtr s_dl
  have oo_r_dl : optNotMem r.rootPtr dl.addrs := optNotMem_rootPtr (fun a ha hm => d_dl_r a hm ha)
  have oo_r_bl : optNotMem r.rootPtr bl.addrs := optNotMem_rootPtr (fun a ha hm => d_bl_r a hm ha)
  have oo_dl_r : optNotMem dl.rootPtr r.addrs := optNotMem_rootPtr d_dl_r
  have oo_dl_bl : optNotMem dl.rootPtr bl.addrs := optNotMem_rootPtr d_dl_bl
  have on_r_cn : r.rootPtr ≠ some cn := rootPtr_ne m_cn_r
  have on_r_dn : r.rootPtr ≠ some dn := rootPtr_ne m_dn_r
  have on_r_bn : r.rootPtr ≠ some bn := rootPtr_ne m_bn_r
  have on_dl_cn : dl.rootPtr ≠ some cn := rootPtr_ne m_cn_dl
  have on_dl_dn : dl.rootPtr ≠ some dn := rootPtr_ne m_dn_dl
  have on_dl_bn : dl.rootPtr ≠ some bn := rootPtr_ne m_bn_dl
  obtain ⟨t1, hrel, hseg1, hroot1, hfr, hsame1⟩ :=
    @relink_spec _ ((t.setP dn nc'.p).setBalance dn nc'.balance) _ dn cn dn
      (RepSeg_upd _ x_dn (RepSeg_upd _ x_dn hseg)) hroot
      ⟨{ nd with p := nc'.p, balance := nc'.balance }, by
        rw [node_setBalance, if_pos rfl, node_setP, if_pos rfl, hnd']; rfl, hc5⟩ ndc x_cn
  have hsame1' : SameThr t t1 :=
    ((SameThr.setP t dn nc'.p).trans (SameThr.setBalance _ dn _)).trans hsame1
  have h1_ne : ∀ a, a ≠ dn → a ∉ ctxAddrs c → t1.node a = t.node a := by
    intro a h1 h2
    rw [hfr a h2, node_setBalance, if_neg (Ne.symm h1), node_setP, if_neg (Ne.symm h1)]
  have h1_cn : t1.node cn = .ok nc' := by rw [h1_ne cn e_cn_dn x_cn]; exact hnc
  have h1_bn : t1.node bn = .ok nb := by rw [h1_ne bn e_bn_dn x_bn]; exact hnb
  have h1_dn : t1.node dn = .ok { nd with p := nc'.p, balance := nc'.balance } := by
    rw [hfr dn x_dn, node_setBalance, if_pos rfl, node_setP, if_pos rfl, hnd']; rfl
  have r_dl : Rep t1 (some dn) dl :=
    Rep_of_node_eq (fun a ha => h1_ne a (fun e => m_dn_dl (e ▸ ha)) (b_dl a ha)) hdl
  have r_bl : Rep t1 (some bn) bl :=
    Rep_of_node_eq (fun a ha => h1_ne a (fun e => m_dn_bl (e ▸ ha)) (b_bl a ha)) hbl
  have r_r : Rep t1 (some cn) r :=
    Rep_of_node_eq (fun a ha => h1_ne a (fun e => m_dn_r (e ▸ ha)) (b_r a ha)) hr
  have r_sp : RepSeg t1 (some cn) sp (some bn) :=
    RepSeg_of_node_eq (fun a ha => h1_ne a (fun e => y_dn (e ▸ ha)) (b_sp a ha)) hsp
  refine ⟨(((((((t1.setR dn r.rootPtr).setPOpt r.rootPtr dn).setR bn dl.rootPtr).setPOpt
      dl.rootPtr bn).setL dn (some top)).setP top (some dn)).setBalance bn (int8 (bb - 1))),
    ?_, ?_, ?_, ?_, ?_⟩
  · have hexec : ∀ (htb : top ≠ bn ∨ top = bn), deleteUnlink t cn = .ok
        ((((((((t1.setR dn r.rootPtr).setPOpt r.rootPtr dn).setR bn dl.rootPtr).setPOpt
          dl.rootPtr bn).setL dn (some top)).setP top (some dn)).setBalance bn (int8 (bb - 1))),
          some bn) := by
      intro htb
      rcases htb with htb | htb
      · simp only [deleteUnlink, hnc, hnd', hnb, bind_ok, deref_some, hprv, hc3, hc4, hd3,
          hd4, hd5, hb2, hb3, hb4, ne_eq, reduceCtorEq, not_false_eq_true, if_true, if_false, hrel,
          node_setL, node_setR, node_setP, node_setBalance, node_setPOpt_ne, h1_cn, h1_dn, h1_bn,
          e_cn_dn, e_dn_cn, e_cn_bn, e_bn_cn, e_dn_bn, e_bn_dn, e_top_cn, e_top_dn, htb, on_r_cn,
          on_r_dn, on_r_bn, on_dl_cn, on_dl_dn, on_dl_bn, map_ok, pure_eq_ok, Option.some.injEq]
      · subst htb
        simp only [deleteUnlink, hnc, hnd', hnb, bind_ok, deref_some, hprv, hc3, hc4, hd3,
          hd4, hd5, hb2, hb3, hb4, ne_eq, reduceCtorEq, not_false_eq_true, if_true, if_false, hrel,
          node_setL, node_setR, node_setP, node_setBalance, node_setPOpt_ne, h1_cn, h1_dn, h1_bn,
          e_cn_dn, e_dn_cn, e_cn_bn, e_bn_cn, e_dn_bn, e_bn_dn, e_top_cn, e_top_dn, on_r_cn,
          on_r_dn, on_r_bn, on_dl_cn, on_dl_dn, on_dl_bn, map_ok, pure_eq_ok, Option.some.injEq]
    rcases htop' with ⟨-, h2⟩ | ⟨-, hm⟩
    · exact hexec (Or.inr h2)
    · exact hexec (Or.inl (fun e => y_bn (e ▸ hm)))
  · rw [RepSeg_append]
    refine ⟨?_, ?_, ?_, ?_⟩
    · rcases htop' with ⟨h1, -⟩ | ⟨hne, hm⟩
      · subst h1; trivial
      · rw [Tree.setBalance, RepSeg_upd_iff y_bn]
        apply @RepSeg_setP_top _ _ (some cn) _ _ _ _ nds hne htop
        simp only [Tree.setL, Tree.setR, RepSeg_upd_iff y_bn, RepSeg_upd_iff y_dn,
          RepSeg_setPOpt_iff os_dl, RepSeg_setPOpt_iff os_r]
        exact r_sp
    · rw [htop]
      simp only [NodeIs, node_setBalance, node_setL, node_setR, node_setP, node_setPOpt_ne,
        h1_dn, e_bn_dn, e_top_dn, on_r_dn, on_dl_dn, map_ok, if_true, if_false, ne_eq,
        not_false_eq_true, Except.ok.injEq, exists_eq_left', hd1, hc2, hc5, and_self]
    · simp only [Tree.setBalance, Tree.setL, Tree.setR, Tree.setP, Rep_upd_iff m_bn_r,
        Rep_upd_iff m_top_r, Rep_upd_iff m_dn_r, Rep_setPOpt_iff oo_dl_r, Rep_setPOpt_self nd_r]
      exact ⟨_, r_r⟩
    · simp only [Tree.setBalance, Tree.setL, Tree.setR, Tree.setP, RepSeg_upd_iff x_bn,
        RepSeg_upd_iff x_top, RepSeg_upd_iff x_dn, RepSeg_setPOpt_iff oc_dl,
        RepSeg_setPOpt_iff oc_r]
      exact hseg1
  · simp only [Tree.setBalance, Tree.setL, Tree.setR, Tree.setP, upd_root, setPOpt_root]
    rw [segTop_append]
    exact hroot1
  · rw [ctxPar_append, ctxPar_L, int8_id (by omega) (by omega)]
    refine ⟨?_, ?_, ?_⟩
    · rcases htop' with ⟨h1, h2⟩ | ⟨hne, hm⟩
      · subst h1 h2
        simp only [NodeIs, node_setBalance, node_setL, node_setR, node_setP, node_setPOpt_ne,
          h1_bn, e_dn_bn, on_r_bn, on_dl_bn, map_ok, if_true, if_false, ne_eq,
          not_false_eq_true, Except.ok.injEq, exists_eq_left', hb1, hb3, and_self, ctxPar]
      · have e_top_bn : top ≠ bn := fun e => y_bn (e ▸ hm)
        rw [ctxPar_of_ne_nil hne (some dn) (some cn)]
        simp only [NodeIs, node_setBalance, node_setL, node_setR, node_setP, node_setPOpt_ne,
          h1_bn, e_dn_bn, e_top_bn, on_r_bn, on_dl_bn, map_ok, if_true, if_false, ne_eq,
          not_false_eq_true, Except.ok.injEq, exists_eq_left', hb1, hb3, hb5, and_self]
    · simp only [Tree.setBalance, Tree.setL, Tree.setR, Tree.setP, Rep_upd_iff m_bn_bl,
        Rep_upd_iff m_top_bl, Rep_upd_iff m_dn_bl, Rep_setPOpt_iff oo_dl_bl,
        Rep_setPOpt_iff oo_r_bl]
      exact r_bl
    · simp only [Tree.setBalance, Tree.setL, Tree.setP, Rep_upd_iff m_bn_dl,
        Rep_upd_iff m_top_dl, Rep_upd_iff m_dn_dl, Rep_setPOpt_self nd_dl]
      refine ⟨some dn, ?_⟩
      simp only [Tree.setR, Rep_upd_iff m_bn_dl, Rep_upd_iff m_dn_dl, Rep_setPOpt_iff oo_r_dl]
      exact r_dl
  · refine hsame1'.trans ?_
    exact ((((((SameThr.setR _ _ _).trans (SameThr.setPOpt _ _ _)).trans
      (SameThr.setR _ _ _)).trans (SameThr.setPOpt _ _ _)).trans (SameThr.setL _ _ _)).trans
      (SameThr.setP _ _ _)).trans (SameThr.setBalance _ _ _)

/-! ## The middle of Delete on the abstract tree -/

theorem height_eq_zero {s : ATree α} (h : s.height = 0) : s = .nil := by
  cases s with
  | nil => rfl
  | node l a d b r => simp [ATree.height] at h

theorem ctxAfter_append (c1 c2 : List (Frame α)) :
    ctxAfter (c1 ++ c2) = ctxAfter c1 ++ ctxAfter c2 := by
  induction c1 with
  | nil => rfl
  | cons F c ih => cases F <;> simp [ctxAfter, ih]

theorem ctxElemsAfter_append (c1 c2 : List (Frame α)) :
    ctxElemsAfter (c1 ++ c2) = ctxElemsAfter c1 ++ ctxElemsAfter c2 := by
  induction c1 with
  | nil => rfl
  | cons F c ih => cases F <;> simp [ctxElemsAfter, ih]

/-- Every non-empty tree ends at its last node, below a path that only turns
right. -/
theorem exists_last (l : ATree α) (hl : l ≠ .nil) :
    ∃ sp dl dn dd db, l = plug sp (.node dl dn dd db .nil) ∧ ctxAfter sp = [] ∧
      ctxElemsAfter sp = [] := by
  induction l with
  | nil => exact absurd rfl hl
  | node l1 a d b r1 _ ih =>
    by_cases hr : r1 = .nil
    · subst hr; exact ⟨[], l1, a, d, b, rfl, rfl, rfl⟩
    · obtain ⟨sp, dl, dn, dd, db, h1, h2, h3⟩ := ih hr
      refine ⟨sp ++ [.R l1 a d b], dl, dn, dd, db, ?_, ?_, ?_⟩
      · rw [plug_append, ← h1]; rfl
      · rw [ctxAfter_append, h2]; rfl
      · rw [ctxElemsAfter_append, h3]; rfl

theorem CtxBal_congr_L (c1 c2 : List (Frame α)) (a a' : Nat) (d d' : α) (b : Int) (r : ATree α) :
    ∀ h, CtxBal (c1 ++ .L a d b r :: c2) h ↔ CtxBal (c1 ++ .L a' d' b r :: c2) h := by
  induction c1 with
  | nil => intro h; rfl
  | cons F c ih =>
    intro h
    cases F with
    | L a0 d0 b0 r0 =>
      show _ ∧ _ ∧ _ ∧ _ ∧ CtxBal (c ++ _) _ ↔ _ ∧ _ ∧ _ ∧ _ ∧ CtxBal (c ++ _) _
      rw [ih]
    | R l0 a0 d0 b0 =>
      show _ ∧ _ ∧ _ ∧ _ ∧ CtxBal (c ++ _) _ ↔ _ ∧ _ ∧ _ ∧ _ ∧ CtxBal (c ++ _) _
      rw [ih]

/-- The middle of Delete takes the node out of the tree structure, whatever its
position, unless it is the only node. -/
theorem deleteUnlink_spec [Comparable α] [StrictTotal α] {t : Tree α} {c : List (Frame α)}
    {l r : ATree α} {cn : Nat} {d : α} {b : Int} (h : Inv t (plug c (.node l cn d b r)))
    (hne : ¬ (c = [] ∧ l = .nil ∧ r = .nil)) :
    ∃ t1 bn, deleteUnlink t cn = .ok (t1, some bn) ∧
      Unlinked t t1 bn (ctxBefore c ++ l.addrs) (r.addrs ++ ctxAfter c)
        (ctxElemsBefore c ++ l.elems) (r.elems ++ ctxElemsAfter c) := by
  have hnd := Rep_nodup h.rep h.sorted
  have hrep := h.rep
  rw [Rep_plug] at hrep
  obtain ⟨hseg, hnode⟩ := hrep
  have hroot : t.root = segTop c (some cn) := by rw [h.root, rootPtr_plug]; rfl
  have hbal := h.bal
  rw [Bal_plug] at hbal
  obtain ⟨⟨hlb, hrb, hbeq, hb1, hb2⟩, hcb⟩ := hbal
  obtain ⟨nc, hnc, -⟩ := Rep_root_node hnode
  have hthr := h.thr
  have haddr : (plug c (.node l cn d b r)).addrs =
      (ctxBefore c ++ l.addrs) ++ cn :: (r.addrs ++ ctxAfter c) := by
    simp [addrs_plug, ATree.addrs]
  rw [haddr] at hthr
  have htv := Thr_mid hthr
  rw [tv_of_node hnc] at htv
  simp only [Option.some.injEq, Prod.mk.injEq] at htv
  obtain ⟨hprv, hnxt⟩ := htv
  by_cases hl : l = .nil
  · subst hl
    by_cases hr : r = .nil
    · subst hr
      cases c with
      | nil => exact absurd ⟨rfl, rfl, rfl⟩ hne
      | cons F c' =>
        cases F with
        | L bn bd bb br =>
          obtain ⟨hbr, hbbeq, hbb1, hbb2, hcb'⟩ := hcb
          obtain ⟨t1, hx, hseg1, hroot1, hrep1, hsame⟩ := unlink_leaf_L hseg hnode hnd ⟨hbb1, hbb2⟩
          refine ⟨t1, bn, hx, c', .node .nil bn bd (bb + 1) br, _, rfl, ?_, hcb', ?_, ?_, hseg1,
            ?_, hrep1, ?_, ?_, hsame⟩
          · refine ⟨trivial, hbr, ?_, by omega, by omega⟩
            simp only [ATree.height] at hbbeq ⊢
            omega
          · simp only [rootBal_node, ATree.height] at hbbeq ⊢
            omega
          · simp only [rootBal_node, ATree.height] at hbbeq ⊢
            omega
          · rw [hroot1, hroot]; rfl
          · simp [addrs_plug, ATree.addrs, ctxBefore, ctxAfter]
          · simp [elems_plug, ATree.elems, ctxElemsBefore, ctxElemsAfter]
        | R bl bn bd bb =>
          obtain ⟨hbr, hbbeq, hbb1, hbb2, hcb'⟩ := hcb
          obtain ⟨t1, hx, hseg1, hroot1, hrep1, hsame⟩ := unlink_leaf_R hseg hnode hnd ⟨hbb1, hbb2⟩
          refine ⟨t1, bn, hx, c', .node bl bn bd (bb - 1) .nil, _, rfl, ?_, hcb', ?_, ?_, hseg1,
            ?_, hrep1, ?_, ?_, hsame⟩
          · refine ⟨hbr, trivial, ?_, by omega, by omega⟩
            simp only [ATree.height] at hbbeq ⊢
            omega
          · simp only [rootBal_node, ATree.height] at hbbeq ⊢
            omega
          · simp only [rootBal_node, ATree.height] at hbbeq ⊢
            omega
          · rw [hroot1, hroot]; rfl
          · simp [addrs_plug, ATree.addrs, ctxBefore, ctxAfter]
          · simp [elems_plug, ATree.elems, ctxElemsBefore, ctxElemsAfter]
    · obtain ⟨rl, dn, dd, db, dr, hrr⟩ : ∃ rl dn dd db dr, r = .node rl dn dd db dr := by
        cases r with
        | nil => exact absurd rfl hr
        | node rl dn dd db dr => exact ⟨_, _, _, _, _, rfl⟩
      subst hrr
      have hrl : rl = .nil := by
        apply height_eq_zero
        simp only [ATree.height] at hbeq
        omega
      subst hrl
      simp only [ATree.addrs, List.nil_append, List.cons_append, headOr_cons] at hnxt
      obtain ⟨-, hdrb, -, -, -⟩ := hrb
      obtain ⟨t1, hx, hseg1, hroot1, hrep1, hsame⟩ :=
        unlink_child_R hseg hroot hnode hnd hnc hnxt ⟨hb1, hb2⟩
      refine ⟨t1, dn, hx, c, .node .nil dn dd (b - 1) dr, _, rfl, ?_, hcb, ?_, ?_, hseg1,
        hroot1, hrep1, ?_, ?_, hsame⟩
      · refine ⟨trivial, hdrb, ?_, by omega, by omega⟩
        simp only [ATree.height] at hbeq ⊢
        omega
      · simp only [rootBal_node, ATree.height] at hbeq ⊢
        omega
      · simp only [rootBal_node, ATree.height] at hbeq ⊢
        omega
      · simp [addrs_plug, ATree.addrs]
      · simp [elems_plug, ATree.elems]
  · obtain ⟨sp, dl, dn, dd, db, hlsp, hsp1, hsp2⟩ := exists_last l hl
    subst hlsp
    have hprv' : nc.prv = some dn := by
      rw [hprv, addrs_plug, hsp1]
      simp [ATree.addrs, lastOr_append]
    cases sp with
    | nil =>
      simp only [plug] at hnode hnd hbeq hlb hcb ⊢
      obtain ⟨hdlb, -, hdbeq, -, -⟩ := hlb
      obtain ⟨t1, hx, hseg1, hroot1, hrep1, hsame⟩ :=
        unlink_child_L hseg hroot hnode hnd hnc hprv' ⟨hb1, hb2⟩
      refine ⟨t1, dn, hx, c, .node dl dn dd (b + 1) r, _, rfl, ?_, hcb, ?_, ?_, hseg1,
        hroot1, hrep1, ?_, ?_, hsame⟩
      · refine ⟨hdlb, hrb, ?_, by omega, by omega⟩
        simp only [ATree.height] at hbeq ⊢
        omega
      · simp only [rootBal_node, ATree.height] at hbeq ⊢
        omega
      · simp only [rootBal_node, ATree.height] at hbeq ⊢
        omega
      · simp [addrs_plug, ATree.addrs]
      · simp [elems_plug, ATree.elems]
    | cons F sp' =>
      cases F with
      | L a0 d0 b0 r0 => simp [ctxAfter] at hsp1
      | R bl bn bd bb =>
        simp only [ctxAfter, ctxElemsAfter] at hsp1 hsp2
        have hwhole : plug c (.node (plug (.R bl bn bd bb :: sp') (.node dl dn dd db .nil)) cn d b r)
            = plug (.R bl bn bd bb :: (sp' ++ .L cn d b r :: c)) (.node dl dn dd db .nil) := by
          rw [← List.cons_append, plug_append]; rfl
        have hbal' := h.bal
        rw [hwhole, Bal_plug] at hbal'
        obtain ⟨⟨hdlb, -, hdbeq, -, -⟩, hblb, hbbeq, hbb1, hbb2, hctx⟩ := hbal'
        rw [CtxBal_congr_L sp' c cn dn d dd b r] at hctx
        obtain ⟨t1, hx, hseg1, hroot1, hrep1, hsame⟩ :=
          unlink_deep hseg hroot hnode hnd hnc hprv' ⟨hbb1, hbb2⟩
        refine ⟨t1, bn, hx, sp' ++ .L dn dd b r :: c, .node bl bn bd (bb - 1) dl, _, rfl, ?_, hctx,
          ?_, ?_, hseg1, hroot1, hrep1, ?_, ?_, hsame⟩
        · refine ⟨hblb, hdlb, ?_, by omega, by omega⟩
          simp only [ATree.height] at hbbeq ⊢
          omega
        · simp only [rootBal_node, ATree.height] at hbbeq ⊢
          omega
        · simp only [rootBal_node, ATree.height] at hbbeq ⊢
          omega
        · rw [plug_append]
          simp [addrs_plug, ATree.addrs, plug, ctxBefore, ctxAfter, hsp1]
        · rw [plug_append]
          simp [elems_plug, ATree.elems, plug, ctxElemsBefore, ctxElemsAfter, hsp2]

/-! ## The thread splice of Delete -/

theorem lastOr_none_mem {xs : List Nat} {q : Nat} (h : lastOr none xs = some q) : q ∈ xs := by
  rcases lastOr_mem h with h1 | h1
  · exact h1
  · cases h1

theorem headOr_none_mem {xs : List Nat} {q : Nat} (h : headOr xs none = some q) : q ∈ xs := by
  rcases headOr_mem h with h1 | h1
  · exact h1
  · cases h1

theorem lastOr_none_eq_none {xs : List Nat} (h : lastOr none xs = none) : xs = [] := by
  cases xs with
  | nil => rfl
  | cons a xs =>
    rw [lastOr_cons, lastOr_some] at h
    cases hx : (a :: xs).getLast? with
    | none => simp at hx
    | some y => rw [hx] at h; cases h

theorem headOr_none_eq_none {xs : List Nat} (h : headOr xs none = none) : xs = [] := by
  cases xs with
  | nil => rfl
  | cons a xs => cases h

/-- The thread splice of Delete: the node leaves the chain of `prv`/`nxt`
links, `head` and `tail` follow when it was the first or the last, and nothing
else is written. -/
theorem deleteUnthread_spec {t : Tree α} {pre post : List Nat} {cn : Nat}
    (hthr : Thr t none (pre ++ cn :: post) none) (hnd : (pre ++ cn :: post).Nodup) :
    ∃ t2, deleteUnthread t cn = .ok t2 ∧ Thr t2 none (pre ++ post) none ∧
      (∀ a, t2.sv a = t.sv a) ∧ (∀ a, t2.dv a = t.dv a) ∧ t2.root = t.root ∧
      t2.size = t.size ∧ t2.mem.length = t.mem.length ∧
      t2.head = (if pre = [] then headOr post none else t.head) ∧
      t2.tail = (if post = [] then lastOr none pre else t.tail) := by
  have htv := Thr_mid hthr
  obtain ⟨nc, hnc, hprv, hnxt⟩ := thr_node_iff.mpr htv
  have hnd' := hnd
  rw [List.nodup_append, List.nodup_cons] at hnd'
  obtain ⟨hnd1, ⟨hcn2, hnd2⟩, hdis⟩ := hnd'
  have hcn1 : cn ∉ pre := fun hm => hdis hm (List.mem_cons_self _ _)
  have hpp : ∀ x ∈ pre, x ∉ post := fun x hx hm => hdis hx (List.mem_cons_of_mem _ hm)
  rcases hP : lastOr none pre with _ | p <;> rcases hN : headOr post none with _ | n
  · have hpre := lastOr_none_eq_none hP
    have hpost := headOr_none_eq_none hN
    subst hpre hpost
    refine ⟨(({ ({ t with head := none } : Tree α) with tail := none } : Tree α).setNxt cn none).setPrv cn none,
      ?_, trivial, ?_, ?_, rfl, rfl, ?_, rfl, rfl⟩
    · simp [deleteUnthread, hnc, hprv, hnxt, hP, hN]
    · intro a; simp
    · intro a; simp
    · simp [Tree.setNxt, Tree.setPrv]
  · have hpre := lastOr_none_eq_none hP
    subst hpre
    have hn := headOr_none_mem hN
    have e1 : cn ≠ n := fun e => hcn2 (e ▸ hn)
    have e2 : n ≠ cn := fun e => e1 e.symm
    refine ⟨((({ t with head := some n } : Tree α).setPrv n none).setNxt cn none).setPrv cn none,
      ?_, Thr_splice_out hthr hnd ?_ ?_ ?_, ?_, ?_, rfl, rfl, ?_, ?_, ?_⟩
    · simp [deleteUnthread, hnc, hprv, hnxt, hP, hN]
    · intro q hq; rw [hP] at hq; cases hq
    · intro q hq p0 n0 h0
      rw [hN] at hq; cases hq
      simp only [tv_setNxt, tv_setPrv, tv_mk_mem, e1, if_true, if_false, h0, Option.map_some',
        hP]
    · intro a ha h1 h2
      rw [hN] at h2
      have e3 : n ≠ a := fun e => h2 (by rw [e])
      have e4 : cn ≠ a := fun e => by
        subst e; simp only [List.nil_append] at ha; exact hcn2 ha
      simp only [tv_setNxt, tv_setPrv, tv_mk_mem, e3, e4, if_false]
    · intro a; simp
    · intro a; simp
    · simp [Tree.setNxt, Tree.setPrv]
    · simp [Tree.setNxt, Tree.setPrv, hN]
    · have : post ≠ [] := fun e => by subst e; cases hn
      simp [Tree.setNxt, Tree.setPrv, this]
  · have hpost := headOr_none_eq_none hN
    subst hpost
    have hp := lastOr_none_mem hP
    have e1 : cn ≠ p := fun e => hcn1 (e ▸ hp)
    have e2 : p ≠ cn := fun e => e1 e.symm
    refine ⟨((({ (t.setNxt p none) with tail := some p } : Tree α)).setNxt cn none).setPrv cn none,
      ?_, Thr_splice_out hthr hnd ?_ ?_ ?_, ?_, ?_, rfl, rfl, ?_, ?_, ?_⟩
    · simp [deleteUnthread, hnc, hprv, hnxt, hP, hN, node_setNxt, e2]
    · intro q hq p0 n0 h0
      rw [hP] at hq; cases hq
      simp only [tv_setNxt, tv_setPrv, tv_mk_mem, e1, if_true, if_false, h0, Option.map_some',
        hN]
    · intro q hq; rw [hN] at hq; cases hq
    · intro a ha h1 h2
      rw [hP] at h1
      have e3 : p ≠ a := fun e => h1 (by rw [e])
      have e4 : cn ≠ a := fun e => by
        subst e; simp only [List.append_nil] at ha; exact hcn1 ha
      simp only [tv_setNxt, tv_setPrv, tv_mk_mem, e3, e4, if_false]
    · intro a; simp
    · intro a; simp
    · simp [Tree.setNxt, Tree.setPrv]
    · have : pre ≠ [] := fun e => by subst e; cases hp
      simp [Tree.setNxt, Tree.setPrv, this]
    · simp [Tree.setNxt, Tree.setPrv, hP]
  · have hp := lastOr_none_mem hP
    have hn := headOr_none_mem hN
    have e1 : cn ≠ p := fun e => hcn1 (e ▸ hp)
    have e2 : p ≠ cn := fun e => e1 e.symm
    have e3 : cn ≠ n := fun e => hcn2 (e ▸ hn)
    have e4 : n ≠ cn := fun e => e3 e.symm
    have e5 : p ≠ n := fun e => hpp p hp (e ▸ hn)
    have e6 : n ≠ p := fun e => e5 e.symm
    refine ⟨(((t.setNxt p (some n)).setPrv n (some p)).setNxt cn none).setPrv cn none,
      ?_, Thr_splice_out hthr hnd ?_ ?_ ?_, ?_, ?_, rfl, rfl, ?_, ?_, ?_⟩
    · simp [deleteUnthread, hnc, hprv, hnxt, hP, hN, node_setNxt, e2]
    · intro q hq p0 n0 h0
      rw [hP] at hq; cases hq
      simp only [tv_setNxt, tv_setPrv, tv_mk_mem, e1, e6, if_true, if_false, h0, Option.map_some',
        hN]
    · intro q hq p0 n0 h0
      rw [hN] at hq; cases hq
      simp only [tv_setNxt, tv_setPrv, tv_mk_mem, e3, e5, if_true, if_false, h0, Option.map_some',
        hP]
    · intro a ha h1 h2
      rw [hP] at h1
      rw [hN] at h2
      have e7 : p ≠ a := fun e => h1 (by rw [e])
      have e8 : n ≠ a := fun e => h2 (by rw [e])
      have e9 : cn ≠ a := fun e => by
        subst e
        rcases List.mem_append.mp ha with ha | ha
        · exact hcn1 ha
        · exact hcn2 ha
      simp only [tv_setNxt, tv_setPrv, tv_mk_mem, e7, e8, e9, if_false]
    · intro a; simp
    · intro a; simp
    · simp [Tree.setNxt, Tree.setPrv]
    · have : pre ≠ [] := fun e => by subst e; cases hp
      simp [Tree.setNxt, Tree.setPrv, this]
    · have : post ≠ [] := fun e => by subst e; cases hn
      simp [Tree.setNxt, Tree.setPrv, this]

theorem sorted_erase [Comparable α] {pre post : List α} {d : α} (h : Sorted (pre ++ d :: post)) :
    Sorted (pre ++ post) := by
  simp only [Sorted, List.pairwise_append, List.pairwise_cons, List.mem_cons] at h ⊢
  exact ⟨h.1, h.2.1.2, fun a ha b hb => h.2.2 a ha b (Or.inr hb)⟩

/-- The end of Delete after the middle has taken the node out of the tree: the
thread splice, the size and the balance walk give a well-formed state. -/
theorem delete_finish [Comparable α] [StrictTotal α] {t t1 : Tree α} {s : ATree α} {cn bn : Nat}
    {d : α} {pre post : List Nat} {epre epost : List α}
    (h : Inv t s) (ha : s.addrs = pre ++ cn :: post) (he : s.elems = epre ++ d :: epost)
    (hu : Unlinked t t1 bn pre post epre epost) (fuel : Nat)
    (hf : 2 * s.addrs.length + 2 ≤ fuel) :
    ∃ t2, deleteUnthread t1 cn = .ok t2 ∧
      ∃ t' s', deleteRebalance { t2 with size := t2.size - 1 } fuel bn = .ok t' ∧ WF t' s' ∧
        s'.addrs = pre ++ post ∧ s'.elems = epre ++ epost ∧ t'.size = t.size - 1 ∧
        t'.mem.length = t.mem.length ∧ (∀ a, t'.dv a = t.dv a) := by
  obtain ⟨c, sb, h0, hrp, hb2, hcb, hz, hnz, hseg, hroot, hrep, hadd, hele, hsame⟩ := hu
  have hnd : (pre ++ cn :: post).Nodup := by
    rw [← ha]; exact Rep_nodup h.rep h.sorted
  have hthr1 : Thr t1 none (pre ++ cn :: post) none := by
    have := h.thr
    rw [ha] at this
    exact hsame.thr this
  obtain ⟨t2, hx2, hthr2, hsv2, hdv2, hroot2, hsize2, hlen2, hhead2, htail2⟩ :=
    deleteUnthread_spec hthr1 hnd
  have hnd3 : (plug c sb).addrs.Nodup := by
    rw [hadd]
    have hnd' := hnd
    rw [List.nodup_append, List.nodup_cons] at hnd'
    rw [List.nodup_append]
    exact ⟨hnd'.1, hnd'.2.1.2, fun x hx hm => hnd'.2.2 hx (List.mem_cons_of_mem _ hm)⟩
  have hlenc : c.length + 1 ≤ s.addrs.length := by
    have h1 := plug_length_ge c sb
    rw [hadd] at h1
    have h2 : 1 ≤ sb.addrs.length := by
      cases sb with
      | nil => cases hrp
      | node l a d b r => simp only [ATree.addrs, List.length_append, List.length_cons]; omega
    rw [ha]
    simp only [List.length_append, List.length_cons] at h1 ⊢
    omega
  obtain ⟨t', s', hx', hro', hre', hb', had', hel', hsa'⟩ :=
    deleteRebalance_spec c sb ({ t2 with size := t2.size - 1 }) bn h0 fuel hrp hb2 hcb hz hnz
      (@RepSeg_congr _ t1 { t2 with size := t2.size - 1 } _ (fun a _ => hsv2 a) _ _ hseg)
      (by show t2.root = _; rw [hroot2, hroot])
      (@Rep_congr _ t1 { t2 with size := t2.size - 1 } _ (fun a _ => hsv2 a) _ hrep)
      hnd3 (by omega)
  have hadd' : s'.addrs = pre ++ post := by rw [had', hadd]
  have hne : s.addrs ≠ [] := by rw [ha]; simp
  have hends := h.ends hne
  have hht : t'.head = s'.addrs.head? ∧ t'.tail = s'.addrs.getLast? := by
    rw [hsa'.head, hsa'.tail, hadd']
    show t2.head = _ ∧ t2.tail = _
    rw [hhead2, htail2, hsame.head, hsame.tail, hends.1, hends.2, ha]
    constructor
    · by_cases hp : pre = []
      · subst hp; simp [headOr_none_eq_head?]
      · rw [if_neg hp]
        cases pre with
        | nil => exact absurd rfl hp
        | cons x xs => rfl
    · by_cases hp : post = []
      · subst hp; simp [lastOr_none_eq_getLast?, getLast?_append_cons]
      · rw [if_neg hp, getLast?_append_cons, if_neg hp]
        cases post with
        | nil => exact absurd rfl hp
        | cons x xs =>
          rw [getLast?_append_cons pre xs x]
          exact getLast?_append_cons [] xs x
  refine ⟨t2, hx2, t', s', hx', ⟨⟨hro', hre', ?_, hb', ?_, ?_, fun _ => hht⟩, hht.1, hht.2⟩,
    hadd', ?_, ?_, ?_, ?_⟩
  · rw [hel', hele]
    have hso := h.sorted
    rw [he] at hso
    exact sorted_erase hso
  · rw [hadd']
    exact hsa'.thr (@Thr_congr _ t2 { t2 with size := t2.size - 1 } _ (fun a _ => rfl) _ _ hthr2)
  · rw [hsa'.size, hadd']
    show t2.size - 1 = _
    rw [hsize2, hsame.size, h.size, ha]
    simp only [List.length_append, List.length_cons]
    omega
  · rw [hel', hele]
  · rw [hsa'.size]
    show t2.size - 1 = _
    rw [hsize2, hsame.size]
  · rw [hsa'.len]
    show t2.mem.length = _
    rw [hlen2, hsame.len]
  · intro a
    rw [hsa'.dv]
    show t2.dv a = _
    rw [hdv2, hsame.dv]

/-! ## Delete -/

/-- The descent of Delete ends at the node of the search path, or with nil
when the path ends at an empty place. -/
theorem deleteDescend_spec [Comparable α] [StrictTotal α] (x : α) (s : ATree α) :
    ∀ (c : List (Frame α)) (t : Tree α) (a : Nat) (par : Option Nat) (fuel : Nat),
      s.rootPtr = some a → Rep t par s → s.height ≤ fuel →
      deleteDescend t x fuel a = .ok (findA x c s).2.rootPtr := by
  induction s with
  | nil => intro c t a par fuel h; cases h
  | node l a0 d b r ihl ihr =>
    intro c t a par fuel ha hrep hf
    simp only [rootPtr_node, Option.some.injEq] at ha
    subst ha
    obtain ⟨f, rfl⟩ : ∃ f, fuel = f + 1 := ⟨fuel - 1, by simp [ATree.height] at hf; omega⟩
    obtain ⟨⟨n, hn, h1, h2, h3, h4, h5⟩, hl, hr⟩ := hrep
    have hsw1 := StrictTotal.swap x d
    have hsw2 := StrictTotal.swap d x
    unfold findA
    by_cases hk0 : CompareTo x d = 0
    · have hk0' : CompareTo d x = 0 := cmp_eq_zero_swap hk0
      simp [deleteDescend, hn, h1, hk0, hk0']
    · have hk0' : CompareTo d x ≠ 0 := fun e => hk0 (cmp_eq_zero_swap e)
      by_cases hk : CompareTo x d < 0
      · have hk' : CompareTo d x > 0 := by omega
        simp only [hk0, hk, if_false, if_true]
        cases l with
        | nil => simp [deleteDescend, hn, h1, hk0', hk', h3, findA]
        | node ll la ld lb lr =>
          have := ihl (.L a0 d b r :: c) t la (some a0) f rfl hl
            (by simp [ATree.height] at hf ⊢; omega)
          simp [deleteDescend, hn, h1, hk0', hk', h3, this]
      · have hk' : ¬ CompareTo d x > 0 := by omega
        simp only [hk0, hk, if_false]
        cases r with
        | nil => simp [deleteDescend, hn, h1, hk0', hk', h4, findA]
        | node rl ra rd rb rr =>
          have := ihr (.R l a0 d b :: c) t ra (some a0) f rfl hr
            (by simp [ATree.height] at hf ⊢; omega)
          simp [deleteDescend, hn, h1, hk0', hk', h4, this]

/-- Delete of an element that compares equal to no element of the tree: the
state is left as it is. -/
theorem Delete_absent [Comparable α] [StrictTotal α] {t : Tree α} {s : ATree α} (h : Inv t s)
    (x : α) (hnew : ∀ e ∈ s.elems, CompareTo x e ≠ 0) (fuel : Nat) (hf : s.height ≤ fuel) :
    Delete fuel t x = .ok (t, none, false) := by
  cases hs : s with
  | nil =>
    have : t.root = none := by rw [h.root, hs]; rfl
    simp [Delete, this]
  | node l0 a0 d0 b0 r0 =>
    have hroot : t.root = some a0 := by rw [h.root, hs]; rfl
    have hnil := findA_nil_of_new x s hnew
    have hd := deleteDescend_spec x s [] t a0 none fuel (by rw [hs]; rfl) h.rep hf
    rw [hnil] at hd
    simp [Delete, hroot, hd]

theorem addrs_plug_node (c : List (Frame α)) (l r : ATree α) (a : Nat) (d : α) (b : Int) :
    (plug c (.node l a d b r)).addrs = (ctxBefore c ++ l.addrs) ++ a :: (r.addrs ++ ctxAfter c) := by
  simp [addrs_plug, ATree.addrs]

theorem elems_plug_node (c : List (Frame α)) (l r : ATree α) (a : Nat) (d : α) (b : Int) :
    (plug c (.node l a d b r)).elems =
      (ctxElemsBefore c ++ l.elems) ++ d :: (r.elems ++ ctxElemsAfter c) := by
  simp [elems_plug, ATree.elems]

/-- Delete of an element that compares equal to an element of the tree: that
node leaves the tree; the rest keeps its order, and the state is well-formed
again unless the tree has become empty, in which case `head` and `tail` are
left as they were. -/
theorem Delete_found [Comparable α] [StrictTotal α] {t : Tree α} {s : ATree α} (h : Inv t s)
    (x : α) (heq : ∃ e ∈ s.elems, CompareTo x e = 0) (fuel : Nat)
    (hf : 2 * s.addrs.length + 2 ≤ fuel) :
    ∃ c l cn d b r t' s', s = plug c (.node l cn d b r) ∧ CompareTo x d = 0 ∧
      Delete fuel t x = .ok (t', some d, true) ∧ Inv t' s' ∧
      s'.addrs = (ctxBefore c ++ l.addrs) ++ (r.addrs ++ ctxAfter c) ∧
      s'.elems = (ctxElemsBefore c ++ l.elems) ++ (r.elems ++ ctxElemsAfter c) ∧
      t'.size = t.size - 1 ∧ t'.mem.length = t.mem.length ∧ (∀ a, t'.dv a = t.dv a) ∧
      (s'.addrs ≠ [] → WF t' s') ∧
      (s'.addrs = [] → t'.root = none ∧ t'.head = t.head ∧ t'.tail = t.tail) := by
  obtain ⟨c, l, cn, d, b, r, hfind, hs, hxd⟩ := findA_node_of_mem x s h.sorted heq
  obtain ⟨l0, a0, d0, b0, r0, hs0⟩ : ∃ l0 a0 d0 b0 r0, s = .node l0 a0 d0 b0 r0 := by
    cases s with
    | nil => obtain ⟨e, he, _⟩ := heq; simp [ATree.elems] at he
    | node => exact ⟨_, _, _, _, _, rfl⟩
  have hroot : t.root = some a0 := by rw [h.root, hs0]; rfl
  have hd := deleteDescend_spec x s [] t a0 none fuel (by rw [hs0]; rfl) h.rep
    (by have := height_le_length s; omega)
  rw [hfind] at hd
  simp only [rootPtr_node] at hd
  clear hs0
  subst hs
  have hrep := h.rep
  rw [Rep_plug] at hrep
  obtain ⟨n, hn, -, hnp, hdata, hnl, hnr⟩ := Rep_root_node hrep.2
  by_cases honly : c = [] ∧ l = .nil ∧ r = .nil
  · obtain ⟨rfl, rfl, rfl⟩ := honly
    simp only [ctxPar_nil, rootPtr_nil] at hnp hnl hnr
    have hsz : t.size = 1 := by rw [h.size]; rfl
    refine ⟨[], .nil, cn, d, b, .nil, { t with root := none, size := t.size - 1 }, .nil, rfl, hxd,
      ?_, ⟨rfl, trivial, ?_, trivial, trivial, ?_, fun hh => absurd rfl hh⟩, rfl, rfl, rfl, rfl,
      fun a => rfl, fun hh => absurd rfl hh, fun _ => ⟨rfl, rfl, rfl⟩⟩
    · simp [Delete, hroot, hd, hn, hdata, deleteUnlink, hnl, hnr, hnp]
    · simp [Sorted, ATree.elems]
    · show t.size - 1 = 0
      rw [hsz]
  · obtain ⟨t1, bn, hx1, hu⟩ := deleteUnlink_spec h honly
    obtain ⟨t2, hx2, t', s', hx3, hwf, g1, g2, g3, g4, g5⟩ :=
      delete_finish h (addrs_plug_node c l r cn d b) (elems_plug_node c l r cn d b) hu fuel hf
    refine ⟨c, l, cn, d, b, r, t', s', rfl, hxd, ?_, hwf.inv, g1, g2, g3, g4, g5, fun _ => hwf, ?_⟩
    · simp [Delete, hroot, hd, hn, hdata, hx1, hx2, hx3]
    · intro he
      exfalso
      obtain ⟨cb, sb, h0, hrp, -, -, -, -, -, -, -, hadd, -, -⟩ := hu
      rw [g1, ← hadd, addrs_plug] at he
      cases sb with
      | nil => cases hrp
      | node => simp [ATree.addrs] at he

/-! ## Lookup -/

/-- The elements of the tree are the elements stored at its addresses, in the
same order. -/
theorem Rep_dv_map {t : Tree α} {par : Option Nat} {s : ATree α} (hr : Rep t par s) :
    s.addrs.map t.dv = s.elems.map some := by
  induction s generalizing par with
  | nil => rfl
  | node l a d b r ihl ihr =>
    obtain ⟨⟨n, hn, h1, -⟩, hl, hrr⟩ := hr
    simp only [ATree.addrs, ATree.elems, List.map_append, List.map_cons, ihl hl, ihr hrr,
      dv_of_node hn, h1]

theorem dv_last {t : Tree α} {as : List Nat} {es : List α} (h : as.map t.dv = es.map some) :
    (∀ a, lastOr none as = some a → ∃ e, t.dv a = some e ∧ es.getLast? = some e) ∧
      (lastOr none as = none → es.getLast? = none) := by
  have h2 := congrArg List.getLast? h
  rw [List.getLast?_map, List.getLast?_map, ← lastOr_none_eq_getLast?] at h2
  constructor
  · intro a ha
    rw [ha] at h2
    cases he : es.getLast? with
    | none => rw [he] at h2; cases h2
    | some e =>
      rw [he] at h2
      simp only [Option.map_some', Option.some.injEq] at h2
      exact ⟨e, h2, rfl⟩
  · intro ha
    rw [ha] at h2
    cases he : es.getLast? with
    | none => rfl
    | some e => rw [he] at h2; cases h2

theorem dv_head {t : Tree α} {as : List Nat} {es : List α} (h : as.map t.dv = es.map some) :
    (∀ a, headOr as none = some a → ∃ e, t.dv a = some e ∧ es.head? = some e) ∧
      (headOr as none = none → es.head? = none) := by
  have h2 := congrArg List.head? h
  rw [List.head?_map, List.head?_map, ← headOr_none_eq_head?] at h2
  constructor
  · intro a ha
    rw [ha] at h2
    cases he : es.head? with
    | none => rw [he] at h2; cases h2
    | some e =>
      rw [he] at h2
      simp only [Option.map_some', Option.some.injEq] at h2
      exact ⟨e, h2, rfl⟩
  · intro ha
    rw [ha] at h2
    cases he : es.head? with
    | none => rfl
    | some e => rw [he] at h2; cases h2

theorem node_of_dv {t : Tree α} {a : Nat} {e : α} (h : t.dv a = some e) :
    ∃ n, t.node a = .ok n ∧ n.data = e := by
  unfold Tree.dv at h
  cases hn : t.node a with
  | error x => rw [hn] at h; cases h
  | ok n =>
    rw [hn] at h
    simp only [Option.some.injEq] at h
    exact ⟨n, rfl, h⟩

/-- The loop of `lookupNode` follows the search path; at its end it answers
with the last node visited or with that node's thread neighbour. -/
theorem lookupLoop_spec [Comparable α] (x : α) (lt : Int) (s : ATree α) :
    ∀ (c : List (Frame α)) (t : Tree α) (a : Nat) (par : Option Nat) (fuel : Nat),
      s.rootPtr = some a → Rep t par s → s.height ≤ fuel →
      ∃ res, lookupLoop t lt x fuel a = .ok res ∧
        ((∃ l' cn d' b' r', (findA x c s).2 = .node l' cn d' b' r' ∧ res = (some cn, true)) ∨
          ((findA x c s).2 = .nil ∧
            ((∃ pa pd pb pr c' n, (findA x c s).1 = .L pa pd pb pr :: c' ∧ t.node pa = .ok n ∧
                res = (if lt = GTE then some pa else n.prv, false)) ∨
              (∃ pl pa pd pb c' n, (findA x c s).1 = .R pl pa pd pb :: c' ∧ t.node pa = .ok n ∧
                res = (if lt = LTE then some pa else n.nxt, false))))) := by
  induction s with
  | nil => intro c t a par fuel h; cases h
  | node l a0 d b r ihl ihr =>
    intro c t a par fuel ha hrep hf
    simp only [rootPtr_node, Option.some.injEq] at ha
    subst ha
    obtain ⟨f, rfl⟩ : ∃ f, fuel = f + 1 := ⟨fuel - 1, by simp [ATree.height] at hf; omega⟩
    obtain ⟨⟨n, hn, h1, h2, h3, h4, h5⟩, hl, hr⟩ := hrep
    unfold findA
    by_cases hk0 : CompareTo x d = 0
    · refine ⟨(some a0, true), ?_, Or.inl ⟨l, a0, d, b, r, ?_, rfl⟩⟩
      · simp [lookupLoop, hn, h1, hk0]
      · simp [hk0]
    · by_cases hk : CompareTo x d < 0
      · simp only [hk0, hk, if_false, if_true]
        cases l with
        | nil =>
          refine ⟨(if lt = GTE then some a0 else n.prv, false), ?_,
            Or.inr ⟨rfl, Or.inl ⟨a0, d, b, r, c, n, rfl, hn, rfl⟩⟩⟩
          simp only [rootPtr_nil] at h3
          by_cases hg : lt = GTE <;> simp [lookupLoop, hn, h1, hk0, hk, h3, hg]
        | node ll la ld lb lr =>
          obtain ⟨res, hx, hres⟩ := ihl (.L a0 d b r :: c) t la (some a0) f rfl hl
            (by simp [ATree.height] at hf ⊢; omega)
          refine ⟨res, ?_, hres⟩
          simp [lookupLoop, hn, h1, hk0, hk, h3, hx]
      · simp only [hk0, hk, if_false]
        cases r with
        | nil =>
          refine ⟨(if lt = LTE then some a0 else n.nxt, false), ?_,
            Or.inr ⟨rfl, Or.inr ⟨l, a0, d, b, c, n, rfl, hn, rfl⟩⟩⟩
          simp only [rootPtr_nil] at h4
          by_cases hg : lt = LTE <;> simp [lookupLoop, hn, h1, hk0, hk, h4, hg]
        | node rl ra rd rb rr =>
          obtain ⟨res, hx, hres⟩ := ihr (.R l a0 d b :: c) t ra (some a0) f rfl hr
            (by simp [ATree.height] at hf ⊢; omega)
          refine ⟨res, ?_, hres⟩
          simp [lookupLoop, hn, h1, hk0, hk, h4, hx]

theorem dv_split {t : Tree α} {s : ATree α} {par : Option Nat} (hr : Rep t par s)
    {apre apost : List Nat} {epre epost : List α} (ha : s.addrs = apre ++ apost)
    (he : s.elems = epre ++ epost) (hlen : apre.length = epre.length) :
    apre.map t.dv = epre.map some ∧ apost.map t.dv = epost.map some := by
  have h := Rep_dv_map hr
  rw [ha, he, List.map_append, List.map_append] at h
  exact List.append_inj h (by simp [hlen])

theorem GTE_ne_LTE : GTE ≠ LTE := by decide

/-- Lookup on the abstract tree: the elements split around the argument; an
element that compares equal is returned with `true`, otherwise GTE returns the
first element after the split and LTE the last element before it, absent when
there is none. -/
theorem Lookup_spec [Comparable α] [StrictTotal α] {t : Tree α} {s : ATree α} (h : Inv t s)
    (x : α) (lt : Int) (hlt : lt = GTE ∨ lt = LTE) (fuel : Nat) (hf : s.height ≤ fuel) :
    ∃ epre epost, (∀ e ∈ epre, CompareTo e x < 0) ∧ (∀ e ∈ epost, CompareTo x e < 0) ∧
      ((s.elems = epre ++ epost ∧
          Lookup fuel t lt x = .ok (if lt = GTE then epost.head? else epre.getLast?, false)) ∨
        (∃ d, s.elems = epre ++ d :: epost ∧ CompareTo x d = 0 ∧
          Lookup fuel t lt x = .ok (some d, true))) := by
  obtain rfl | ⟨l0, a0, d0, b0, r0, hs⟩ : s = .nil ∨ ∃ l0 a0 d0 b0 r0, s = .node l0 a0 d0 b0 r0 := by
    cases s
    · exact Or.inl rfl
    · exact Or.inr ⟨_, _, _, _, _, rfl⟩
  · have hroot : t.root = none := h.root
    refine ⟨[], [], by simp, by simp, Or.inl ⟨rfl, ?_⟩⟩
    simp [Lookup, lookupNode, hroot]
  · have hroot : t.root = some a0 := by rw [h.root, hs]; rfl
    obtain ⟨res, hx, hres⟩ := lookupLoop_spec x lt s [] t a0 none fuel (by rw [hs]; rfl) h.rep hf
    have hplug := findA_plug x s []
    have hbounds := findA_bounds x s [] (by exact h.sorted) (by simp [ctxElemsBefore])
      (by simp [ctxElemsAfter])
    have hplug' : plug (findA x [] s).1 (findA x [] s).2 = s := hplug
    clear hplug hs
    rcases hres with ⟨l, cn, d, b, r, hfound, rfl⟩ | ⟨hnil, hF⟩
    · have hxd := findA_found x s [] hfound
      rw [hfound] at hplug'
      generalize (findA x [] s).1 = c at hplug' hbounds
      subst hplug'
      have hso := h.sorted
      rw [elems_plug] at hso
      obtain ⟨hld, hdr⟩ := sorted_mid hso
      have hrep := h.rep
      rw [Rep_plug] at hrep
      obtain ⟨n, hn, -, -, hdata, -, -⟩ := Rep_root_node hrep.2
      refine ⟨ctxElemsBefore c ++ l.elems, r.elems ++ ctxElemsAfter c, ?_, ?_,
        Or.inr ⟨d, elems_plug_node c l r cn d b, hxd, ?_⟩⟩
      · intro e he
        rcases List.mem_append.mp he with he | he
        · exact hbounds.1 e he
        · exact cmp_lt_of_lt_of_eq (hld e he) (cmp_eq_zero_swap hxd)
      · intro e he
        rcases List.mem_append.mp he with he | he
        · exact cmp_lt_of_eq_of_lt hxd (hdr e he)
        · exact hbounds.2 e he
      · simp [Lookup, lookupNode, hroot, hx, hn, hdata]
    · rw [hnil] at hplug'
      generalize (findA x [] s).1 = c at hplug' hbounds hF
      subst hplug'
      have hel : (plug c (.nil : ATree α)).elems = ctxElemsBefore c ++ ctxElemsAfter c := by
        simp [elems_plug, ATree.elems]
      have had : (plug c (.nil : ATree α)).addrs = ctxBefore c ++ ctxAfter c := by
        simp [addrs_plug, ATree.addrs]
      obtain ⟨hdpre, hdpost⟩ := dv_split h.rep had hel (ctxElems_length c).1.symm
      refine ⟨ctxElemsBefore c, ctxElemsAfter c, hbounds.1, hbounds.2, Or.inl ⟨hel, ?_⟩⟩
      have hthr := h.thr
      have hrep := h.rep
      rw [Rep_plug] at hrep
      rcases hF with ⟨pa, pd, pb, pr, c', n, rfl, hn, rfl⟩ | ⟨pl, pa, pd, pb, c', n, rfl, hn, rfl⟩
      · obtain ⟨⟨n', hn', hdata, -⟩, -, -⟩ := hrep.1
        rw [hn] at hn'; cases hn'
        rcases hlt with rfl | rfl
        · simp [Lookup, lookupNode, hroot, hx, hn, hdata, ctxElemsAfter]
        · have had2 : (plug (.L pa pd pb pr :: c') (.nil : ATree α)).addrs =
              ctxBefore c' ++ pa :: (pr.addrs ++ ctxAfter c') := by
            simp [addrs_plug, ATree.addrs, ctxBefore, ctxAfter]
          rw [had2] at hthr
          have htv := Thr_mid hthr
          rw [tv_of_node hn] at htv
          simp only [Option.some.injEq, Prod.mk.injEq] at htv
          simp only [ctxBefore, ctxElemsBefore] at hdpre ⊢
          obtain ⟨hl1, hl2⟩ := dv_last hdpre
          rw [if_neg GTE_ne_LTE.symm]
          cases hp : lastOr none (ctxBefore c') with
          | none =>
            rw [hl2 hp]
            simp [Lookup, lookupNode, hroot, hx, htv.1, hp, GTE_ne_LTE.symm]
          | some q =>
            obtain ⟨e, he1, he2⟩ := hl1 q hp
            obtain ⟨m, hm, hmd⟩ := node_of_dv he1
            rw [he2]
            simp [Lookup, lookupNode, hroot, hx, htv.1, hp, GTE_ne_LTE.symm, hm, hmd]
      · obtain ⟨⟨n', hn', hdata, -⟩, -, -⟩ := hrep.1
        rw [hn] at hn'; cases hn'
        rcases hlt with rfl | rfl
        · have had2 : (plug (.R pl pa pd pb :: c') (.nil : ATree α)).addrs =
              (ctxBefore c' ++ pl.addrs) ++ pa :: ctxAfter c' := by
            simp [addrs_plug, ATree.addrs, ctxBefore, ctxAfter]
          rw [had2] at hthr
          have htv := Thr_mid hthr
          rw [tv_of_node hn] at htv
          simp only [Option.some.injEq, Prod.mk.injEq] at htv
          simp only [ctxAfter, ctxElemsAfter] at hdpost ⊢
          obtain ⟨hl1, hl2⟩ := dv_head hdpost
          rw [if_pos trivial]
          cases hp : headOr (ctxAfter c') none with
          | none =>
            rw [hl2 hp]
            simp [Lookup, lookupNode, hroot, hx, htv.2, hp, GTE_ne_LTE]
          | some q =>
            obtain ⟨e, he1, he2⟩ := hl1 q hp
            obtain ⟨m, hm, hmd⟩ := node_of_dv he1
            rw [he2]
            simp [Lookup, lookupNode, hroot, hx, htv.2, hp, GTE_ne_LTE, hm, hmd]
        · simp [Lookup, lookupNode, hroot, hx, hn, hdata, ctxElemsBefore, GTE_ne_LTE.symm]

/-! ## Examples -/

instance instStrictTotalInt : StrictTotal Int where
  swap a b := by
    simp only [CompareTo]
    split_ifs <;> omega
  le_trans a b c := by
    simp only [CompareTo]
    split_ifs <;> omega

theorem tree7_wf : WF tree7 atree7 := by
  refine ⟨⟨rfl, ?_, ?_, ?_, ?_, rfl, fun _ => ⟨rfl, rfl⟩⟩, rfl, rfl⟩
  · simp only [atree7, Rep, nodeIs_iff_sv, rootPtr_node, rootPtr_nil, and_true]
    exact ⟨rfl, ⟨rfl, rfl, rfl⟩, rfl, rfl, rfl⟩
  · unfold Sorted
    decide
  · simp only [atree7, ATree.Bal, ATree.height]
    decide
  · simp only [atree7, ATree.addrs, List.nil_append, List.cons_append, List.append_nil, Thr_cons,
      headOr_cons, headOr_nil]
    exact ⟨rfl, rfl, rfl, rfl, rfl, rfl, rfl, trivial⟩

theorem tree1_wf : WF tree1 (.node .nil 0 5 0 .nil) := by
  refine ⟨⟨rfl, ?_, ?_, ?_, ?_, rfl, fun _ => ⟨rfl, rfl⟩⟩, rfl, rfl⟩
  · simp only [Rep, nodeIs_iff_sv, rootPtr_nil, and_true]
    rfl
  · unfold Sorted
    decide
  · simp only [ATree.Bal, ATree.height]
    decide
  · simp only [ATree.addrs, List.nil_append, Thr_cons, headOr_nil]
    exact ⟨rfl, trivial⟩

theorem empty_wf [Comparable α] : WF (Tree.empty : Tree α) .nil :=
  ⟨⟨rfl, trivial, List.Pairwise.nil, trivial, trivial, rfl, fun h => absurd rfl h⟩, rfl, rfl⟩

/-! ## Pointer-level reading of the invariants -/

/-- The store holds at most one tree below a given root pointer. -/
theorem Rep_unique {t : Tree α} {s : ATree α} :
    ∀ {s' : ATree α} {par par' : Option Nat}, Rep t par s → Rep t par' s' →
      s.rootPtr = s'.rootPtr → s = s' := by
  induction s with
  | nil =>
    intro s' par par' _ _ h
    cases s' with
    | nil => rfl
    | node => cases h
  | node l a d b r ihl ihr =>
    intro s' par par' h1 h2 h
    cases s' with
    | nil => cases h
    | node l' a' d' b' r' =>
      simp only [rootPtr_node, Option.some.injEq] at h
      subst h
      obtain ⟨⟨n, hn, e1, e2, e3, e4, -⟩, hl, hr⟩ := h1
      obtain ⟨⟨n', hn', f1, f2, f3, f4, -⟩, hl', hr'⟩ := h2
      rw [hn] at hn'
      cases hn'
      have gl := ihl hl hl' (by rw [← e3, ← f3])
      have gr := ihr hr hr' (by rw [← e4, ← f4])
      subst gl gr
      rw [← e1, ← f1, ← e2, ← f2]

theorem Rep_parentChild_aux {t : Tree α} {s : ATree α} :
    ∀ {par : Option Nat}, Rep t par s → s.addrs.Nodup → ∀ a ∈ s.addrs, ∃ n, t.node a = .ok n ∧
      ((s.rootPtr = some a ∧ n.p = par) ∨
        (∃ p ∈ s.addrs, n.p = some p ∧ ∃ m, t.node p = .ok m ∧
          ((m.l = some a ∧ m.r ≠ some a) ∨ (m.r = some a ∧ m.l ≠ some a)))) ∧
      (∀ c, n.l = some c → c ∈ s.addrs ∧ ∃ k, t.node c = .ok k ∧ k.p = some a) ∧
      (∀ c, n.r = some c → c ∈ s.addrs ∧ ∃ k, t.node c = .ok k ∧ k.p = some a) := by
  induction s with
  | nil => intro par _ _ a ha; simp [ATree.addrs] at ha
  | node l a0 d b r ihl ihr =>
    intro par hr hnd a ha
    rw [nodup_node] at hnd
    obtain ⟨ndl, ndr, nal, nar, dis⟩ := hnd
    obtain ⟨⟨n0, hn0, e1, e2, e3, e4, e5⟩, hl, hrr⟩ := hr
    have child : ∀ (q : ATree α) (c : Nat), Rep t (some a0) q → q.rootPtr = some c →
        c ∈ q.addrs ∧ ∃ k, t.node c = .ok k ∧ k.p = some a0 := by
      intro q c hq hc
      refine ⟨rootPtr_mem hc, ?_⟩
      cases q with
      | nil => cases hc
      | node ql qa qd qb qr =>
        simp only [rootPtr_node, Option.some.injEq] at hc
        subst hc
        obtain ⟨k, hk, -, hp, -⟩ := Rep_root_node hq
        exact ⟨k, hk, hp⟩
    rw [mem_addrs_node] at ha
    rcases ha with rfl | ha | ha
    · refine ⟨n0, hn0, Or.inl ⟨rfl, e5⟩, ?_, ?_⟩
      · intro c hc
        obtain ⟨h1, h2⟩ := child l c hl (by rw [← e3, hc])
        exact ⟨by rw [mem_addrs_node]; exact Or.inr (Or.inl h1), h2⟩
      · intro c hc
        obtain ⟨h1, h2⟩ := child r c hrr (by rw [← e4, hc])
        exact ⟨by rw [mem_addrs_node]; exact Or.inr (Or.inr h1), h2⟩
    · obtain ⟨n, hn, hpar, hcl, hcr⟩ := ihl hl ndl a ha
      refine ⟨n, hn, Or.inr ?_, ?_, ?_⟩
      · rcases hpar with ⟨h1, h2⟩ | ⟨p, hp, h1, h2⟩
        · refine ⟨a0, by rw [mem_addrs_node]; exact Or.inl rfl, h2, n0, hn0, Or.inl ⟨?_, ?_⟩⟩
          · rw [e3, h1]
          · rw [e4]; exact rootPtr_ne (dis a ha)
        · exact ⟨p, by rw [mem_addrs_node]; exact Or.inr (Or.inl hp), h1, h2⟩
      · intro c hc
        obtain ⟨h1, h2⟩ := hcl c hc
        exact ⟨by rw [mem_addrs_node]; exact Or.inr (Or.inl h1), h2⟩
      · intro c hc
        obtain ⟨h1, h2⟩ := hcr c hc
        exact ⟨by rw [mem_addrs_node]; exact Or.inr (Or.inl h1), h2⟩
    · obtain ⟨n, hn, hpar, hcl, hcr⟩ := ihr hrr ndr a ha
      refine ⟨n, hn, Or.inr ?_, ?_, ?_⟩
      · rcases hpar with ⟨h1, h2⟩ | ⟨p, hp, h1, h2⟩
        · refine ⟨a0, by rw [mem_addrs_node]; exact Or.inl rfl, h2, n0, hn0, Or.inr ⟨?_, ?_⟩⟩
          · rw [e4, h1]
          · rw [e3]; exact rootPtr_ne (fun hm => dis a hm ha)
        · exact ⟨p, by rw [mem_addrs_node]; exact Or.inr (Or.inr hp), h1, h2⟩
      · intro c hc
        obtain ⟨h1, h2⟩ := hcl c hc
        exact ⟨by rw [mem_addrs_node]; exact Or.inr (Or.inr h1), h2⟩
      · intro c hc
        obtain ⟨h1, h2⟩ := hcr c hc
        exact ⟨by rw [mem_addrs_node]; exact Or.inr (Or.inr h1), h2⟩

/-- The representation invariant gives parent-child consistency on the
pointers. -/
theorem Inv.parentChild [Comparable α] [StrictTotal α] {t : Tree α} {s : ATree α} (h : Inv t s) :
    ParentChild t s.addrs := by
  intro a ha
  obtain ⟨n, hn, hpar, hcl, hcr⟩ := Rep_parentChild_aux h.rep (Rep_nodup h.rep h.sorted) a ha
  refine ⟨n, hn, ?_, ?_, hcl, hcr⟩
  · intro p hp
    rcases hpar with ⟨-, h2⟩ | ⟨p', hp', h1, h2⟩
    · rw [h2] at hp; cases hp
    · rw [h1] at hp; cases hp
      exact ⟨hp', h2⟩
  · intro hp
    rcases hpar with ⟨h1, -⟩ | ⟨p', -, h1, -⟩
    · rw [h.root, h1]
    · rw [h1] at hp; cases hp

theorem lastOr_none_split {xs : List Nat} {q : Nat} (h : lastOr none xs = some q) :
    ∃ ys, xs = ys ++ [q] := by
  rw [lastOr_none_eq_getLast?] at h
  exact List.getLast?_eq_some_iff.mp h

theorem headOr_none_split {xs : List Nat} {q : Nat} (h : headOr xs none = some q) :
    ∃ ys, xs = q :: ys := by
  cases xs with
  | nil => cases h
  | cons a ys => cases h; exact ⟨ys, rfl⟩

/-- The thread invariant gives the link-back property on the pointers. -/
theorem Thr_links {t : Tree α} {xs : List Nat} (h : Thr t none xs none) : ThreadLinks t xs := by
  intro a ha
  obtain ⟨pre, post, rfl⟩ := List.append_of_mem ha
  obtain ⟨n, hn, hp, hx⟩ := thr_node_iff.mpr (Thr_mid h)
  refine ⟨n, hn, ?_, ?_⟩
  · intro q hq
    rw [hp] at hq
    obtain ⟨ys, rfl⟩ := lastOr_none_split hq
    rw [List.append_assoc] at h
    obtain ⟨m, hm, -, hmx⟩ := thr_node_iff.mpr (Thr_mid h)
    exact ⟨m, hm, hmx⟩
  · intro q hq
    rw [hx] at hq
    obtain ⟨ys, rfl⟩ := headOr_none_split hq
    have h' : Thr t none ((pre ++ [a]) ++ q :: ys) none := by
      rw [List.append_assoc]; exact h
    obtain ⟨m, hm, hmp, -⟩ := thr_node_iff.mpr (Thr_mid h')
    refine ⟨m, hm, ?_⟩
    rw [hmp, lastOr_append]
    rfl

/-! ## Sequences of calls -/

/-- Every sequence of calls keeps the invariants, given fuel for the longest
path that can arise. -/
theorem runOps_inv [Comparable α] [StrictTotal α] (ops : List (Op α)) :
    ∀ (t : Tree α) (s : ATree α) (fuel : Nat), Inv t s →
      2 * (s.addrs.length + ops.length) + 2 ≤ fuel →
      ∃ t' s', runOps fuel t ops = .ok t' ∧ Inv t' s' ∧
        s'.addrs.length ≤ s.addrs.length + ops.length := by
  induction ops with
  | nil => intro t s fuel h _; exact ⟨t, s, rfl, h, by simp⟩
  | cons op ops ih =>
    intro t s fuel h hf
    simp only [List.length_cons] at hf ⊢
    cases op with
    | insert x =>
      by_cases heq : ∃ e ∈ s.elems, CompareTo x e = 0
      · obtain ⟨c, l, a, d, b, r, hs, -, hx, hinv⟩ :=
          Insert_equal h x heq fuel (by have := height_le_length s; omega)
        have hlen : (plug c (.node l a x b r)).addrs.length = s.addrs.length := by
          rw [hs, addrs_plug_node, addrs_plug_node]
        obtain ⟨t', s', h1, h2, h3⟩ := ih _ _ fuel hinv (by rw [hlen]; omega)
        refine ⟨t', s', ?_, h2, by rw [hlen] at h3; omega⟩
        simp only [runOps, hx, bind_ok]
        exact h1
      · have hnew : ∀ e ∈ s.elems, CompareTo x e ≠ 0 := fun e he h0 => heq ⟨e, he, h0⟩
        obtain ⟨t1, s1, apre, apost, epre, epost, hx, hwf, ha, ha', -⟩ :=
          Insert_new h x hnew fuel (by omega)
        have hlen : s1.addrs.length = s.addrs.length + 1 := by
          rw [ha, ha']; simp only [List.length_append, List.length_cons]; omega
        obtain ⟨t', s', h1, h2, h3⟩ := ih _ _ fuel hwf.inv (by rw [hlen]; omega)
        refine ⟨t', s', ?_, h2, by rw [hlen] at h3; omega⟩
        simp only [runOps, hx, bind_ok]
        exact h1
    | delete x =>
      by_cases heq : ∃ e ∈ s.elems, CompareTo x e = 0
      · obtain ⟨c, l, cn, d, b, r, t1, s1, hs, -, hx, hinv, ha, -⟩ :=
          Delete_found h x heq fuel (by omega)
        have hlen : s1.addrs.length + 1 = s.addrs.length := by
          rw [hs, addrs_plug_node, ha]; simp only [List.length_append, List.length_cons]; omega
        obtain ⟨t', s', h1, h2, h3⟩ := ih _ _ fuel hinv (by omega)
        refine ⟨t', s', ?_, h2, by omega⟩
        simp only [runOps, hx, bind_ok]
        exact h1
      · have hnew : ∀ e ∈ s.elems, CompareTo x e ≠ 0 := fun e he h0 => heq ⟨e, he, h0⟩
        have hx := Delete_absent h x hnew fuel (by have := height_le_length s; omega)
        obtain ⟨t', s', h1, h2, h3⟩ := ih _ _ fuel h (by omega)
        refine ⟨t', s', ?_, h2, by omega⟩
        simp only [runOps, hx, bind_ok]
        exact h1

/-! ## Nearest elements in a sorted sequence -/

theorem least_of_split [Comparable α] [StrictTotal α] {k : α} {xs epre epost : List α}
    (hx : xs = epre ++ epost) (hs : Sorted xs) (h1 : ∀ e ∈ epre, CompareTo e k < 0)
    (h2 : ∀ e ∈ epost, CompareTo k e ≤ 0) :
    (∀ e, epost.head? = some e → e ∈ xs ∧ CompareTo k e ≤ 0 ∧
        ∀ e' ∈ xs, CompareTo k e' ≤ 0 → CompareTo e e' ≤ 0) ∧
      (epost.head? = none ↔ ∀ e' ∈ xs, ¬ CompareTo k e' ≤ 0) := by
  subst hx
  have hpre : ∀ e' ∈ epre, ¬ CompareTo k e' ≤ 0 := by
    intro e' he'
    have := (StrictTotal.swap e' k).mp (h1 e' he')
    omega
  cases epost with
  | nil =>
    refine ⟨?_, ?_, fun _ => rfl⟩
    · intro e he; cases he
    · intro _ e' he'
      rw [List.append_nil] at he'
      exact hpre e' he'
  | cons e rest =>
    constructor
    · intro e0 he0
      simp only [List.head?_cons, Option.some.injEq] at he0
      subst he0
      refine ⟨by simp, h2 e (List.mem_cons_self _ _), ?_⟩
      intro e' he' hk
      rcases List.mem_append.mp he' with hm | hm
      · exact absurd hk (hpre e' hm)
      · rcases List.mem_cons.mp hm with rfl | hm
        · rw [cmp_self]
        · simp only [Sorted, List.pairwise_append, List.pairwise_cons] at hs
          exact le_of_lt (hs.2.1.1 e' hm)
    · constructor
      · intro h; cases h
      · intro h
        exact absurd (h2 e (List.mem_cons_self _ _)) (h e (by simp))

theorem greatest_of_split [Comparable α] [StrictTotal α] {k : α} {xs epre epost : List α}
    (hx : xs = epre ++ epost) (hs : Sorted xs) (h1 : ∀ e ∈ epre, CompareTo e k ≤ 0)
    (h2 : ∀ e ∈ epost, CompareTo k e < 0) :
    (∀ e, epre.getLast? = some e → e ∈ xs ∧ CompareTo e k ≤ 0 ∧
        ∀ e' ∈ xs, CompareTo e' k ≤ 0 → CompareTo e' e ≤ 0) ∧
      (epre.getLast? = none ↔ ∀ e' ∈ xs, ¬ CompareTo e' k ≤ 0) := by
  subst hx
  have hpost : ∀ e' ∈ epost, ¬ CompareTo e' k ≤ 0 := by
    intro e' he'
    have := (StrictTotal.swap k e').mp (h2 e' he')
    omega
  cases hl : epre.getLast? with
  | none =>
    have : epre = [] := List.getLast?_eq_none_iff.mp hl
    subst this
    refine ⟨?_, ?_, fun _ => rfl⟩
    · intro e he; cases he
    · intro _ e' he'
      rw [List.nil_append] at he'
      exact hpost e' he'
  | some e =>
    obtain ⟨ys, rfl⟩ := List.getLast?_eq_some_iff.mp hl
    have hek := h1 e (by simp)
    constructor
    · intro e0 he0
      cases he0
      refine ⟨by simp, hek, ?_⟩
      intro e' he' hk
      rcases List.mem_append.mp he' with hm | hm
      · rcases List.mem_append.mp hm with hm | hm
        · simp only [Sorted, List.pairwise_append, List.pairwise_cons] at hs
          exact le_of_lt (hs.1.2.2 e' hm e (by simp))
        · simp only [List.mem_singleton] at hm
          subst hm
          rw [cmp_self]
      · exact absurd hk (hpost e' hm)
    · constructor
      · intro h; cases h
      · intro h
        exact absurd hek (h e (by simp))

/-! ## Insert and Delete on any argument -/

theorem Insert_inv [Comparable α] [StrictTotal α] {t : Tree α} {s : ATree α} (h : Inv t s)
    (x : α) (fuel : Nat) (hf : s.addrs.length + 2 ≤ fuel) :
    ∃ t' r s', Insert fuel t x = .ok (t', r) ∧ Inv t' s' ∧ (s'.addrs ≠ [] ∧ WF t s → WF t' s') := by
  by_cases heq : ∃ e ∈ s.elems, CompareTo x e = 0
  · obtain ⟨c, l, a, d, b, r, hs, -, hx, hinv⟩ :=
      Insert_equal h x heq fuel (by have := height_le_length s; omega)
    refine ⟨_, _, _, hx, hinv, fun hw => ⟨hinv, ?_, ?_⟩⟩
    · exact (hinv.ends hw.1).1
    · exact (hinv.ends hw.1).2
  · have hnew : ∀ e ∈ s.elems, CompareTo x e ≠ 0 := fun e he h0 => heq ⟨e, he, h0⟩
    obtain ⟨t1, s1, apre, apost, epre, epost, hx, hwf, -⟩ := Insert_new h x hnew fuel hf
    exact ⟨t1, none, s1, hx, hwf.inv, fun _ => hwf⟩

theorem Delete_inv [Comparable α] [StrictTotal α] {t : Tree α} {s : ATree α} (h : Inv t s)
    (x : α) (fuel : Nat) (hf : 2 * s.addrs.length + 2 ≤ fuel) :
    ∃ t' r s', Delete fuel t x = .ok (t', r) ∧ Inv t' s' ∧ (s'.addrs ≠ [] ∧ WF t s → WF t' s') := by
  by_cases heq : ∃ e ∈ s.elems, CompareTo x e = 0
  · obtain ⟨c, l, cn, d, b, r, t1, s1, hs, -, hx, hinv, -, -, -, -, -, hwf, -⟩ :=
      Delete_found h x heq fuel hf
    exact ⟨t1, _, s1, hx, hinv, fun hw => hwf hw.1⟩
  · have hnew : ∀ e ∈ s.elems, CompareTo x e ≠ 0 := fun e he h0 => heq ⟨e, he, h0⟩
    have hx := Delete_absent h x hnew fuel (by have := height_le_length s; omega)
    exact ⟨t, _, s, hx, h, fun hw => hw.2⟩

/-! ## The scenarios of spec §8 -/

/-- The tree after the delete of 5 from `tree7`. -/
theorem example_delete5 :
    ∃ t', Delete 16 tree7 5 = .ok (t', some 5, true) ∧ Size t' = 6 ∧
      WF t' (.node (.node (.node .nil 3 1 0 .nil) 1 3 (-1) .nil) 4 4 0
        (.node (.node .nil 5 7 0 .nil) 2 8 0 (.node .nil 6 9 0 .nil))) ∧
      (ATree.node (.node (.node .nil 3 1 0 .nil) 1 3 (-1) .nil) 4 4 0
        (.node (.node .nil 5 7 0 .nil) 2 8 0 (.node .nil 6 9 0 .nil))).elems = [1, 3, 4, 7, 8, 9] := by
  refine ⟨_, rfl, rfl, ⟨⟨rfl, ?_, ?_, ?_, ?_, rfl, fun _ => ⟨rfl, rfl⟩⟩, rfl, rfl⟩, rfl⟩
  · simp only [Rep, nodeIs_iff_sv, rootPtr_node, rootPtr_nil, and_true]
    exact ⟨rfl, ⟨rfl, rfl⟩, rfl, rfl, rfl⟩
  · unfold Sorted
    decide
  · simp only [ATree.Bal, ATree.height]
    decide
  · simp only [ATree.addrs, List.nil_append, List.cons_append, List.append_nil, Thr_cons,
      headOr_cons, headOr_nil]
    exact ⟨rfl, rfl, rfl, rfl, rfl, rfl, trivial⟩

/-- The lookups of the scenario on the keys 1, 3, 4, 5, 7, 8, 9. -/
theorem example_lookup7 :
    atree7.elems = [1, 3, 4, 5, 7, 8, 9] ∧ Lookup 16 tree7 GTE 6 = .ok (some 7, false) ∧
      Lookup 16 tree7 LTE 6 = .ok (some 5, false) ∧ Lookup 16 tree7 GTE 7 = .ok (some 7, true) :=
  ⟨rfl, rfl, rfl, rfl⟩

/-! ## The claims -/

/-- C1: on a well-formed tree, Insert of an element to which no stored element
compares equal returns nil, increases `Size()` by exactly one, and puts the
element at its sorted position in the in-order sequence, which stays strictly
increasing. -/
theorem C1_insert_new [Comparable α] [StrictTotal α] (t : Tree α) (s : ATree α) (h : WF t s)
    (x : α) (hnew : ∀ e ∈ s.elems, CompareTo x e ≠ 0) (fuel : Nat)
    (hf : s.addrs.length + 2 ≤ fuel) :
    ∃ t' s' epre epost, Insert fuel t x = .ok (t', none) ∧ WF t' s' ∧ Size t' = Size t + 1 ∧
      s.elems = epre ++ epost ∧ s'.elems = epre ++ x :: epost ∧
      (∀ e ∈ epre, CompareTo e x < 0) ∧ (∀ e ∈ epost, CompareTo x e < 0) ∧
      Sorted s'.elems := by
  obtain ⟨t', s', apre, apost, epre, epost, hx, hwf, -, -, he, he', hb1, hb2, hsz, -⟩ :=
    Insert_new h.inv x hnew fuel hf
  exact ⟨t', s', epre, epost, hx, hwf, hsz, he, he', hb1, hb2, hwf.inv.sorted⟩

theorem C1_insert_new_witness :
    WF tree7 atree7 ∧ (∀ e ∈ atree7.elems, CompareTo (6 : Int) e ≠ 0) ∧
      atree7.addrs.length + 2 ≤ 16 ∧
      ∃ t' s' epre epost, Insert 16 tree7 6 = .ok (t', none) ∧ WF t' s' ∧
        Size t' = Size tree7 + 1 ∧ atree7.elems = epre ++ epost ∧
        s'.elems = epre ++ 6 :: epost ∧ (∀ e ∈ epre, CompareTo e (6 : Int) < 0) ∧
        (∀ e ∈ epost, CompareTo (6 : Int) e < 0) ∧ Sorted s'.elems :=
  ⟨tree7_wf, by decide, by decide,
    C1_insert_new tree7 atree7 tree7_wf 6 (by decide) 16 (by decide)⟩

/-- C2: on a well-formed tree, Delete of a key to which a stored element `e`
compares equal returns `(e, true)`, decreases `Size()` by exactly one, and
leaves the in-order sequence with `e` removed. -/
theorem C2_delete_found [Comparable α] [StrictTotal α] (t : Tree α) (s : ATree α) (h : WF t s)
    (k : α) (heq : ∃ e ∈ s.elems, CompareTo k e = 0) (fuel : Nat)
    (hf : 2 * s.addrs.length + 2 ≤ fuel) :
    ∃ t' s' e epre epost, Delete fuel t k = .ok (t', some e, true) ∧ CompareTo k e = 0 ∧
      Inv t' s' ∧ Size t' + 1 = Size t ∧ s.elems = epre ++ e :: epost ∧
      s'.elems = epre ++ epost := by
  obtain ⟨c, l, cn, d, b, r, t', s', hs, hkd, hx, hinv, -, he, hsz, -⟩ :=
    Delete_found h.inv k heq fuel hf
  refine ⟨t', s', d, _, _, hx, hkd, hinv, ?_, ?_, he⟩
  · have h1 := h.inv.size
    rw [hs, addrs_plug_node] at h1
    simp only [List.length_append, List.length_cons] at h1
    show t'.size + 1 = t.size
    omega
  · rw [hs, elems_plug_node]

theorem C2_delete_found_witness :
    WF tree7 atree7 ∧ (∃ e ∈ atree7.elems, CompareTo (5 : Int) e = 0) ∧
      2 * atree7.addrs.length + 2 ≤ 16 ∧
      ∃ t' s' e epre epost, Delete 16 tree7 5 = .ok (t', some e, true) ∧
        CompareTo (5 : Int) e = 0 ∧ Inv t' s' ∧ Size t' + 1 = Size tree7 ∧
        atree7.elems = epre ++ e :: epost ∧ s'.elems = epre ++ epost :=
  ⟨tree7_wf, ⟨5, by decide, by decide⟩, by decide,
    C2_delete_found tree7 atree7 tree7_wf 5 ⟨5, by decide, by decide⟩ 16 (by decide)⟩

/-- C3: on a well-formed tree, after Insert of any element the store holds a
tree in which every stored balance factor is the height of the right subtree
minus the height of the left subtree and lies in -1, 0, 1. -/
theorem C3_insert_balanced [Comparable α] [StrictTotal α] (t : Tree α) (s : ATree α)
    (h : WF t s) (x : α) (fuel : Nat) (hf : s.addrs.length + 2 ≤ fuel) :
    ∃ t' r s', Insert fuel t x = .ok (t', r) ∧ t'.root = s'.rootPtr ∧ Rep t' none s' ∧
      s'.Bal := by
  obtain ⟨t', r, s', hx, hinv, -⟩ := Insert_inv h.inv x fuel hf
  exact ⟨t', r, s', hx, hinv.root, hinv.rep, hinv.bal⟩

theorem C3_insert_balanced_witness :
    WF tree7 atree7 ∧ atree7.addrs.length + 2 ≤ 16 ∧
      ∃ t' r s', Insert 16 tree7 6 = .ok (t', r) ∧ t'.root = s'.rootPtr ∧ Rep t' none s' ∧
        s'.Bal :=
  ⟨tree7_wf, by decide, C3_insert_balanced tree7 atree7 tree7_wf 6 16 (by decide)⟩

/-- C4: on a well-formed tree, after Delete of any key the store holds a tree
in which every stored balance factor is the height of the right subtree minus
the height of the left subtree and lies in -1, 0, 1; the proof goes through
each deletion case (leaf, direct predecessor, deep predecessor, successor). -/
theorem C4_delete_balanced [Comparable α] [StrictTotal α] (t : Tree α) (s : ATree α)
    (h : WF t s) (k : α) (fuel : Nat) (hf : 2 * s.addrs.length + 2 ≤ fuel) :
    ∃ t' r s', Delete fuel t k = .ok (t', r) ∧ t'.root = s'.rootPtr ∧ Rep t' none s' ∧
      s'.Bal := by
  obtain ⟨t', r, s', hx, hinv, -⟩ := Delete_inv h.inv k fuel hf
  exact ⟨t', r, s', hx, hinv.root, hinv.rep, hinv.bal⟩

theorem C4_delete_balanced_witness :
    WF tree7 atree7 ∧ 2 * atree7.addrs.length + 2 ≤ 16 ∧
      ∃ t' r s', Delete 16 tree7 5 = .ok (t', r) ∧ t'.root = s'.rootPtr ∧ Rep t' none s' ∧
        s'.Bal :=
  ⟨tree7_wf, by decide, C4_delete_balanced tree7 atree7 tree7_wf 5 16 (by decide)⟩

/-- C5: on a well-formed tree, after any Insert and after any Delete the
`prv`/`nxt` links chain the nodes of the tree in in-order, with nil at the two
ends, and wherever a link is present the neighbour links back. -/
theorem C5_threads [Comparable α] [StrictTotal α] (t : Tree α) (s : ATree α) (h : WF t s)
    (x : α) (fuel : Nat) (hf : 2 * s.addrs.length + 2 ≤ fuel) :
    (∃ t' r s', Insert fuel t x = .ok (t', r) ∧ t'.root = s'.rootPtr ∧ Rep t' none s' ∧
        Thr t' none s'.addrs none ∧ ThreadLinks t' s'.addrs) ∧
      (∃ t' r s', Delete fuel t x = .ok (t', r) ∧ t'.root = s'.rootPtr ∧ Rep t' none s' ∧
        Thr t' none s'.addrs none ∧ ThreadLinks t' s'.addrs) := by
  obtain ⟨t1, r1, s1, hx1, hinv1, -⟩ := Insert_inv h.inv x fuel (by omega)
  obtain ⟨t2, r2, s2, hx2, hinv2, -⟩ := Delete_inv h.inv x fuel hf
  exact ⟨⟨t1, r1, s1, hx1, hinv1.root, hinv1.rep, hinv1.thr, Thr_links hinv1.thr⟩,
    ⟨t2, r2, s2, hx2, hinv2.root, hinv2.rep, hinv2.thr, Thr_links hinv2.thr⟩⟩

theorem C5_threads_witness :
    WF tree7 atree7 ∧ 2 * atree7.addrs.length + 2 ≤ 16 ∧
      (∃ t' r s', Insert 16 tree7 5 = .ok (t', r) ∧ t'.root = s'.rootPtr ∧ Rep t' none s' ∧
          Thr t' none s'.addrs none ∧ ThreadLinks t' s'.addrs) ∧
        (∃ t' r s', Delete 16 tree7 5 = .ok (t', r) ∧ t'.root = s'.rootPtr ∧ Rep t' none s' ∧
          Thr t' none s'.addrs none ∧ ThreadLinks t' s'.addrs) :=
  ⟨tree7_wf, by decide, C5_threads tree7 atree7 tree7_wf 5 16 (by decide)⟩

/-- C6 (defect in the code): Delete of the only element returns with `root`
nil and `Size()` 0 but leaves `head` and `tail` at the removed node, because
the branch for a node without children and without parent returns before the
thread splice. -/
theorem C6_delete_last_keeps_head_tail :
    WF tree1 (.node .nil 0 5 0 .nil) ∧
      ∃ t', Delete 16 tree1 5 = .ok (t', some 5, true) ∧ t'.root = none ∧ Size t' = 0 ∧
        t'.head = some 0 ∧ t'.tail = some 0 :=
  ⟨tree1_wf, _, rfl, rfl, rfl, rfl, rfl⟩

/-- C7: after every sequence of Insert and Delete calls on the empty tree,
`Size()` is the number of nodes of the tree that hangs from `root`. -/
theorem C7_size_counts_nodes [Comparable α] [StrictTotal α] (ops : List (Op α)) (fuel : Nat)
    (hf : 2 * ops.length + 2 ≤ fuel) :
    ∃ t s, runOps fuel Tree.empty ops = .ok t ∧ t.root = s.rootPtr ∧ Rep t none s ∧
      Size t = s.addrs.length := by
  obtain ⟨t, s, hx, hinv, -⟩ := runOps_inv ops Tree.empty .nil fuel empty_wf.inv
    (by simpa [ATree.addrs] using hf)
  exact ⟨t, s, hx, hinv.root, hinv.rep, hinv.size⟩

theorem C7_size_counts_nodes_witness :
    2 * [Op.insert (5 : Int), Op.insert 3, Op.delete 5, Op.delete 3].length + 2 ≤ 16 ∧
      ∃ t s, runOps 16 Tree.empty [Op.insert (5 : Int), Op.insert 3, Op.delete 5, Op.delete 3]
          = .ok t ∧ t.root = s.rootPtr ∧ Rep t none s ∧ Size t = s.addrs.length :=
  ⟨by decide, C7_size_counts_nodes _ 16 (by decide)⟩

/-- C8: on a well-formed tree, after any Insert and after any Delete every node
of the tree that has a parent is exactly one of the two children of that
parent, the children of every node point back to it, and a node without a
parent is the root. -/
theorem C8_parent_child [Comparable α] [StrictTotal α] (t : Tree α) (s : ATree α) (h : WF t s)
    (x : α) (fuel : Nat) (hf : 2 * s.addrs.length + 2 ≤ fuel) :
    (∃ t' r s', Insert fuel t x = .ok (t', r) ∧ t'.root = s'.rootPtr ∧ Rep t' none s' ∧
        ParentChild t' s'.addrs) ∧
      (∃ t' r s', Delete fuel t x = .ok (t', r) ∧ t'.root = s'.rootPtr ∧ Rep t' none s' ∧
        ParentChild t' s'.addrs) := by
  obtain ⟨t1, r1, s1, hx1, hinv1, -⟩ := Insert_inv h.inv x fuel (by omega)
  obtain ⟨t2, r2, s2, hx2, hinv2, -⟩ := Delete_inv h.inv x fuel hf
  exact ⟨⟨t1, r1, s1, hx1, hinv1.root, hinv1.rep, hinv1.parentChild⟩,
    ⟨t2, r2, s2, hx2, hinv2.root, hinv2.rep, hinv2.parentChild⟩⟩

theorem C8_parent_child_witness :
    WF tree7 atree7 ∧ 2 * atree7.addrs.length + 2 ≤ 16 ∧
      (∃ t' r s', Insert 16 tree7 6 = .ok (t', r) ∧ t'.root = s'.rootPtr ∧ Rep t' none s' ∧
          ParentChild t' s'.addrs) ∧
        (∃ t' r s', Delete 16 tree7 6 = .ok (t', r) ∧ t'.root = s'.rootPtr ∧ Rep t' none s' ∧
          ParentChild t' s'.addrs) :=
  ⟨tree7_wf, by decide, C8_parent_child tree7 atree7 tree7_wf 6 16 (by decide)⟩

/-- C9: on a well-formed tree, `Lookup(GTE, k)` returns the smallest stored
element that is greater than or equal to `k` and `Lookup(LTE, k)` the largest
stored element that is less than or equal to `k`; the element is absent
exactly when there is no such element, and the flag is true exactly when the
returned element compares equal to `k`. -/
theorem C9_lookup [Comparable α] [StrictTotal α] (t : Tree α) (s : ATree α) (h : WF t s)
    (k : α) (fuel : Nat) (hf : s.height ≤ fuel) :
    (∃ res ex, Lookup fuel t GTE k = .ok (res, ex) ∧
        (∀ e, res = some e → e ∈ s.elems ∧ CompareTo k e ≤ 0 ∧
          ∀ e' ∈ s.elems, CompareTo k e' ≤ 0 → CompareTo e e' ≤ 0) ∧
        (res = none ↔ ∀ e' ∈ s.elems, ¬ CompareTo k e' ≤ 0) ∧
        (ex = true ↔ ∃ e, res = some e ∧ CompareTo k e = 0)) ∧
      (∃ res ex, Lookup fuel t LTE k = .ok (res, ex) ∧
        (∀ e, res = some e → e ∈ s.elems ∧ CompareTo e k ≤ 0 ∧
          ∀ e' ∈ s.elems, CompareTo e' k ≤ 0 → CompareTo e' e ≤ 0) ∧
        (res = none ↔ ∀ e' ∈ s.elems, ¬ CompareTo e' k ≤ 0) ∧
        (ex = true ↔ ∃ e, res = some e ∧ CompareTo k e = 0)) := by
  have hso := h.inv.sorted
  constructor
  · obtain ⟨epre, epost, h1, h2, hcase⟩ := Lookup_spec h.inv k GTE (Or.inl rfl) fuel hf
    rcases hcase with ⟨hel, hx⟩ | ⟨d, hel, hkd, hx⟩
    · rw [if_pos rfl] at hx
      obtain ⟨g1, g2⟩ := least_of_split hel hso h1 (fun e he => le_of_lt (h2 e he))
      refine ⟨_, _, hx, g1, g2, ?_⟩
      constructor
      · intro hf; cases hf
      · rintro ⟨e, he, hke⟩
        have hm : e ∈ epost := List.mem_of_mem_head? he
        have := h2 e hm
        omega
    · have h2' : ∀ e ∈ d :: epost, CompareTo k e ≤ 0 := by
        intro e he
        rcases List.mem_cons.mp he with rfl | he
        · omega
        · exact le_of_lt (h2 e he)
      obtain ⟨g1, g2⟩ := least_of_split hel hso h1 h2'
      refine ⟨some d, true, hx, g1, ?_, ?_⟩
      · constructor
        · intro hf; cases hf
        · intro hall
          exact absurd (le_of_eq hkd) (hall d (by rw [hel]; simp))
      · exact ⟨fun _ => ⟨d, rfl, hkd⟩, fun _ => rfl⟩
  · obtain ⟨epre, epost, h1, h2, hcase⟩ := Lookup_spec h.inv k LTE (Or.inr rfl) fuel hf
    rcases hcase with ⟨hel, hx⟩ | ⟨d, hel, hkd, hx⟩
    · rw [if_neg GTE_ne_LTE.symm] at hx
      obtain ⟨g1, g2⟩ := greatest_of_split hel hso (fun e he => le_of_lt (h1 e he)) h2
      refine ⟨_, _, hx, g1, g2, ?_⟩
      constructor
      · intro hf; cases hf
      · rintro ⟨e, he, hke⟩
        have hm : e ∈ epre := by
          obtain ⟨ys, rfl⟩ := List.getLast?_eq_some_iff.mp he
          simp
        have h3 := h1 e hm
        have h4 := cmp_eq_zero_swap hke
        omega
    · have hdk := cmp_eq_zero_swap hkd
      have h1' : ∀ e ∈ epre ++ [d], CompareTo e k ≤ 0 := by
        intro e he
        rcases List.mem_append.mp he with he | he
        · exact le_of_lt (h1 e he)
        · simp only [List.mem_singleton] at he
          subst he
          omega
      have hel' : s.elems = (epre ++ [d]) ++ epost := by rw [hel]; simp
      obtain ⟨g1, g2⟩ := greatest_of_split hel' hso h1' h2
      rw [List.getLast?_append, List.getLast?_singleton] at g1 g2
      refine ⟨some d, true, hx, g1, ?_, ?_⟩
      · constructor
        · intro hf; cases hf
        · intro hall
          exact absurd (le_of_eq hdk) (hall d (by rw [hel]; simp))
      · exact ⟨fun _ => ⟨d, rfl, hkd⟩, fun _ => rfl⟩

theorem C9_lookup_witness :
    WF tree7 atree7 ∧ atree7.height ≤ 16 ∧
      (∃ res ex, Lookup 16 tree7 GTE 6 = .ok (res, ex) ∧
          (∀ e, res = some e → e ∈ atree7.elems ∧ CompareTo (6 : Int) e ≤ 0 ∧
            ∀ e' ∈ atree7.elems, CompareTo (6 : Int) e' ≤ 0 → CompareTo e e' ≤ 0) ∧
          (res = none ↔ ∀ e' ∈ atree7.elems, ¬ CompareTo (6 : Int) e' ≤ 0) ∧
          (ex = true ↔ ∃ e, res = some e ∧ CompareTo (6 : Int) e = 0)) ∧
        (∃ res ex, Lookup 16 tree7 LTE 6 = .ok (res, ex) ∧
          (∀ e, res = some e → e ∈ atree7.elems ∧ CompareTo e (6 : Int) ≤ 0 ∧
            ∀ e' ∈ atree7.elems, CompareTo e' (6 : Int) ≤ 0 → CompareTo e' e ≤ 0) ∧
          (res = none ↔ ∀ e' ∈ atree7.elems, ¬ CompareTo e' (6 : Int) ≤ 0) ∧
          (ex = true ↔ ∃ e, res = some e ∧ CompareTo (6 : Int) e = 0)) :=
  ⟨tree7_wf, by decide, C9_lookup tree7 atree7 tree7_wf 6 16 (by decide)⟩

/-- C10: on a well-formed tree, Insert of an element `x` to which a stored
element `e` compares equal returns `e` and writes `x` into the node that held
`e`; `Size()`, `root`, `head`, `tail` and every other field of every node are
as before. -/
theorem C10_insert_equal [Comparable α] [StrictTotal α] (t : Tree α) (s : ATree α) (h : WF t s)
    (x : α) (heq : ∃ e ∈ s.elems, CompareTo x e = 0) (fuel : Nat) (hf : s.height ≤ fuel) :
    ∃ a n t', a ∈ s.addrs ∧ t.node a = .ok n ∧ n.data ∈ s.elems ∧ CompareTo x n.data = 0 ∧
      Insert fuel t x = .ok (t', some n.data) ∧
      Size t' = Size t ∧ t'.root = t.root ∧ t'.head = t.head ∧ t'.tail = t.tail ∧
      t'.mem.length = t.mem.length ∧ t'.node a = .ok { n with data := x } ∧
      ∀ b, b ≠ a → t'.node b = t.node b := by
  obtain ⟨c, l, a, d, b, r, hs, hxd, hx, -⟩ := Insert_equal h.inv x heq fuel hf
  have hrep := h.inv.rep
  rw [hs, Rep_plug] at hrep
  obtain ⟨n, hn, -, -, hdata, -, -⟩ := Rep_root_node hrep.2
  subst hdata
  refine ⟨a, n, t.setData a x, ?_, hn, ?_, hxd, hx, rfl, rfl, rfl, rfl, ?_, ?_, ?_⟩
  · rw [hs, addrs_plug_node]; simp
  · rw [hs, elems_plug_node]; simp
  · simp [Tree.setData]
  · rw [node_setData, if_pos rfl, hn]; rfl
  · intro b' hb'
    rw [node_setData, if_neg (Ne.symm hb')]

theorem C10_insert_equal_witness :
    WF tree7 atree7 ∧ (∃ e ∈ atree7.elems, CompareTo (7 : Int) e = 0) ∧ atree7.height ≤ 16 ∧
      ∃ a n t', a ∈ atree7.addrs ∧ tree7.node a = .ok n ∧ n.data ∈ atree7.elems ∧
        CompareTo (7 : Int) n.data = 0 ∧ Insert 16 tree7 7 = .ok (t', some n.data) ∧
        Size t' = Size tree7 ∧ t'.root = tree7.root ∧ t'.head = tree7.head ∧
        t'.tail = tree7.tail ∧ t'.mem.length = tree7.mem.length ∧
        t'.node a = .ok { n with data := 7 } ∧ ∀ b, b ≠ a → t'.node b = tree7.node b :=
  ⟨tree7_wf, ⟨7, by decide, by decide⟩, by decide,
    C10_insert_equal tree7 atree7 tree7_wf 7 ⟨7, by decide, by decide⟩ 16 (by decide)⟩

/-! ## Delete after Insert -/

theorem sorted_split_unique [Comparable α] [StrictTotal α] {x d : α} :
    ∀ {p1 p2 q1 q2 : List α}, Sorted (p1 ++ x :: q1) → p1 ++ x :: q1 = p2 ++ d :: q2 →
      CompareTo x d = 0 → p1 = p2 ∧ x = d ∧ q1 = q2 := by
  intro p1
  induction p1 with
  | nil =>
    intro p2 q1 q2 hs he hxd
    cases p2 with
    | nil =>
      simp only [List.nil_append, List.cons.injEq] at he
      exact ⟨rfl, he.1, he.2⟩
    | cons y p2' =>
      exfalso
      simp only [List.nil_append, List.cons_append, List.cons.injEq] at he
      obtain ⟨-, hq⟩ := he
      simp only [Sorted, List.nil_append, List.pairwise_cons] at hs
      have := hs.1 d (by rw [hq]; simp)
      omega
  | cons y p1' ih =>
    intro p2 q1 q2 hs he hxd
    cases p2 with
    | nil =>
      exfalso
      simp only [List.nil_append, List.cons_append, List.cons.injEq] at he
      obtain ⟨hy, -⟩ := he
      subst hy
      simp only [Sorted, List.cons_append, List.pairwise_cons] at hs
      have h1 := hs.1 x (by simp)
      have h2 := cmp_eq_zero_swap hxd
      omega
    | cons z p2' =>
      simp only [List.cons_append, List.cons.injEq] at he
      obtain ⟨hy, ht⟩ := he
      subst hy
      simp only [Sorted, List.cons_append, List.pairwise_cons] at hs
      obtain ⟨g1, g2, g3⟩ := ih hs.2 ht hxd
      exact ⟨by rw [g1], g2, g3⟩

/-- C11: on a well-formed tree (the empty tree included), Delete of a key to
which no stored element compares equal returns `(nil, false)` and the state
after the call is the state before it: size, root, head, tail and every node
are as they were. -/
theorem C11_delete_absent [Comparable α] [StrictTotal α] (t : Tree α) (s : ATree α)
    (h : WF t s) (k : α) (hnew : ∀ e ∈ s.elems, CompareTo k e ≠ 0) (fuel : Nat)
    (hf : s.height ≤ fuel) :
    Delete fuel t k = .ok (t, none, false) :=
  Delete_absent h.inv k hnew fuel hf

theorem C11_delete_absent_witness :
    WF tree7 atree7 ∧ (∀ e ∈ atree7.elems, CompareTo (6 : Int) e ≠ 0) ∧ atree7.height ≤ 16 ∧
      Delete 16 tree7 6 = .ok (tree7, none, false) :=
  ⟨tree7_wf, by decide, by decide, C11_delete_absent tree7 atree7 tree7_wf 6 (by decide) 16 (by decide)⟩

/-- C12: on a well-formed tree, for a key that compares equal to no stored
element, Insert followed at once by Delete of the same key returns that key
with `true`, and `Size()` and the in-order sequence of elements are what they
were before the Insert. -/
theorem C12_insert_delete_roundtrip [Comparable α] [StrictTotal α] (t : Tree α) (s : ATree α)
    (h : WF t s) (k : α) (hnew : ∀ e ∈ s.elems, CompareTo k e ≠ 0) (fuel : Nat)
    (hf : 2 * s.addrs.length + 4 ≤ fuel) :
    ∃ t1 t2 s2, Insert fuel t k = .ok (t1, none) ∧ Delete fuel t1 k = .ok (t2, some k, true) ∧
      Size t2 = Size t ∧ Inv t2 s2 ∧ s2.elems = s.elems := by
  obtain ⟨t1, s1, apre, apost, epre, epost, hx1, hwf1, ha, ha', he, he', -, -, hsz1, -⟩ :=
    Insert_new h.inv k hnew fuel (by omega)
  have hlen : s1.addrs.length = s.addrs.length + 1 := by
    rw [ha, ha']; simp only [List.length_append, List.length_cons]; omega
  obtain ⟨c, l, cn, d, b, r, t2, s2, hs1, hkd, hx2, hinv2, -, he2, hsz2, -⟩ :=
    Delete_found hwf1.inv k ⟨k, by rw [he']; simp, cmp_self k⟩ fuel (by rw [hlen]; omega)
  have hso := hwf1.inv.sorted
  have he1 : s1.elems = (ctxElemsBefore c ++ l.elems) ++ d :: (r.elems ++ ctxElemsAfter c) := by
    rw [hs1, elems_plug_node]
  rw [he'] at hso he1
  obtain ⟨g1, g2, g3⟩ := sorted_split_unique hso he1 hkd
  subst g2
  refine ⟨t1, t2, s2, hx1, hx2, ?_, hinv2, ?_⟩
  · show t2.size = t.size
    rw [hsz2, hsz1]
    omega
  · rw [he2, he, g1, g3]

theorem C12_insert_delete_roundtrip_witness :
    WF tree7 atree7 ∧ (∀ e ∈ atree7.elems, CompareTo (6 : Int) e ≠ 0) ∧
      2 * atree7.addrs.length + 4 ≤ 20 ∧
      ∃ t1 t2 s2, Insert 20 tree7 6 = .ok (t1, none) ∧ Delete 20 t1 6 = .ok (t2, some 6, true) ∧
        Size t2 = Size tree7 ∧ Inv t2 s2 ∧ s2.elems = atree7.elems :=
  ⟨tree7_wf, by decide, by decide,
    C12_insert_delete_roundtrip tree7 atree7 tree7_wf 6 (by decide) 20 (by decide)⟩

/-! ## Cursor -/

/-- The record of the node at a given place of the in-order sequence: its
element is the element at that place and its thread links lead to the
neighbours. -/
theorem Inv.node_at [Comparable α] {t : Tree α} {s : ATree α} (h : Inv t s)
    {apre apost : List Nat} {a : Nat} (ha : s.addrs = apre ++ a :: apost) :
    ∃ n epre epost, t.node a = .ok n ∧ n.prv = lastOr none apre ∧ n.nxt = headOr apost none ∧
      s.elems = epre ++ n.data :: epost ∧ epre.length = apre.length ∧
      epost.length = apost.length := by
  have hthr := h.thr
  rw [ha] at hthr
  obtain ⟨n, hn, hp, hx⟩ := thr_node_iff.mpr (Thr_mid hthr)
  have hm := Rep_dv_map h.rep
  rw [ha, List.map_append, List.map_cons] at hm
  obtain ⟨epre, rest, he, h1, h2⟩ := List.map_eq_append_iff.mp hm.symm
  obtain ⟨e, epost, hr, h3, h4⟩ := List.map_eq_cons_iff.mp h2
  rw [dv_of_node hn] at h3
  cases h3
  refine ⟨n, epre, epost, hn, hp, hx, by rw [he, hr], ?_, ?_⟩
  · have := congrArg List.length h1
    simpa using this
  · have := congrArg List.length h4
    simpa using this

theorem lookupLoop_mono [Comparable α] (t : Tree α) (lt : Int) (x : α) :
    ∀ (fuel : Nat) (a : Nat) (r : Option Nat × Bool), lookupLoop t lt x fuel a = .ok r →
      lookupLoop t lt x (fuel + 1) a = .ok r := by
  intro fuel
  induction fuel with
  | zero => intro a r h; cases h
  | succ f ih =>
    intro a r h
    cases hn : t.node a with
    | error e =>
      simp only [lookupLoop, hn, bind_error] at h
      cases h
    | ok n =>
      rw [lookupLoop] at h ⊢
      simp only [hn, bind_ok] at h ⊢
      by_cases h1 : CompareTo x n.data = 0
      · simp only [h1, if_true] at h ⊢
        exact h
      · simp only [h1, if_false] at h ⊢
        by_cases h2 : CompareTo x n.data < 0
        · simp only [h2, if_true] at h ⊢
          cases hl : n.l with
          | none => simp only [hl] at h ⊢; exact h
          | some c => simp only [hl] at h ⊢; exact ih c r h
        · simp only [h2, if_false] at h ⊢
          cases hr : n.r with
          | none => simp only [hr] at h ⊢; exact h
          | some c => simp only [hr] at h ⊢; exact ih c r h

theorem lookupLoop_mono_le [Comparable α] (t : Tree α) (lt : Int) (x : α) (a : Nat)
    (r : Option Nat × Bool) {f1 f2 : Nat} (hle : f1 ≤ f2) (h : lookupLoop t lt x f1 a = .ok r) :
    lookupLoop t lt x f2 a = .ok r := by
  induction hle with
  | refl => exact h
  | step _ ih => exact lookupLoop_mono t lt x _ a r ih

theorem Next_some (t : Tree α) {a : Nat} {n : avlNode α} (b : Bool) (hn : t.node a = .ok n) :
    Next t ⟨some a, b⟩ = .ok (some n.data, ⟨n.nxt, if n.nxt = none then true else b⟩) := by
  simp only [Next, hn, bind_ok]
  cases n.nxt <;> rfl

theorem Next_end (t : Tree α) : Next t ⟨none, true⟩ = .ok (none, ⟨none, true⟩) := rfl

theorem Next_head (t : Tree α) :
    Next t ⟨none, false⟩ =
      match t.head with
      | none => .ok (none, ⟨none, false⟩)
      | some a => Next t ⟨some a, false⟩ := by
  simp only [Next]
  cases t.head <;> rfl

theorem Prev_some (t : Tree α) {a : Nat} {n : avlNode α} (b : Bool) (hn : t.node a = .ok n) :
    Prev t ⟨some a, b⟩ =
      match n.prv with
      | none => .ok (none, ⟨none, b⟩)
      | some q => (t.node q).map (fun m => (some m.data, ⟨some q, b⟩)) := by
  simp only [Prev, hn, bind_ok]
  cases n.prv with
  | none => rfl
  | some q => cases t.node q <;> rfl

theorem Prev_end (t : Tree α) {a : Nat} {n : avlNode α} (ht : t.tail = some a)
    (hn : t.node a = .ok n) : Prev t ⟨none, true⟩ = .ok (some n.data, ⟨n.prv, false⟩) := by
  simp [Prev, ht, hn]

theorem Prev_start (t : Tree α) : Prev t ⟨none, false⟩ = .ok (none, ⟨none, false⟩) := rfl

theorem nextN_end (t : Tree α) (n : Nat) :
    nextN t n ⟨none, true⟩ = .ok (List.replicate n none, ⟨none, true⟩) := by
  induction n with
  | zero => rfl
  | succ n ih => simp only [nextN, Next_end, bind_ok, ih]; rfl

/-- Repeated `Next()` from a node of the tree: the elements from that node on,
in order, then nil for ever. -/
theorem nextN_run [Comparable α] {t : Tree α} {s : ATree α} (h : Inv t s) :
    ∀ (apost apre : List Nat) (epre epost : List α) (b : Bool), s.addrs = apre ++ apost →
      s.elems = epre ++ epost → epre.length = apre.length → (apost = [] → b = true) →
      ∀ n, ∃ c', nextN t n ⟨headOr apost none, b⟩ =
        .ok ((epost.map some).take n ++ List.replicate (n - epost.length) none, c') := by
  have hlen := length_elems s
  intro apost
  induction apost with
  | nil =>
    intro apre epre epost b ha he hl hb n
    rw [hb rfl]
    have : epost = [] := by
      rw [ha, he] at hlen
      simp only [List.length_append, List.length_nil] at hlen
      exact List.eq_nil_of_length_eq_zero (by omega)
    subst this
    exact ⟨⟨none, true⟩, by rw [headOr_nil, nextN_end]; simp⟩
  | cons a rest ih =>
    intro apre epre epost b ha he hl _ n
    obtain ⟨nd, epre', epost', hn, -, hx, he', hl1, hl2⟩ := h.node_at ha
    have hsplit := List.append_inj (he.symm.trans he') (by rw [hl, hl1])
    obtain ⟨rfl, rfl⟩ := hsplit
    cases n with
    | zero => exact ⟨⟨headOr (a :: rest) none, b⟩, by simp [nextN]⟩
    | succ n =>
      have hb' : rest = [] → (if nd.nxt = none then true else b) = true := by
        intro hr; rw [hx, hr]; rfl
      obtain ⟨c', hc'⟩ := ih (apre ++ [a]) (epre ++ [nd.data]) epost' _ (by rw [ha]; simp)
        (by rw [he]; simp) (by simp [hl]) hb' n
      refine ⟨c', ?_⟩
      rw [headOr_cons, nextN, Next_some t b hn]
      simp only [bind_ok]
      rw [hx] at hc' ⊢
      rw [hc']
      simp

/-- The node that `lookupNode` returns: the node whose element compares equal
to the argument, with `true`; otherwise the first node after the place of the
argument for GTE and the last node before it for LTE, nil when there is none,
with `false`. -/
theorem lookupNode_spec [Comparable α] [StrictTotal α] {t : Tree α} {s : ATree α} (h : Inv t s)
    (x : α) (lt : Int) (hlt : lt = GTE ∨ lt = LTE) (fuel : Nat) (hf : s.height ≤ fuel) :
    ∃ apre apost epre epost, epre.length = apre.length ∧
      (∀ e ∈ epre, CompareTo e x < 0) ∧ (∀ e ∈ epost, CompareTo x e < 0) ∧
      ((s.addrs = apre ++ apost ∧ s.elems = epre ++ epost ∧
          lookupNode fuel t lt x =
            .ok (if lt = GTE then headOr apost none else lastOr none apre, false)) ∨
        (∃ cn d, s.addrs = apre ++ cn :: apost ∧ s.elems = epre ++ d :: epost ∧
          CompareTo x d = 0 ∧ lookupNode fuel t lt x = .ok (some cn, true))) := by
  obtain rfl | ⟨l0, a0, d0, b0, r0, hs⟩ : s = .nil ∨ ∃ l0 a0 d0 b0 r0, s = .node l0 a0 d0 b0 r0 := by
    cases s
    · exact Or.inl rfl
    · exact Or.inr ⟨_, _, _, _, _, rfl⟩
  · have hroot : t.root = none := h.root
    refine ⟨[], [], [], [], rfl, by simp, by simp, Or.inl ⟨rfl, rfl, ?_⟩⟩
    rcases hlt with rfl | rfl <;> simp [lookupNode, hroot]
  · have hroot : t.root = some a0 := by rw [h.root, hs]; rfl
    obtain ⟨res, hx, hres⟩ := lookupLoop_spec x lt s [] t a0 none fuel (by rw [hs]; rfl) h.rep hf
    have hbounds := findA_bounds x s [] (by exact h.sorted) (by simp [ctxElemsBefore])
      (by simp [ctxElemsAfter])
    have hplug' : plug (findA x [] s).1 (findA x [] s).2 = s := findA_plug x s []
    have hnode : lookupNode fuel t lt x = .ok res := by
      simp only [lookupNode, hroot]; exact hx
    clear hs hx
    rcases hres with ⟨l, cn, d, b, r, hfound, rfl⟩ | ⟨hnil, hF⟩
    · have hxd := findA_found x s [] hfound
      rw [hfound] at hplug'
      generalize (findA x [] s).1 = c at hplug' hbounds
      subst hplug'
      have hso := h.sorted
      rw [elems_plug] at hso
      obtain ⟨hld, hdr⟩ := sorted_mid hso
      refine ⟨ctxBefore c ++ l.addrs, r.addrs ++ ctxAfter c, ctxElemsBefore c ++ l.elems,
        r.elems ++ ctxElemsAfter c, ?_, ?_, ?_,
        Or.inr ⟨cn, d, addrs_plug_node c l r cn d b, elems_plug_node c l r cn d b, hxd, hnode⟩⟩
      · simp [(ctxElems_length c).1, length_elems]
      · intro e he
        rcases List.mem_append.mp he with he | he
        · exact hbounds.1 e he
        · exact cmp_lt_of_lt_of_eq (hld e he) (cmp_eq_zero_swap hxd)
      · intro e he
        rcases List.mem_append.mp he with he | he
        · exact cmp_lt_of_eq_of_lt hxd (hdr e he)
        · exact hbounds.2 e he
    · rw [hnil] at hplug'
      generalize (findA x [] s).1 = c at hplug' hbounds hF
      subst hplug'
      have hel : (plug c (.nil : ATree α)).elems = ctxElemsBefore c ++ ctxElemsAfter c := by
        simp [elems_plug, ATree.elems]
      have had : (plug c (.nil : ATree α)).addrs = ctxBefore c ++ ctxAfter c := by
        simp [addrs_plug, ATree.addrs]
      refine ⟨ctxBefore c, ctxAfter c, ctxElemsBefore c, ctxElemsAfter c, (ctxElems_length c).1,
        hbounds.1, hbounds.2, Or.inl ⟨had, hel, ?_⟩⟩
      rw [hnode]
      rcases hF with ⟨pa, pd, pb, pr, c', n, rfl, hn, rfl⟩ | ⟨pl, pa, pd, pb, c', n, rfl, hn, rfl⟩
      · have had2 : (plug (.L pa pd pb pr :: c') (.nil : ATree α)).addrs =
            ctxBefore c' ++ pa :: (pr.addrs ++ ctxAfter c') := by
          simp [addrs_plug, ATree.addrs, ctxBefore, ctxAfter]
        obtain ⟨n', -, -, hn', hp, -⟩ := h.node_at had2
        rw [hn] at hn'; cases hn'
        rcases hlt with rfl | rfl
        · simp [ctxAfter]
        · simp [GTE_ne_LTE.symm, hp, ctxBefore]
      · have had2 : (plug (.R pl pa pd pb :: c') (.nil : ATree α)).addrs =
            (ctxBefore c' ++ pl.addrs) ++ pa :: ctxAfter c' := by
          simp [addrs_plug, ATree.addrs, ctxBefore, ctxAfter]
        obtain ⟨n', -, -, hn', -, hnx, -⟩ := h.node_at had2
        rw [hn] at hn'; cases hn'
        rcases hlt with rfl | rfl
        · simp [GTE_ne_LTE, hnx, ctxAfter]
        · simp [GTE_ne_LTE.symm, ctxBefore, lastOr_append]

/-- Whatever the direction and the fuel, a node that `lookupNode` returns is a
node of the tree. -/
theorem lookupNode_mem [Comparable α] {t : Tree α} {s : ATree α} (h : Inv t s)
    (x : α) (lt : Int) (fuel : Nat) {n : Option Nat} {ex : Bool}
    (hx : lookupNode fuel t lt x = .ok (n, ex)) : ∀ a, n = some a → a ∈ s.addrs := by
  obtain rfl | ⟨l0, a0, d0, b0, r0, hs⟩ : s = .nil ∨ ∃ l0 a0 d0 b0 r0, s = .node l0 a0 d0 b0 r0 := by
    cases s
    · exact Or.inl rfl
    · exact Or.inr ⟨_, _, _, _, _, rfl⟩
  · have hroot : t.root = none := h.root
    simp only [lookupNode, hroot, pure_eq_ok, Except.ok.injEq, Prod.mk.injEq] at hx
    intro a ha
    rw [← hx.1] at ha
    cases ha
  · have hroot : t.root = some a0 := by rw [h.root, hs]; rfl
    simp only [lookupNode, hroot] at hx
    have hx2 := lookupLoop_mono_le t lt x a0 (n, ex) (Nat.le_max_left fuel s.height) hx
    obtain ⟨res, hx3, hres⟩ := lookupLoop_spec x lt s [] t a0 none (max fuel s.height)
      (by rw [hs]; rfl) h.rep (Nat.le_max_right _ _)
    rw [hx2] at hx3
    cases hx3
    have hplug' : plug (findA x [] s).1 (findA x [] s).2 = s := findA_plug x s []
    clear hs hx hx2
    intro a ha
    rcases hres with ⟨l, cn, d, b, r, hfound, hr⟩ | ⟨hnil, hF⟩
    · rw [hfound] at hplug'
      simp only [Prod.mk.injEq] at hr
      rw [hr.1] at ha
      cases ha
      rw [← hplug', addrs_plug_node]
      simp
    · rw [hnil] at hplug'
      generalize (findA x [] s).1 = c at hplug' hF
      subst hplug'
      rcases hF with ⟨pa, pd, pb, pr, c', m, rfl, hm, hr⟩ | ⟨pl, pa, pd, pb, c', m, rfl, hm, hr⟩
      · have had2 : (plug (.L pa pd pb pr :: c') (.nil : ATree α)).addrs =
            ctxBefore c' ++ pa :: (pr.addrs ++ ctxAfter c') := by
          simp [addrs_plug, ATree.addrs, ctxBefore, ctxAfter]
        obtain ⟨n', -, -, hn', hp, -⟩ := h.node_at had2
        rw [hm] at hn'; cases hn'
        simp only [Prod.mk.injEq] at hr
        rw [hr.1] at ha
        rw [had2]
        split_ifs at ha
        · cases ha; simp
        · rw [hp] at ha
          exact List.mem_append_left _ (lastOr_none_mem ha)
      · have had2 : (plug (.R pl pa pd pb :: c') (.nil : ATree α)).addrs =
            (ctxBefore c' ++ pl.addrs) ++ pa :: ctxAfter c' := by
          simp [addrs_plug, ATree.addrs, ctxBefore, ctxAfter]
        obtain ⟨n', -, -, hn', -, hnx, -⟩ := h.node_at had2
        rw [hm] at hn'; cases hn'
        simp only [Prod.mk.injEq] at hr
        rw [hr.1] at ha
        rw [had2]
        split_ifs at ha
        · cases ha; simp
        · rw [hnx] at ha
          exact List.mem_append_right _ (List.mem_cons_of_mem _ (headOr_none_mem ha))

theorem GetCursor_eq [Comparable α] {fuel : Nat} {t : Tree α} {lt : Int} {x : α}
    {n : Option Nat} {ex : Bool} (hx : lookupNode fuel t lt x = .ok (n, ex)) :
    GetCursor fuel t lt x = .ok (⟨n, decide (n = none ∧ lt = GTE)⟩, ex) := by
  simp only [GetCursor, hx, bind_ok]
  cases n with
  | none => by_cases hg : lt = GTE <;> simp [hg]
  | some a => simp

theorem GetCursor_inv [Comparable α] {fuel : Nat} {t : Tree α} {lt : Int} {x : α}
    {c : Cursor} {ex : Bool} (hx : GetCursor fuel t lt x = .ok (c, ex)) :
    lookupNode fuel t lt x = .ok (c.nextNode, ex) ∧ c.end_ = decide (c.nextNode = none ∧ lt = GTE) := by
  cases hl : lookupNode fuel t lt x with
  | error e => simp [GetCursor, hl] at hx
  | ok r =>
    obtain ⟨n, ex'⟩ := r
    rw [GetCursor_eq hl] at hx
    cases hx
    exact ⟨rfl, rfl⟩

/-- A cursor that the calls can produce points at a node of the tree or at
nil. -/
theorem CursorReach.mem [Comparable α] {t : Tree α} {s : ATree α} (h : WF t s) {c : Cursor}
    (hr : CursorReach t c) : ∀ a, c.nextNode = some a → a ∈ s.addrs := by
  induction hr with
  | getCursor fuel lt x c ex hx =>
    exact lookupNode_mem h.inv x lt fuel (GetCursor_inv hx).1
  | next c c' v _ hx ih =>
    have hstep : ∀ a b, a ∈ s.addrs → Next t ⟨some a, b⟩ = .ok (v, c') →
        ∀ q, c'.nextNode = some q → q ∈ s.addrs := by
      intro a b ha hx q hq
      obtain ⟨apre, apost, hs⟩ := List.append_of_mem ha
      obtain ⟨n, -, -, hn, -, hnx, -⟩ := h.inv.node_at hs
      rw [Next_some t b hn] at hx
      cases hx
      simp only at hq
      rw [hnx] at hq
      rw [hs]
      exact List.mem_append_right _ (List.mem_cons_of_mem _ (headOr_none_mem hq))
    obtain ⟨nn, b⟩ := c
    cases nn with
    | some a => exact hstep a b (ih a rfl) hx
    | none =>
      cases b with
      | true => rw [Next_end] at hx; cases hx; intro q hq; cases hq
      | false =>
        rw [Next_head] at hx
        cases hh : t.head with
        | none => rw [hh] at hx; cases hx; intro q hq; cases hq
        | some a =>
          rw [hh] at hx
          have ha : a ∈ s.addrs := by
            have := h.head
            rw [hh] at this
            exact List.mem_of_mem_head? this.symm
          exact hstep a false ha hx
  | prev c c' v _ hx ih =>
    obtain ⟨nn, b⟩ := c
    cases nn with
    | some a =>
      have ha := ih a rfl
      obtain ⟨apre, apost, hs⟩ := List.append_of_mem ha
      obtain ⟨n, -, -, hn, hp, -⟩ := h.inv.node_at hs
      rw [Prev_some t b hn] at hx
      intro q hq
      cases hpv : n.prv with
      | none => rw [hpv] at hx; cases hx; cases hq
      | some p =>
        rw [hpv] at hx
        simp only at hx
        have hpm : p ∈ s.addrs := by
          rw [hp] at hpv
          rw [hs]
          exact List.mem_append_left _ (lastOr_none_mem hpv)
        cases hm : t.node p with
        | error e => rw [hm] at hx; cases hx
        | ok m =>
          rw [hm] at hx
          cases hx
          cases hq
          exact hpm
    | none =>
      cases b with
      | false => rw [Prev_start] at hx; cases hx; intro q hq; cases hq
      | true =>
        intro q hq
        cases htl : t.tail with
        | none => simp [Prev, htl] at hx
        | some a =>
          have ha : a ∈ s.addrs := by
            have := h.tail
            rw [htl] at this
            obtain ⟨ys, hys⟩ := List.getLast?_eq_some_iff.mp this.symm
            rw [hys]; simp
          obtain ⟨apre, apost, hs⟩ := List.append_of_mem ha
          obtain ⟨n, -, -, hn, hp, -⟩ := h.inv.node_at hs
          rw [Prev_end t htl hn] at hx
          cases hx
          simp only at hq
          rw [hp] at hq
          rw [hs]
          exact List.mem_append_left _ (lastOr_none_mem hq)

theorem Lookup_of_node [Comparable α] {fuel : Nat} {t : Tree α} {lt : Int} {x : α}
    {n : Option Nat} {ex : Bool} (hx : lookupNode fuel t lt x = .ok (n, ex)) :
    Lookup fuel t lt x =
      match n with
      | none => .ok (none, ex)
      | some a => (t.node a).map (fun m => (some m.data, ex)) := by
  simp only [Lookup, hx, bind_ok]
  cases n with
  | none => rfl
  | some a => cases t.node a <;> rfl

/-- C13: on a well-formed tree, the cursor of `GetCursor(GTE, k)` returns under
repeated `Next()` exactly the stored elements that are greater than or equal to
`k`, in ascending order, and nil on every call after the last of them. -/
theorem C13_cursor_forward [Comparable α] [StrictTotal α] (t : Tree α) (s : ATree α)
    (h : WF t s) (k : α) (fuel : Nat) (hf : s.height ≤ fuel) :
    ∃ c ex epre ge, GetCursor fuel t GTE k = .ok (c, ex) ∧ s.elems = epre ++ ge ∧
      (∀ e ∈ epre, CompareTo e k < 0) ∧ (∀ e ∈ ge, CompareTo k e ≤ 0) ∧ Sorted ge ∧
      ∀ n, ∃ c', nextN t n c =
        .ok ((ge.map some).take n ++ List.replicate (n - ge.length) none, c') := by
  obtain ⟨apre, apost, epre, epost, hl, h1, h2, hcase⟩ :=
    lookupNode_spec h.inv k GTE (Or.inl rfl) fuel hf
  have hso := h.inv.sorted
  rcases hcase with ⟨ha, he, hx⟩ | ⟨cn, d, ha, he, hkd, hx⟩
  · rw [if_pos rfl] at hx
    refine ⟨_, false, epre, epost, GetCursor_eq hx, he, h1, fun e he' => le_of_lt (h2 e he'), ?_,
      ?_⟩
    · rw [he] at hso
      exact (List.pairwise_append.mp hso).2.1
    · apply nextN_run h.inv apost apre epre epost _ ha he hl
      intro hnil
      subst hnil
      rfl
  · refine ⟨_, true, epre, d :: epost, GetCursor_eq hx, he, h1, ?_, ?_, ?_⟩
    · intro e he'
      rcases List.mem_cons.mp he' with rfl | he'
      · omega
      · exact le_of_lt (h2 e he')
    · rw [he] at hso
      exact (List.pairwise_append.mp hso).2.1
    · exact nextN_run h.inv (cn :: apost) apre epre (d :: epost) _ ha he hl
        (fun hnil => by cases hnil)

theorem C13_cursor_forward_witness :
    WF tree7 atree7 ∧ atree7.height ≤ 16 ∧
      ∃ c ex epre ge, GetCursor 16 tree7 GTE 4 = .ok (c, ex) ∧ atree7.elems = epre ++ ge ∧
        (∀ e ∈ epre, CompareTo e (4 : Int) < 0) ∧ (∀ e ∈ ge, CompareTo (4 : Int) e ≤ 0) ∧
        Sorted ge ∧
        ∀ n, ∃ c', nextN tree7 n c =
          .ok ((ge.map some).take n ++ List.replicate (n - ge.length) none, c') :=
  ⟨tree7_wf, by decide, C13_cursor_forward tree7 atree7 tree7_wf 4 16 (by decide)⟩

/-- The forward traversals of the scenarios: from the minimum, and from
`GetCursor(GTE, 4)`. -/
theorem example_cursor7 :
    GetCursor 16 tree7 GTE 1 = .ok (⟨some 3, false⟩, true) ∧
      nextN tree7 8 ⟨some 3, false⟩ =
        .ok ([some 1, some 3, some 4, some 5, some 7, some 8, some 9, none], ⟨none, true⟩) ∧
      GetCursor 16 tree7 GTE 4 = .ok (⟨some 4, false⟩, true) ∧
      Next tree7 ⟨some 4, false⟩ = .ok (some 4, ⟨some 0, false⟩) ∧
      Next tree7 ⟨some 0, false⟩ = .ok (some 5, ⟨some 5, false⟩) ∧
      Prev tree7 ⟨some 5, false⟩ = .ok (some 5, ⟨some 0, false⟩) :=
  ⟨rfl, rfl, rfl, rfl, rfl, rfl⟩

/-- Where the cursor of `GetCursor` agrees with `Lookup`, on a well-formed tree
and for a direction in GTE, LTE: the flag is the one that `Lookup` returns, and
the first `Next()` returns what `Lookup` returns whenever that is an element or
the direction is GTE.  For LTE with no stored element less than or equal to the
key the cursor stands before the first element, and the first `Next()` returns
the least stored element (nil only for the empty tree). -/
theorem GetCursor_agrees [Comparable α] [StrictTotal α] (t : Tree α) (s : ATree α)
    (h : WF t s) (lt : Int) (hlt : lt = GTE ∨ lt = LTE) (k : α) (fuel : Nat)
    (hf : s.height ≤ fuel) :
    ∃ c ex res, GetCursor fuel t lt k = .ok (c, ex) ∧ Lookup fuel t lt k = .ok (res, ex) ∧
      (res ≠ none ∨ lt = GTE → ∃ c', Next t c = .ok (res, c')) ∧
      (res = none ∧ lt = LTE → ∃ c', Next t c = .ok (s.elems.head?, c')) := by
  obtain ⟨n, ex, hx⟩ : ∃ n ex, lookupNode fuel t lt k = .ok (n, ex) := by
    obtain ⟨apre, apost, epre, epost, -, -, -, hcase⟩ := lookupNode_spec h.inv k lt hlt fuel hf
    rcases hcase with ⟨-, -, hx⟩ | ⟨cn, d, -, -, -, hx⟩
    · exact ⟨_, _, hx⟩
    · exact ⟨_, _, hx⟩
  have hmem := lookupNode_mem h.inv k lt fuel hx
  have hL := Lookup_of_node hx
  cases n with
  | some a =>
    obtain ⟨apre, apost, hs⟩ := List.append_of_mem (hmem a rfl)
    obtain ⟨m, -, -, hm, -⟩ := h.inv.node_at hs
    simp only [hm] at hL
    refine ⟨_, ex, some m.data, GetCursor_eq hx, hL, fun _ => ⟨_, Next_some t _ hm⟩, ?_⟩
    rintro ⟨hn, -⟩
    cases hn
  | none =>
    simp only at hL
    refine ⟨_, ex, none, GetCursor_eq hx, hL, ?_, ?_⟩
    · rintro (hn | hg)
      · exact absurd rfl hn
      · subst hg
        exact ⟨_, Next_end t⟩
    · rintro ⟨-, hg⟩
      subst hg
      have hc : (⟨none, decide ((none : Option Nat) = none ∧ LTE = GTE)⟩ : Cursor) = ⟨none, false⟩ := by
        simp [GTE_ne_LTE.symm]
      rw [hc, Next_head]
      have hh := h.head
      cases hs : s.addrs with
      | nil =>
        rw [hs] at hh
        have he : s.elems = [] := by
          apply List.eq_nil_of_length_eq_zero
          rw [length_elems, hs]; rfl
        rw [hh, he]
        exact ⟨_, rfl⟩
      | cons a rest =>
        rw [hs] at hh
        obtain ⟨m, epre, epost, hm, -, -, he, hl, -⟩ := h.inv.node_at (show s.addrs = [] ++ a :: rest from hs)
        have : epre = [] := List.eq_nil_of_length_eq_zero hl
        subst this
        rw [hh, he]
        exact ⟨_, Next_some t false hm⟩

theorem GetCursor_agrees_lte_miss :
    WF tree7 atree7 ∧ (LTE = GTE ∨ LTE = LTE) ∧ atree7.height ≤ 16 ∧
      ∃ c ex res, GetCursor 16 tree7 LTE 0 = .ok (c, ex) ∧
        Lookup 16 tree7 LTE 0 = .ok (res, ex) ∧
        (res ≠ none ∨ LTE = GTE → ∃ c', Next tree7 c = .ok (res, c')) ∧
        (res = none ∧ LTE = LTE → ∃ c', Next tree7 c = .ok (atree7.elems.head?, c')) :=
  ⟨tree7_wf, Or.inr rfl, by decide,
    GetCursor_agrees tree7 atree7 tree7_wf LTE (Or.inr rfl) 0 16 (by decide)⟩

/-- C14 (defect in the code): the comment on `GetCursor` says that the first
value of the cursor is the value that an equivalent `Lookup()` call returns.
On the keys 1, 3, 4, 5, 7, 8, 9, `Lookup(LTE, 0)` returns nil, and the cursor of
`GetCursor(LTE, 0)` has `end` clear, so its first `Next()` starts at `head` and
returns 1.  On the other side, `Lookup(GTE, 10)` returns nil and the first
`Next()` of the cursor of `GetCursor(GTE, 10)` returns nil as well. -/
theorem C14_cursor_lte_miss :
    WF tree7 atree7 ∧ Lookup 16 tree7 LTE 0 = .ok (none, false) ∧
      GetCursor 16 tree7 LTE 0 = .ok (⟨none, false⟩, false) ∧
      Next tree7 ⟨none, false⟩ = .ok (some 1, ⟨some 1, false⟩) ∧
      (¬ ∃ c ex res c', GetCursor 16 tree7 LTE 0 = .ok (c, ex) ∧
        Lookup 16 tree7 LTE 0 = .ok (res, ex) ∧ Next tree7 c = .ok (res, c')) ∧
      Lookup 16 tree7 GTE 10 = .ok (none, false) ∧
      GetCursor 16 tree7 GTE 10 = .ok (⟨none, true⟩, false) ∧
      Next tree7 ⟨none, true⟩ = .ok (none, ⟨none, true⟩) := by
  refine ⟨tree7_wf, rfl, rfl, rfl, ?_, rfl, rfl, rfl⟩
  rintro ⟨c, ex, res, c', h1, h2, h3⟩
  have e1 : GetCursor 16 tree7 LTE 0 = .ok (⟨none, false⟩, false) := rfl
  have e2 : Lookup 16 tree7 LTE 0 = .ok (none, false) := rfl
  have e3 : Next tree7 ⟨none, false⟩ = .ok (some 1, ⟨some 1, false⟩) := rfl
  rw [e1] at h1
  cases h1
  rw [e2] at h2
  cases h2
  rw [e3] at h3
  cases h3

/-- C15: on a well-formed tree and from every cursor state that `GetCursor`,
`Next` and `Prev` can produce, when `Next()` returns an element, the `Prev()`
that follows at once returns the same element. -/
theorem C15_next_then_prev [Comparable α] [StrictTotal α] (t : Tree α) (s : ATree α)
    (h : WF t s) (c : Cursor) (hr : CursorReach t c) (x : α) (c1 : Cursor)
    (hx : Next t c = .ok (some x, c1)) :
    ∃ c2, Prev t c1 = .ok (some x, c2) := by
  have key : ∀ a b, a ∈ s.addrs → Next t ⟨some a, b⟩ = .ok (some x, c1) →
      ∃ c2, Prev t c1 = .ok (some x, c2) := by
    intro a b ha hx
    obtain ⟨apre, apost, hs⟩ := List.append_of_mem ha
    obtain ⟨n, -, -, hn, -, hnx, -⟩ := h.inv.node_at hs
    rw [Next_some t b hn] at hx
    simp only [Except.ok.injEq, Prod.mk.injEq, Option.some.injEq] at hx
    obtain ⟨hd, hc1⟩ := hx
    subst hd hc1
    cases apost with
    | nil =>
      have ht : t.tail = some a := by rw [h.tail, hs]; simp
      simp only [headOr_nil] at hnx
      rw [hnx]
      exact ⟨_, Prev_end t ht hn⟩
    | cons m rest =>
      have hs2 : s.addrs = (apre ++ [a]) ++ m :: rest := by rw [hs]; simp
      obtain ⟨nm, -, -, hm, hp, -⟩ := h.inv.node_at hs2
      simp only [headOr_cons] at hnx
      have hp' : nm.prv = some a := by rw [hp, lastOr_append]; rfl
      rw [hnx]
      refine ⟨⟨some a, b⟩, ?_⟩
      simp only [reduceCtorEq, if_false]
      rw [Prev_some t b hm, hp']
      simp only [hn]
      rfl
  obtain ⟨nn, b⟩ := c
  cases nn with
  | some a => exact key a b (hr.mem h a rfl) hx
  | none =>
    cases b with
    | true => rw [Next_end] at hx; cases hx
    | false =>
      rw [Next_head] at hx
      cases hh : t.head with
      | none => rw [hh] at hx; cases hx
      | some a =>
        rw [hh] at hx
        have ha : a ∈ s.addrs := by
          have := h.head
          rw [hh] at this
          exact List.mem_of_mem_head? this.symm
        exact key a false ha hx

theorem reach7_end : CursorReach tree7 ⟨none, true⟩ :=
  CursorReach.getCursor 16 GTE 10 _ false (by rfl)

theorem reach7_start : CursorReach tree7 ⟨none, false⟩ :=
  CursorReach.getCursor 16 LTE 0 _ false (by rfl)

theorem reach7_at5 : CursorReach tree7 ⟨some 0, false⟩ :=
  CursorReach.next ⟨some 4, false⟩ _ (some 4) (CursorReach.getCursor 16 GTE 4 _ true (by rfl))
    (by rfl)

theorem C15_next_then_prev_witness :
    WF tree7 atree7 ∧ CursorReach tree7 ⟨some 0, false⟩ ∧
      Next tree7 ⟨some 0, false⟩ = .ok (some 5, ⟨some 5, false⟩) ∧
      ∃ c2, Prev tree7 ⟨some 5, false⟩ = .ok (some 5, c2) :=
  ⟨tree7_wf, reach7_at5, rfl,
    C15_next_then_prev tree7 atree7 tree7_wf ⟨some 0, false⟩ reach7_at5 5 ⟨some 5, false⟩ rfl⟩

/-- C16 (defect in the code): from the end of the tree, `Prev()` returns the
last element and leaves the cursor one node further back, so the `Next()` that
follows returns the element before it, and a second `Prev()` would skip that
element. -/
theorem C16_prev_then_next_at_end :
    WF tree7 atree7 ∧ GetCursor 16 tree7 GTE 10 = .ok (⟨none, true⟩, false) ∧
      CursorReach tree7 ⟨none, true⟩ ∧
      Prev tree7 ⟨none, true⟩ = .ok (some 9, ⟨some 2, false⟩) ∧
      Next tree7 ⟨some 2, false⟩ = .ok (some 8, ⟨some 6, false⟩) ∧
      Prev tree7 ⟨some 2, false⟩ = .ok (some 7, ⟨some 5, false⟩) :=
  ⟨tree7_wf, rfl, reach7_end, rfl, rfl, rfl⟩

/-- C17 (defect in the code): past the last element `HasNext()` is true on a
non-empty tree although `Next()` returns nil, and before the first element it
is false although `Next()` returns the first element. -/
theorem C17_hasNext_at_ends :
    WF tree7 atree7 ∧ CursorReach tree7 ⟨none, true⟩ ∧ HasNext tree7 ⟨none, true⟩ = true ∧
      Next tree7 ⟨none, true⟩ = .ok (none, ⟨none, true⟩) ∧
      CursorReach tree7 ⟨none, false⟩ ∧ HasNext tree7 ⟨none, false⟩ = false ∧
      Next tree7 ⟨none, false⟩ = .ok (some 1, ⟨some 1, false⟩) :=
  ⟨tree7_wf, reach7_end, rfl, rfl, reach7_start, rfl, rfl⟩

/-- C18 (defect in the code): before the first element `HasPrev()` is true on a
non-empty tree although `Prev()` returns nil, and past the last element it is
false although `Prev()` returns the last element. -/
theorem C18_hasPrev_at_ends :
    WF tree7 atree7 ∧ CursorReach tree7 ⟨none, false⟩ ∧
      HasPrev tree7 ⟨none, false⟩ = .ok true ∧
      Prev tree7 ⟨none, false⟩ = .ok (none, ⟨none, false⟩) ∧
      CursorReach tree7 ⟨none, true⟩ ∧ HasPrev tree7 ⟨none, true⟩ = .ok false ∧
      Prev tree7 ⟨none, true⟩ = .ok (some 9, ⟨some 2, false⟩) :=
  ⟨tree7_wf, reach7_start, rfl, rfl, reach7_end, rfl, rfl⟩

/-- C19 (defect in the code): after `Insert(5)` and `Delete(5)` on the empty
tree `Size()` is 0, and the cursor of `GetCursor(LTE, 0)`, which stands before
the first element, returns the removed 5 from `Next()` before it returns
nil. -/
theorem C19_emptied_tree_cursor :
    runOps 16 Tree.empty [Op.insert (5 : Int), Op.delete 5] = .ok treeEmptied ∧
      Size treeEmptied = 0 ∧ treeEmptied.root = none ∧ treeEmptied.head = some 0 ∧
      GetCursor 16 treeEmptied LTE 0 = .ok (⟨none, false⟩, false) ∧
      nextN treeEmptied 2 ⟨none, false⟩ = .ok ([some 5, none], ⟨none, true⟩) :=
  ⟨rfl, rfl, rfl, rfl, rfl, rfl⟩

/-- C20 (defect in the code): on the tree that never held an element, the
cursor of `GetCursor(GTE, k)` stands past the end, and `Prev()` reads the data
of the nil `tail`. -/
theorem C20_prev_on_empty_faults :
    GetCursor 16 (Tree.empty : Tree Int) GTE 0 = .ok (⟨none, true⟩, false) ∧
      Prev (Tree.empty : Tree Int) ⟨none, true⟩ = .error .nilDeref :=
  ⟨rfl, rfl⟩

/-- Whatever the direction value, `lookupNode` answers as it does for GTE or as
it does for LTE: the directions differ only where the search path ends at an
empty place, and there a value that is not GTE gives the LTE answer on the left
edge and a value that is not LTE gives the GTE answer on the right edge. -/
theorem lookupNode_any [Comparable α] {t : Tree α} {s : ATree α} (h : Inv t s) (x : α)
    (lt : Int) (fuel : Nat) (hf : s.height ≤ fuel) :
    lookupNode fuel t lt x = lookupNode fuel t GTE x ∨
      lookupNode fuel t lt x = lookupNode fuel t LTE x := by
  cases hs : s with
  | nil =>
    have hr := h.root
    rw [hs] at hr
    simp only [rootPtr_nil] at hr
    left
    simp only [lookupNode, hr]
  | node l a d b r =>
    have hr := h.root
    have hrep := h.rep
    rw [hs] at hr hrep hf
    simp only [rootPtr_node] at hr
    simp only [lookupNode, hr]
    obtain ⟨res, hx, hres⟩ := lookupLoop_spec x lt (.node l a d b r) [] t a none fuel rfl hrep hf
    obtain ⟨resG, hxG, hresG⟩ :=
      lookupLoop_spec x GTE (.node l a d b r) [] t a none fuel rfl hrep hf
    obtain ⟨resL, hxL, hresL⟩ :=
      lookupLoop_spec x LTE (.node l a d b r) [] t a none fuel rfl hrep hf
    rw [hx, hxG, hxL]
    rcases hres with ⟨l', cn, d', b', r', hf1, rfl⟩ | ⟨hnil, hcase⟩
    · left
      rcases hresG with ⟨l2, cn2, d2, b2, r2, hf2, rfl⟩ | ⟨hnil2, -⟩
      · rw [hf1] at hf2
        cases hf2
        rfl
      · rw [hf1] at hnil2
        cases hnil2
    · rcases hcase with ⟨pa, pd, pb, pr, c', n, hc, hn, rfl⟩ | ⟨pl, pa, pd, pb, c', n, hc, hn, rfl⟩
      · by_cases hg : lt = GTE
        · subst hg
          left
          rcases hresG with ⟨l2, cn2, d2, b2, r2, hf2, -⟩ | ⟨-, hcase2⟩
          · rw [hnil] at hf2
            cases hf2
          · rcases hcase2 with ⟨pa2, pd2, pb2, pr2, c2, n2, hc2, hn2, rfl⟩ |
              ⟨pl2, pa2, pd2, pb2, c2, n2, hc2, hn2, rfl⟩
            · rw [hc] at hc2
              cases hc2
              rfl
            · rw [hc] at hc2
              cases hc2
        · right
          rcases hresL with ⟨l2, cn2, d2, b2, r2, hf2, -⟩ | ⟨-, hcase2⟩
          · rw [hnil] at hf2
            cases hf2
          · rcases hcase2 with ⟨pa2, pd2, pb2, pr2, c2, n2, hc2, hn2, rfl⟩ |
              ⟨pl2, pa2, pd2, pb2, c2, n2, hc2, hn2, rfl⟩
            · rw [hc] at hc2
              cases hc2
              rw [hn] at hn2
              cases hn2
              simp only [hg, if_false, GTE_ne_LTE.symm]
            · rw [hc] at hc2
              cases hc2
      · by_cases hg : lt = LTE
        · subst hg
          right
          rcases hresL with ⟨l2, cn2, d2, b2, r2, hf2, -⟩ | ⟨-, hcase2⟩
          · rw [hnil] at hf2
            cases hf2
          · rcases hcase2 with ⟨pa2, pd2, pb2, pr2, c2, n2, hc2, hn2, rfl⟩ |
              ⟨pl2, pa2, pd2, pb2, c2, n2, hc2, hn2, rfl⟩
            · rw [hc] at hc2
              cases hc2
            · rw [hc] at hc2
              cases hc2
              rfl
        · left
          rcases hresG with ⟨l2, cn2, d2, b2, r2, hf2, -⟩ | ⟨-, hcase2⟩
          · rw [hnil] at hf2
            cases hf2
          · rcases hcase2 with ⟨pa2, pd2, pb2, pr2, c2, n2, hc2, hn2, rfl⟩ |
              ⟨pl2, pa2, pd2, pb2, c2, n2, hc2, hn2, rfl⟩
            · rw [hc] at hc2
              cases hc2
            · rw [hc] at hc2
              cases hc2
              rw [hn] at hn2
              cases hn2
              simp only [hg, if_false, GTE_ne_LTE]

/-- C21 as stated fails: on the keys 1, 3, 4, 5, 7, 8, 9 the calls
`Lookup(2, 6)` and `GetCursor(2, 6)`, with the direction value 2 that is
neither GTE nor LTE, return a result (the element 5, as LTE does) and do not
fail; `Lookup(2, 2)` returns 3, as GTE does. -/
theorem C21_counterexample :
    WF tree7 atree7 ∧ (2 : Int) ≠ GTE ∧ (2 : Int) ≠ LTE ∧
      Lookup 16 tree7 2 6 = .ok (some 5, false) ∧
      GetCursor 16 tree7 2 6 = .ok (⟨some 0, false⟩, false) ∧
      Lookup 16 tree7 2 2 = .ok (some 3, false) ∧
      ¬ (∃ f, Lookup 16 tree7 2 6 = .error f) ∧ ¬ (∃ f, GetCursor 16 tree7 2 6 = .error f) := by
  refine ⟨tree7_wf, by decide, by decide, rfl, rfl, rfl, ?_, ?_⟩
  · rintro ⟨f, hf⟩
    have e : Lookup 16 tree7 2 6 = .ok (some 5, false) := rfl
    rw [e] at hf
    cases hf
  · rintro ⟨f, hf⟩
    have e : GetCursor 16 tree7 2 6 = .ok (⟨some 0, false⟩, false) := rfl
    rw [e] at hf
    cases hf

/-- The element of a node of the tree, read off the store. -/
theorem dv_of_plug_node {t : Tree α} {par : Option Nat} {c : List (Frame α)} {l r : ATree α}
    {a : Nat} {d : α} {b : Int} (h : Rep t par (plug c (.node l a d b r))) : t.dv a = some d := by
  obtain ⟨n, hn, hd, -⟩ := (Rep_plug.mp h).2.1
  simp only [Tree.dv, hn, hd]

/-- C22: an element never moves between nodes.  On a well-formed tree, Delete
leaves the element of every node as it was, and the node that leaves the tree
is the one that held the element equal to the argument; Insert writes the
element only of the node it creates, or of the node whose element compares
equal to the argument; the nodes that stay are the same nodes in the same
order. -/
theorem C22_elements_stay [Comparable α] [StrictTotal α] (t : Tree α) (s : ATree α)
    (h : WF t s) (k : α) (fuel : Nat) (hf : 2 * s.addrs.length + 2 ≤ fuel) :
    (∃ t' r s', Delete fuel t k = .ok (t', r) ∧ Inv t' s' ∧ (∀ a, t'.dv a = t.dv a) ∧
        ((r = (none, false) ∧ s'.addrs = s.addrs) ∨
          (∃ pre post cn d, r = (some d, true) ∧ CompareTo k d = 0 ∧ t.dv cn = some d ∧
            s.addrs = pre ++ cn :: post ∧ s'.addrs = pre ++ post))) ∧
      (∃ t' r s', Insert fuel t k = .ok (t', r) ∧ Inv t' s' ∧
        ((r = none ∧ (∀ a, a < t.mem.length → t'.dv a = t.dv a) ∧
            t'.dv t.mem.length = some k ∧
            ∃ pre post, s.addrs = pre ++ post ∧ s'.addrs = pre ++ t.mem.length :: post) ∨
          (∃ cn d, r = some d ∧ CompareTo k d = 0 ∧ t.dv cn = some d ∧ t'.dv cn = some k ∧
            (∀ a, a ≠ cn → t'.dv a = t.dv a) ∧ s'.addrs = s.addrs))) := by
  have hh : s.height ≤ fuel := by
    have := height_le_length s
    omega
  by_cases heq : ∃ e ∈ s.elems, CompareTo k e = 0
  · constructor
    · obtain ⟨c, l, cn, d, b, r, t', s', hs, hkd, hx, hinv, ha, -, -, -, hdv, -⟩ :=
        Delete_found h.inv k heq fuel hf
      refine ⟨t', _, s', hx, hinv, hdv, Or.inr ⟨_, _, cn, d, rfl, hkd, ?_, ?_, ha⟩⟩
      · have := h.inv.rep
        rw [hs] at this
        exact dv_of_plug_node this
      · rw [hs, addrs_plug_node]
    · obtain ⟨c, l, a, d, b, r, hs, hkd, hx, hinv⟩ := Insert_equal h.inv k heq fuel hh
      have hd : t.dv a = some d := by
        have := h.inv.rep
        rw [hs] at this
        exact dv_of_plug_node this
      refine ⟨_, _, _, hx, hinv, Or.inr ⟨a, d, rfl, hkd, hd, ?_, ?_, ?_⟩⟩
      · rw [dv_setData, if_pos rfl, hd]
        rfl
      · intro a' ha'
        rw [dv_setData, if_neg (fun e => ha' e.symm)]
      · rw [hs, addrs_plug_node, addrs_plug_node]
  · have hnew : ∀ e ∈ s.elems, CompareTo k e ≠ 0 := fun e he h0 => heq ⟨e, he, h0⟩
    constructor
    · exact ⟨t, _, s, Delete_absent h.inv k hnew fuel hh, h.inv, fun _ => rfl,
        Or.inl ⟨rfl, rfl⟩⟩
    · obtain ⟨t', s', apre, apost, epre, epost, hx, hwf, ha, ha', -, -, -, -, -, -, hdv, hnewdv⟩ :=
        Insert_new h.inv k hnew fuel (by omega)
      exact ⟨t', _, s', hx, hwf.inv, Or.inl ⟨rfl, hdv, hnewdv, apre, apost, ha, ha'⟩⟩

theorem C22_elements_stay_witness :
    WF tree7 atree7 ∧ 2 * atree7.addrs.length + 2 ≤ 16 ∧
      (∃ t' r s', Delete 16 tree7 4 = .ok (t', r) ∧ Inv t' s' ∧
          (∀ a, t'.dv a = tree7.dv a) ∧
          ((r = (none, false) ∧ s'.addrs = atree7.addrs) ∨
            (∃ pre post cn d, r = (some d, true) ∧ CompareTo (4 : Int) d = 0 ∧
              tree7.dv cn = some d ∧
              atree7.addrs = pre ++ cn :: post ∧ s'.addrs = pre ++ post))) ∧
        (∃ t' r s', Insert 16 tree7 4 = .ok (t', r) ∧ Inv t' s' ∧
          ((r = none ∧ (∀ a, a < tree7.mem.length → t'.dv a = tree7.dv a) ∧
              t'.dv tree7.mem.length = some 4 ∧
              ∃ pre post, atree7.addrs = pre ++ post ∧
                s'.addrs = pre ++ tree7.mem.length :: post) ∨
            (∃ cn d, r = some d ∧ CompareTo (4 : Int) d = 0 ∧ tree7.dv cn = some d ∧
              t'.dv cn = some 4 ∧
              (∀ a, a ≠ cn → t'.dv a = tree7.dv a) ∧ s'.addrs = atree7.addrs))) :=
  ⟨tree7_wf, by decide, C22_elements_stay tree7 atree7 tree7_wf 4 16 (by decide)⟩

/-- A rotation keeps the nodes and the elements of the subtree in their
order, and returns a node. -/
theorem rotA_elems {s s' : ATree α} {ch : Bool} (h : rotA s = some (s', ch)) :
    s'.elems = s.elems ∧ s'.addrs = s.addrs ∧ s'.rootPtr ≠ none := by
  unfold rotA at h
  repeat' split at h
  all_goals cases h
  all_goals simp [ATree.elems, ATree.addrs, ATree.rootPtr]

/-- A rotation that is made gives a tree and a flag. -/
theorem rotA_some {s : ATree α} (h : rotA s ≠ none) : ∃ s' ch, rotA s = some (s', ch) := by
  cases hx : rotA s with
  | none => exact absurd hx h
  | some v => exact ⟨v.1, v.2, rfl⟩

/-- The parts of a held tree around one of its nodes, in the form that the
rotation lemmas take. -/
theorem Rep_parts [Comparable α] [StrictTotal α] {t : Tree α} {c : List (Frame α)}
    {s : ATree α} {cn : Nat} (hcn : s.rootPtr = some cn) (hroot : t.root = (plug c s).rootPtr)
    (hrep : Rep t none (plug c s)) (hso : Sorted (plug c s).elems) :
    RepSeg t none c (some cn) ∧ t.root = segTop c (some cn) ∧ Rep t (ctxPar none c) s ∧
      (plug c s).addrs.Nodup := by
  obtain ⟨h1, h2⟩ := Rep_plug.mp hrep
  rw [hcn] at h1
  rw [rootPtr_plug, hcn] at hroot
  exact ⟨h1, hroot, h2, Rep_nodup hrep hso⟩

/-- C23: in a tree with binary-search order and consistent parent links, at a
node `cn` that stores the factor -2 or 2, whose heavier child exists with a
factor in {-1, 0, 1} and, where two rotations are made, whose inner grandchild
exists, `rebalanceAtNode(cn)` returns a node and leaves a tree with the same
elements in the same in-order sequence (and the same nodes, thread links and
node contents). -/
theorem C23_rotation_keeps_order [Comparable α] [StrictTotal α] (t : Tree α)
    (c : List (Frame α)) (l r : ATree α) (cn : Nat) (d : α) (b : Int)
    (hroot : t.root = (plug c (.node l cn d b r)).rootPtr)
    (hrep : Rep t none (plug c (.node l cn d b r)))
    (hso : Sorted (plug c (.node l cn d b r)).elems)
    (hpre : (b = -2 ∧ ∃ ll la ld lb lr, l = .node ll la ld lb lr ∧
        (lb = -1 ∨ lb = 0 ∨ (lb = 1 ∧ lr ≠ .nil))) ∨
      (b = 2 ∧ ∃ rl ra rd rb rr, r = .node rl ra rd rb rr ∧
        (rb = 1 ∨ rb = 0 ∨ (rb = -1 ∧ rl ≠ .nil)))) :
    ∃ t' np ch s', rebalanceAtNode t cn = .ok (t', some np, ch) ∧ s'.rootPtr = some np ∧
      t'.root = (plug c s').rootPtr ∧ Rep t' none (plug c s') ∧
      (plug c s').elems = (plug c (.node l cn d b r)).elems ∧
      (plug c s').addrs = (plug c (.node l cn d b r)).addrs ∧
      Sorted (plug c s').elems ∧ SameThr t t' := by
  obtain ⟨hseg, hrt, hrp, hnd⟩ := Rep_parts (show (ATree.node l cn d b r).rootPtr = some cn from rfl) hroot hrep hso
  obtain ⟨s', ch, hrot⟩ : ∃ s' ch, rotA (.node l cn d b r) = some (s', ch) := by
    rcases hpre with ⟨rfl, ll, la, ld, lb, lr, rfl, hlb⟩ | ⟨rfl, rl, ra, rd, rb, rr, rfl, hrb⟩
    · rcases hlb with rfl | rfl | ⟨rfl, hne⟩
      · exact rotA_some (by simp [rotA])
      · exact rotA_some (by simp [rotA])
      · cases lr with
        | nil => exact absurd rfl hne
        | node lrl lra lrd lrb lrr => exact rotA_some (by simp [rotA])
    · rcases hrb with rfl | rfl | ⟨rfl, hne⟩
      · exact rotA_some (by simp [rotA])
      · exact rotA_some (by simp [rotA])
      · cases rl with
        | nil => exact absurd rfl hne
        | node rll rla rld rlb rlr => exact rotA_some (by simp [rotA])
  obtain ⟨he, ha, hne⟩ := rotA_elems hrot
  obtain ⟨np, hnp⟩ := Option.ne_none_iff_exists'.mp hne
  obtain ⟨t', hx, hseg', hrt', hrp', hsame⟩ := rebalance_spec hseg hrt hrp hnd rfl hrot
  obtain ⟨h1, h2⟩ := Rep_whole hseg' hrt' hrp'
  have hel : (plug c s').elems = (plug c (.node l cn d b r)).elems := by
    rw [elems_plug, elems_plug, he]
  refine ⟨t', np, ch, s', ?_, hnp, h1, h2, hel, ?_, ?_, hsame⟩
  · rw [hx, hnp]
  · rw [addrs_plug, addrs_plug, ha]
  · rw [hel]
    exact hso

/-- The tree that `walk8` holds: the node of 6 (address 2) with the factor 2
and no left child, below the root on the right. -/
theorem walk8_rep :
    walk8.root = (plug ctx8 (.node .nil 2 6 2 right8)).rootPtr ∧
      Rep walk8 none (plug ctx8 (.node .nil 2 6 2 right8)) ∧
      Sorted (plug ctx8 (.node .nil 2 6 2 right8)).elems := by
  refine ⟨rfl, ?_, ?_⟩
  · simp only [ctx8, right8, plug, Rep, nodeIs_iff_sv, rootPtr_node, rootPtr_nil, and_true,
      true_and]
    exact ⟨rfl, ⟨rfl, rfl, rfl⟩, rfl, rfl, rfl⟩
  · unfold Sorted
    decide

theorem C23_rotation_keeps_order_witness :
    (walk8.root = (plug ctx8 (.node .nil 2 6 2 right8)).rootPtr ∧
        Rep walk8 none (plug ctx8 (.node .nil 2 6 2 right8)) ∧
        Sorted (plug ctx8 (.node .nil 2 6 2 right8)).elems) ∧
      ∃ t' np ch s', rebalanceAtNode walk8 2 = .ok (t', some np, ch) ∧ s'.rootPtr = some np ∧
        t'.root = (plug ctx8 s').rootPtr ∧ Rep t' none (plug ctx8 s') ∧
        (plug ctx8 s').elems = (plug ctx8 (.node .nil 2 6 2 right8)).elems ∧
        (plug ctx8 s').addrs = (plug ctx8 (.node .nil 2 6 2 right8)).addrs ∧
        Sorted (plug ctx8 s').elems ∧ SameThr walk8 t' :=
  ⟨walk8_rep,
    C23_rotation_keeps_order walk8 ctx8 .nil right8 2 6 2 walk8_rep.1 walk8_rep.2.1
      walk8_rep.2.2 (Or.inr ⟨rfl, .nil, 6, 7, 1, .node .nil 7 8 0 .nil, rfl, Or.inl rfl⟩)⟩

/-- C24: at a node whose subtrees are balanced and whose stored factor, -2 or
2, is its true height difference, `rebalanceAtNode` returns the root of the
rotated subtree, which is balanced again, and a flag that is true exactly when
the subtree is one lower than before the call; the flag is false exactly when
the heavier child had the factor 0. -/
theorem C24_height_change_flag [Comparable α] [StrictTotal α] (t : Tree α)
    (c : List (Frame α)) (l r : ATree α) (cn : Nat) (d : α) (b : Int)
    (hroot : t.root = (plug c (.node l cn d b r)).rootPtr)
    (hrep : Rep t none (plug c (.node l cn d b r)))
    (hso : Sorted (plug c (.node l cn d b r)).elems)
    (hl : l.Bal) (hr : r.Bal) (hb : b = (r.height : Int) - (l.height : Int))
    (h2 : b = -2 ∨ b = 2) :
    ∃ t' np ch s', rebalanceAtNode t cn = .ok (t', some np, ch) ∧ s'.rootPtr = some np ∧
      Rep t' (ctxPar none c) s' ∧ s'.Bal ∧
      (ch = true ↔ s'.height + 1 = (ATree.node l cn d b r).height) ∧
      (ch = false ↔ s'.height = (ATree.node l cn d b r).height) ∧
      (ch = false ↔ (if b = -2 then l.rootBal else r.rootBal) = 0) := by
  obtain ⟨hseg, hrt, hrp, hnd⟩ :=
    Rep_parts (show (ATree.node l cn d b r).rootPtr = some cn from rfl) hroot hrep hso
  obtain ⟨t', s', ch, hx, -, -, hrp', -, hbal, -, -, hne, hh, -, -, hiff⟩ :=
    reb_full hseg hrt hrp hnd hl hr hb h2
  obtain ⟨np, hnp⟩ := Option.ne_none_iff_exists'.mp hne
  refine ⟨t', np, ch, s', ?_, hnp, hrp', hbal, ?_, ?_, hiff⟩
  · rw [hx, hnp]
  · cases ch
    · simp only [Bool.false_eq_true, if_false, add_zero] at hh
      simp only [Bool.false_eq_true, false_iff]
      omega
    · simp only [if_true] at hh
      simp only [true_iff]
      exact hh
  · cases ch
    · simp only [Bool.false_eq_true, if_false, add_zero] at hh
      simp only [true_iff]
      exact hh
    · simp only [if_true] at hh
      simp only [Bool.true_eq_false, false_iff]
      omega

theorem C24_height_change_flag_witness :
    (walk8.root = (plug ctx8 (.node .nil 2 6 2 right8)).rootPtr ∧
        Rep walk8 none (plug ctx8 (.node .nil 2 6 2 right8)) ∧
        Sorted (plug ctx8 (.node .nil 2 6 2 right8)).elems) ∧
      right8.Bal ∧ (2 : Int) = (right8.height : Int) - ((ATree.nil : ATree Int).height : Int) ∧
      ∃ t' np ch s', rebalanceAtNode walk8 2 = .ok (t', some np, ch) ∧ s'.rootPtr = some np ∧
        Rep t' (ctxPar none ctx8) s' ∧ s'.Bal ∧
        (ch = true ↔ s'.height + 1 = (ATree.node .nil 2 (6 : Int) 2 right8).height) ∧
        (ch = false ↔ s'.height = (ATree.node .nil 2 (6 : Int) 2 right8).height) ∧
        (ch = false ↔
          (if (2 : Int) = -2 then (ATree.nil : ATree Int).rootBal else right8.rootBal) = 0) :=
  ⟨walk8_rep, by simp only [right8, ATree.Bal, ATree.height]; decide, by decide,
    C24_height_change_flag walk8 ctx8 .nil right8 2 6 2 walk8_rep.1 walk8_rep.2.1 walk8_rep.2.2
      trivial (by simp only [right8, ATree.Bal, ATree.height]; decide) (by decide) (Or.inr rfl)⟩

/-- The six cases of `rebalanceAtNode` on small trees, with the returned node
and flag: the heavier child with the factor toward the heavy side, with the
factor 0, and with the factor toward the light side (two rotations), on the
left and on the right. -/
theorem example_rotations :
    (rebalanceAtNode (⟨3, some 0, some 2, some 0,
        [⟨3, -2, some 1, none, none, none, some 1⟩, ⟨2, -1, some 2, none, some 0, some 0, some 2⟩,
          ⟨1, 0, none, none, some 1, some 1, none⟩]⟩ : Tree Int) 0).map
        (fun v => (v.1.root, v.2)) = .ok (some 1, some 1, true) ∧
      (rebalanceAtNode (⟨4, some 0, some 2, some 0,
        [⟨4, -2, some 1, none, none, none, some 3⟩, ⟨2, 0, some 2, some 3, some 0, some 3, some 2⟩,
          ⟨1, 0, none, none, some 1, some 1, none⟩,
          ⟨3, 0, none, none, some 1, some 0, some 1⟩]⟩ : Tree Int) 0).map
        (fun v => (v.1.root, v.2)) = .ok (some 1, some 1, false) ∧
      (rebalanceAtNode (⟨3, some 0, some 1, some 0,
        [⟨3, -2, some 1, none, none, none, some 2⟩, ⟨1, 1, none, some 2, some 0, some 2, none⟩,
          ⟨2, 0, none, none, some 1, some 0, some 1⟩]⟩ : Tree Int) 0).map
        (fun v => (v.1.root, v.2)) = .ok (some 2, some 2, true) ∧
      (rebalanceAtNode (⟨3, some 0, some 0, some 2,
        [⟨1, 2, none, some 1, none, some 1, none⟩, ⟨2, 1, none, some 2, some 0, some 2, some 0⟩,
          ⟨3, 0, none, none, some 1, none, some 1⟩]⟩ : Tree Int) 0).map
        (fun v => (v.1.root, v.2)) = .ok (some 1, some 1, true) ∧
      (rebalanceAtNode (⟨4, some 0, some 0, some 3,
        [⟨1, 2, none, some 1, none, some 2, none⟩, ⟨3, 0, some 2, some 3, some 0, some 3, some 2⟩,
          ⟨2, 0, none, none, some 1, some 1, some 0⟩,
          ⟨4, 0, none, none, some 1, none, some 1⟩]⟩ : Tree Int) 0).map
        (fun v => (v.1.root, v.2)) = .ok (some 1, some 1, false) ∧
      (rebalanceAtNode (⟨3, some 0, some 0, some 1,
        [⟨1, 2, none, some 1, none, some 2, none⟩, ⟨3, -1, some 2, none, some 0, none, some 2⟩,
          ⟨2, 0, none, none, some 1, some 1, some 0⟩]⟩ : Tree Int) 0).map
        (fun v => (v.1.root, v.2)) = .ok (some 2, some 2, true) :=
  ⟨rfl, rfl, rfl, rfl, rfl, rfl⟩

/-- C25, as amended: in the balance walk of Delete, when the node reached has
the factor -2 or 2 it is rebalanced; if `rebalanceAtNode` reports no change of
height (`heightChange` false) the walk ends there, in the state the rotation
left, and if it reports a change of height (`heightChange` true) the walk goes
on past the returned node: it ends at once only when that node is the root,
and otherwise it corrects the factor of the parent and continues from the
parent. -/
theorem C25_delete_walk_after_rotation [Comparable α] [StrictTotal α] (t : Tree α)
    (c : List (Frame α)) (l r : ATree α) (cn : Nat) (d : α) (b : Int)
    (hroot : t.root = (plug c (.node l cn d b r)).rootPtr)
    (hrep : Rep t none (plug c (.node l cn d b r)))
    (hso : Sorted (plug c (.node l cn d b r)).elems)
    (hl : l.Bal) (hr : r.Bal) (hb : b = (r.height : Int) - (l.height : Int))
    (h2 : b = -2 ∨ b = 2) (fuel : Nat) :
    ∃ t' np ch, rebalanceAtNode t cn = .ok (t', some np, ch) ∧
      (ch = false → deleteRebalance t (fuel + 1) cn = .ok t') ∧
      (ch = true → deleteRebalance t (fuel + 2) cn =
        match c with
        | [] => .ok t'
        | .L pa _ pb _ :: _ => deleteRebalance (t'.setBalance pa (int8 (pb + 1))) fuel pa
        | .R _ pa _ pb :: _ => deleteRebalance (t'.setBalance pa (int8 (pb - 1))) fuel pa) := by
  obtain ⟨hseg, hrt, hrp, hnd⟩ :=
    Rep_parts (show (ATree.node l cn d b r).rootPtr = some cn from rfl) hroot hrep hso
  obtain ⟨t', s', ch, hx, hseg', -, hrp', -, -, hadd, -, hne, -, hch0, -, -⟩ :=
    reb_full hseg hrt hrp hnd hl hr hb h2
  obtain ⟨np, hnp⟩ := Option.ne_none_iff_exists'.mp hne
  obtain ⟨n, hn, hnb, -⟩ := Rep_root_node hrp
  rw [hnp] at hx
  refine ⟨t', np, ch, hx, ?_, ?_⟩
  · intro hch
    subst hch
    rcases h2 with rfl | rfl <;> simp [deleteRebalance, hn, hnb, hx]
  · intro hch
    subst hch
    have hb0 := hch0 rfl
    cases s' with
    | nil => cases hnp
    | node l2 a2 d2 b2 r2 =>
      simp only [rootPtr_node, Option.some.injEq] at hnp
      subst hnp
      simp only [rootBal_node] at hb0
      subst hb0
      obtain ⟨n2, hn2, hnb2, hnp2, -⟩ := Rep_root_node hrp'
      have hnd' : (plug c (.node l2 a2 d2 0 r2)).addrs.Nodup := by
        rw [addrs_plug, hadd, ← addrs_plug]
        exact hnd
      cases c with
      | nil =>
        simp only [ctxPar_nil] at hnp2
        rcases h2 with rfl | rfl <;>
          simp [deleteRebalance, hn, hnb, hx, hn2, hnb2, hnp2]
      | cons F c' =>
        cases F with
        | L pa pd pb pr =>
          obtain ⟨⟨m, hm, hml, hmb⟩, -⟩ :=
            up_L (s := .node l2 a2 d2 0 r2) 0 hseg' hrp' hnd'
          simp only [ctxPar_L] at hnp2
          simp only [rootPtr_node] at hml
          rcases h2 with rfl | rfl <;>
            simp [deleteRebalance, hn, hnb, hx, hn2, hnb2, hnp2, hm, hml, hmb]
        | R pl pa pd pb =>
          obtain ⟨⟨m, hm, hml, hmb⟩, -⟩ :=
            up_R (s := .node l2 a2 d2 0 r2) 0 rfl hseg' hrp' hnd'
          simp only [ctxPar_R] at hnp2
          rcases h2 with rfl | rfl <;>
            simp [deleteRebalance, hn, hnb, hx, hn2, hnb2, hnp2, hm, hml, hmb]

theorem C25_delete_walk_after_rotation_witness :
    (walk8.root = (plug ctx8 (.node .nil 2 6 2 right8)).rootPtr ∧
        Rep walk8 none (plug ctx8 (.node .nil 2 6 2 right8)) ∧
        Sorted (plug ctx8 (.node .nil 2 6 2 right8)).elems) ∧
      right8.Bal ∧ (2 : Int) = (right8.height : Int) - ((ATree.nil : ATree Int).height : Int) ∧
      ∃ t' np ch, rebalanceAtNode walk8 2 = .ok (t', some np, ch) ∧
        (ch = false → deleteRebalance walk8 (14 + 1) 2 = .ok t') ∧
        (ch = true → deleteRebalance walk8 (14 + 2) 2 =
          match ctx8 with
          | [] => .ok t'
          | .L pa _ pb _ :: _ => deleteRebalance (t'.setBalance pa (int8 (pb + 1))) 14 pa
          | .R _ pa _ pb :: _ => deleteRebalance (t'.setBalance pa (int8 (pb - 1))) 14 pa) :=
  ⟨walk8_rep, by simp only [right8, ATree.Bal, ATree.height]; decide, by decide,
    C25_delete_walk_after_rotation walk8 ctx8 .nil right8 2 6 2 walk8_rep.1 walk8_rep.2.1
      walk8_rep.2.2 trivial (by simp only [right8, ATree.Bal, ATree.height]; decide) (by decide)
      (Or.inr rfl) 14⟩

/-- C25 as stated fails.  In `Delete(5)` on the keys 4, 2, 6, 1, 3, 5, 7, 8 the
walk starts at the node of 6 with the factor 2; `rebalanceAtNode` reports a
change of height, and the walk does not end there: it goes on to the root and
corrects its factor from 1 to 0.  In `Delete(5)` on the keys 4, 2, 6, 1, 3, 5,
8, 7, 9 `rebalanceAtNode` reports no change of height, and the walk ends there
although the returned node has a parent. -/
theorem C25_counterexample :
    deleteStart 16 tree8 5 = .ok (some (walk8, 2)) ∧
      (walk8.node 2).map (fun n => n.balance) = .ok 2 ∧
      (∃ t2 t3, rebalanceAtNode walk8 2 = .ok (t2, some 6, true) ∧
        deleteRebalance walk8 16 2 = .ok t3 ∧
        (t2.node 0).map (fun n => n.balance) = .ok 1 ∧
        (t3.node 0).map (fun n => n.balance) = .ok 0 ∧
        deleteRebalance walk8 16 2 ≠ .ok t2 ∧
        Delete 16 tree8 5 = .ok (t3, some 5, true)) ∧
      deleteStart 16 tree9 5 = .ok (some (walk9, 2)) ∧
      (walk9.node 2).map (fun n => n.balance) = .ok 2 ∧
      (∃ t2, rebalanceAtNode walk9 2 = .ok (t2, some 6, false) ∧
        (t2.node 6).map (fun n => n.p) = .ok (some 0) ∧
        deleteRebalance walk9 16 2 = .ok t2 ∧
        Delete 16 tree9 5 = .ok (t2, some 5, true)) := by
  refine ⟨rfl, rfl, ⟨_, _, rfl, rfl, rfl, rfl, ?_, rfl⟩, rfl, rfl, ⟨_, rfl, rfl, rfl, rfl⟩⟩
  intro h
  have e3 : (deleteRebalance walk8 16 2).bind (fun u => (u.node 0).map (fun n => n.balance)) =
      .ok 0 := rfl
  rw [h] at e3
  have e4 : (Except.ok 1 : Except Fault Int) = .ok 0 := e3
  exact absurd (Except.ok.inj e4) (by decide)

/-- What Delete does after the part before its last loop: the balance walk from
the node that part has chosen, and the return of the element found. -/
theorem Delete_of_start [Comparable α] {fuel : Nat} {t t1 : Tree α} {x : α} {bn : Nat}
    (h : deleteStart fuel t x = .ok (some (t1, bn))) :
    ∃ d, Delete fuel t x = (deleteRebalance t1 fuel bn).map (fun t' => (t', some d, true)) := by
  unfold deleteStart at h
  unfold Delete
  cases hr : t.root with
  | none => rw [hr] at h; cases h
  | some root =>
    rw [hr] at h
    simp only at h ⊢
    cases hd : deleteDescend t x fuel root with
    | error f => rw [hd] at h; cases h
    | ok v =>
      rw [hd] at h
      simp only [bind_ok] at h ⊢
      cases v with
      | none => cases h
      | some cn =>
        simp only at h ⊢
        cases hn : t.node cn with
        | error f =>
          cases hu : deleteUnlink t cn with
          | error f' => rw [hu] at h; cases h
          | ok w =>
            unfold deleteUnlink at hu
            rw [hn] at hu
            cases hu
        | ok n =>
          simp only [bind_ok]
          cases hu : deleteUnlink t cn with
          | error f' => rw [hu] at h; cases h
          | ok w =>
            rw [hu] at h
            simp only [bind_ok] at h ⊢
            obtain ⟨u, ob⟩ := w
            cases ob with
            | none => cases h
            | some b =>
              simp only at h ⊢
              cases ht : deleteUnthread u cn with
              | error f' => rw [ht] at h; cases h
              | ok u2 =>
                rw [ht] at h
                simp only [bind_ok, pure_eq_ok, Except.ok.injEq, Option.some.injEq,
                  Prod.mk.injEq] at h ⊢
                obtain ⟨rfl, rfl⟩ := h
                refine ⟨n.data, ?_⟩
                cases deleteRebalance { u2 with size := u2.size - 1 } fuel b <;> rfl

theorem tree8_wf : WF tree8 atree8 := by
  refine ⟨⟨rfl, ?_, ?_, ?_, ?_, rfl, fun _ => ⟨rfl, rfl⟩⟩, rfl, rfl⟩
  · simp only [atree8, Rep, nodeIs_iff_sv, rootPtr_node, rootPtr_nil, and_true, true_and]
    exact ⟨rfl, ⟨rfl, rfl, rfl⟩, rfl, rfl, rfl, rfl⟩
  · unfold Sorted
    decide
  · simp only [atree8, ATree.Bal, ATree.height]
    decide
  · simp only [atree8, ATree.addrs, List.nil_append, List.cons_append, List.append_nil, Thr_cons,
      headOr_cons, headOr_nil]
    exact ⟨rfl, rfl, rfl, rfl, rfl, rfl, rfl, rfl, trivial⟩

theorem rootPtr_eq_none {s : ATree α} (h : s.rootPtr = none) : s = .nil := by
  cases s with
  | nil => rfl
  | node l a d b r => cases h

/-- C26: on a well-formed tree, when the descent of Delete ends at a node `cn`
that has no left child and has a right child, the thread successor `cn.nxt` is
that right child, its parent is `cn`, and it is a leaf; so the test
`dn.p == cn` on `dn := cn.nxt` holds and the other branch is not taken. -/
theorem C26_successor_is_right_leaf [Comparable α] [StrictTotal α] (t : Tree α) (s : ATree α)
    (h : WF t s) (k : α) (fuel : Nat) (hf : s.height ≤ fuel) (root cn : Nat) (n : avlNode α)
    (hroot : t.root = some root) (hfind : deleteDescend t k fuel root = .ok (some cn))
    (hn : t.node cn = .ok n) (hl : n.l = none) (hr : n.r ≠ none) :
    ∃ dn m, n.nxt = some dn ∧ n.r = some dn ∧ t.node dn = .ok m ∧ m.p = some cn ∧
      m.l = none ∧ m.r = none := by
  have hrt : s.rootPtr = some root := by rw [← h.inv.root, hroot]
  have hspec := deleteDescend_spec k s [] t root none fuel hrt h.inv.rep hf
  rw [hfind] at hspec
  simp only [Except.ok.injEq] at hspec
  have hplug := findA_plug k s []
  simp only [plug] at hplug
  cases hfa : (findA k [] s).2 with
  | nil => rw [hfa] at hspec; cases hspec
  | node l a d b r =>
    rw [hfa] at hspec hplug
    simp only [rootPtr_node, Option.some.injEq] at hspec
    subst hspec
    have hrep := h.inv.rep
    rw [← hplug] at hrep
    obtain ⟨n', hn', -, -, -, hnl, hnr⟩ := Rep_root_node (Rep_plug.mp hrep).2
    rw [hn] at hn'
    cases hn'
    have hlnil : l = .nil := rootPtr_eq_none (by rw [← hnl, hl])
    subst hlnil
    cases r with
    | nil => exact absurd hnr hr
    | node rl ra rd rb rr =>
      have hbal := h.inv.bal
      rw [← hplug] at hbal
      obtain ⟨⟨-, -, hb, -, hb1⟩, -⟩ := Bal_plug.mp hbal
      simp only [ATree.height] at hb
      have hrl : rl = .nil := height_eq_zero (by omega)
      have hrr : rr = .nil := height_eq_zero (by omega)
      subst hrl hrr
      obtain ⟨m, hm, -, hmp, -, hml, hmr⟩ := Rep_root_node (Rep_plug.mp hrep).2.2.2
      have hs : s.addrs = (ctxBefore (findA k [] s).1 ++ (ATree.nil : ATree α).addrs) ++
          cn :: ((ATree.node .nil ra rd rb .nil).addrs ++ ctxAfter (findA k [] s).1) := by
        rw [← addrs_plug_node (findA k [] s).1 .nil (.node .nil ra rd rb .nil) cn d b, hplug]
      obtain ⟨n2, -, -, hn2, -, hnx, -⟩ := h.inv.node_at hs
      rw [hn] at hn2
      cases hn2
      refine ⟨ra, m, ?_, hnr, hm, hmp, hml, hmr⟩
      rw [hnx]
      rfl

theorem C26_successor_is_right_leaf_witness :
    WF tree8 atree8 ∧ atree8.height ≤ 16 ∧ tree8.root = some 0 ∧
      deleteDescend tree8 7 16 0 = .ok (some 6) ∧
      tree8.node 6 = .ok ⟨7, 1, none, some 7, some 2, some 7, some 2⟩ ∧
      ∃ dn m, (some 7 : Option Nat) = some dn ∧ (some 7 : Option Nat) = some dn ∧
        tree8.node dn = .ok m ∧ m.p = some 6 ∧ m.l = none ∧ m.r = none :=
  ⟨tree8_wf, by decide, rfl, rfl, rfl,
    C26_successor_is_right_leaf tree8 atree8 tree8_wf 7 16 (by decide) 0 6
      ⟨7, 1, none, some 7, some 2, some 7, some 2⟩ rfl rfl rfl rfl (by decide)⟩

/-- C27 (defect in the code, the one of C16): from the end of the tree the
first `Prev()` returns the last element and leaves the cursor one node too far
back, so the second `Prev()` skips the element before the last.  On the keys
1, 3, 4, 5, 7, 8, 9 seven calls return 9, 7, 5, 4, 3, 1 and nil: the element 8
is never returned; on the keys 1, 2 two calls return 2 and nil. -/
theorem C27_backward_walk_skips :
    WF tree7 atree7 ∧ GetCursor 16 tree7 GTE 10 = .ok (⟨none, true⟩, false) ∧
      nextN tree7 8 ⟨some 3, false⟩ =
        .ok ([some 1, some 3, some 4, some 5, some 7, some 8, some 9, none], ⟨none, true⟩) ∧
      prevN tree7 7 ⟨none, true⟩ =
        .ok ([some 9, some 7, some 5, some 4, some 3, some 1, none], ⟨none, false⟩) ∧
      WF tree2 (.node .nil 0 1 1 (.node .nil 1 2 0 .nil)) ∧
      GetCursor 16 tree2 GTE 3 = .ok (⟨none, true⟩, false) ∧
      prevN tree2 2 ⟨none, true⟩ = .ok ([some 2, none], ⟨none, false⟩) := by
  refine ⟨tree7_wf, rfl, rfl, rfl, ?_, rfl, rfl⟩
  refine ⟨⟨rfl, ?_, ?_, ?_, ?_, rfl, fun _ => ⟨rfl, rfl⟩⟩, rfl, rfl⟩
  · simp only [Rep, nodeIs_iff_sv, rootPtr_node, rootPtr_nil, and_true, true_and]
    exact ⟨rfl, rfl⟩
  · unfold Sorted
    decide
  · simp only [ATree.Bal, ATree.height]
    decide
  · simp only [ATree.addrs, List.nil_append, List.cons_append, List.append_nil, Thr_cons,
      headOr_cons, headOr_nil]
    exact ⟨rfl, rfl, trivial⟩

/-- C28 (defect in the code): `Permutation.Prev` looks at the last digit of the
Lehmer code only, and where that digit is 0 it sets it to 1 and returns,
without borrowing from the digit before.  For the permutation of order 3 with
the code 0, 1 (`FirstPermutation(3).Next()`), `HasNext()` is true, `Next()` has
the code 1, 0, `Next().Prev()` has the code 1, 1, and `CompareTo` returns 1 and
not 0.  Over all codes of order 3 and of order 2 that have a next permutation,
`p.Next().Prev().CompareTo(p)` is 0 exactly where the last digit of `p` is 0. -/
theorem C28_prev_does_not_undo_next :
    (FirstPermutation 3).bind Permutation.Next = .ok (some ⟨3, some [0, 1], none⟩) ∧
      Permutation.HasNext ⟨3, some [0, 1], none⟩ = .ok true ∧
      Permutation.Next ⟨3, some [0, 1], none⟩ = .ok (some ⟨3, some [1, 0], none⟩) ∧
      Permutation.Prev ⟨3, some [1, 0], none⟩ = .ok (some ⟨3, some [1, 1], none⟩) ∧
      Permutation.CompareTo ⟨3, some [1, 1], none⟩ ⟨3, some [0, 1], none⟩ = .ok 1 ∧
      nextPrevCompare ⟨3, some [0, 1], none⟩ = .ok 1 ∧
      [[0, 0], [0, 1], [1, 0], [1, 1], [2, 0]].map
          (fun lc => nextPrevCompare ⟨3, some lc, none⟩) =
        [.ok 0, .ok 1, .ok 0, .ok 1, .ok 0] ∧
      nextPrevCompare ⟨2, some [0], none⟩ = .ok 0 :=
  ⟨rfl, rfl, rfl, rfl, rfl, rfl, rfl, rfl⟩

theorem drain_singleton (x : α) :
    ∀ k, ssCursor.drain k (Singleton x).OpenCursor = .error .timeout := by
  intro k
  induction k with
  | zero => rfl
  | succ k ih =>
    simp only [ssCursor.drain, ssCursor.HasNext, ssCursor.Next, singletonSet.OpenCursor,
      Singleton] at ih ⊢
    simp only [Bool.not_false, if_true, Bool.false_eq_true, if_false, ih]
    rfl

theorem insertAll_singleton [Comparable α] (x : α) (fuel : Nat) :
    ∀ (k : Nat) (t : Tree α),
      ¬ ∃ t', ssCursor.insertAll fuel k t (Singleton x).OpenCursor = .ok t' := by
  intro k
  induction k with
  | zero =>
    rintro t ⟨t', h⟩
    cases h
  | succ k ih =>
    rintro t ⟨t', h⟩
    simp only [ssCursor.insertAll, ssCursor.HasNext, ssCursor.Next, singletonSet.OpenCursor,
      Singleton, Bool.not_false, if_true, Bool.false_eq_true, if_false] at h ih
    cases hi : Insert fuel t x with
    | error f => rw [hi] at h; cases h
    | ok v =>
      rw [hi] at h
      exact ih v.1 ⟨t', h⟩

/-- C29 (defect in the code): `ssCursor.Next` never sets `read`, so the cursor
of `Singleton(x)` is unchanged by `Next()`: after one `Next()` the test
`HasNext()` is still true and a further `Next()` returns `x` again.  The loop
`for c.HasNext() { c.Next() }` does not end, whatever the number of rounds it
is given, and neither does the loop of `pairSet.Union` and `treeSet.Union`
that inserts the values into a tree. -/
theorem C29_singleton_cursor_never_ends [Comparable α] (x : α) :
    (Singleton x).OpenCursor.HasNext = true ∧
      (Singleton x).OpenCursor.Next = (some x, (Singleton x).OpenCursor) ∧
      (Singleton x).OpenCursor.Next.2.HasNext = true ∧
      (Singleton x).OpenCursor.Next.2.Next.1 = some x ∧
      (∀ k, ssCursor.drain k (Singleton x).OpenCursor = .error .timeout) ∧
      ∀ (fuel k : Nat) (t : Tree α),
        ¬ ∃ t', ssCursor.insertAll fuel k t (Singleton x).OpenCursor = .ok t' :=
  ⟨rfl, rfl, rfl, rfl, drain_singleton x, fun fuel k t => insertAll_singleton x fuel k t⟩

/-- The singleton cursor on the integer 1: three rounds of the loop are not
enough, and `HasPrev()` is false and `Prev()` returns nil after `Next()`. -/
theorem example_singleton :
    ssCursor.drain 3 (Singleton (1 : Int)).OpenCursor = .error .timeout ∧
      (Singleton (1 : Int)).OpenCursor.Next.2.HasPrev = false ∧
      (Singleton (1 : Int)).OpenCursor.Next.2.Prev.1 = none :=
  ⟨rfl, rfl, rfl⟩

/-- Where the search of `lookupNode` ends, and what it answers there for every
direction value: nil on the empty tree; the node found, with `true`; at a
missing left child of the last node visited, that node for GTE and its `prv`
for every other value; at a missing right child, that node for LTE and its
`nxt` for every other value. -/
theorem lookupNode_edge [Comparable α] [StrictTotal α] {t : Tree α} {s : ATree α}
    (h : Inv t s) (x : α) (fuel : Nat) (hf : s.height ≤ fuel) :
    (s = .nil ∧ ∀ lt, lookupNode fuel t lt x = .ok (none, false)) ∨
      (∃ l cn d b r, (findA x [] s).2 = .node l cn d b r ∧ CompareTo x d = 0 ∧
        ∀ lt, lookupNode fuel t lt x = .ok (some cn, true)) ∨
      (∃ pa pd pb pr c m, findA x [] s = (.L pa pd pb pr :: c, .nil) ∧ t.node pa = .ok m ∧
        m.data = pd ∧ m.l = none ∧ CompareTo x pd < 0 ∧
        ∀ lt, lookupNode fuel t lt x = .ok (if lt = GTE then some pa else m.prv, false)) ∨
      (∃ pl pa pd pb c m, findA x [] s = (.R pl pa pd pb :: c, .nil) ∧ t.node pa = .ok m ∧
        m.data = pd ∧ m.r = none ∧ 0 < CompareTo x pd ∧
        ∀ lt, lookupNode fuel t lt x = .ok (if lt = LTE then some pa else m.nxt, false)) := by
  cases hs : s with
  | nil =>
    have hr := h.root
    rw [hs] at hr
    simp only [rootPtr_nil] at hr
    exact Or.inl ⟨rfl, fun lt => by simp only [lookupNode, hr]; rfl⟩
  | node l0 a d0 b0 r0 =>
    right
    have hr := h.root
    have hrep := h.rep
    have hso := h.sorted
    rw [hs] at hr hrep hf hso
    simp only [rootPtr_node] at hr
    have key := fun lt => lookupLoop_spec x lt (.node l0 a d0 b0 r0) [] t a none fuel rfl hrep hf
    have hN : ∀ lt, lookupNode fuel t lt x = lookupLoop t lt x fuel a := by
      intro lt
      simp only [lookupNode, hr]
    have hplug := findA_plug x (.node l0 a d0 b0 r0) []
    simp only [plug] at hplug
    have hbd := findA_bounds x (.node l0 a d0 b0 r0) [] hso
      (fun e he => by simp [ctxElemsBefore] at he) (fun e he => by simp [ctxElemsAfter] at he)
    obtain ⟨res, hx, hres⟩ := key GTE
    rcases hres with ⟨l', cn, d', b', r', hf1, -⟩ | ⟨hnil, hcase⟩
    · left
      refine ⟨l', cn, d', b', r', hf1, findA_found x _ [] hf1, ?_⟩
      intro lt
      obtain ⟨res2, hx2, hres2⟩ := key lt
      rw [hN, hx2]
      rcases hres2 with ⟨l2, cn2, d2, b2, r2, hf2, rfl⟩ | ⟨hnil2, -⟩
      · rw [hf1] at hf2
        cases hf2
        rfl
      · rw [hf1] at hnil2
        cases hnil2
    · right
      rcases hcase with ⟨pa, pd, pb, pr, c', n, hc, hn, -⟩ | ⟨pl, pa, pd, pb, c', n, hc, hn, -⟩
      · left
        have hfa : findA x [] (.node l0 a d0 b0 r0) = (.L pa pd pb pr :: c', .nil) :=
          Prod.ext hc hnil
        rw [hfa] at hplug hbd
        simp only [plug] at hplug
        rw [← hplug] at hrep
        obtain ⟨m, hm, -, -, hmd, hml, -⟩ := Rep_root_node (Rep_plug.mp hrep).2
        rw [hn] at hm
        cases hm
        refine ⟨pa, pd, pb, pr, c', n, hfa, hn, hmd, hml, ?_, ?_⟩
        · exact hbd.2 pd (by simp [ctxElemsAfter])
        · intro lt
          obtain ⟨res2, hx2, hres2⟩ := key lt
          rw [hN, hx2]
          rw [hfa] at hres2
          rcases hres2 with ⟨l2, cn2, d2, b2, r2, hf2, -⟩ | ⟨-, hcase2⟩
          · cases hf2
          · rcases hcase2 with ⟨pa2, pd2, pb2, pr2, c2, n2, hc2, hn2, rfl⟩ |
              ⟨pl2, pa2, pd2, pb2, c2, n2, hc2, hn2, rfl⟩
            · cases hc2
              rw [hn] at hn2
              cases hn2
              rfl
            · cases hc2
      · right
        have hfa : findA x [] (.node l0 a d0 b0 r0) = (.R pl pa pd pb :: c', .nil) :=
          Prod.ext hc hnil
        rw [hfa] at hplug hbd
        simp only [plug] at hplug
        rw [← hplug] at hrep
        obtain ⟨m, hm, -, -, hmd, -, hmr⟩ := Rep_root_node (Rep_plug.mp hrep).2
        rw [hn] at hm
        cases hm
        refine ⟨pl, pa, pd, pb, c', n, hfa, hn, hmd, hmr, ?_, ?_⟩
        · exact (StrictTotal.swap pd x).mp (hbd.1 pd (by simp [ctxElemsBefore]))
        · intro lt
          obtain ⟨res2, hx2, hres2⟩ := key lt
          rw [hN, hx2]
          rw [hfa] at hres2
          rcases hres2 with ⟨l2, cn2, d2, b2, r2, hf2, -⟩ | ⟨-, hcase2⟩
          · cases hf2
          · rcases hcase2 with ⟨pa2, pd2, pb2, pr2, c2, n2, hc2, hn2, rfl⟩ |
              ⟨pl2, pa2, pd2, pb2, c2, n2, hc2, hn2, rfl⟩
            · cases hc2
            · cases hc2
              rw [hn] at hn2
              cases hn2
              rfl

/-- What `Lookup` returns is the element of the node that `lookupNode` returns,
with the same flag. -/
theorem Lookup_node_dv [Comparable α] {fuel : Nat} {t : Tree α} {lt : Int} {x : α}
    {n : Option Nat} {ex ex' : Bool} {res : Option α}
    (hn : lookupNode fuel t lt x = .ok (n, ex)) (hl : Lookup fuel t lt x = .ok (res, ex')) :
    ex' = ex ∧ n.bind t.dv = res := by
  have := Lookup_of_node hn
  rw [hl] at this
  cases n with
  | none =>
    simp only [Except.ok.injEq, Prod.mk.injEq] at this
    exact ⟨this.2, this.1.symm⟩
  | some a =>
    simp only at this
    cases hm : t.node a with
    | error f => rw [hm] at this; cases this
    | ok m =>
      rw [hm] at this
      simp only [Except.map, Except.ok.injEq, Prod.mk.injEq] at this
      refine ⟨this.2, ?_⟩
      simp only [Option.bind, Tree.dv, hm]
      exact this.1.symm

/-- C21, as amended: on a well-formed tree, `Lookup` and `GetCursor` called with
a direction value other than GTE and LTE do not fail.  They return a result and
the same flag; the cursor stands at the node that holds the result and is not
marked as past the end.  An element that compares equal to the key is returned
with `true`.  Otherwise the flag is `false`, and where the search ends at a
missing left child (the key is less than the element of the last node visited)
the result is the greatest stored element less than the key, nil if there is
none, as LTE returns; where it ends at a missing right child (the key is
greater) the result is the least stored element greater than the key, nil if
there is none, as GTE returns; on the empty tree the result is nil. -/
theorem C21_unknown_direction [Comparable α] [StrictTotal α] (t : Tree α) (s : ATree α)
    (h : WF t s) (lt : Int) (hlt : lt ≠ GTE ∧ lt ≠ LTE) (k : α) (fuel : Nat)
    (hf : s.height ≤ fuel) :
    ∃ res ex n, Lookup fuel t lt k = .ok (res, ex) ∧
      GetCursor fuel t lt k = .ok (⟨n, false⟩, ex) ∧ n.bind t.dv = res ∧
      (Lookup fuel t lt k = Lookup fuel t GTE k ∨ Lookup fuel t lt k = Lookup fuel t LTE k) ∧
      ((∃ d ∈ s.elems, CompareTo k d = 0 ∧ res = some d ∧ ex = true) ∨
        (ex = false ∧ ∃ epre epost, s.elems = epre ++ epost ∧
          (∀ e ∈ epre, CompareTo e k < 0) ∧ (∀ e ∈ epost, CompareTo k e < 0) ∧
          ((∃ pa pd pb pr c m, findA k [] s = (.L pa pd pb pr :: c, .nil) ∧
              t.node pa = .ok m ∧ m.data = pd ∧ m.l = none ∧ CompareTo k pd < 0 ∧
              n = m.prv ∧ res = epre.getLast? ∧
              Lookup fuel t lt k = Lookup fuel t LTE k) ∨
            (∃ pl pa pd pb c m, findA k [] s = (.R pl pa pd pb :: c, .nil) ∧
              t.node pa = .ok m ∧ m.data = pd ∧ m.r = none ∧ 0 < CompareTo k pd ∧
              n = m.nxt ∧ res = epost.head? ∧
              Lookup fuel t lt k = Lookup fuel t GTE k) ∨
            (s = .nil ∧ res = none)))) := by
  have hany := lookupNode_any h.inv k lt fuel hf
  have hL : Lookup fuel t lt k = Lookup fuel t GTE k ∨
      Lookup fuel t lt k = Lookup fuel t LTE k := by
    rcases hany with e | e
    · left
      simp only [Lookup, e]
    · right
      simp only [Lookup, e]
  obtain ⟨res, ex, hok⟩ : ∃ res ex, Lookup fuel t lt k = .ok (res, ex) := by
    rcases hL with e | e
    · obtain ⟨epre, epost, -, -, hc⟩ := Lookup_spec h.inv k GTE (Or.inl rfl) fuel hf
      rcases hc with ⟨-, hx⟩ | ⟨d, -, -, hx⟩
      · exact ⟨_, _, e.trans hx⟩
      · exact ⟨_, _, e.trans hx⟩
    · obtain ⟨epre, epost, -, -, hc⟩ := Lookup_spec h.inv k LTE (Or.inr rfl) fuel hf
      rcases hc with ⟨-, hx⟩ | ⟨d, -, -, hx⟩
      · exact ⟨_, _, e.trans hx⟩
      · exact ⟨_, _, e.trans hx⟩
  have hcur : ∀ n ex', lookupNode fuel t lt k = .ok (n, ex') →
      GetCursor fuel t lt k = .ok (⟨n, false⟩, ex') := by
    intro n ex' hn
    rw [GetCursor_eq hn]
    simp [hlt.1]
  rcases lookupNode_edge h.inv k fuel hf with ⟨hs, hx⟩ | ⟨l, cn, d, b, r, hfa, hkd, hx⟩ |
    ⟨pa, pd, pb, pr, c, m, hfa, hm, hmd, hml, hkp, hx⟩ |
    ⟨pl, pa, pd, pb, c, m, hfa, hm, hmd, hmr, hkp, hx⟩
  · obtain ⟨he, hdv⟩ := Lookup_node_dv (hx lt) hok
    subst he
    refine ⟨res, false, none, hok, hcur _ _ (hx lt), hdv, hL, Or.inr ⟨rfl, [], [], ?_, ?_, ?_,
      Or.inr (Or.inr ⟨hs, ?_⟩)⟩⟩
    · rw [hs]
      rfl
    · intro e he
      cases he
    · intro e he
      cases he
    · exact hdv.symm
  · obtain ⟨he, hdv⟩ := Lookup_node_dv (hx lt) hok
    subst he
    have hplug := findA_plug k s []
    simp only [plug] at hplug
    rw [hfa] at hplug
    have hrep := h.inv.rep
    rw [← hplug] at hrep
    have hd := dv_of_plug_node hrep
    have hdv' : t.dv cn = res := hdv
    rw [hd] at hdv'
    refine ⟨res, true, some cn, hok, hcur _ _ (hx lt), hdv, hL,
      Or.inl ⟨d, ?_, hkd, hdv'.symm, rfl⟩⟩
    rw [← hplug, elems_plug_node]
    simp
  · have hlt1 := hx lt
    rw [if_neg hlt.1] at hlt1
    have hlt2 := hx LTE
    rw [if_neg GTE_ne_LTE.symm] at hlt2
    obtain ⟨he, hdv⟩ := Lookup_node_dv hlt1 hok
    subst he
    have heq : Lookup fuel t lt k = Lookup fuel t LTE k := by
      simp only [Lookup, hlt1, hlt2]
    obtain ⟨epre, epost, h1, h2, hc⟩ := Lookup_spec h.inv k LTE (Or.inr rfl) fuel hf
    rw [← heq, hok] at hc
    rcases hc with ⟨hel, hres⟩ | ⟨d, -, -, hres⟩
    · rw [if_neg GTE_ne_LTE.symm] at hres
      simp only [Except.ok.injEq, Prod.mk.injEq, and_true] at hres
      exact ⟨res, false, m.prv, hok, hcur _ _ hlt1, hdv, hL, Or.inr ⟨rfl, epre, epost, hel, h1,
        h2, Or.inl ⟨pa, pd, pb, pr, c, m, hfa, hm, hmd, hml, hkp, rfl, hres, heq⟩⟩⟩
    · simp only [Except.ok.injEq, Prod.mk.injEq] at hres
      exact absurd hres.2 (by decide)
  · have hlt1 := hx lt
    rw [if_neg hlt.2] at hlt1
    have hlt2 := hx GTE
    rw [if_neg GTE_ne_LTE] at hlt2
    obtain ⟨he, hdv⟩ := Lookup_node_dv hlt1 hok
    subst he
    have heq : Lookup fuel t lt k = Lookup fuel t GTE k := by
      simp only [Lookup, hlt1, hlt2]
    obtain ⟨epre, epost, h1, h2, hc⟩ := Lookup_spec h.inv k GTE (Or.inl rfl) fuel hf
    rw [← heq, hok] at hc
    rcases hc with ⟨hel, hres⟩ | ⟨d, -, -, hres⟩
    · rw [if_pos rfl] at hres
      simp only [Except.ok.injEq, Prod.mk.injEq, and_true] at hres
      exact ⟨res, false, m.nxt, hok, hcur _ _ hlt1, hdv, hL, Or.inr ⟨rfl, epre, epost, hel, h1,
        h2, Or.inr (Or.inl ⟨pl, pa, pd, pb, c, m, hfa, hm, hmd, hmr, hkp, rfl, hres, heq⟩)⟩⟩
    · simp only [Except.ok.injEq, Prod.mk.injEq] at hres
      exact absurd hres.2 (by decide)

theorem C21_unknown_direction_witness :
    WF tree7 atree7 ∧ ((2 : Int) ≠ GTE ∧ (2 : Int) ≠ LTE) ∧ atree7.height ≤ 16 ∧
      ∃ res ex n, Lookup 16 tree7 2 6 = .ok (res, ex) ∧
        GetCursor 16 tree7 2 6 = .ok (⟨n, false⟩, ex) ∧ n.bind tree7.dv = res ∧
        (Lookup 16 tree7 2 6 = Lookup 16 tree7 GTE 6 ∨
          Lookup 16 tree7 2 6 = Lookup 16 tree7 LTE 6) ∧
        ((∃ d ∈ atree7.elems, CompareTo (6 : Int) d = 0 ∧ res = some d ∧ ex = true) ∨
          (ex = false ∧ ∃ epre epost, atree7.elems = epre ++ epost ∧
            (∀ e ∈ epre, CompareTo e (6 : Int) < 0) ∧
            (∀ e ∈ epost, CompareTo (6 : Int) e < 0) ∧
            ((∃ pa pd pb pr c m, findA (6 : Int) [] atree7 = (.L pa pd pb pr :: c, .nil) ∧
                tree7.node pa = .ok m ∧ m.data = pd ∧ m.l = none ∧
                CompareTo (6 : Int) pd < 0 ∧
                n = m.prv ∧ res = epre.getLast? ∧
                Lookup 16 tree7 2 6 = Lookup 16 tree7 LTE 6) ∨
              (∃ pl pa pd pb c m, findA (6 : Int) [] atree7 = (.R pl pa pd pb :: c, .nil) ∧
                tree7.node pa = .ok m ∧ m.data = pd ∧ m.r = none ∧
                0 < CompareTo (6 : Int) pd ∧
                n = m.nxt ∧ res = epost.head? ∧
                Lookup 16 tree7 2 6 = Lookup 16 tree7 GTE 6) ∨
              (atree7 = .nil ∧ res = none)))) :=
  ⟨tree7_wf, by decide, by decide,
    C21_unknown_direction tree7 atree7 tree7_wf 2 (by decide) 6 16 (by decide)⟩

/-- The two edges on the keys 1, 3, 4, 5, 7, 8, 9 with the direction value 2:
the search for 6 ends at the missing left child of the node of 7 and returns
its predecessor 5, as LTE does; the search for 2 ends at the missing right
child of the node of 1 and returns its successor 3, as GTE does. -/
theorem example_unknown_direction :
    findA (6 : Int) [] atree7 =
        ([.L 5 7 0 .nil, .L 2 8 0 (.node .nil 6 9 0 .nil),
          .R (.node (.node .nil 3 1 0 .nil) 1 3 0 (.node .nil 4 4 0 .nil)) 0 5 0], .nil) ∧
      Lookup 16 tree7 2 6 = .ok (some 5, false) ∧
      Lookup 16 tree7 LTE 6 = .ok (some 5, false) ∧
      Lookup 16 tree7 GTE 6 = .ok (some 7, false) ∧
      findA (2 : Int) [] atree7 =
        ([.R .nil 3 1 0, .L 1 3 0 (.node .nil 4 4 0 .nil),
          .L 0 5 0 (.node (.node .nil 5 7 0 .nil) 2 8 0 (.node .nil 6 9 0 .nil))], .nil) ∧
      Lookup 16 tree7 2 2 = .ok (some 3, false) ∧
      Lookup 16 tree7 GTE 2 = .ok (some 3, false) ∧
      Lookup 16 tree7 LTE 2 = .ok (some 1, false) :=
  ⟨rfl, rfl, rfl, rfl, rfl, rfl, rfl, rfl⟩

end AvlTree
